import Mathlib

/-! # Backward-pass engine (`torch/csrc/autograd/engine.cpp`)

A shallow embedding of `THPEngine_compute_dependencies`,
`THPEngine_free_backward_dependency`, `THPEngine_add_grad` and
`THPEngine_run_backward`, followed by theorems about them.

Conventions of the embedding.

* Pointers to `THPFunction` / `THPVariable` objects are natural numbers; the
  heap is a pair of total functions (`Graph`).
* A Python object handed around as a gradient is `PyObject G`: either `None`
  or a tensor carrying a value of `G`.
* `std::vector` / `std::deque` are lists.  The vector `queue` of
  `compute_dependencies` and the deque `ready` are listed from the BACK to the
  front, so that `back()` is the head of the list.
* `std::unordered_map` is a key-unique association list (`Map`), `std::set` a
  duplicate-free list.
* `int` counters and `size_t` buffer ids are unbounded (`Int`, `Nat`): they
  count edges and buffers that exist in memory.
* The two loops of the engine take a fuel argument; running out of fuel is the
  error `Error.out_of_fuel`, which the code itself never raises.
* The engine logs what it does in `EngineState.trace`; the log does not
  influence any decision of the engine.
-/

namespace Autograd

/-! ## Python objects -/

/-- A Python object used as a gradient: `None` or a tensor with a value. -/
inductive PyObject (G : Type) where
  | None : PyObject G
  | Tensor (value : G) : PyObject G
  deriving DecidableEq, Repr

/-- Modelled from the spec: the tensor method `clone` is not part of the engine
source; it is the identity on values (a fresh tensor with the same value), and
calling it on `None` raises. -/
def py_clone {G : Type} : PyObject G → Option (PyObject G)
  | .None => none
  | .Tensor a => some (.Tensor a)

/-- Modelled from the spec: the tensor method `add_` is not part of the engine
source; it adds the argument into the receiver in place (elementwise sum), and
raises when the receiver or the argument is `None`. -/
def py_add_ {G : Type} [Add G] : PyObject G → PyObject G → Option (PyObject G)
  | .Tensor a, .Tensor b => some (.Tensor (a + b))
  | _, _ => none

/-- Provenance of an object referenced from a gradient buffer: handed in by the
caller of `run_backward`, returned by a `_do_backward` call, or created by the
`clone` call inside `THPEngine_add_grad`.  Bookkeeping of the embedding only. -/
inductive Origin where
  | caller
  | returned
  | cloned
  deriving DecidableEq, Repr

/-- A non-null `THPObjectPtr` held in a gradient buffer. -/
structure GradRef (G : Type) where
  obj : PyObject G
  origin : Origin
  deriving DecidableEq, Repr

/-! ## The graph -/

abbrev FnId := Nat
abbrev VarId := Nat

/-- What `previous_functions[i].get()` points to: a `THPVariable` (a leaf) or a
`THPFunction`; `THPVariable_Check` is the test on the constructor. -/
inductive PrevObj where
  | var (v : VarId)
  | fn (f : FnId)
  deriving DecidableEq, Repr

/-- One entry of `previous_functions`. -/
structure Edge where
  obj : PrevObj
  output_nr : Nat
  deriving DecidableEq, Repr

/-- The fields of `THPFunction` the engine reads.  `num_inputs` is the length
of `previous_functions`; `is_stochastic` is the outcome of
`PyObject_IsInstance(fn, THPStochasticFunctionClass)`. -/
structure THPFunction where
  previous_functions : List Edge
  num_outputs : Nat
  requires_grad : Bool
  is_stochastic : Bool
  deriving DecidableEq, Repr

def THPFunction.num_inputs (f : THPFunction) : Nat := f.previous_functions.length

/-- The fields of `THPVariable` the engine reads (`creator = none` is `NULL`). -/
structure THPVariable where
  creator : Option FnId
  requires_grad : Bool
  output_nr : Nat
  deriving DecidableEq, Repr

/-- The heap of graph objects. -/
structure Graph where
  fn : FnId → THPFunction
  var : VarId → THPVariable

/-- Outcome of `PyObject_CallMethod(fn, "_do_backward", ...)` on a function. -/
inductive BackwardResult (G : Type) where
  | raised
  | not_a_tuple
  | tuple (grads : List (PyObject G))
  deriving DecidableEq, Repr

/-- The Python side: `_do_backward` of functions and of variables (the latter
returns whether the call succeeded).  The `retain_variables` flag of the call
is fixed inside these callables. -/
structure Callbacks (G : Type) where
  fn_do_backward : FnId → List (PyObject G) → BackwardResult G
  var_do_backward : VarId → PyObject G → Bool

/-! ## Containers -/

/-- The container `std::unordered_map<THPFunction*, V>`. -/
abbrev Map (V : Type) := List (FnId × V)

def Map.find {V : Type} : Map V → FnId → Option V
  | [], _ => none
  | (k', v) :: m, k => if k' = k then some v else Map.find m k

def Map.erase {V : Type} (m : Map V) (k : FnId) : Map V :=
  m.filter (fun p => decide (p.1 ≠ k))

def Map.insert {V : Type} (m : Map V) (k : FnId) (v : V) : Map V :=
  (k, v) :: Map.erase m k

def Map.keys {V : Type} (m : Map V) : List FnId := m.map Prod.fst

/-- The declaration `using dependencies_type = std::unordered_map<THPFunction *, int>`. -/
abbrev dependencies_type := Map Int

/-- The value `dependencies[k]` reads (a missing key is value-initialised to 0). -/
def dependencies_type.count (d : dependencies_type) (k : FnId) : Int :=
  (Map.find d k).getD 0

/-- The declaration `using grad_list_type = std::vector<THPObjectPtr>` (`none` is a null
pointer). -/
abbrev grad_list_type (G : Type) := List (Option (GradRef G))

/-- The declaration `using buffer_set_type = std::set<std::pair<size_t, int>>`. -/
abbrev buffer_set_type := List (Nat × Nat)

def buffer_set_type.insert (s : buffer_set_type) (k : Nat × Nat) : buffer_set_type :=
  if k ∈ s then s else k :: s

def buffer_set_type.erase (s : buffer_set_type) (k : Nat × Nat) : buffer_set_type :=
  s.filter (fun x => decide (x ≠ k))

/-- The `struct grad_buffer_type`: a list of gradient tensors plus an id. -/
structure grad_buffer_type (G : Type) where
  buffer_id : Nat
  slots : grad_list_type G
  deriving DecidableEq, Repr

/-- The constructor call `grad_buffer_type(buffer_id, n)`: `n` null slots. -/
def grad_buffer_type.new {G : Type} (buffer_id n : Nat) : grad_buffer_type G :=
  ⟨buffer_id, List.replicate n none⟩

/-- The declaration
`using ready_queue_type = std::deque<std::pair<THPFunction *, grad_buffer_type>>`,
listed from the back to the front. -/
abbrev ready_queue_type (G : Type) := List (FnId × grad_buffer_type G)

/-- The call `ready.emplace_front(x)`. -/
def ready_queue_type.emplace_front {G : Type} (q : ready_queue_type G)
    (x : FnId × grad_buffer_type G) : ready_queue_type G := q ++ [x]

/-- The call `ready.emplace_back(x)`. -/
def ready_queue_type.emplace_back {G : Type} (q : ready_queue_type G)
    (x : FnId × grad_buffer_type G) : ready_queue_type G := x :: q

/-! ## Errors and the log -/

inductive Error where
  /-- the check `THPUtils_assert(num_variables == num_gradients, ...)` failed -/
  | length_mismatch
  /-- a Python call returned `NULL` (the callee raised) -/
  | python_error
  /-- the message "there are no graph nodes that require computing gradients" -/
  | no_graph_nodes
  /-- the message "error, _do_backward should return a tuple" -/
  | not_a_tuple
  /-- the message "dependencies is negative: ..." -/
  | dependencies_negative (fn : FnId)
  /-- the message "could not compute gradients for some functions (...)" -/
  | could_not_compute (names : List FnId)
  /-- an index past the end of a vector: no defined behaviour in the source -/
  | out_of_bounds
  /-- the fuel of the embedding ran out (never raised by the source) -/
  | out_of_fuel
  deriving DecidableEq, Repr

inductive Event (G : Type) where
  /-- the call `ready.emplace_front(fn, buf)` -/
  | push (fn : FnId) (buf : grad_buffer_type G)
  /-- the call `ready.back()` followed by `ready.pop_back()` -/
  | pop (fn : FnId) (buf : grad_buffer_type G)
  /-- the call `fn._do_backward(grads, retain_variables)` for a function -/
  | fn_backward (fn : FnId) (grads : List (PyObject G))
  /-- the call `v._do_backward((grad,), retain_variables)` for a variable -/
  | var_backward (v : VarId) (grad : PyObject G)
  /-- the call `grad_tensor.clone()` on the content of slot `key` -/
  | clone (key : Nat × Nat) (src : GradRef G)
  /-- the call `grad_tensor.add_(arg)` on the content of slot `key` -/
  | add_ (key : Nat × Nat) (target : GradRef G) (arg : PyObject G)
  deriving DecidableEq, Repr

/-- A failed run: the error and what had been logged when it was raised. -/
structure Failure (G : Type) where
  error : Error
  trace : List (Event G)
  deriving DecidableEq, Repr

/-! ## `THPEngine_compute_dependencies` -/

/-- The locals of `THPEngine_compute_dependencies` (`queue` from back to front). -/
structure DepState (G : Type) where
  seen : List FnId
  queue : List FnId
  dependencies : dependencies_type
  ready : ready_queue_type G

/-- Body of the `for` loop (lines 47-63) for the edge `e` of `fn`. -/
def compute_dependencies_edge {G : Type} (g : Graph) (fn : FnId) (s : DepState G)
    (e : Edge) : DepState G :=
  match e.obj with
  | .var _ => s
  | .fn prev_fn =>
    let s1 : DepState G :=
      if (g.fn prev_fn).is_stochastic && (g.fn prev_fn).requires_grad
          && decide (prev_fn ∉ s.seen) then
        { s with ready := s.ready.emplace_back (prev_fn, ⟨0, []⟩) }
      else if (g.fn fn).requires_grad && (g.fn prev_fn).requires_grad then
        { s with dependencies :=
            Map.insert s.dependencies prev_fn (s.dependencies.count prev_fn + 1) }
      else s
    if prev_fn ∈ s1.seen then s1
    else { s1 with seen := prev_fn :: s1.seen, queue := prev_fn :: s1.queue }

/-- The `while (queue.size() > 0)` loop (lines 44-65). -/
def compute_dependencies_loop {G : Type} (g : Graph) : Nat → DepState G → Option (DepState G)
  | 0, _ => none
  | fuel + 1, s =>
    match s.queue with
    | [] => some s
    | fn :: rest =>
      compute_dependencies_loop g fuel
        ((g.fn fn).previous_functions.foldl (compute_dependencies_edge g fn)
          { s with queue := rest })

/-- The function `THPEngine_compute_dependencies(queue, dependencies, ready)`; `queue` is
given in `push_back` order. -/
def THPEngine_compute_dependencies {G : Type} (g : Graph) (fuel : Nat) (queue : List FnId)
    (dependencies : dependencies_type) (ready : ready_queue_type G) :
    Option (dependencies_type × ready_queue_type G) :=
  (compute_dependencies_loop g fuel ⟨[], queue.reverse, dependencies, ready⟩).map
    (fun s => (s.dependencies, s.ready))

/-! ## `THPEngine_free_backward_dependency` -/

/-- Lines 69-83: the updated table and whether `prev_fn` is ready, or the
`std::runtime_error`. -/
def THPEngine_free_backward_dependency (dependencies : dependencies_type) (prev_fn : FnId) :
    Except Error (dependencies_type × Bool) :=
  let deps := dependencies.count prev_fn - 1
  let dependencies1 := Map.insert dependencies prev_fn deps
  if deps < 0 then .error (.dependencies_negative prev_fn)
  else if deps = 0 then .ok (Map.erase dependencies1 prev_fn, true)
  else .ok (dependencies1, false)

/-! ## `THPEngine_add_grad` -/

/-- Lines 86-110.  The first component lists the `clone` / `add_` calls made;
the second is `need_copy` and the buffer after a `true` return, or the error
(`python_error` for a `false` return). -/
def THPEngine_add_grad {G : Type} [Add G] (need_copy : buffer_set_type)
    (prev_grad : grad_buffer_type G) (output_nr : Nat) (d_prev_fn : GradRef G) :
    List (Event G) × Except Error (buffer_set_type × grad_buffer_type G) :=
  let set_key := (prev_grad.buffer_id, output_nr)
  match prev_grad.slots[output_nr]? with
  | none => ([], .error .out_of_bounds)
  | some none =>
    ([], .ok (need_copy.insert set_key,
              { prev_grad with slots := prev_grad.slots.set output_nr (some d_prev_fn) }))
  | some (some cur) =>
    if set_key ∈ need_copy then
      match py_clone cur.obj with
      | none => ([.clone set_key cur], .error .python_error)
      | some c =>
        let grad_tensor : GradRef G := ⟨c, .cloned⟩
        match py_add_ c d_prev_fn.obj with
        | none =>
          ([.clone set_key cur, .add_ set_key grad_tensor d_prev_fn.obj], .error .python_error)
        | some r =>
          ([.clone set_key cur, .add_ set_key grad_tensor d_prev_fn.obj],
            .ok (need_copy.erase set_key,
                 { prev_grad with slots := prev_grad.slots.set output_nr (some ⟨r, .cloned⟩) }))
    else
      match py_add_ cur.obj d_prev_fn.obj with
      | none => ([.add_ set_key cur d_prev_fn.obj], .error .python_error)
      | some r =>
        ([.add_ set_key cur d_prev_fn.obj],
          .ok (need_copy,
               { prev_grad with slots := prev_grad.slots.set output_nr (some ⟨r, cur.origin⟩) }))

/-! ## `THPEngine_run_backward` -/

/-- The locals of `THPEngine_run_backward` that live across the loops. -/
structure EngineState (G : Type) where
  ready : ready_queue_type G
  not_ready : Map (grad_buffer_type G)
  dependencies : dependencies_type
  need_copy : buffer_set_type
  next_buf_id : Nat
  trace : List (Event G)

def EngineState.init {G : Type} : EngineState G := ⟨[], [], [], [], 0, []⟩

def EngineState.log {G : Type} (s : EngineState G) (evs : List (Event G)) : EngineState G :=
  { s with trace := s.trace ++ evs }

def EngineState.fail {G : Type} (s : EngineState G) (e : Error) : Failure G := ⟨e, s.trace⟩

/-- The locals of the seeding loop. -/
structure SeedState (G : Type) where
  engine : EngineState G
  creators : List FnId
  did_leaf_backward : Bool

/-- Body of the seeding loop (lines 147-169) for one pair of `variables[i]` and `grad_variables[i]`. -/
def seed_variable {G : Type} (g : Graph) (cb : Callbacks G) (s : SeedState G)
    (root_var : VarId) (grad : PyObject G) : Except (Failure G) (SeedState G) :=
  match (g.var root_var).creator with
  | none =>
    if (g.var root_var).requires_grad then
      let e := s.engine.log [.var_backward root_var grad]
      if cb.var_do_backward root_var grad then
        .ok { s with engine := e, did_leaf_backward := true }
      else .error (e.fail .python_error)
    else .ok s
  | some creator =>
    let s1 := { s with creators := s.creators ++ [creator] }
    if (g.fn creator).requires_grad then
      if (g.var root_var).output_nr < (g.fn creator).num_outputs then
        let buf : grad_buffer_type G :=
          ⟨s.engine.next_buf_id,
            (List.replicate (g.fn creator).num_outputs none).set (g.var root_var).output_nr
              (some ⟨grad, .caller⟩)⟩
        .ok { s1 with engine :=
          { s.engine with
            next_buf_id := s.engine.next_buf_id + 1
            ready := s.engine.ready.emplace_front (creator, buf)
            trace := s.engine.trace ++ [.push creator buf] } }
      else .error (s.engine.fail .out_of_bounds)
    else .ok s1

/-- The seeding loop (lines 146-170). -/
def seed {G : Type} (g : Graph) (cb : Callbacks G) :
    List (VarId × PyObject G) → SeedState G → Except (Failure G) (SeedState G)
  | [], s => .ok s
  | (root_var, grad) :: rest, s =>
    match seed_variable g cb s root_var grad with
    | .error f => .error f
    | .ok s1 => seed g cb rest s1

/-- The tuple built for `_do_backward` (lines 184-195): null slots become `None`. -/
def grad_tuple {G : Type} (buf : grad_buffer_type G) : List (PyObject G) :=
  buf.slots.map (fun x => match x with
    | some r => r.obj
    | none => .None)

/-- Lines 261-264: accumulate `grad_prev` into the buffer `grad_buffer` that
`not_ready` holds for `prev_fn`. -/
def accumulate_not_ready {G : Type} [Add G] (s : EngineState G) (prev_fn : FnId)
    (grad_buffer : grad_buffer_type G) (output_idx : Nat) (grad_prev : PyObject G) :
    Except (Failure G) (EngineState G) :=
  match THPEngine_add_grad s.need_copy grad_buffer output_idx ⟨grad_prev, .returned⟩ with
  | (evs, .error err) => .error ((s.log evs).fail err)
  | (evs, .ok (need_copy, grad_buffer)) =>
    .ok { s with
      need_copy := need_copy
      not_ready := Map.insert s.not_ready prev_fn grad_buffer
      trace := s.trace ++ evs }

/-- Body of the loop over `grad_input` (lines 208-265) for the edge `e` of the
dispatched function and the gradient `grad_prev` returned for it. -/
def route_grad {G : Type} [Add G] (g : Graph) (cb : Callbacks G) (s : EngineState G)
    (e : Edge) (grad_prev : PyObject G) : Except (Failure G) (EngineState G) :=
  match e.obj with
  | .var prev_var =>
    if (g.var prev_var).requires_grad then
      let s1 := s.log [.var_backward prev_var grad_prev]
      if cb.var_do_backward prev_var grad_prev then .ok s1 else .error (s1.fail .python_error)
    else .ok s
  | .fn prev_fn =>
    if !(g.fn prev_fn).requires_grad then .ok s
    else if (g.fn prev_fn).is_stochastic then .ok s
    else
      let output_idx := e.output_nr
      match THPEngine_free_backward_dependency s.dependencies prev_fn with
      | .error err => .error (s.fail err)
      | .ok (dependencies, is_ready) =>
        let s := { s with dependencies := dependencies }
        if is_ready then
          match Map.find s.not_ready prev_fn with
          | none =>
            if output_idx < (g.fn prev_fn).num_outputs then
              let prev_buffer : grad_buffer_type G :=
                ⟨s.next_buf_id,
                  (List.replicate (g.fn prev_fn).num_outputs none).set output_idx
                    (some ⟨grad_prev, .returned⟩)⟩
              .ok { s with
                next_buf_id := s.next_buf_id + 1
                ready := s.ready.emplace_front (prev_fn, prev_buffer)
                trace := s.trace ++ [.push prev_fn prev_buffer] }
            else .error (s.fail .out_of_bounds)
          | some buffer =>
            let s := { s with not_ready := Map.erase s.not_ready prev_fn }
            match THPEngine_add_grad s.need_copy buffer output_idx ⟨grad_prev, .returned⟩ with
            | (evs, .error err) => .error ((s.log evs).fail err)
            | (evs, .ok (need_copy, prev_buffer)) =>
              .ok { s with
                need_copy := need_copy
                ready := s.ready.emplace_front (prev_fn, prev_buffer)
                trace := s.trace ++ evs ++ [.push prev_fn prev_buffer] }
        else
          match Map.find s.not_ready prev_fn with
          | none =>
            accumulate_not_ready { s with next_buf_id := s.next_buf_id + 1 } prev_fn
              (grad_buffer_type.new s.next_buf_id (g.fn prev_fn).num_outputs)
              output_idx grad_prev
          | some buffer => accumulate_not_ready s prev_fn buffer output_idx grad_prev

/-- The loop `for (int i = 0; i < num_grads; i++)` (lines 207-266): the first
list is `previous_functions` from index `i` on, the second `grad_input` from
index `i` on.  Reading `previous_functions[i]` past its end is `out_of_bounds`. -/
def process_grad_input {G : Type} [Add G] (g : Graph) (cb : Callbacks G) :
    List Edge → List (PyObject G) → EngineState G → Except (Failure G) (EngineState G)
  | _, [], s => .ok s
  | [], _ :: _, s => .error (s.fail .out_of_bounds)
  | e :: es, grad_prev :: grads, s =>
    match route_grad g cb s e grad_prev with
    | .error f => .error f
    | .ok s1 => process_grad_input g cb es grads s1

/-- One iteration of the draining loop (lines 178-266) for the pair taken from
the back of `ready`; `s` already has the pair removed. -/
def dispatch {G : Type} [Add G] (g : Graph) (cb : Callbacks G) (s : EngineState G)
    (fn : FnId) (fn_grad_buffer : grad_buffer_type G) :
    Except (Failure G) (EngineState G) :=
  let s1 := s.log [.pop fn fn_grad_buffer, .fn_backward fn (grad_tuple fn_grad_buffer)]
  match cb.fn_do_backward fn (grad_tuple fn_grad_buffer) with
  | .raised => .error (s1.fail .python_error)
  | .not_a_tuple => .error (s1.fail .not_a_tuple)
  | .tuple grad_input =>
    process_grad_input g cb (g.fn fn).previous_functions grad_input s1

/-- The draining loop `while (ready.size() > 0)` (lines 177-267). -/
def drain {G : Type} [Add G] (g : Graph) (cb : Callbacks G) :
    Nat → EngineState G → Except (Failure G) (EngineState G)
  | 0, s =>
    match s.ready with
    | [] => .ok s
    | _ :: _ => .error (s.fail .out_of_fuel)
  | fuel + 1, s =>
    match s.ready with
    | [] => .ok s
    | (fn, buf) :: rest =>
      match dispatch g cb { s with ready := rest } fn buf with
      | .error f => .error f
      | .ok s1 => drain g cb fuel s1

/-- The function `THPEngine_run_backward(variables, grad_variables, retain_variables)`:
the final state after `Py_RETURN_NONE`, or the failure. -/
def THPEngine_run_backward {G : Type} [Add G] (g : Graph) (cb : Callbacks G) (fuel : Nat)
    (vars : List VarId) (grad_vars : List (PyObject G)) :
    Except (Failure G) (EngineState G) :=
  if vars.length ≠ grad_vars.length then
    .error ⟨.length_mismatch, []⟩
  else
    match seed g cb (vars.zip grad_vars) ⟨EngineState.init, [], false⟩ with
    | .error f => .error f
    | .ok seeded =>
      match THPEngine_compute_dependencies g fuel seeded.creators
          seeded.engine.dependencies seeded.engine.ready with
      | none => .error (seeded.engine.fail .out_of_fuel)
      | some (dependencies, ready) =>
        let s := { seeded.engine with dependencies := dependencies, ready := ready }
        if !(seeded.did_leaf_backward || !ready.isEmpty) then
          .error (s.fail .no_graph_nodes)
        else
          match drain g cb fuel s with
          | .error f => .error f
          | .ok s1 =>
            if s1.not_ready.isEmpty then .ok s1
            else .error (s1.fail (.could_not_compute (Map.keys s1.not_ready)))

/-- The log of a run, whether it succeeded or failed. -/
def trace_of {G : Type} : Except (Failure G) (EngineState G) → List (Event G)
  | .ok s => s.trace
  | .error f => f.trace

/-! ## Derived notions used in the statements -/

/-- Successive `THPEngine_add_grad` calls into one buffer, one per `(slot, gradient)`
pair of the list; it stops at the first call that fails. -/
def add_grad_all {G : Type} [Add G] (need_copy : buffer_set_type) (buf : grad_buffer_type G) :
    List (Nat × GradRef G) → List (Event G) × Except Error (buffer_set_type × grad_buffer_type G)
  | [] => ([], .ok (need_copy, buf))
  | (slot, d) :: rest =>
    match THPEngine_add_grad need_copy buf slot d with
    | (evs, .error e) => (evs, .error e)
    | (evs, .ok (nc, b)) => (evs ++ (add_grad_all nc b rest).1, (add_grad_all nc b rest).2)

/-- Number of `clone` calls logged for the slot `key`. -/
def clone_count {G : Type} (key : Nat × Nat) (evs : List (Event G)) : Nat :=
  (evs.filter (fun e => match e with
    | .clone k _ => decide (k = key)
    | _ => false)).length

/-- Number of `add_` calls logged for the slot `key`. -/
def add_count {G : Type} (key : Nat × Nat) (evs : List (Event G)) : Nat :=
  (evs.filter (fun e => match e with
    | .add_ k _ _ => decide (k = key)
    | _ => false)).length

/-- The Python object a buffer holds at `slot` (`none`: index out of range,
`some none`: null pointer). -/
def grad_buffer_type.value {G : Type} (buf : grad_buffer_type G) (slot : Nat) :
    Option (Option (PyObject G)) :=
  buf.slots[slot]?.map (fun x => x.map GradRef.obj)

/-- Every occupied slot of the buffer holds a tensor (not `None`). -/
def TensorBuf {G : Type} (buf : grad_buffer_type G) : Prop :=
  ∀ (j : Nat) (r : GradRef G), buf.slots[j]? = some (some r) → ∃ a : G, r.obj = .Tensor a

/-- Every `add_` call of the log was applied to an object created by the
`clone` call of `THPEngine_add_grad`. -/
def TraceOwned {G : Type} (t : List (Event G)) : Prop :=
  ∀ key target arg, Event.add_ key target arg ∈ t → target.origin = .cloned

/-- An occupied slot of `buf` that is not marked in `need_copy` holds an object
created by `clone`. -/
def BufOwned {G : Type} (need_copy : buffer_set_type) (buf : grad_buffer_type G) : Prop :=
  ∀ (j : Nat) (r : GradRef G), buf.slots[j]? = some (some r) →
    (buf.buffer_id, j) ∉ need_copy → r.origin = .cloned

/-- Invariant of the engine state behind C10: buffer ids of waiting buffers are
distinct and below `next_buf_id`, marks only name ids below `next_buf_id`,
unmarked occupied slots of waiting buffers hold clones, and the log only has
`add_` calls on clones. -/
structure OwnedInv {G : Type} (s : EngineState G) : Prop where
  id_lt : ∀ P buf, Map.find s.not_ready P = some buf → buf.buffer_id < s.next_buf_id
  id_inj : ∀ P Q bp bq, Map.find s.not_ready P = some bp → Map.find s.not_ready Q = some bq →
    bp.buffer_id = bq.buffer_id → P = Q
  owned : ∀ P buf, Map.find s.not_ready P = some buf → BufOwned s.need_copy buf
  mark_lt : ∀ key ∈ s.need_copy, key.1 < s.next_buf_id
  trace_owned : TraceOwned s.trace

/-- The log of a failure only has `add_` calls on clones. -/
def FailureOwned {G : Type} (r : Except (Failure G) (EngineState G)) : Prop :=
  match r with
  | .ok s => OwnedInv s
  | .error f => TraceOwned f.trace

/-- Gradients delivered to the leaf variable `v`, in order: the arguments of the
`_do_backward` calls on `v` in the log. -/
def leaf_calls {G : Type} (v : VarId) (t : List (Event G)) : List (PyObject G) :=
  t.filterMap (fun e => match e with
    | .var_backward w grad => if w = v then some grad else none
    | _ => none)

/-- Gradient tuples passed to `_do_backward` of the function `fn`, in order. -/
def fn_calls {G : Type} (fn : FnId) (t : List (Event G)) : List (List (PyObject G)) :=
  t.filterMap (fun e => match e with
    | .fn_backward f grads => if f = fn then some grads else none
    | _ => none)

/-- Functions whose `_do_backward` the log shows, in order of invocation. -/
def dispatched {G : Type} (t : List (Event G)) : List FnId :=
  t.filterMap (fun e => match e with
    | .fn_backward f _ => some f
    | _ => none)

/-- Replays the `push` and `pop` events of a log against a first-in-first-out
queue (oldest pair first): a `pop` must take the oldest pair.  `none` when some
`pop` does not. -/
def fifo_replay {G : Type} [DecidableEq G] :
    List (Event G) → List (FnId × grad_buffer_type G) → Option (List (FnId × grad_buffer_type G))
  | [], q => some q
  | .push fn buf :: t, q => fifo_replay t (q ++ [(fn, buf)])
  | .pop fn buf :: t, q =>
    match q with
    | [] => none
    | x :: rest => if x = (fn, buf) then fifo_replay t rest else none
  | _ :: t, q => fifo_replay t q

/-- Replays the `push` and `pop` events of a log against a last-in-first-out
stack (most recent pair first): a `pop` must take the most recently pushed pair
still held.  `none` when some `pop` does not. -/
def lifo_replay {G : Type} [DecidableEq G] :
    List (Event G) → List (FnId × grad_buffer_type G) → Option (List (FnId × grad_buffer_type G))
  | [], q => some q
  | .push fn buf :: t, q => lifo_replay t ((fn, buf) :: q)
  | .pop fn buf :: t, q =>
    match q with
    | [] => none
    | x :: rest => if x = (fn, buf) then lifo_replay t rest else none
  | _ :: t, q => lifo_replay t q

/-- The log replays, first-in-first-out, to the current content of `ready`
(after a failure: it replays to some queue). -/
def QueueInv {G : Type} [DecidableEq G] (r : Except (Failure G) (EngineState G)) : Prop :=
  match r with
  | .ok s => fifo_replay s.trace [] = some s.ready
  | .error f => fifo_replay f.trace [] ≠ none

/-! ## Graph notions used in the statements -/

/-- The function `p` is the target of an input edge of the function `c`. -/
def EdgeTo (g : Graph) (c p : FnId) : Prop :=
  ∃ e ∈ (g.fn c).previous_functions, e.obj = .fn p

/-- The function `c` is one of `roots` or is reachable from one of them through
input edges. -/
def Reach (g : Graph) (roots : List FnId) (c : FnId) : Prop :=
  ∃ r ∈ roots, Relation.ReflTransGen (EdgeTo g) r c

/-- Number of input edges of `c` that point to the function `p`. -/
def edge_count (g : Graph) (c p : FnId) : Nat :=
  ((g.fn c).previous_functions.filter (fun e => decide (e.obj = .fn p))).length

/-- Number of input edges `(c, i)` with `c` in `X`, `c` requiring grad, and the
`i`-th input of `c` being the function `p`. -/
def consumer_edges (g : Graph) (X : List FnId) (p : FnId) : Nat :=
  ((X.filter (fun c => (g.fn c).requires_grad)).map (fun c => edge_count g c p)).sum

/-- Invariant of the loops of `THPEngine_compute_dependencies`: `E` lists the
functions popped so far, `c` is the function being scanned and `todo` its input
edges still to scan (`todo = []` between two iterations of the outer loop). -/
structure DepInv {G : Type} (g : Graph) (creators : List FnId) (E : List FnId) (c : FnId)
    (todo : List Edge) (s : DepState G) : Prop where
  nodup : (E ++ s.queue).Nodup
  seen_sub : ∀ x ∈ s.seen, x ∈ E ∨ x ∈ s.queue
  closed : ∀ x ∈ E, ∀ e ∈ (g.fn x).previous_functions, ∀ p, e.obj = .fn p →
    p ∈ s.seen ∨ (x = c ∧ e ∈ todo)
  reach : ∀ x, x ∈ E ∨ x ∈ s.queue → Reach g creators x
  origin : ∀ x, x ∈ E ∨ x ∈ s.queue → x ∈ creators ∨ x ∈ s.seen
  roots_in : ∀ r ∈ creators, r ∈ E ∨ r ∈ s.queue
  counts : ∀ P, (g.fn P).requires_grad = true → (g.fn P).is_stochastic = false →
    s.dependencies.count P
      + ((if (g.fn c).requires_grad then
            (todo.filter (fun e => decide (e.obj = .fn P))).length else 0 : Nat) : Int)
      = (consumer_edges g E P : Int) ∧
    (Map.find s.dependencies P = none ∨ 0 < s.dependencies.count P)

/-! ## Gradients delivered to a function, read off the log -/

/-- Of the `(edge, gradient)` pairs `pend`, the gradients whose edge points to the
output slot `slot` of the function `P`. -/
def pend_deliveries {G : Type} (pend : List (Edge × PyObject G)) (P : FnId) (slot : Nat) :
    List (PyObject G) :=
  pend.filterMap (fun x =>
    if x.1.obj = .fn P ∧ x.1.output_nr = slot then some x.2 else none)

/-- Gradients that the tuple `out` returned by `_do_backward` of `C` holds for the
input edges of `C` that point to the output slot `slot` of `P`. -/
def node_deliveries {G : Type} (g : Graph) (C : FnId) (out : List (PyObject G)) (P : FnId)
    (slot : Nat) : List (PyObject G) :=
  pend_deliveries ((g.fn C).previous_functions.zip out) P slot

/-- All gradients returned, by the `_do_backward` calls of the log, for input
edges that point to the output slot `slot` of `P`, in the order of the calls. -/
def deliveries {G : Type} (g : Graph) (cb : Callbacks G) :
    List (Event G) → FnId → Nat → List (PyObject G)
  | [], _, _ => []
  | .fn_backward C args :: t, P, slot =>
    (match cb.fn_do_backward C args with
      | .tuple out => node_deliveries g C out P slot
      | _ => []) ++ deliveries g cb t P slot
  | _ :: t, P, slot => deliveries g cb t P slot

/-- No event of the list is a `_do_backward` call on a function. -/
def Silent {G : Type} (evs : List (Event G)) : Prop :=
  ∀ e ∈ evs, ∀ f args, e ≠ .fn_backward f args

/-- Values of the tensors of a list of Python objects. -/
def tensor_values {G : Type} (l : List (PyObject G)) : List G :=
  l.filterMap (fun x => match x with
    | .Tensor a => some a
    | .None => none)

/-- Sum of a list of gradients as the engine hands it to `_do_backward`: `None`
("no gradient") for the empty list, else the tensor holding the sum. -/
def grad_sum {G : Type} [AddCommMonoid G] (l : List (PyObject G)) : PyObject G :=
  match l with
  | [] => .None
  | _ :: _ => .Tensor (tensor_values l).sum

/-- The object a waiting buffer holds at `slot`, as a list of at most one
element (`[]` for no buffer or a null slot). -/
def slot_list {G : Type} (buf : Option (grad_buffer_type G)) (slot : Nat) : List (PyObject G) :=
  match buf with
  | none => []
  | some b =>
    match b.slots[slot]? with
    | some (some r) => [r.obj]
    | _ => []

/-- Root creators: the creators of the root variables, in order. -/
def creators_of (g : Graph) (vars : List VarId) : List FnId :=
  vars.filterMap (fun v => (g.var v).creator)

/-- Preconditions of the scheduling theorems (C1, C2, C3) on the graph `g`, the
callbacks `cb`, the roots `vars` with their gradients `grads`, and `X`, a
duplicate-free enumeration of the functions reachable from the root creators. -/
structure BackwardPre {G : Type} (g : Graph) (cb : Callbacks G) (vars : List VarId)
    (grads : List (PyObject G)) (X : List FnId) : Prop where
  /-- as many gradients as root variables -/
  vars_len : vars.length = grads.length
  /-- every root variable has a creator -/
  has_creator : ∀ v ∈ vars, (g.var v).creator ≠ none
  /-- the creators of the root variables are pairwise distinct -/
  creators_nodup : (creators_of g vars).Nodup
  /-- no root creator is reachable from another root creator -/
  indep : ∀ r ∈ creators_of g vars, ∀ r1 ∈ creators_of g vars, r ≠ r1 →
    ¬ Relation.ReflTransGen (EdgeTo g) r r1
  /-- at least one root creator requires grad -/
  some_grad : ∃ r ∈ creators_of g vars, (g.fn r).requires_grad = true
  /-- the output slot of a root variable exists in its creator -/
  root_slot : ∀ v ∈ vars, ∀ r, (g.var v).creator = some r →
    (g.fn r).requires_grad = true → (g.var v).output_nr < (g.fn r).num_outputs
  /-- the graph has no always-ready (stochastic) function -/
  no_stoch : ∀ f, (g.fn f).is_stochastic = false
  /-- the graph is acyclic -/
  acyclic : ∀ c, ¬ Relation.TransGen (EdgeTo g) c c
  /-- finiteness: `X` lists the reachable functions, without duplicates -/
  X_nodup : X.Nodup
  X_reach : ∀ c, c ∈ X ↔ Reach g (creators_of g vars) c
  /-- every reachable consumer of a grad-requiring function requires grad -/
  grad_up : ∀ c ∈ X, ∀ p, EdgeTo g c p → (g.fn p).requires_grad = true →
    (g.fn c).requires_grad = true
  /-- the output slot named by an input edge exists in the producer -/
  edge_slot : ∀ c ∈ X, ∀ e ∈ (g.fn c).previous_functions, ∀ p, e.obj = .fn p →
    (g.fn p).requires_grad = true → e.output_nr < (g.fn p).num_outputs
  /-- every function `_do_backward` call succeeds and returns one gradient per
  input edge, a tensor for each edge into a grad-requiring function -/
  fn_ok : ∀ c ∈ X, (g.fn c).requires_grad = true → ∀ args,
    ∃ out, cb.fn_do_backward c args = .tuple out ∧
    out.length = (g.fn c).previous_functions.length ∧
    ∀ x ∈ (g.fn c).previous_functions.zip out, ∀ p, x.1.obj = .fn p →
      (g.fn p).requires_grad = true → ∃ a, x.2 = .Tensor a
  /-- every variable `_do_backward` call succeeds -/
  var_ok : ∀ v x, cb.var_do_backward v x = true

/-- Number of gradient deliveries the function `P` still waits for: input edges
to `P` of relevant functions not yet dispatched, plus those among the pending
`(edge, gradient)` pairs of the function being processed. -/
def pending_count {G : Type} (g : Graph) (R : List FnId) (t : List (Event G))
    (pend : List (Edge × PyObject G)) (P : FnId) : Nat :=
  ((R.filter (fun C => decide (C ∉ dispatched t))).map (fun C => edge_count g C P)).sum
    + (pend.filter (fun x => decide (x.1.obj = .fn P))).length

/-- Invariant of the draining loop under `BackwardPre`.  `R` lists the relevant
functions (reachable and requiring grad), `roots` the root creators, `pend` the
`(edge, gradient)` pairs of the dispatched function still to be routed (`[]`
between two iterations of the loop). -/
structure SchedInv {G : Type} [AddCommMonoid G] (g : Graph) (cb : Callbacks G)
    (R roots : List FnId) (pend : List (Edge × PyObject G)) (s : EngineState G) : Prop where
  disp_nodup : (dispatched s.trace).Nodup
  disp_sub : ∀ c ∈ dispatched s.trace, c ∈ R
  ready_nodup : (s.ready.map Prod.fst).Nodup
  ready_sub : ∀ c ∈ s.ready.map Prod.fst, c ∈ R ∧ c ∉ dispatched s.trace
  deps_eq : ∀ P ∈ R, Map.find s.dependencies P =
    (if pending_count g R s.trace pend P = 0 then none
     else some (pending_count g R s.trace pend P : Int))
  status : ∀ P ∈ R, pending_count g R s.trace pend P = 0 ↔
    (P ∈ dispatched s.trace ∨ P ∈ s.ready.map Prod.fst)
  waiting : ∀ P buf, Map.find s.not_ready P = some buf →
    P ∈ R ∧ 0 < pending_count g R s.trace pend P ∧
    buf.slots.length = (g.fn P).num_outputs ∧ TensorBuf buf
  val_waiting : ∀ P ∈ R, 0 < pending_count g R s.trace pend P → ∀ slot,
    grad_sum (slot_list (Map.find s.not_ready P) slot ++ pend_deliveries pend P slot)
      = grad_sum (deliveries g cb s.trace P slot)
  val_ready : ∀ P buf, (P, buf) ∈ s.ready → P ∉ roots →
    (grad_tuple buf).length = (g.fn P).num_outputs ∧
    ∀ slot, slot < (g.fn P).num_outputs →
      (grad_tuple buf)[slot]? = some (grad_sum (deliveries g cb s.trace P slot))
  val_disp : ∀ P, P ∉ roots → ∀ args ∈ fn_calls P s.trace,
    args.length = (g.fn P).num_outputs ∧
    ∀ slot, slot < (g.fn P).num_outputs →
      args[slot]? = some (grad_sum (deliveries g cb s.trace P slot))
  order : ∀ l1 P l2, dispatched s.trace = l1 ++ P :: l2 →
    ∀ C ∈ R, EdgeTo g C P → C ∈ l1

/-- A graph with one function `fn 1` whose only input is `fn 1` itself. -/
def self_loop : Graph where
  fn := fun f => match f with
    | 1 => ⟨[⟨.fn 1, 0⟩], 1, true, false⟩
    | _ => ⟨[], 0, false, false⟩
  var := fun _ => ⟨none, false, 0⟩

/-! ## Concrete graphs used as examples -/

/-- The diamond: leaf variable `A = var 0`, functions `B = fn 1` and `C = fn 2`
with input `A`, root function `D = fn 3` with inputs `B` and `C`; `var 1` is the
output of `D`.  Everything requires grad. -/
def diamond : Graph where
  fn := fun f => match f with
    | 1 => ⟨[⟨.var 0, 0⟩], 1, true, false⟩
    | 2 => ⟨[⟨.var 0, 0⟩], 1, true, false⟩
    | 3 => ⟨[⟨.fn 1, 0⟩, ⟨.fn 2, 0⟩], 1, true, false⟩
    | _ => ⟨[], 0, false, false⟩
  var := fun v => match v with
    | 0 => ⟨none, true, 0⟩
    | 1 => ⟨some 3, true, 0⟩
    | _ => ⟨none, false, 0⟩

/-- Callbacks for `diamond`: `D` sends `10` to `B` and `20` to `C`; `B` and `C`
pass their gradient on unchanged. -/
def diamond_cb : Callbacks Int where
  fn_do_backward := fun f grads => match f with
    | 3 => .tuple [.Tensor 10, .Tensor 20]
    | _ => .tuple grads
  var_do_backward := fun _ _ => true

/-- Two independent root functions `fn 1` and `fn 2` without inputs, with
outputs `var 1` and `var 2`. -/
def two_roots : Graph where
  fn := fun f => match f with
    | 1 => ⟨[], 1, true, false⟩
    | 2 => ⟨[], 1, true, false⟩
    | _ => ⟨[], 0, false, false⟩
  var := fun v => match v with
    | 1 => ⟨some 1, true, 0⟩
    | 2 => ⟨some 2, true, 0⟩
    | _ => ⟨none, false, 0⟩

/-- A graph in which the function `fn 1` has two consumers: the root `fn 3` has
inputs `fn 1` and `fn 2`, `fn 2` has input `fn 1`, and `fn 1` has the leaf
`var 0` as input; `var 1` is the output of `fn 3`.  Everything requires grad. -/
def fan_in : Graph where
  fn := fun f => match f with
    | 1 => ⟨[⟨.var 0, 0⟩], 1, true, false⟩
    | 2 => ⟨[⟨.fn 1, 0⟩], 1, true, false⟩
    | 3 => ⟨[⟨.fn 1, 0⟩, ⟨.fn 2, 0⟩], 1, true, false⟩
    | _ => ⟨[], 0, false, false⟩
  var := fun v => match v with
    | 0 => ⟨none, true, 0⟩
    | 1 => ⟨some 3, true, 0⟩
    | _ => ⟨none, false, 0⟩

/-- Callbacks for `fan_in`: every function hands the value of the gradient of its
first output slot (0 when it has none) to each of its inputs. -/
def fan_in_cb : Callbacks Int where
  fn_do_backward := fun f grads =>
    .tuple (List.replicate (fan_in.fn f).num_inputs
      (.Tensor (match grads.head? with
        | some (.Tensor a) => a
        | _ => 0)))
  var_do_backward := fun _ _ => true

/-- Callbacks returning an empty tuple of gradients. -/
def unit_cb : Callbacks Int where
  fn_do_backward := fun _ _ => .tuple []
  var_do_backward := fun _ _ => true

end Autograd

namespace Autograd

/-! ## The phases of `THPEngine_run_backward` -/

/-- Lines 136-175 of `THPEngine_run_backward`: the length check, the seeding
loop, the call of `THPEngine_compute_dependencies` and the check that there is
something to do.  The result is the state in which the draining loop starts. -/
def run_backward_start {G : Type} (g : Graph) (cb : Callbacks G) (fuel : Nat)
    (vars : List VarId) (grad_vars : List (PyObject G)) :
    Except (Failure G) (EngineState G) :=
  if vars.length ≠ grad_vars.length then
    .error ⟨.length_mismatch, []⟩
  else
    match seed g cb (vars.zip grad_vars) ⟨EngineState.init, [], false⟩ with
    | .error f => .error f
    | .ok seeded =>
      match THPEngine_compute_dependencies g fuel seeded.creators
          seeded.engine.dependencies seeded.engine.ready with
      | none => .error (seeded.engine.fail .out_of_fuel)
      | some (dependencies, ready) =>
        let s := { seeded.engine with dependencies := dependencies, ready := ready }
        if !(seeded.did_leaf_backward || !ready.isEmpty) then
          .error (s.fail .no_graph_nodes)
        else .ok s

/-- Lines 269-279 of `THPEngine_run_backward`: the check made once the draining
loop has left `ready` empty. -/
def run_backward_finish {G : Type} (s1 : EngineState G) :
    Except (Failure G) (EngineState G) :=
  if s1.not_ready.isEmpty then .ok s1
  else .error (s1.fail (.could_not_compute (Map.keys s1.not_ready)))

/-- The error of a failed run, `none` for a run that returned. -/
def error_of {G : Type} : Except (Failure G) (EngineState G) → Option Error
  | .ok _ => none
  | .error f => some f.error

/-! ## What one pass through a loop body can do -/

/-- Only `clone` and `add_` calls. -/
def MemEvents {G : Type} (evs : List (Event G)) : Prop :=
  ∀ e ∈ evs, (∃ k c, e = .clone k c) ∨ (∃ k t a, e = .add_ k t a)

/-- Every count stored in the dependency table is at least 1, and every function
holding a buffer in `not_ready` has an entry in the dependency table. -/
structure CountInv {G : Type} (s : EngineState G) : Prop where
  pos : ∀ P c, Map.find s.dependencies P = some c → 1 ≤ c
  held : ∀ P buf, Map.find s.not_ready P = some buf →
    ∃ c, Map.find s.dependencies P = some c

/-- Outcomes of one step of the draining loop of `THPEngine_run_backward`
started in the state `s`: taking a pair from the back of `ready` and calling
`_do_backward` on its function (`call`, `call_raised`, `call_not_a_tuple`), or
routing one returned gradient (the other cases).  `route_grad_step` and
`dispatch_rel` show that the loop only makes such steps. -/
inductive Step {G : Type} (g : Graph) (cb : Callbacks G) :
    EngineState G → Except (Failure G) (EngineState G) → Prop
  /-- nothing happens -/
  | skip (s : EngineState G) : Step g cb s (.ok s)
  /-- a gradient is handed to a leaf variable that requires grad -/
  | leaf_ok (s : EngineState G) (v : VarId) (x : PyObject G) :
    (g.var v).requires_grad = true → cb.var_do_backward v x = true →
    Step g cb s (.ok (s.log [.var_backward v x]))
  /-- the `_do_backward` of the leaf variable fails -/
  | leaf_raised (s : EngineState G) (v : VarId) (x : PyObject G) :
    (g.var v).requires_grad = true → cb.var_do_backward v x = false →
    Step g cb s (.error ⟨.python_error, s.trace ++ [.var_backward v x]⟩)
  /-- a gradient is accumulated into a buffer that stays in `not_ready` -/
  | quiet (s s1 : EngineState G) (evs : List (Event G)) :
    MemEvents evs → s1.trace = s.trace ++ evs → s1.ready = s.ready →
    s1.dependencies.length ≤ s.dependencies.length →
    (CountInv s → CountInv s1) →
    Step g cb s (.ok s1)
  /-- routing a gradient fails -/
  | abort (s : EngineState G) (evs : List (Event G)) (err : Error) :
    MemEvents evs →
    (err = .python_error ∨ err = .out_of_bounds ∨ ∃ p, err = .dependencies_negative p) →
    Step g cb s (.error ⟨err, s.trace ++ evs⟩)
  /-- the last gradient of `p` arrives: `p` loses its entry in the dependency
  table and is put on the front of `ready` -/
  | push (s s1 : EngineState G) (evs : List (Event G)) (p : FnId) (b : grad_buffer_type G) :
    (g.fn p).requires_grad = true → (g.fn p).is_stochastic = false →
    MemEvents evs → s1.trace = s.trace ++ evs ++ [.push p b] →
    s1.ready = s.ready ++ [(p, b)] →
    s1.dependencies.length + 1 ≤ s.dependencies.length →
    (CountInv s → CountInv s1) →
    Step g cb s (.ok s1)
  /-- the pair at the back of `ready` is taken and `_do_backward` returns a tuple -/
  | call (s : EngineState G) (fn : FnId) (buf : grad_buffer_type G)
      (rest : ready_queue_type G) (grads : List (PyObject G)) :
    s.ready = (fn, buf) :: rest →
    cb.fn_do_backward fn (grad_tuple buf) = .tuple grads →
    Step g cb s
      (.ok (EngineState.log { s with ready := rest }
        [.pop fn buf, .fn_backward fn (grad_tuple buf)]))
  /-- the pair at the back of `ready` is taken and `_do_backward` raises -/
  | call_raised (s : EngineState G) (fn : FnId) (buf : grad_buffer_type G)
      (rest : ready_queue_type G) :
    s.ready = (fn, buf) :: rest →
    cb.fn_do_backward fn (grad_tuple buf) = .raised →
    Step g cb s
      (.error ⟨.python_error, s.trace ++ [.pop fn buf, .fn_backward fn (grad_tuple buf)]⟩)
  /-- the pair at the back of `ready` is taken and `_do_backward` returns
  something that is not a tuple -/
  | call_not_a_tuple (s : EngineState G) (fn : FnId) (buf : grad_buffer_type G)
      (rest : ready_queue_type G) :
    s.ready = (fn, buf) :: rest →
    cb.fn_do_backward fn (grad_tuple buf) = .not_a_tuple →
    Step g cb s
      (.error ⟨.not_a_tuple, s.trace ++ [.pop fn buf, .fn_backward fn (grad_tuple buf)]⟩)

/-- Outcomes of one pass through the seeding loop of `THPEngine_run_backward`
for the root variable `v` and its gradient `x`, on the engine part of the
state. -/
inductive SeedStep {G : Type} (g : Graph) (cb : Callbacks G) (v : VarId) (x : PyObject G) :
    EngineState G → Except (Failure G) (EngineState G) → Prop
  /-- a leaf that does not require grad, or a creator that does not -/
  | skip (s : EngineState G) : SeedStep g cb v x s (.ok s)
  /-- a root leaf that requires grad is handed its gradient -/
  | leaf_ok (s : EngineState G) :
    (g.var v).creator = none → (g.var v).requires_grad = true →
    cb.var_do_backward v x = true →
    SeedStep g cb v x s (.ok (s.log [.var_backward v x]))
  /-- the `_do_backward` of the root leaf fails -/
  | leaf_raised (s : EngineState G) :
    (g.var v).creator = none → (g.var v).requires_grad = true →
    cb.var_do_backward v x = false →
    SeedStep g cb v x s (.error ⟨.python_error, s.trace ++ [.var_backward v x]⟩)
  /-- a root creator that requires grad is put on the front of `ready` -/
  | push (s : EngineState G) (c : FnId) (b : grad_buffer_type G) :
    (g.var v).creator = some c → (g.fn c).requires_grad = true →
    SeedStep g cb v x s
      (.ok { s with
        next_buf_id := s.next_buf_id + 1
        ready := s.ready ++ [(c, b)]
        trace := s.trace ++ [.push c b] })
  /-- the slot `output_nr` does not exist -/
  | abort (s : EngineState G) : SeedStep g cb v x s (.error ⟨.out_of_bounds, s.trace⟩)

/-! ## Invariant of the dependency scan on an arbitrary graph -/

/-- Invariant of the loops of `THPEngine_compute_dependencies` started on the
root list `creators` with the queue `ready0`, on any graph: `E1` lists the
functions taken from the work list so far and `E2` those whose edges have all
been scanned. -/
structure ScanInv {G : Type} (g : Graph) (creators : List FnId) (ready0 : ready_queue_type G)
    (E1 E2 : List FnId) (st : DepState G) : Prop where
  roots_in : ∀ r ∈ creators, r ∈ E1 ∨ r ∈ st.queue
  seen_in : ∀ x ∈ st.seen, x ∈ E1 ∨ x ∈ st.queue
  done : ∀ x ∈ E2, ∀ p, EdgeTo g x p → p ∈ st.seen
  seen_reach : ∀ x ∈ st.seen, ∃ r ∈ creators, Relation.TransGen (EdgeTo g) r x
  queue_reach : ∀ x ∈ st.queue, Reach g creators x
  ready_count : ∀ P, (st.ready.map Prod.fst).count P = (ready0.map Prod.fst).count P +
    (if (g.fn P).is_stochastic = true ∧ (g.fn P).requires_grad = true ∧ P ∈ st.seen
      then 1 else 0)
  ready_new : ∀ x ∈ st.ready, x ∈ ready0 ∨
    (x.2 = ⟨0, []⟩ ∧ (g.fn x.1).is_stochastic = true ∧ (g.fn x.1).requires_grad = true)
  ready_back : ∃ added, st.ready = added ++ ready0
  deps_pos : ∀ P c, Map.find st.dependencies P = some c → 1 ≤ c

/-- Work left after the outcome `r` of a draining step: the number of pairs in
`ready` plus the number of entries of the dependency table; none after a
failure. -/
def pending_work {G : Type} (r : Except (Failure G) (EngineState G)) : Nat :=
  match r with
  | .ok s => s.ready.length + s.dependencies.length
  | .error _ => 0

/-! ## Properties of logs -/

/-- Every `_do_backward` call on a function in `evs` comes right after the `pop`
of a pair of that function, and its argument is the tuple built from the buffer
of that pair. -/
def CallsFromBuffers {G : Type} (evs : List (Event G)) : Prop :=
  ∀ t1 fn args t2, evs = t1 ++ .fn_backward fn args :: t2 →
    ∃ t0 buf, t1 = t0 ++ [.pop fn buf] ∧ args = grad_tuple buf

/-- The event is a `_do_backward` call (on a function or on a variable) that
fails under the callbacks `cb`. -/
def Failing {G : Type} (cb : Callbacks G) : Event G → Prop
  | .fn_backward f a => cb.fn_do_backward f a = .raised
  | .var_backward v x => cb.var_do_backward v x = false
  | _ => False

/-- No call of `evs` fails, or only the last event of `evs` is a failing call
and `r` is the failure of that call. -/
def CallLog {G : Type} (cb : Callbacks G) (evs : List (Event G))
    (r : Except (Failure G) (EngineState G)) : Prop :=
  (∀ e ∈ evs, ¬ Failing cb e) ∨
  (∃ e0 e f, evs = e0 ++ [e] ∧ (∀ e1 ∈ e0, ¬ Failing cb e1) ∧ Failing cb e ∧
    r = .error f ∧ f.error = .python_error)

/-! ## More concrete graphs used as examples -/

/-- The function `fn 1` has two outputs and no input; the root `fn 2` has the
output slot 1 of `fn 1` as its only input; `var 1` is the output of `fn 2`.
Everything requires grad. -/
def two_outputs : Graph where
  fn := fun f => match f with
    | 1 => ⟨[], 2, true, false⟩
    | 2 => ⟨[⟨.fn 1, 1⟩], 1, true, false⟩
    | _ => ⟨[], 0, false, false⟩
  var := fun v => match v with
    | 1 => ⟨some 2, true, 0⟩
    | _ => ⟨none, false, 0⟩

/-- Callbacks for `diamond` that behave as `diamond_cb`, except that the
`_do_backward` of `B = fn 1` raises. -/
def raising_cb : Callbacks Int where
  fn_do_backward := fun f grads =>
    if f = 1 then .raised else diamond_cb.fn_do_backward f grads
  var_do_backward := fun _ _ => true

/-- The root function `fn 1` does not require grad; its only input is the
stochastic function `fn 2`, which requires grad and has no input; `var 1` is
the output of `fn 1`. -/
def stochastic_input : Graph where
  fn := fun f => match f with
    | 1 => ⟨[⟨.fn 2, 0⟩], 1, false, false⟩
    | 2 => ⟨[], 1, true, true⟩
    | _ => ⟨[], 0, false, false⟩
  var := fun v => match v with
    | 1 => ⟨some 1, false, 0⟩
    | _ => ⟨none, false, 0⟩

/-- Callbacks for `diamond` whose `D = fn 3` returns one gradient for its two
input edges; `B` and `C` pass their gradient on unchanged. -/
def short_cb : Callbacks Int where
  fn_do_backward := fun f grads => match f with
    | 3 => .tuple [.Tensor 10]
    | _ => .tuple grads
  var_do_backward := fun _ _ => true

/-- Callbacks for `diamond` whose `D = fn 3` returns three gradients for its two
input edges; `B` and `C` pass their gradient on unchanged. -/
def long_cb : Callbacks Int where
  fn_do_backward := fun f grads => match f with
    | 3 => .tuple [.Tensor 10, .Tensor 20, .Tensor 30]
    | _ => .tuple grads
  var_do_backward := fun _ _ => true

/-- The stochastic function `fn 2` (requires grad, no input) is reached along
two paths: the root `fn 3` has inputs `fn 1` and `fn 2`, and `fn 1` has input
`fn 2`; `var 1` is the output of `fn 3`.  Everything requires grad. -/
def stochastic_diamond : Graph where
  fn := fun f => match f with
    | 1 => ⟨[⟨.fn 2, 0⟩], 1, true, false⟩
    | 2 => ⟨[], 1, true, true⟩
    | 3 => ⟨[⟨.fn 1, 0⟩, ⟨.fn 2, 0⟩], 1, true, false⟩
    | _ => ⟨[], 0, false, false⟩
  var := fun v => match v with
    | 1 => ⟨some 3, true, 0⟩
    | _ => ⟨none, false, 0⟩

/-- A graph without always-ready function: `var 1` is the output of the root
`fn 4`, whose input `fn 3` does not require grad; `fn 3` has the input `fn 2`,
and `fn 2` has the input `fn 1`; `fn 4`, `fn 2` and `fn 1` require grad. -/
def nograd_mid : Graph where
  fn := fun f => match f with
    | 1 => ⟨[], 1, true, false⟩
    | 2 => ⟨[⟨.fn 1, 0⟩], 1, true, false⟩
    | 3 => ⟨[⟨.fn 2, 0⟩], 1, false, false⟩
    | 4 => ⟨[⟨.fn 3, 0⟩], 1, true, false⟩
    | _ => ⟨[], 0, false, false⟩
  var := fun v => match v with
    | 1 => ⟨some 4, true, 0⟩
    | _ => ⟨none, false, 0⟩

/-- Callbacks handing the gradient `1` to each input of the function. -/
def ones_cb (g : Graph) : Callbacks Int where
  fn_do_backward := fun f _ => .tuple (List.replicate (g.fn f).num_inputs (.Tensor 1))
  var_do_backward := fun _ _ => true

end Autograd

namespace Autograd

/-! ## Ghost views of the loops -/

/-- The `while (queue.size() > 0)` loop of `THPEngine_compute_dependencies`
(lines 44-65) as `compute_dependencies_loop`, returning in addition the
functions taken from the work list (`queue.back(); queue.pop_back()`), in the
order in which they were taken. -/
def compute_dependencies_loop_log {G : Type} (g : Graph) :
    Nat → DepState G → Option (DepState G × List FnId)
  | 0, _ => none
  | fuel + 1, s =>
    match s.queue with
    | [] => some (s, [])
    | fn :: rest =>
      (compute_dependencies_loop_log g fuel
        ((g.fn fn).previous_functions.foldl (compute_dependencies_edge g fn)
          { s with queue := rest })).map (fun r => (r.1, fn :: r.2))

/-- The functions expanded by `THPEngine_compute_dependencies(queue, dependencies, ready)`,
in order. -/
def compute_dependencies_expanded {G : Type} (g : Graph) (fuel : Nat) (queue : List FnId)
    (dependencies : dependencies_type) (ready : ready_queue_type G) : Option (List FnId) :=
  (compute_dependencies_loop_log g fuel ⟨[], queue.reverse, dependencies, ready⟩).map Prod.snd

/-- The state at the head of the draining loop (lines 177-267) after `k` full
iterations; `none` when the loop has ended or failed before. -/
def drain_steps {G : Type} [Add G] (g : Graph) (cb : Callbacks G) :
    Nat → EngineState G → Option (EngineState G)
  | 0, s => some s
  | k + 1, s =>
    match s.ready with
    | [] => none
    | (fn, buf) :: rest =>
      match dispatch g cb { s with ready := rest } fn buf with
      | .error _ => none
      | .ok s1 => drain_steps g cb k s1

/-- The pairs the seeding loop (lines 146-170) puts on `ready` for the root
pairs `l`, oldest first, when it starts with `next_buf_id = id`: one pair, with
a buffer of its own, for each root variable whose creator requires grad. -/
def seed_pairs {G : Type} (g : Graph) : List (VarId × PyObject G) → Nat → ready_queue_type G
  | [], _ => []
  | (v, x) :: l, id =>
    match (g.var v).creator with
    | none => seed_pairs g l id
    | some c =>
      if (g.fn c).requires_grad then
        (c, ⟨id, (List.replicate (g.fn c).num_outputs none).set (g.var v).output_nr
          (some ⟨x, .caller⟩)⟩) :: seed_pairs g l (id + 1)
      else seed_pairs g l id

/-! ## Shapes of buffers -/

/-- The buffer of a pair of `ready` has one slot per output of the function, or
is the empty buffer `grad_buffer_type(0)` of an always-ready function that
requires grad. -/
def Shape {G : Type} (g : Graph) (x : FnId × grad_buffer_type G) : Prop :=
  x.2.slots.length = (g.fn x.1).num_outputs ∨
  (x.2.slots = [] ∧ (g.fn x.1).is_stochastic = true ∧ (g.fn x.1).requires_grad = true)

/-- Every `_do_backward` call on a function in the log has one argument per
output of the function, or is a call without arguments on an always-ready
function that requires grad. -/
def GoodCalls {G : Type} (g : Graph) (t : List (Event G)) : Prop :=
  ∀ fn args, Event.fn_backward fn args ∈ t →
    args.length = (g.fn fn).num_outputs ∨
    (args = [] ∧ (g.fn fn).is_stochastic = true ∧ (g.fn fn).requires_grad = true)

/-- Invariant on the shapes of the buffers held by the engine. -/
structure ShapeInv {G : Type} (g : Graph) (s : EngineState G) : Prop where
  ready_ok : ∀ x ∈ s.ready, Shape g x
  waiting_ok : ∀ P buf, Map.find s.not_ready P = some buf →
    buf.slots.length = (g.fn P).num_outputs
  calls_ok : GoodCalls g s.trace

/-- The invariant `ShapeInv` for an outcome: after a failure only the log is
left. -/
def ShapeOk {G : Type} (g : Graph) (r : Except (Failure G) (EngineState G)) : Prop :=
  match r with
  | .ok s => ShapeInv g s
  | .error f => GoodCalls g f.trace

/-! ## More concrete graphs used as examples -/

/-- The function `fn 1` has two outputs and no input; `var 1` is its output 0
and `var 2` its output 1.  Everything requires grad. -/
def shared_creator : Graph where
  fn := fun f => match f with
    | 1 => ⟨[], 2, true, false⟩
    | _ => ⟨[], 0, false, false⟩
  var := fun v => match v with
    | 1 => ⟨some 1, true, 0⟩
    | 2 => ⟨some 1, true, 1⟩
    | _ => ⟨none, false, 0⟩

end Autograd

/-! # The caching host allocator (`THCCachingHostAllocator.cpp`)

Conventions of the model.

* Pointers (`void*`), events (`cudaEvent_t`) and streams are natural numbers;
  `NULL` is `0`, and pointers are compared as numbers (`uintptr_t`).
* `std::unordered_map<void*, Block> blocks` is its lookup function
  `Nat → Option Block`; a reference `Block&` into the map is a key, and a write
  through the reference is `blocks_set`.
* `std::set<BlockSize, Comparison> available` is the list of its elements in
  ascending order of `BlockComparator`.
* `std::deque cuda_events` is listed FRONT first: `front()` is the head,
  `pop_front` the tail, `emplace_back` appends.
* The CUDA runtime is a record `Cuda` of the results its calls give during one
  operation of the allocator; every operation takes its own record.
* `THAssert` and the `std::out_of_range` of `blocks.at` end the operation with
  the outcomes `assertion_failed` and `out_of_range`.
* `int event_count` is an `Int`: the count of a tracked block is the number of
  events queued for it (`Inv.counts`), so it leaves the range of `int` only with
  more than `2^31 - 1` events in the queue.
* The mutex is not modelled: every operation holds it from its first to its last
  statement, so operations do not interleave.
-/

namespace THC

/-- CUDA result codes: the two that the allocator tests for, and the others. -/
inductive cudaError_t where
  | cudaSuccess
  | cudaErrorNotReady
  | other (code : Nat)
  deriving DecidableEq, Repr

/-- The `struct BlockSize`: allocation size and host pointer. -/
structure BlockSize where
  size : Nat
  ptr : Nat
  deriving DecidableEq, Repr

/-- The `struct Block : public BlockSize`. -/
structure Block extends BlockSize where
  allocated : Bool
  event_count : Int
  deriving DecidableEq, Repr

/-- The constructor `Block(size, ptr, allocated)`: `event_count(0)`. -/
def Block.new (size ptr : Nat) (allocated : Bool) : Block :=
  ⟨⟨size, ptr⟩, allocated, 0⟩

/-- Sort by size, break ties with pointer. -/
def BlockComparator (a b : BlockSize) : Bool :=
  if a.size ≠ b.size then decide (a.size < b.size) else decide (a.ptr < b.ptr)

/-- The `std::set::insert` on the ascending list: nothing is inserted when an
equivalent element (neither less than the other) is present. -/
def set_insert (x : BlockSize) : List BlockSize → List BlockSize
  | [] => [x]
  | y :: l =>
    if BlockComparator x y then x :: y :: l
    else if BlockComparator y x then y :: set_insert x l
    else y :: l

/-- The `std::set::lower_bound`: the first element that is not less than the
key. -/
def lower_bound (l : List BlockSize) (key : BlockSize) : Option BlockSize :=
  l.find? (fun x => !BlockComparator x key)

/-- The `std::set::erase(it)` of the element `x` the iterator points to. -/
def set_erase (l : List BlockSize) (x : BlockSize) : List BlockSize :=
  l.filter (fun y => decide (y ≠ x))

/-- A write through a reference `Block&` obtained for the key `p`. -/
def blocks_set (blocks : Nat → Option Block) (p : Nat) (block : Block) : Nat → Option Block :=
  fun q => if q = p then some block else blocks q

/-- The `unordered_map::insert`: no effect when the key is present. -/
def blocks_insert (blocks : Nat → Option Block) (p : Nat) (block : Block) :
    Nat → Option Block :=
  match blocks p with
  | some _ => blocks
  | none => blocks_set blocks p block

/-- How an operation ends: it returns a `cudaError_t` (`cudaSuccess` for the
`void` function), or a `THAssert` fails, or `blocks.at` throws. -/
inductive Outcome where
  | returned (err : cudaError_t)
  | assertion_failed
  | out_of_range
  deriving DecidableEq, Repr

/-- The results of the CUDA runtime calls during one operation:
`cudaEventQuery(event)`, `cudaEventDestroy(event)`, `cudaHostAlloc(ptr, size)`
with the pointer it stores, `cudaEventCreateWithFlags(&event)` with the event
it stores, and `cudaEventRecord(event, stream)`.  The results of
`cudaFreeHost` and of the `cudaEventDestroy` in `emptyCache` are only passed to
`THCudaCheckWarn` and are left out. -/
structure Cuda where
  cudaEventQuery : Nat → cudaError_t
  cudaEventDestroy : Nat → cudaError_t
  cudaHostAlloc : Nat → cudaError_t × Nat
  cudaEventCreateWithFlags : cudaError_t × Nat
  cudaEventRecord : Nat → Nat → cudaError_t

/-- The data members of `struct HostAllocator`. -/
structure HostAllocator where
  blocks : Nat → Option Block
  available : List BlockSize
  cuda_events : List (Nat × Nat)

/-- The allocator after `HostAllocator()`. -/
def HostAllocator.empty : HostAllocator := ⟨fun _ => none, [], []⟩

/-- The `while (!cuda_events.empty())` loop of `processEvents` on the queue,
`blocks` and `available`. -/
def processEvents_loop (cuda : Cuda) :
    List (Nat × Nat) → (Nat → Option Block) → List BlockSize → Outcome × HostAllocator
  | [], blocks, available => (.returned .cudaSuccess, ⟨blocks, available, []⟩)
  | e :: rest, blocks, available =>
    if cuda.cudaEventQuery e.1 = .cudaErrorNotReady then
      (.returned .cudaSuccess, ⟨blocks, available, e :: rest⟩)
    else if cuda.cudaEventQuery e.1 ≠ .cudaSuccess then
      (.returned (cuda.cudaEventQuery e.1), ⟨blocks, available, e :: rest⟩)
    else if cuda.cudaEventDestroy e.1 ≠ .cudaSuccess then
      (.returned (cuda.cudaEventDestroy e.1), ⟨blocks, available, e :: rest⟩)
    else
      match blocks e.2 with
      | none => (.out_of_range, ⟨blocks, available, e :: rest⟩)
      | some block =>
        processEvents_loop cuda rest
          (blocks_set blocks e.2 { block with event_count := block.event_count - 1 })
          (if block.event_count - 1 = 0 ∧ block.allocated = false then
            set_insert block.toBlockSize available
          else available)

/-- The member function `processEvents`. -/
def processEvents (cuda : Cuda) (a : HostAllocator) : Outcome × HostAllocator :=
  processEvents_loop cuda a.cuda_events a.blocks a.available

/-- The member function `malloc`; the middle component is the pointer stored
in `*ptr`. -/
def malloc (cuda : Cuda) (a : HostAllocator) (size : Nat) :
    Outcome × Option Nat × HostAllocator :=
  let r := processEvents cuda a
  if r.1 ≠ .returned .cudaSuccess then (r.1, none, r.2)
  else
    match lower_bound r.2.available ⟨size, 0⟩ with
    | some it =>
      match r.2.blocks it.ptr with
      | none => (.out_of_range, none, r.2)
      | some block =>
        if block.allocated = false ∧ block.event_count = 0 then
          (.returned .cudaSuccess, some block.ptr,
            { r.2 with
              blocks := blocks_set r.2.blocks it.ptr { block with allocated := true }
              available := set_erase r.2.available it })
        else (.assertion_failed, none, r.2)
    | none =>
      if (cuda.cudaHostAlloc size).1 ≠ .cudaSuccess then
        (.returned (cuda.cudaHostAlloc size).1, none, r.2)
      else
        (.returned .cudaSuccess, some (cuda.cudaHostAlloc size).2,
          { r.2 with
            blocks := blocks_insert r.2.blocks (cuda.cudaHostAlloc size).2
              (Block.new size (cuda.cudaHostAlloc size).2 true) })

/-- The member function `free`. -/
def free (a : HostAllocator) (ptr : Nat) : Outcome × HostAllocator :=
  if ptr = 0 then (.returned .cudaSuccess, a)
  else
    match a.blocks ptr with
    | none => (.assertion_failed, a)
    | some block =>
      if block.allocated = false then (.assertion_failed, a)
      else
        (.returned .cudaSuccess,
          { a with
            blocks := blocks_set a.blocks ptr { block with allocated := false }
            available :=
              if block.event_count = 0 then set_insert block.toBlockSize a.available
              else a.available })

/-- The member function `recordEvent`.  The reference `block` is taken before
`processEvents` runs and is written after it, so the increment applies to the
block as `processEvents` left it. -/
def recordEvent (cuda : Cuda) (a : HostAllocator) (ptr stream : Nat) :
    Outcome × HostAllocator :=
  match a.blocks ptr with
  | none => (.returned .cudaSuccess, a)
  | some block0 =>
    if block0.allocated = false then (.assertion_failed, a)
    else
      let r := processEvents cuda a
      if r.1 ≠ .returned .cudaSuccess then r
      else if cuda.cudaEventCreateWithFlags.1 ≠ .cudaSuccess then
        (.returned cuda.cudaEventCreateWithFlags.1, r.2)
      else if cuda.cudaEventRecord cuda.cudaEventCreateWithFlags.2 stream ≠ .cudaSuccess then
        (.returned (cuda.cudaEventRecord cuda.cudaEventCreateWithFlags.2 stream), r.2)
      else
        (.returned .cudaSuccess,
          { r.2 with
            blocks := fun q =>
              if q = ptr then
                (r.2.blocks q).map (fun block =>
                  { block with event_count := block.event_count + 1 })
              else r.2.blocks q
            cuda_events := r.2.cuda_events ++ [(cuda.cudaEventCreateWithFlags.2, ptr)] })

/-- The first loop of `emptyCache`: the events of blocks that are not allocated
are dropped and counted down, the others are kept in order. -/
def emptyCache_loop :
    List (Nat × Nat) → (Nat → Option Block) →
      Outcome × (Nat → Option Block) × List (Nat × Nat)
  | [], blocks => (.returned .cudaSuccess, blocks, [])
  | e :: rest, blocks =>
    match blocks e.2 with
    | none => (.out_of_range, blocks, [])
    | some block =>
      if block.allocated = false then
        emptyCache_loop rest
          (blocks_set blocks e.2 { block with event_count := block.event_count - 1 })
      else
        ((emptyCache_loop rest blocks).1, (emptyCache_loop rest blocks).2.1,
          e :: (emptyCache_loop rest blocks).2.2)

/-- The member function `emptyCache`: after the first loop the queue is swapped,
`available` is cleared and the blocks that are not allocated are erased. -/
def emptyCache (a : HostAllocator) : Outcome × HostAllocator :=
  if (emptyCache_loop a.cuda_events a.blocks).1 ≠ .returned .cudaSuccess then
    ((emptyCache_loop a.cuda_events a.blocks).1,
      { a with blocks := (emptyCache_loop a.cuda_events a.blocks).2.1 })
  else
    (.returned .cudaSuccess,
      ⟨fun p =>
        match (emptyCache_loop a.cuda_events a.blocks).2.1 p with
        | none => none
        | some block => if block.allocated = false then none else some block,
        [], (emptyCache_loop a.cuda_events a.blocks).2.2⟩)

/-- One call of an operation of the allocator. -/
inductive Op where
  | malloc (cuda : Cuda) (size : Nat)
  | free (ptr : Nat)
  | recordEvent (cuda : Cuda) (ptr stream : Nat)
  | processEvents (cuda : Cuda)
  | emptyCache

/-- The allocator after the operation. -/
def Op.apply (a : HostAllocator) : Op → HostAllocator
  | .malloc cuda size => (THC.malloc cuda a size).2.2
  | .free ptr => (THC.free a ptr).2
  | .recordEvent cuda ptr stream => (THC.recordEvent cuda a ptr stream).2
  | .processEvents cuda => (THC.processEvents cuda a).2
  | .emptyCache => (THC.emptyCache a).2

/-- The allocator after a sequence of operations, the first one first. -/
def run (ops : List Op) (a : HostAllocator) : HostAllocator :=
  ops.foldl Op.apply a

/-- The set `available` holds exactly the tracked blocks that are not allocated
and have `event_count` 0. -/
def AvailOk (blocks : Nat → Option Block) (available : List BlockSize) : Prop :=
  ∀ x, x ∈ available ↔
    ∃ block, blocks x.ptr = some block ∧ block.toBlockSize = x ∧
      block.allocated = false ∧ block.event_count = 0

/-- What holds of the allocator between operations. -/
structure Inv (a : HostAllocator) : Prop where
  key_ptr : ∀ p block, a.blocks p = some block → block.ptr = p
  avail : AvailOk a.blocks a.available
  counts : ∀ p block, a.blocks p = some block →
    block.event_count = ((a.cuda_events.map Prod.snd).count p : Nat)
  tracked : ∀ e ∈ a.cuda_events, ∃ block, a.blocks e.2 = some block
  sorted : a.available.Pairwise (fun x y => BlockComparator x y = true)

/-- A runtime in which every queried event has completed and `cudaHostAlloc`
gives the pointer `100 + size`. -/
def cuda_ready : Cuda where
  cudaEventQuery := fun _ => .cudaSuccess
  cudaEventDestroy := fun _ => .cudaSuccess
  cudaHostAlloc := fun size => (.cudaSuccess, 100 + size)
  cudaEventCreateWithFlags := (.cudaSuccess, 1)
  cudaEventRecord := fun _ _ => .cudaSuccess

/-- A runtime in which no queried event has completed yet. -/
def cuda_busy : Cuda where
  cudaEventQuery := fun _ => .cudaErrorNotReady
  cudaEventDestroy := fun _ => .cudaSuccess
  cudaHostAlloc := fun size => (.cudaSuccess, 100 + size)
  cudaEventCreateWithFlags := (.cudaSuccess, 1)
  cudaEventRecord := fun _ _ => .cudaSuccess

end THC

namespace Autograd

/-! ## Containers -/

theorem Map.find_erase_self {V : Type} (m : Map V) (k : FnId) :
    Map.find (Map.erase m k) k = none := by
  induction m with
  | nil => rfl
  | cons p m ih =>
    obtain ⟨k', v⟩ := p
    by_cases h : k' = k
    · simpa [Map.erase, h] using ih
    · simpa [Map.erase, Map.find, h] using ih

theorem Map.find_erase_ne {V : Type} (m : Map V) {k k' : FnId} (h : k' ≠ k) :
    Map.find (Map.erase m k) k' = Map.find m k' := by
  induction m with
  | nil => rfl
  | cons p m ih =>
    obtain ⟨k0, v⟩ := p
    by_cases h0 : k0 = k
    · subst h0
      have : ¬ k0 = k' := fun e => h e.symm
      simpa [Map.erase, Map.find, this] using ih
    · by_cases h1 : k0 = k'
      · subst h1
        simp [Map.erase, Map.find, h0]
      · simpa [Map.erase, Map.find, h0, h1] using ih

theorem Map.find_insert_self {V : Type} (m : Map V) (k : FnId) (v : V) :
    Map.find (Map.insert m k v) k = some v := by
  simp [Map.insert, Map.find]

theorem Map.find_insert_ne {V : Type} (m : Map V) {k k' : FnId} (v : V) (h : k' ≠ k) :
    Map.find (Map.insert m k v) k' = Map.find m k' := by
  have : ¬ k = k' := fun e => h e.symm
  simp [Map.insert, Map.find, this, Map.find_erase_ne m h]

theorem Map.find_eq_none_iff {V : Type} (m : Map V) (k : FnId) :
    Map.find m k = none ↔ k ∉ Map.keys m := by
  induction m with
  | nil => simp [Map.find, Map.keys]
  | cons p m ih =>
    obtain ⟨k0, v⟩ := p
    by_cases h0 : k0 = k
    · simp [Map.find, Map.keys, h0]
    · have h1 : ¬ k = k0 := fun e => h0 e.symm
      simp only [Map.find, h0, if_false, ih]
      simp [Map.keys, h1]

theorem buffer_set_type.mem_insert (s : buffer_set_type) (k x : Nat × Nat) :
    x ∈ s.insert k ↔ x = k ∨ x ∈ s := by
  unfold buffer_set_type.insert
  by_cases h : k ∈ s
  · simp only [h, if_true]
    constructor
    · exact fun hx => Or.inr hx
    · rintro (rfl | hx)
      · exact h
      · exact hx
  · simp [h]

theorem buffer_set_type.mem_erase (s : buffer_set_type) (k x : Nat × Nat) :
    x ∈ s.erase k ↔ x ∈ s ∧ x ≠ k := by
  simp [buffer_set_type.erase]

theorem dependencies_type.count_insert_self (d : dependencies_type) (k : FnId) (v : Int) :
    dependencies_type.count (Map.insert d k v) k = v := by
  simp [dependencies_type.count, Map.find_insert_self]

theorem dependencies_type.count_insert_ne (d : dependencies_type) {k k' : FnId} (v : Int)
    (h : k' ≠ k) :
    dependencies_type.count (Map.insert d k v) k' = dependencies_type.count d k' := by
  simp [dependencies_type.count, Map.find_insert_ne d v h]

/-! ## `THPEngine_add_grad` -/

theorem add_grad_empty {G : Type} [Add G] (need_copy : buffer_set_type)
    (buf : grad_buffer_type G) (slot : Nat) (d : GradRef G)
    (h : buf.slots[slot]? = some none) :
    THPEngine_add_grad need_copy buf slot d =
      ([], .ok (need_copy.insert (buf.buffer_id, slot),
                { buf with slots := buf.slots.set slot (some d) })) := by
  simp [THPEngine_add_grad, h]

theorem add_grad_shared {G : Type} [Add G] (need_copy : buffer_set_type)
    (buf : grad_buffer_type G) (slot : Nat) (d cur : GradRef G) (c r : PyObject G)
    (h : buf.slots[slot]? = some (some cur)) (hm : (buf.buffer_id, slot) ∈ need_copy)
    (hc : py_clone cur.obj = some c) (ha : py_add_ c d.obj = some r) :
    THPEngine_add_grad need_copy buf slot d =
      ([.clone (buf.buffer_id, slot) cur, .add_ (buf.buffer_id, slot) ⟨c, .cloned⟩ d.obj],
        .ok (need_copy.erase (buf.buffer_id, slot),
             { buf with slots := buf.slots.set slot (some ⟨r, .cloned⟩) })) := by
  simp [THPEngine_add_grad, h, hm, hc, ha]

theorem add_grad_owned {G : Type} [Add G] (need_copy : buffer_set_type)
    (buf : grad_buffer_type G) (slot : Nat) (d cur : GradRef G) (r : PyObject G)
    (h : buf.slots[slot]? = some (some cur)) (hm : (buf.buffer_id, slot) ∉ need_copy)
    (ha : py_add_ cur.obj d.obj = some r) :
    THPEngine_add_grad need_copy buf slot d =
      ([.add_ (buf.buffer_id, slot) cur d.obj],
        .ok (need_copy,
             { buf with slots := buf.slots.set slot (some ⟨r, cur.origin⟩) })) := by
  simp [THPEngine_add_grad, h, hm, ha]

/-- Whatever the case, a successful `THPEngine_add_grad` only rewrites the slot
it was given and only touches the mark of that slot. -/
theorem add_grad_frame {G : Type} [Add G] (need_copy : buffer_set_type)
    (buf : grad_buffer_type G) (slot : Nat) (d : GradRef G)
    (nc : buffer_set_type) (b : grad_buffer_type G)
    (h : (THPEngine_add_grad need_copy buf slot d).2 = .ok (nc, b)) :
    b.buffer_id = buf.buffer_id ∧ b.slots.length = buf.slots.length ∧
    (∀ j, j ≠ slot → b.slots[j]? = buf.slots[j]?) ∧
    (∀ k, k ≠ (buf.buffer_id, slot) → (k ∈ nc ↔ k ∈ need_copy)) := by
  have hset : ∀ (x : Option (GradRef G)) (j : Nat), j ≠ slot →
      (buf.slots.set slot x)[j]? = buf.slots[j]? := by
    intro x j hj
    simp [List.getElem?_set_ne (Ne.symm hj)]
  rcases hs : buf.slots[slot]? with _ | _ | cur
  · simp [THPEngine_add_grad, hs] at h
  · simp only [THPEngine_add_grad, hs, Except.ok.injEq, Prod.mk.injEq] at h
    obtain ⟨rfl, rfl⟩ := h
    refine ⟨rfl, by simp, fun j hj => hset _ j hj, fun k hk => ?_⟩
    rw [buffer_set_type.mem_insert]
    simp [hk]
  · by_cases hm : (buf.buffer_id, slot) ∈ need_copy
    · rcases hc : py_clone cur.obj with _ | c
      · simp [THPEngine_add_grad, hs, hm, hc] at h
      · rcases ha : py_add_ c d.obj with _ | r
        · simp [THPEngine_add_grad, hs, hm, hc, ha] at h
        · simp only [THPEngine_add_grad, hs, hm, hc, ha, if_true, Except.ok.injEq,
            Prod.mk.injEq] at h
          obtain ⟨rfl, rfl⟩ := h
          refine ⟨rfl, by simp, fun j hj => hset _ j hj, fun k hk => ?_⟩
          rw [buffer_set_type.mem_erase]
          simp [hk]
    · rcases ha : py_add_ cur.obj d.obj with _ | r
      · simp [THPEngine_add_grad, hs, hm, ha] at h
      · simp only [THPEngine_add_grad, hs, hm, ha, if_false, Except.ok.injEq,
          Prod.mk.injEq] at h
        obtain ⟨rfl, rfl⟩ := h
        exact ⟨rfl, by simp, fun j hj => hset _ j hj, fun k _ => Iff.rfl⟩

end Autograd

namespace Autograd

theorem tensorBuf_new {G : Type} (id n : Nat) :
    TensorBuf (grad_buffer_type.new id n : grad_buffer_type G) := by
  intro j r h
  simp [grad_buffer_type.new, List.getElem?_replicate] at h

theorem tensorBuf_set {G : Type} (buf : grad_buffer_type G) (h : TensorBuf buf) (t : Nat)
    (a : G) (o : Origin) :
    TensorBuf { buf with slots := buf.slots.set t (some ⟨.Tensor a, o⟩) } := by
  intro j r hj
  by_cases e : t = j
  · subst e
    by_cases hl : t < buf.slots.length
    · simp only [List.getElem?_set, if_true, hl, Option.some.injEq] at hj
      exact ⟨a, by rw [← hj]⟩
    · have : (buf.slots.set t (some ⟨.Tensor a, o⟩))[t]? = none := by
        simp [List.getElem?_eq_none, Nat.le_of_not_lt hl]
      simp [this] at hj
  · simp only [List.getElem?_set_ne e] at hj
    exact h j r hj

theorem count_nil {G : Type} (key : Nat × Nat) :
    clone_count key ([] : List (Event G)) = 0 ∧ add_count key ([] : List (Event G)) = 0 := by
  simp [clone_count, add_count]

theorem clone_count_append {G : Type} (key : Nat × Nat) (a b : List (Event G)) :
    clone_count key (a ++ b) = clone_count key a + clone_count key b := by
  simp [clone_count]

theorem add_count_append {G : Type} (key : Nat × Nat) (a b : List (Event G)) :
    add_count key (a ++ b) = add_count key a + add_count key b := by
  simp [add_count]

/-- One `THPEngine_add_grad` call with a tensor into a buffer of tensors. -/
theorem add_grad_tensor_step {G : Type} [Add G] (nc : buffer_set_type)
    (buf : grad_buffer_type G) (t : Nat) (x : G) (o : Origin)
    (hb : TensorBuf buf) (ht : t < buf.slots.length) :
    ∃ evs nc1 b1, THPEngine_add_grad nc buf t ⟨.Tensor x, o⟩ = (evs, .ok (nc1, b1)) ∧
      TensorBuf b1 ∧ b1.buffer_id = buf.buffer_id ∧ b1.slots.length = buf.slots.length ∧
      (∀ j, j ≠ t → b1.slots[j]? = buf.slots[j]?) ∧
      (∀ k, k ≠ (buf.buffer_id, t) → (k ∈ nc1 ↔ k ∈ nc)) ∧
      (∀ k, k ≠ (buf.buffer_id, t) → clone_count k evs = 0 ∧ add_count k evs = 0) ∧
      (buf.slots[t]? = some none →
        evs = [] ∧ (buf.buffer_id, t) ∈ nc1 ∧ b1.slots[t]? = some (some ⟨.Tensor x, o⟩)) ∧
      (∀ a oc, buf.slots[t]? = some (some ⟨.Tensor a, oc⟩) → (buf.buffer_id, t) ∈ nc →
        clone_count (buf.buffer_id, t) evs = 1 ∧ add_count (buf.buffer_id, t) evs = 1 ∧
        (buf.buffer_id, t) ∉ nc1 ∧ b1.slots[t]? = some (some ⟨.Tensor (a + x), .cloned⟩)) ∧
      (∀ a oc, buf.slots[t]? = some (some ⟨.Tensor a, oc⟩) → (buf.buffer_id, t) ∉ nc →
        clone_count (buf.buffer_id, t) evs = 0 ∧ add_count (buf.buffer_id, t) evs = 1 ∧
        (buf.buffer_id, t) ∉ nc1 ∧ b1.slots[t]? = some (some ⟨.Tensor (a + x), oc⟩)) := by
  have hset : ∀ (y : Option (GradRef G)) (j : Nat), j ≠ t →
      (buf.slots.set t y)[j]? = buf.slots[j]? := by
    intro y j hj
    simp [List.getElem?_set_ne (Ne.symm hj)]
  have hself : ∀ (y : Option (GradRef G)), (buf.slots.set t y)[t]? = some y := by
    intro y
    simp [List.getElem?_set, ht]
  have hne : ∀ (k : Nat × Nat) (k0 : Nat × Nat) (c : GradRef G) (p : PyObject G),
      k ≠ k0 → clone_count k [Event.clone k0 c] = 0 ∧ add_count k [Event.add_ k0 c p] = 0
        ∧ clone_count k [Event.add_ k0 c p] = 0 ∧ add_count k [Event.clone k0 c] = 0 := by
    intro k k0 c p hk
    have : ¬ k0 = k := fun e => hk e.symm
    simp [clone_count, add_count, this]
  rcases hs : buf.slots[t]? with _ | _ | cur
  · simp at hs
    omega
  · refine ⟨[], nc.insert (buf.buffer_id, t), _, add_grad_empty nc buf t _ hs,
      tensorBuf_set buf hb t x o, rfl, by simp, fun j hj => hset _ j hj, ?_, ?_, ?_, ?_, ?_⟩
    · intro k hk
      rw [buffer_set_type.mem_insert]
      simp [hk]
    · intro k _
      exact count_nil k
    · intro _
      refine ⟨rfl, ?_, hself _⟩
      rw [buffer_set_type.mem_insert]
      exact Or.inl rfl
    · intro a oc h
      simp at h
    · intro a oc h
      simp at h
  · obtain ⟨a, ha⟩ := hb t cur hs
    obtain ⟨cobj, co⟩ := cur
    simp only at ha
    subst ha
    by_cases hm : (buf.buffer_id, t) ∈ nc
    · refine ⟨_, _, _, add_grad_shared nc buf t _ _ (.Tensor a) (.Tensor (a + x)) hs hm rfl rfl,
        tensorBuf_set buf hb t (a + x) .cloned, rfl, by simp, fun j hj => hset _ j hj,
        ?_, ?_, ?_, ?_, ?_⟩
      · intro k hk
        rw [buffer_set_type.mem_erase]
        simp [hk]
      · intro k hk
        have : ¬ (buf.buffer_id, t) = k := fun e => hk e.symm
        simp [clone_count, add_count, this]
      · intro h
        simp at h
      · intro a1 oc h _
        simp only [Option.some.injEq, GradRef.mk.injEq, PyObject.Tensor.injEq] at h
        obtain ⟨rfl, rfl⟩ := h
        refine ⟨by simp [clone_count], by simp [add_count], ?_, hself _⟩
        rw [buffer_set_type.mem_erase]
        simp
      · intro a1 oc _ hnm
        exact absurd hm hnm
    · refine ⟨_, _, _, add_grad_owned nc buf t _ _ (.Tensor (a + x)) hs hm rfl,
        tensorBuf_set buf hb t (a + x) co, rfl, by simp, fun j hj => hset _ j hj,
        fun k _ => Iff.rfl, ?_, ?_, ?_, ?_⟩
      · intro k hk
        have : ¬ (buf.buffer_id, t) = k := fun e => hk e.symm
        simp [clone_count, add_count, this]
      · intro h
        simp at h
      · intro a1 oc _ hm1
        exact absurd hm1 hm
      · intro a1 oc h _
        simp only [Option.some.injEq, GradRef.mk.injEq, PyObject.Tensor.injEq] at h
        obtain ⟨rfl, rfl⟩ := h
        exact ⟨by simp [clone_count], by simp [add_count], hm, hself _⟩

/-- C7: `THPEngine_add_grad` is a three-case state machine.  On an empty slot it
stores the incoming gradient itself, calls neither `clone` nor `add_`, and marks
the slot; on an occupied marked slot it clones the content, adds the gradient
into the clone, stores the result and clears the mark; on an occupied unmarked
slot it adds the gradient into the content without cloning and leaves the mark
cleared.  Whenever it succeeds, the other slots of the buffer, the buffer id and
the marks of all other slots are unchanged. -/
theorem add_grad_three_cases {G : Type} [Add G] (need_copy : buffer_set_type)
    (buf : grad_buffer_type G) (slot : Nat) (d : GradRef G) :
    (buf.slots[slot]? = some none →
      THPEngine_add_grad need_copy buf slot d =
        ([], .ok (need_copy.insert (buf.buffer_id, slot),
                  { buf with slots := buf.slots.set slot (some d) })) ∧
      (buf.buffer_id, slot) ∈ need_copy.insert (buf.buffer_id, slot)) ∧
    (∀ cur c r, buf.slots[slot]? = some (some cur) → (buf.buffer_id, slot) ∈ need_copy →
      py_clone cur.obj = some c → py_add_ c d.obj = some r →
      THPEngine_add_grad need_copy buf slot d =
        ([.clone (buf.buffer_id, slot) cur, .add_ (buf.buffer_id, slot) ⟨c, .cloned⟩ d.obj],
          .ok (need_copy.erase (buf.buffer_id, slot),
               { buf with slots := buf.slots.set slot (some ⟨r, .cloned⟩) })) ∧
      (buf.buffer_id, slot) ∉ need_copy.erase (buf.buffer_id, slot)) ∧
    (∀ cur r, buf.slots[slot]? = some (some cur) → (buf.buffer_id, slot) ∉ need_copy →
      py_add_ cur.obj d.obj = some r →
      THPEngine_add_grad need_copy buf slot d =
        ([.add_ (buf.buffer_id, slot) cur d.obj],
          .ok (need_copy, { buf with slots := buf.slots.set slot (some ⟨r, cur.origin⟩) }))) ∧
    (∀ nc b, (THPEngine_add_grad need_copy buf slot d).2 = .ok (nc, b) →
      b.buffer_id = buf.buffer_id ∧ b.slots.length = buf.slots.length ∧
      (∀ j, j ≠ slot → b.slots[j]? = buf.slots[j]?) ∧
      (∀ k, k ≠ (buf.buffer_id, slot) → (k ∈ nc ↔ k ∈ need_copy))) := by
  refine ⟨fun h => ⟨add_grad_empty need_copy buf slot d h, ?_⟩,
    fun cur c r h hm hc ha => ⟨add_grad_shared need_copy buf slot d cur c r h hm hc ha, ?_⟩,
    fun cur r h hm ha => add_grad_owned need_copy buf slot d cur r h hm ha,
    fun nc b h => add_grad_frame need_copy buf slot d nc b h⟩
  · rw [buffer_set_type.mem_insert]
    exact Or.inl rfl
  · rw [buffer_set_type.mem_erase]
    simp

/-- Writes of tensors into a slot that already holds the tensor `a`. -/
theorem add_grad_all_occupied {G : Type} [AddCommMonoid G] (slot : Nat) (o : Origin) :
    ∀ (l : List G) (nc : buffer_set_type) (buf : grad_buffer_type G) (a : G) (oc : Origin),
      buf.slots[slot]? = some (some ⟨.Tensor a, oc⟩) →
      ∃ nc1 b1, (add_grad_all nc buf (l.map (fun x => (slot, ⟨.Tensor x, o⟩)))).2 = .ok (nc1, b1) ∧
        b1.value slot = some (some (.Tensor (a + l.sum))) := by
  intro l
  induction l with
  | nil =>
    intro nc buf a oc h
    exact ⟨nc, buf, rfl, by simp [grad_buffer_type.value, h]⟩
  | cons x l ih =>
    intro nc buf a oc h
    have hlt : slot < buf.slots.length := by
      by_contra hc
      have : buf.slots[slot]? = none := by simp [List.getElem?_eq_none, Nat.le_of_not_lt hc]
      simp [this] at h
    have hself : ∀ (y : Option (GradRef G)), (buf.slots.set slot y)[slot]? = some y := by
      intro y
      simp [List.getElem?_set, hlt]
    by_cases hm : (buf.buffer_id, slot) ∈ nc
    · have e := add_grad_shared nc buf slot ⟨.Tensor x, o⟩ ⟨.Tensor a, oc⟩ (.Tensor a)
        (.Tensor (a + x)) h hm rfl rfl
      obtain ⟨nc1, b1, h1, h2⟩ := ih (nc.erase (buf.buffer_id, slot))
        { buf with slots := buf.slots.set slot (some ⟨.Tensor (a + x), .cloned⟩) } (a + x) .cloned
        (hself _)
      refine ⟨nc1, b1, ?_, ?_⟩
      · simp only [List.map_cons, add_grad_all, e]
        exact h1
      · rw [h2, List.sum_cons, add_assoc]
    · have e := add_grad_owned nc buf slot ⟨.Tensor x, o⟩ ⟨.Tensor a, oc⟩
        (.Tensor (a + x)) h hm rfl
      obtain ⟨nc1, b1, h1, h2⟩ := ih nc
        { buf with slots := buf.slots.set slot (some ⟨.Tensor (a + x), oc⟩) } (a + x) oc
        (hself _)
      refine ⟨nc1, b1, ?_, ?_⟩
      · simp only [List.map_cons, add_grad_all, e]
        exact h1
      · rw [h2, List.sum_cons, add_assoc]

theorem add_grad_all_from_empty {G : Type} [AddCommMonoid G] (need_copy : buffer_set_type)
    (buf : grad_buffer_type G) (slot : Nat) (l : List G)
    (hempty : buf.slots[slot]? = some none) (hne : l ≠ []) :
    ∃ nc b, (add_grad_all need_copy buf
        (l.map (fun a => (slot, (⟨.Tensor a, .returned⟩ : GradRef G))))).2 = .ok (nc, b) ∧
      b.value slot = some (some (.Tensor l.sum)) := by
  cases l with
  | nil => exact absurd rfl hne
  | cons x l =>
    have hlt : slot < buf.slots.length := by
      by_contra hc
      have : buf.slots[slot]? = none := by simp [List.getElem?_eq_none, Nat.le_of_not_lt hc]
      simp [this] at hempty
    have e := add_grad_empty need_copy buf slot ⟨.Tensor x, .returned⟩ hempty
    obtain ⟨nc1, b1, h1, h2⟩ := add_grad_all_occupied slot .returned l
      (need_copy.insert (buf.buffer_id, slot))
      { buf with slots := buf.slots.set slot (some ⟨.Tensor x, .returned⟩) } x .returned
      (by simp [List.getElem?_set, hlt])
    refine ⟨nc1, b1, ?_, ?_⟩
    · simp only [List.map_cons, add_grad_all, e, List.nil_append]
      exact h1
    · rw [h2, List.sum_cons]

/-- C8: successive `THPEngine_add_grad` calls with the tensors of a non-empty
list `l` into an initially empty slot all succeed and leave in the slot the
tensor whose value is the sum of `l`; the same holds for every permutation of
`l`, so the final value does not depend on the order of the writes. -/
theorem add_grad_all_sum {G : Type} [AddCommMonoid G] (need_copy : buffer_set_type)
    (buf : grad_buffer_type G) (slot : Nat) (l : List G)
    (hempty : buf.slots[slot]? = some none) (hne : l ≠ []) :
    (∃ nc b, (add_grad_all need_copy buf
        (l.map (fun a => (slot, (⟨.Tensor a, .returned⟩ : GradRef G))))).2 = .ok (nc, b) ∧
      b.value slot = some (some (.Tensor l.sum))) ∧
    ∀ l1 : List G, l1.Perm l →
      ∃ nc b, (add_grad_all need_copy buf
          (l1.map (fun a => (slot, (⟨.Tensor a, .returned⟩ : GradRef G))))).2 = .ok (nc, b) ∧
        b.value slot = some (some (.Tensor l.sum)) := by
  refine ⟨add_grad_all_from_empty need_copy buf slot l hempty hne, fun l1 hp => ?_⟩
  have hne1 : l1 ≠ [] := by
    intro e
    subst e
    exact hne (List.Perm.nil_eq hp).symm
  obtain ⟨nc, b, h1, h2⟩ := add_grad_all_from_empty need_copy buf slot l1 hempty hne1
  exact ⟨nc, b, h1, by rw [h2, hp.sum_eq]⟩

theorem add_grad_all_sum_witness :
    (∃ nc b, (add_grad_all [] (grad_buffer_type.new 7 2 : grad_buffer_type Int)
        (([3, 4, 5] : List Int).map (fun a => (1, (⟨.Tensor a, .returned⟩ : GradRef Int))))).2
          = .ok (nc, b) ∧
      b.value 1 = some (some (.Tensor ([3, 4, 5] : List Int).sum))) ∧
    ∀ l1 : List Int, l1.Perm [3, 4, 5] →
      ∃ nc b, (add_grad_all [] (grad_buffer_type.new 7 2 : grad_buffer_type Int)
          (l1.map (fun a => (1, (⟨.Tensor a, .returned⟩ : GradRef Int))))).2 = .ok (nc, b) ∧
        b.value 1 = some (some (.Tensor ([3, 4, 5] : List Int).sum)) :=
  add_grad_all_sum [] (grad_buffer_type.new 7 2) 1 [3, 4, 5] (by decide) (by decide)

end Autograd

namespace Autograd

/-- Counting lemma behind C9: `clone` and `add_` calls logged for slot `s` by a
run of writes, according to the state of the slot at the start. -/
theorem add_grad_all_counts {G : Type} [Add G] (s : Nat) :
    ∀ (writes : List (Nat × G)) (nc : buffer_set_type) (buf : grad_buffer_type G),
      TensorBuf buf → (∀ w ∈ writes, w.1 < buf.slots.length) → s < buf.slots.length →
      (∃ st, (add_grad_all nc buf
          (writes.map (fun w => (w.1, (⟨.Tensor w.2, .returned⟩ : GradRef G))))).2 = .ok st) ∧
      (buf.slots[s]? = some none →
        clone_count (buf.buffer_id, s) (add_grad_all nc buf
          (writes.map (fun w => (w.1, (⟨.Tensor w.2, .returned⟩ : GradRef G))))).1
          = (if 2 ≤ (writes.filter (fun w => decide (w.1 = s))).length then 1 else 0) ∧
        add_count (buf.buffer_id, s) (add_grad_all nc buf
          (writes.map (fun w => (w.1, (⟨.Tensor w.2, .returned⟩ : GradRef G))))).1
          = (writes.filter (fun w => decide (w.1 = s))).length - 1) ∧
      (∀ cur, buf.slots[s]? = some (some cur) → (buf.buffer_id, s) ∈ nc →
        clone_count (buf.buffer_id, s) (add_grad_all nc buf
          (writes.map (fun w => (w.1, (⟨.Tensor w.2, .returned⟩ : GradRef G))))).1
          = (if 1 ≤ (writes.filter (fun w => decide (w.1 = s))).length then 1 else 0) ∧
        add_count (buf.buffer_id, s) (add_grad_all nc buf
          (writes.map (fun w => (w.1, (⟨.Tensor w.2, .returned⟩ : GradRef G))))).1
          = (writes.filter (fun w => decide (w.1 = s))).length) ∧
      (∀ cur, buf.slots[s]? = some (some cur) → (buf.buffer_id, s) ∉ nc →
        clone_count (buf.buffer_id, s) (add_grad_all nc buf
          (writes.map (fun w => (w.1, (⟨.Tensor w.2, .returned⟩ : GradRef G))))).1 = 0 ∧
        add_count (buf.buffer_id, s) (add_grad_all nc buf
          (writes.map (fun w => (w.1, (⟨.Tensor w.2, .returned⟩ : GradRef G))))).1
          = (writes.filter (fun w => decide (w.1 = s))).length) := by
  intro writes
  induction writes with
  | nil =>
    intro nc buf _ _ _
    simp [add_grad_all, clone_count, add_count]
  | cons w writes ih =>
    intro nc buf hb hw hs
    obtain ⟨t, x⟩ := w
    have ht : t < buf.slots.length := hw (t, x) (List.mem_cons_self _ _)
    obtain ⟨evs, nc1, b1, hstep, hb1, hid, hlen, hother, hmarks, hcnt, hE, hS, hO⟩ :=
      add_grad_tensor_step nc buf t x .returned hb ht
    have hw1 : ∀ w ∈ writes, w.1 < b1.slots.length := by
      intro w1 hw1
      rw [hlen]
      exact hw w1 (List.mem_cons_of_mem _ hw1)
    obtain ⟨hok, hE1, hS1, hO1⟩ := ih nc1 b1 hb1 hw1 (by rw [hlen]; exact hs)
    have hrun : add_grad_all nc buf
        (((t, x) :: writes).map (fun w => (w.1, (⟨.Tensor w.2, .returned⟩ : GradRef G))))
        = (evs ++ (add_grad_all nc1 b1
            (writes.map (fun w => (w.1, (⟨.Tensor w.2, .returned⟩ : GradRef G))))).1,
           (add_grad_all nc1 b1
            (writes.map (fun w => (w.1, (⟨.Tensor w.2, .returned⟩ : GradRef G))))).2) := by
      simp only [List.map_cons, add_grad_all, hstep]
    rw [hrun]
    simp only [clone_count_append, add_count_append]
    rw [hid] at hE1 hS1 hO1
    refine ⟨hok, ?_, ?_, ?_⟩
    · intro hempty
      by_cases hts : t = s
      · subst hts
        obtain ⟨hev, hmem, hslot⟩ := hE hempty
        obtain ⟨c1, c2⟩ := hS1 _ hslot hmem
        rw [c1, c2, hev]
        simp [clone_count, add_count]
      · have hk : (buf.buffer_id, s) ≠ (buf.buffer_id, t) := by
          intro e
          exact hts (Prod.mk.inj e).2.symm
        obtain ⟨z1, z2⟩ := hcnt _ hk
        have hslot : b1.slots[s]? = some none := by
          rw [hother s (Ne.symm hts)]
          exact hempty
        obtain ⟨c1, c2⟩ := hE1 hslot
        rw [c1, c2, z1, z2]
        simp [hts]
    · intro cur hcur hm
      obtain ⟨a, ha⟩ := hb s cur hcur
      obtain ⟨cobj, co⟩ := cur
      simp only at ha
      subst ha
      by_cases hts : t = s
      · subst hts
        obtain ⟨e1, e2, hnm, hslot⟩ := hS a co hcur hm
        obtain ⟨c1, c2⟩ := hO1 _ hslot hnm
        rw [c1, c2, e1, e2]
        simp
        omega
      · have hk : (buf.buffer_id, s) ≠ (buf.buffer_id, t) := by
          intro e
          exact hts (Prod.mk.inj e).2.symm
        obtain ⟨z1, z2⟩ := hcnt _ hk
        have hslot : b1.slots[s]? = some (some ⟨.Tensor a, co⟩) := by
          rw [hother s (Ne.symm hts)]
          exact hcur
        obtain ⟨c1, c2⟩ := hS1 _ hslot ((hmarks _ hk).2 hm)
        rw [c1, c2, z1, z2]
        simp [hts]
    · intro cur hcur hm
      obtain ⟨a, ha⟩ := hb s cur hcur
      obtain ⟨cobj, co⟩ := cur
      simp only at ha
      subst ha
      by_cases hts : t = s
      · subst hts
        obtain ⟨e1, e2, hnm, hslot⟩ := hO a co hcur hm
        obtain ⟨c1, c2⟩ := hO1 _ hslot hnm
        rw [c1, c2, e1, e2]
        simp
        omega
      · have hk : (buf.buffer_id, s) ≠ (buf.buffer_id, t) := by
          intro e
          exact hts (Prod.mk.inj e).2.symm
        obtain ⟨z1, z2⟩ := hcnt _ hk
        have hslot : b1.slots[s]? = some (some ⟨.Tensor a, co⟩) := by
          rw [hother s (Ne.symm hts)]
          exact hcur
        have hnm1 : (buf.buffer_id, s) ∉ nc1 := fun h1 => hm ((hmarks _ hk).1 h1)
        obtain ⟨c1, c2⟩ := hO1 _ hslot hnm1
        rw [c1, c2, z1, z2]
        simp [hts]

/-- C9: in a buffer created with `n` empty slots, any sequence of `add_grad`
writes of tensors (to arbitrary slots of the buffer, in any interleaving)
succeeds, and for each slot `s` that received `k` of the writes the number of
`clone` calls made for `s` is `0` when `k ≤ 1` and `1` when `k ≥ 2`, and the
number of `add_` calls made for `s` is `k - 1`. -/
theorem add_grad_clone_count {G : Type} [Add G] (need_copy : buffer_set_type) (id n : Nat)
    (writes : List (Nat × G)) (s : Nat)
    (hw : ∀ w ∈ writes, w.1 < n) (hs : s < n) :
    (∃ st, (add_grad_all need_copy (grad_buffer_type.new id n)
        (writes.map (fun w => (w.1, (⟨.Tensor w.2, .returned⟩ : GradRef G))))).2 = .ok st) ∧
    clone_count (id, s) (add_grad_all need_copy (grad_buffer_type.new id n)
        (writes.map (fun w => (w.1, (⟨.Tensor w.2, .returned⟩ : GradRef G))))).1
      = (if 2 ≤ (writes.filter (fun w => decide (w.1 = s))).length then 1 else 0) ∧
    add_count (id, s) (add_grad_all need_copy (grad_buffer_type.new id n)
        (writes.map (fun w => (w.1, (⟨.Tensor w.2, .returned⟩ : GradRef G))))).1
      = (writes.filter (fun w => decide (w.1 = s))).length - 1 := by
  have hlen : (grad_buffer_type.new id n : grad_buffer_type G).slots.length = n := by
    simp [grad_buffer_type.new]
  obtain ⟨hok, hE, _, _⟩ := add_grad_all_counts s writes need_copy
    (grad_buffer_type.new id n : grad_buffer_type G) (tensorBuf_new id n)
    (by rw [hlen]; exact hw) (by rw [hlen]; exact hs)
  have hslot : (grad_buffer_type.new id n : grad_buffer_type G).slots[s]? = some none := by
    simp [grad_buffer_type.new, List.getElem?_replicate, hs]
  exact ⟨hok, hE hslot⟩

theorem add_grad_clone_count_witness :
    (∃ st, (add_grad_all [] (grad_buffer_type.new 4 2)
        (([(0, 5), (1, 6), (0, 7), (0, 8)] : List (Nat × Int)).map
          (fun w => (w.1, (⟨.Tensor w.2, .returned⟩ : GradRef Int))))).2 = .ok st) ∧
    clone_count (4, 0) (add_grad_all [] (grad_buffer_type.new 4 2)
        (([(0, 5), (1, 6), (0, 7), (0, 8)] : List (Nat × Int)).map
          (fun w => (w.1, (⟨.Tensor w.2, .returned⟩ : GradRef Int))))).1
      = (if 2 ≤ (([(0, 5), (1, 6), (0, 7), (0, 8)] : List (Nat × Int)).filter
          (fun w => decide (w.1 = 0))).length then 1 else 0) ∧
    add_count (4, 0) (add_grad_all [] (grad_buffer_type.new 4 2)
        (([(0, 5), (1, 6), (0, 7), (0, 8)] : List (Nat × Int)).map
          (fun w => (w.1, (⟨.Tensor w.2, .returned⟩ : GradRef Int))))).1
      = (([(0, 5), (1, 6), (0, 7), (0, 8)] : List (Nat × Int)).filter
          (fun w => decide (w.1 = 0))).length - 1 :=
  add_grad_clone_count [] 4 2 [(0, 5), (1, 6), (0, 7), (0, 8)] 0 (by decide) (by decide)

end Autograd

namespace Autograd

theorem traceOwned_append {G : Type} (a b : List (Event G)) :
    TraceOwned (a ++ b) ↔ TraceOwned a ∧ TraceOwned b := by
  constructor
  · intro h
    exact ⟨fun k t x hx => h k t x (List.mem_append_left _ hx),
      fun k t x hx => h k t x (List.mem_append_right _ hx)⟩
  · rintro ⟨ha, hb⟩ k t x hx
    rcases List.mem_append.1 hx with h | h
    · exact ha k t x h
    · exact hb k t x h

theorem traceOwned_nil {G : Type} : TraceOwned ([] : List (Event G)) := by
  intro k t x hx
  simp at hx

theorem traceOwned_push {G : Type} (fn : FnId) (b : grad_buffer_type G) :
    TraceOwned [Event.push fn b] := by
  intro k t x hx
  simp at hx

theorem traceOwned_var {G : Type} (v : VarId) (p : PyObject G) :
    TraceOwned [Event.var_backward v p] := by
  intro k t x hx
  simp at hx

theorem traceOwned_dispatch {G : Type} (fn : FnId) (b : grad_buffer_type G)
    (l : List (PyObject G)) : TraceOwned [Event.pop fn b, Event.fn_backward fn l] := by
  intro k t x hx
  simp at hx

/-- What one `THPEngine_add_grad` call does to the ownership bookkeeping. -/
theorem add_grad_owned_step {G : Type} [Add G] (nc : buffer_set_type)
    (buf : grad_buffer_type G) (slot : Nat) (d : GradRef G) (hinv : BufOwned nc buf) :
    TraceOwned (THPEngine_add_grad nc buf slot d).1 ∧
    ∀ nc1 b1, (THPEngine_add_grad nc buf slot d).2 = .ok (nc1, b1) →
      BufOwned nc1 b1 ∧ b1.buffer_id = buf.buffer_id ∧
      (∀ k : Nat × Nat, k.1 ≠ buf.buffer_id → (k ∈ nc1 ↔ k ∈ nc)) ∧
      (∀ k ∈ nc1, k ∈ nc ∨ k.1 = buf.buffer_id) := by
  have hframe := add_grad_frame nc buf slot d
  have hgen : ∀ nc1 b1, (THPEngine_add_grad nc buf slot d).2 = .ok (nc1, b1) →
      BufOwned nc1 b1 →
      BufOwned nc1 b1 ∧ b1.buffer_id = buf.buffer_id ∧
      (∀ k : Nat × Nat, k.1 ≠ buf.buffer_id → (k ∈ nc1 ↔ k ∈ nc)) ∧
      (∀ k ∈ nc1, k ∈ nc ∨ k.1 = buf.buffer_id) := by
    intro nc1 b1 h hown
    obtain ⟨hid, _, _, hmarks⟩ := hframe nc1 b1 h
    refine ⟨hown, hid, fun k hk => hmarks k (fun e => hk (by rw [e])), fun k hk => ?_⟩
    by_cases e : k = (buf.buffer_id, slot)
    · exact Or.inr (by rw [e])
    · exact Or.inl ((hmarks k e).1 hk)
  have hslots : ∀ (y : GradRef G) (nc1 : buffer_set_type),
      (∀ j r, j ≠ slot → buf.slots[j]? = some (some r) → (buf.buffer_id, j) ∉ nc1 →
        r.origin = .cloned) →
      ((buf.buffer_id, slot) ∉ nc1 → y.origin = .cloned) →
      BufOwned nc1 { buf with slots := buf.slots.set slot (some y) } := by
    intro y nc1 h1 h2 j r hj hnm
    by_cases e : slot = j
    · subst e
      by_cases hl : slot < buf.slots.length
      · simp only [List.getElem?_set, hl, if_true, Option.some.injEq] at hj
        rw [← hj]
        exact h2 hnm
      · have : (buf.slots.set slot (some y))[slot]? = none := by
          simp [List.getElem?_eq_none, Nat.le_of_not_lt hl]
        simp [this] at hj
    · simp only [List.getElem?_set_ne e] at hj
      exact h1 j r (Ne.symm e) hj hnm
  rcases hs : buf.slots[slot]? with _ | _ | cur
  · simp [THPEngine_add_grad, hs, traceOwned_nil]
  · have e := add_grad_empty nc buf slot d hs
    refine ⟨by rw [e]; exact traceOwned_nil, fun nc1 b1 h => hgen nc1 b1 h ?_⟩
    rw [e] at h
    simp only [Except.ok.injEq, Prod.mk.injEq] at h
    obtain ⟨rfl, rfl⟩ := h
    refine hslots d _ (fun j r hjs hj hnm => hinv j r hj (fun hm => hnm ?_)) (fun hnm => ?_)
    · rw [buffer_set_type.mem_insert]
      exact Or.inr hm
    · exact absurd ((buffer_set_type.mem_insert _ _ _).2 (Or.inl rfl)) hnm
  · by_cases hm : (buf.buffer_id, slot) ∈ nc
    · rcases hc : py_clone cur.obj with _ | c
      · refine ⟨?_, fun nc1 b1 h => ?_⟩
        · simp only [THPEngine_add_grad, hs, hm, hc, if_true]
          intro k t x hx
          simp at hx
        · simp [THPEngine_add_grad, hs, hm, hc] at h
      · have hto : TraceOwned [Event.clone (buf.buffer_id, slot) cur,
            Event.add_ (buf.buffer_id, slot) ⟨c, .cloned⟩ d.obj] := by
          intro k t x hx
          simp only [List.mem_cons, List.mem_singleton, Event.add_.injEq,
            List.not_mem_nil, or_false, false_or] at hx
          rcases hx with hx | hx
          · exact absurd hx (by simp)
          · obtain ⟨_, rfl, _⟩ := hx
            rfl
        rcases ha : py_add_ c d.obj with _ | r
        · refine ⟨?_, fun nc1 b1 h => ?_⟩
          · simp only [THPEngine_add_grad, hs, hm, hc, ha, if_true]
            exact hto
          · simp [THPEngine_add_grad, hs, hm, hc, ha] at h
        · have e := add_grad_shared nc buf slot d cur c r hs hm hc ha
          refine ⟨by rw [e]; exact hto, fun nc1 b1 h => hgen nc1 b1 h ?_⟩
          rw [e] at h
          simp only [Except.ok.injEq, Prod.mk.injEq] at h
          obtain ⟨rfl, rfl⟩ := h
          refine hslots _ _ (fun j r hjs hj hnm => hinv j r hj (fun hm1 => hnm ?_)) (fun _ => rfl)
          rw [buffer_set_type.mem_erase]
          refine ⟨hm1, fun e1 => hjs (Prod.mk.inj e1).2⟩
    · have hto : TraceOwned [Event.add_ (buf.buffer_id, slot) cur d.obj] := by
        intro k t x hx
        simp only [List.mem_singleton, Event.add_.injEq] at hx
        obtain ⟨_, h2, _⟩ := hx
        rw [h2]
        exact hinv slot cur hs hm
      rcases ha : py_add_ cur.obj d.obj with _ | r
      · refine ⟨?_, fun nc1 b1 h => ?_⟩
        · simp only [THPEngine_add_grad, hs, hm, ha, if_false]
          exact hto
        · simp [THPEngine_add_grad, hs, hm, ha] at h
      · have e := add_grad_owned nc buf slot d cur r hs hm ha
        refine ⟨by rw [e]; exact hto, fun nc1 b1 h => hgen nc1 b1 h ?_⟩
        rw [e] at h
        simp only [Except.ok.injEq, Prod.mk.injEq] at h
        obtain ⟨rfl, rfl⟩ := h
        exact hslots _ _ (fun j r _ hj hnm => hinv j r hj hnm)
          (fun _ => hinv slot cur hs hm)

/-- A state change that leaves the waiting buffers and the marks alone. -/
theorem ownedInv_of_same {G : Type} (s t : EngineState G) (h : OwnedInv s)
    (hnr : t.not_ready = s.not_ready) (hnc : t.need_copy = s.need_copy)
    (hid : s.next_buf_id ≤ t.next_buf_id) (htr : TraceOwned t.trace) : OwnedInv t := by
  refine ⟨?_, ?_, ?_, ?_, htr⟩
  · intro P buf hP
    rw [hnr] at hP
    exact lt_of_lt_of_le (h.id_lt P buf hP) hid
  · intro P Q bp bq hP hQ
    rw [hnr] at hP hQ
    exact h.id_inj P Q bp bq hP hQ
  · intro P buf hP
    rw [hnr] at hP
    rw [hnc]
    exact h.owned P buf hP
  · intro k hk
    rw [hnc] at hk
    exact lt_of_lt_of_le (h.mark_lt k hk) hid

/-- A state change in which `THPEngine_add_grad` wrote into the buffer of `P`,
which is then put back into (`some`) or left out of (`none`) the waiting table. -/
theorem ownedInv_after_add_grad {G : Type} [Add G] (s t : EngineState G) (h : OwnedInv s)
    (P : FnId) (buf : grad_buffer_type G) (slot : Nat) (d : GradRef G)
    (nc1 : buffer_set_type) (b1 : grad_buffer_type G)
    (hadd : (THPEngine_add_grad s.need_copy buf slot d).2 = .ok (nc1, b1))
    (hbuf : BufOwned s.need_copy buf) (hidn : buf.buffer_id < t.next_buf_id)
    (hn : s.next_buf_id ≤ t.next_buf_id)
    (hfresh : ∀ Q bq, Q ≠ P → Map.find s.not_ready Q = some bq →
      bq.buffer_id ≠ buf.buffer_id)
    (hnr : ∀ Q, Q ≠ P → Map.find t.not_ready Q = Map.find s.not_ready Q)
    (hP : Map.find t.not_ready P = some b1 ∨ Map.find t.not_ready P = none)
    (hnc : t.need_copy = nc1) (htr : TraceOwned t.trace) : OwnedInv t := by
  obtain ⟨_, hstep⟩ := add_grad_owned_step s.need_copy buf slot d hbuf
  obtain ⟨hown1, hid1, hmarks, hmem⟩ := hstep nc1 b1 hadd
  have hfind : ∀ Q bq, Map.find t.not_ready Q = some bq →
      (Q = P ∧ bq = b1) ∨ (Q ≠ P ∧ Map.find s.not_ready Q = some bq) := by
    intro Q bq hQ
    by_cases e : Q = P
    · subst e
      rcases hP with hP | hP
      · rw [hP] at hQ
        exact Or.inl ⟨rfl, (Option.some.inj hQ).symm⟩
      · rw [hP] at hQ
        simp at hQ
    · rw [hnr Q e] at hQ
      exact Or.inr ⟨e, hQ⟩
  refine ⟨?_, ?_, ?_, ?_, htr⟩
  · intro Q bq hQ
    rcases hfind Q bq hQ with ⟨_, rfl⟩ | ⟨_, hs⟩
    · rw [hid1]
      exact hidn
    · exact lt_of_lt_of_le (h.id_lt Q bq hs) hn
  · intro Q R bq br hQ hR hqr
    rcases hfind Q bq hQ with ⟨rfl, rfl⟩ | ⟨hq, hs⟩
    · rcases hfind R br hR with ⟨rfl, _⟩ | ⟨hr, hs1⟩
      · rfl
      · rw [hid1] at hqr
        exact absurd hqr.symm (hfresh R br hr hs1)
    · rcases hfind R br hR with ⟨rfl, rfl⟩ | ⟨hr, hs1⟩
      · rw [hid1] at hqr
        exact absurd hqr (hfresh Q bq hq hs)
      · exact h.id_inj Q R bq br hs hs1 hqr
  · intro Q bq hQ
    rw [hnc]
    rcases hfind Q bq hQ with ⟨_, rfl⟩ | ⟨hq, hs⟩
    · exact hown1
    · intro j r hj hnm
      refine h.owned Q bq hs j r hj (fun hm => hnm ?_)
      exact (hmarks (bq.buffer_id, j) (hfresh Q bq hq hs)).2 hm
  · intro k hk
    rw [hnc] at hk
    rcases hmem k hk with h1 | h1
    · exact lt_of_lt_of_le (h.mark_lt k h1) hn
    · rw [h1]
      exact hidn

end Autograd

namespace Autograd

theorem accumulate_not_ready_owned {G : Type} [Add G] (s0 s : EngineState G) (h : OwnedInv s0)
    (P : FnId) (buf : grad_buffer_type G) (slot : Nat) (grad_prev : PyObject G)
    (hnr : s.not_ready = s0.not_ready) (hnc : s.need_copy = s0.need_copy)
    (htr : s.trace = s0.trace) (hn : s0.next_buf_id ≤ s.next_buf_id)
    (hbuf : BufOwned s0.need_copy buf) (hidn : buf.buffer_id < s.next_buf_id)
    (hfresh : ∀ Q bq, Q ≠ P → Map.find s0.not_ready Q = some bq →
      bq.buffer_id ≠ buf.buffer_id) :
    FailureOwned (accumulate_not_ready s P buf slot grad_prev) := by
  obtain ⟨hto, _⟩ := add_grad_owned_step s0.need_copy buf slot ⟨grad_prev, .returned⟩ hbuf
  rcases hadd : THPEngine_add_grad s0.need_copy buf slot ⟨grad_prev, .returned⟩
    with ⟨evs, (err | ⟨nc1, b1⟩)⟩
  · rw [hadd] at hto
    simp only [accumulate_not_ready, hnc, hadd, FailureOwned, EngineState.fail,
      EngineState.log, htr]
    exact (traceOwned_append _ _).2 ⟨h.trace_owned, hto⟩
  · rw [hadd] at hto
    simp only [accumulate_not_ready, hnc, hadd, FailureOwned]
    refine ownedInv_after_add_grad s0 _ h P buf slot ⟨grad_prev, .returned⟩ nc1 b1
      (by rw [hadd]) hbuf hidn hn hfresh ?_ ?_ rfl ?_
    · intro Q hQ
      simp only [hnr]
      exact Map.find_insert_ne _ _ hQ
    · left
      simp only [hnr]
      exact Map.find_insert_self _ _ _
    · simp only [htr]
      exact (traceOwned_append _ _).2 ⟨h.trace_owned, hto⟩

theorem bufOwned_new {G : Type} (nc : buffer_set_type) (id n : Nat) :
    BufOwned nc (grad_buffer_type.new id n : grad_buffer_type G) := by
  intro j r hj
  simp [grad_buffer_type.new, List.getElem?_replicate] at hj

theorem route_grad_owned {G : Type} [Add G] (g : Graph) (cb : Callbacks G) (s : EngineState G)
    (e : Edge) (grad_prev : PyObject G) (h : OwnedInv s) :
    FailureOwned (route_grad g cb s e grad_prev) := by
  rcases he : e.obj with v | p
  · by_cases hrg : (g.var v).requires_grad = true
    · by_cases hcb : cb.var_do_backward v grad_prev = true
      · simp only [route_grad, he, hrg, hcb, if_true, FailureOwned]
        exact ownedInv_of_same s _ h rfl rfl (le_refl _)
          ((traceOwned_append _ _).2 ⟨h.trace_owned, traceOwned_var _ _⟩)
      · simp only [route_grad, he, hrg, hcb, if_true, FailureOwned]
        exact (traceOwned_append _ _).2 ⟨h.trace_owned, traceOwned_var _ _⟩
    · simp only [route_grad, he, hrg, FailureOwned]
      exact h
  · by_cases hrg : (g.fn p).requires_grad = true
    · by_cases hst : (g.fn p).is_stochastic = true
      · simp only [route_grad, he, hrg, hst, FailureOwned]
        exact h
      · rcases hf : THPEngine_free_backward_dependency s.dependencies p with err | ⟨deps, is_ready⟩
        · simp only [route_grad, he, hrg, hst, hf, FailureOwned]
          exact h.trace_owned
        · have hfreshOf : ∀ buffer, Map.find s.not_ready p = some buffer →
              ∀ Q bq, Q ≠ p → Map.find s.not_ready Q = some bq →
                bq.buffer_id ≠ buffer.buffer_id := by
            intro buffer hb Q bq hQ hq e1
            exact hQ (h.id_inj Q p bq buffer hq hb e1)
          cases is_ready
          · rcases hfind : Map.find s.not_ready p with _ | buffer
            · simp only [route_grad, he, hrg, hst, hf, hfind, Bool.not_true, Bool.false_eq_true,
                if_false]
              refine accumulate_not_ready_owned s _ h p _ _ _ rfl rfl rfl (Nat.le_succ _)
                (bufOwned_new _ _ _) (Nat.lt_succ_self _) ?_
              intro Q bq _ hq
              exact Nat.ne_of_lt (h.id_lt Q bq hq)
            · simp only [route_grad, he, hrg, hst, hf, hfind, Bool.not_true, Bool.false_eq_true,
                if_false]
              exact accumulate_not_ready_owned s _ h p _ _ _ rfl rfl rfl (le_refl _)
                (h.owned p buffer hfind) (h.id_lt p buffer hfind) (hfreshOf buffer hfind)
          · rcases hfind : Map.find s.not_ready p with _ | buffer
            · by_cases hidx : e.output_nr < (g.fn p).num_outputs
              · simp only [route_grad, he, hrg, hst, hf, hfind, Bool.not_true,
                  Bool.false_eq_true, if_false, if_true, hidx, FailureOwned]
                exact ownedInv_of_same s _ h rfl rfl (Nat.le_succ _)
                  ((traceOwned_append _ _).2 ⟨h.trace_owned, traceOwned_push _ _⟩)
              · simp only [route_grad, he, hrg, hst, hf, hfind, Bool.not_true,
                  Bool.false_eq_true, if_false, if_true, hidx, FailureOwned]
                exact h.trace_owned
            · obtain ⟨hto, _⟩ := add_grad_owned_step s.need_copy buffer e.output_nr
                ⟨grad_prev, .returned⟩ (h.owned p buffer hfind)
              rcases hadd : THPEngine_add_grad s.need_copy buffer e.output_nr
                ⟨grad_prev, .returned⟩ with ⟨evs, (err | ⟨nc1, b1⟩)⟩
              · rw [hadd] at hto
                simp only [route_grad, he, hrg, hst, hf, hfind, Bool.not_true,
                  Bool.false_eq_true, if_false, if_true, hadd, FailureOwned,
                  EngineState.fail, EngineState.log]
                exact (traceOwned_append _ _).2 ⟨h.trace_owned, hto⟩
              · rw [hadd] at hto
                simp only [route_grad, he, hrg, hst, hf, hfind, Bool.not_true,
                  Bool.false_eq_true, if_false, if_true, hadd, FailureOwned]
                refine ownedInv_after_add_grad s _ h p buffer e.output_nr
                  ⟨grad_prev, .returned⟩ nc1 b1 (by rw [hadd]) (h.owned p buffer hfind)
                  (h.id_lt p buffer hfind) (le_refl _) (hfreshOf buffer hfind) ?_ ?_ rfl ?_
                · intro Q hQ
                  exact Map.find_erase_ne _ hQ
                · right
                  exact Map.find_erase_self _ _
                · exact (traceOwned_append _ _).2
                    ⟨(traceOwned_append _ _).2 ⟨h.trace_owned, hto⟩, traceOwned_push _ _⟩
    · simp only [route_grad, he, hrg, FailureOwned]
      exact h

theorem process_grad_input_owned {G : Type} [Add G] (g : Graph) (cb : Callbacks G) :
    ∀ (es : List Edge) (grads : List (PyObject G)) (s : EngineState G), OwnedInv s →
      FailureOwned (process_grad_input g cb es grads s) := by
  intro es grads
  induction grads generalizing es with
  | nil =>
    intro s h
    cases es <;> simpa [process_grad_input, FailureOwned] using h
  | cons gp grads ih =>
    intro s h
    cases es with
    | nil =>
      simp only [process_grad_input, FailureOwned, EngineState.fail]
      exact h.trace_owned
    | cons e es =>
      have h1 := route_grad_owned g cb s e gp h
      rcases hr : route_grad g cb s e gp with f | s1
      · rw [hr] at h1
        simpa [process_grad_input, hr, FailureOwned] using h1
      · rw [hr] at h1
        simp only [process_grad_input, hr]
        exact ih es s1 h1

theorem dispatch_owned {G : Type} [Add G] (g : Graph) (cb : Callbacks G) (s : EngineState G)
    (fn : FnId) (buf : grad_buffer_type G) (h : OwnedInv s) :
    FailureOwned (dispatch g cb s fn buf) := by
  have htr : TraceOwned (s.trace ++ [Event.pop fn buf, Event.fn_backward fn (grad_tuple buf)]) :=
    (traceOwned_append _ _).2 ⟨h.trace_owned, traceOwned_dispatch _ _ _⟩
  rcases hcb : cb.fn_do_backward fn (grad_tuple buf) with _ | _ | grad_input
  · simpa [dispatch, hcb, FailureOwned, EngineState.fail, EngineState.log] using htr
  · simpa [dispatch, hcb, FailureOwned, EngineState.fail, EngineState.log] using htr
  · simp only [dispatch, hcb]
    exact process_grad_input_owned g cb _ _ _ (ownedInv_of_same s _ h rfl rfl (le_refl _) htr)

theorem drain_owned {G : Type} [Add G] (g : Graph) (cb : Callbacks G) :
    ∀ (fuel : Nat) (s : EngineState G), OwnedInv s → FailureOwned (drain g cb fuel s) := by
  intro fuel
  induction fuel with
  | zero =>
    intro s h
    rcases hr : s.ready with _ | ⟨p, rest⟩
    · simpa [drain, hr, FailureOwned] using h
    · simpa [drain, hr, FailureOwned, EngineState.fail] using h.trace_owned
  | succ fuel ih =>
    intro s h
    rcases hr : s.ready with _ | ⟨⟨fn, buf⟩, rest⟩
    · simpa [drain, hr, FailureOwned] using h
    · have h1 := dispatch_owned g cb { s with ready := rest } fn buf
        (ownedInv_of_same s _ h rfl rfl (le_refl _) h.trace_owned)
      rcases hd : dispatch g cb { s with ready := rest } fn buf with f | s1
      · rw [hd] at h1
        simpa [drain, hr, hd, FailureOwned] using h1
      · rw [hd] at h1
        simp only [drain, hr, hd]
        exact ih s1 h1

theorem seed_variable_owned {G : Type} (g : Graph) (cb : Callbacks G) (s : SeedState G)
    (v : VarId) (grad : PyObject G) (h : OwnedInv s.engine) :
    match seed_variable g cb s v grad with
    | .ok s1 => OwnedInv s1.engine
    | .error f => TraceOwned f.trace := by
  rcases hc : (g.var v).creator with _ | creator
  · by_cases hrg : (g.var v).requires_grad = true
    · by_cases hcb : cb.var_do_backward v grad = true
      · simp only [seed_variable, hc, hrg, hcb, if_true]
        exact ownedInv_of_same s.engine _ h rfl rfl (le_refl _)
          ((traceOwned_append _ _).2 ⟨h.trace_owned, traceOwned_var _ _⟩)
      · simp only [seed_variable, hc, hrg, hcb, if_true]
        exact (traceOwned_append _ _).2 ⟨h.trace_owned, traceOwned_var _ _⟩
    · simp only [seed_variable, hc, hrg]
      exact h
  · by_cases hrg : (g.fn creator).requires_grad = true
    · by_cases hidx : (g.var v).output_nr < (g.fn creator).num_outputs
      · simp only [seed_variable, hc, hrg, hidx, if_true]
        exact ownedInv_of_same s.engine _ h rfl rfl (Nat.le_succ _)
          ((traceOwned_append _ _).2 ⟨h.trace_owned, traceOwned_push _ _⟩)
      · simp only [seed_variable, hc, hrg, hidx, if_true]
        exact h.trace_owned
    · simp only [seed_variable, hc, hrg]
      exact h

theorem seed_owned {G : Type} (g : Graph) (cb : Callbacks G) :
    ∀ (l : List (VarId × PyObject G)) (s : SeedState G), OwnedInv s.engine →
      match seed g cb l s with
      | .ok s1 => OwnedInv s1.engine
      | .error f => TraceOwned f.trace := by
  intro l
  induction l with
  | nil =>
    intro s h
    simpa [seed] using h
  | cons p l ih =>
    intro s h
    obtain ⟨v, grad⟩ := p
    have h1 := seed_variable_owned g cb s v grad h
    rcases hr : seed_variable g cb s v grad with f | s1
    · rw [hr] at h1
      simpa [seed, hr] using h1
    · rw [hr] at h1
      simp only [seed, hr]
      exact ih s1 h1

theorem ownedInv_init {G : Type} : OwnedInv (EngineState.init : EngineState G) := by
  refine ⟨?_, ?_, ?_, ?_, traceOwned_nil⟩
  · intro P buf h
    simp [EngineState.init, Map.find] at h
  · intro P Q bp bq h
    simp [EngineState.init, Map.find] at h
  · intro P buf h
    simp [EngineState.init, Map.find] at h
  · intro k hk
    simp [EngineState.init] at hk

theorem run_backward_owned {G : Type} [Add G] (g : Graph) (cb : Callbacks G) (fuel : Nat)
    (vars : List VarId) (grad_vars : List (PyObject G)) :
    TraceOwned (trace_of (THPEngine_run_backward g cb fuel vars grad_vars)) := by
  unfold THPEngine_run_backward
  by_cases hlen : vars.length ≠ grad_vars.length
  · rw [if_pos hlen]
    exact traceOwned_nil
  · rw [if_neg hlen]
    have h0 := seed_owned g cb (vars.zip grad_vars) ⟨EngineState.init, [], false⟩ ownedInv_init
    rcases hs : seed g cb (vars.zip grad_vars) ⟨EngineState.init, [], false⟩ with f | seeded
    · rw [hs] at h0
      exact h0
    · rw [hs] at h0
      simp only at h0
      dsimp only
      rcases hcd : THPEngine_compute_dependencies g fuel seeded.creators
          seeded.engine.dependencies seeded.engine.ready with _ | ⟨deps, ready⟩
      · exact h0.trace_owned
      · dsimp only
        by_cases hb : (!(seeded.did_leaf_backward || !ready.isEmpty)) = true
        · rw [if_pos hb]
          exact h0.trace_owned
        · rw [if_neg hb]
          have h1 := drain_owned g cb fuel
            { seeded.engine with dependencies := deps, ready := ready }
            (ownedInv_of_same seeded.engine _ h0 rfl rfl (le_refl _) h0.trace_owned)
          rcases hd : drain g cb fuel
              { seeded.engine with dependencies := deps, ready := ready } with f | s1
          · rw [hd] at h1
            exact h1
          · rw [hd] at h1
            dsimp only
            by_cases he : s1.not_ready.isEmpty = true
            · rw [if_pos he]
              exact h1.trace_owned
            · rw [if_neg he]
              exact h1.trace_owned

/-- C10: in every run of `run_backward` (any graph, any callbacks, any roots,
whether the run succeeds or fails) each `add_` call is applied to an object that
`THPEngine_add_grad` created by `clone`, never to a gradient supplied by the
caller or returned by a `_do_backward` call; and a write into an empty slot
stores the incoming object itself without calling `clone` or `add_`. -/
theorem add_in_place_only_on_clones {G : Type} [Add G] (g : Graph) (cb : Callbacks G)
    (fuel : Nat) (vars : List VarId) (grad_vars : List (PyObject G)) :
    (∀ key target arg,
      Event.add_ key target arg ∈ trace_of (THPEngine_run_backward g cb fuel vars grad_vars) →
        target.origin = .cloned ∧ target.origin ≠ .caller ∧ target.origin ≠ .returned) ∧
    (∀ (need_copy : buffer_set_type) (buf : grad_buffer_type G) (slot : Nat) (d : GradRef G),
      buf.slots[slot]? = some none →
        (THPEngine_add_grad need_copy buf slot d).1 = [] ∧
        ∃ nc b, (THPEngine_add_grad need_copy buf slot d).2 = .ok (nc, b) ∧
          b.slots[slot]? = some (some d)) := by
  refine ⟨fun key target arg hmem => ?_, fun need_copy buf slot d h => ?_⟩
  · have hc := run_backward_owned g cb fuel vars grad_vars key target arg hmem
    rw [hc]
    exact ⟨rfl, by decide, by decide⟩
  · rw [add_grad_empty need_copy buf slot d h]
    refine ⟨rfl, _, _, rfl, ?_⟩
    have hlt : slot < buf.slots.length := by
      by_contra hc
      have : buf.slots[slot]? = none := by simp [List.getElem?_eq_none, Nat.le_of_not_lt hc]
      simp [this] at h
    simp [List.getElem?_set, hlt]

end Autograd

namespace Autograd

/-! ## The ready queue is first-in-first-out -/

theorem fifo_replay_append {G : Type} [DecidableEq G] (a b : List (Event G)) :
    ∀ q, fifo_replay (a ++ b) q = (fifo_replay a q).bind (fifo_replay b) := by
  induction a with
  | nil => intro q; rfl
  | cons e a ih =>
    intro q
    cases e with
    | push fn buf => simpa [fifo_replay] using ih _
    | pop fn buf =>
      cases q with
      | nil => simp [fifo_replay]
      | cons x rest =>
        by_cases hx : x = (fn, buf)
        · simpa [fifo_replay, hx] using ih _
        · simp [fifo_replay, hx]
    | fn_backward f l => simpa [fifo_replay] using ih _
    | var_backward v p => simpa [fifo_replay] using ih _
    | clone k c => simpa [fifo_replay] using ih _
    | add_ k c p => simpa [fifo_replay] using ih _

theorem add_grad_events_silent {G : Type} [DecidableEq G] [Add G] (nc : buffer_set_type)
    (buf : grad_buffer_type G) (slot : Nat) (d : GradRef G) (q : List (FnId × grad_buffer_type G)) :
    fifo_replay (THPEngine_add_grad nc buf slot d).1 q = some q := by
  rcases hs : buf.slots[slot]? with _ | _ | cur
  · simp [THPEngine_add_grad, hs, fifo_replay]
  · simp [THPEngine_add_grad, hs, fifo_replay]
  · by_cases hm : (buf.buffer_id, slot) ∈ nc
    · rcases hc : py_clone cur.obj with _ | c
      · simp [THPEngine_add_grad, hs, hm, hc, fifo_replay]
      · rcases ha : py_add_ c d.obj with _ | r <;>
          simp [THPEngine_add_grad, hs, hm, hc, ha, fifo_replay]
    · rcases ha : py_add_ cur.obj d.obj with _ | r <;>
        simp [THPEngine_add_grad, hs, hm, ha, fifo_replay]

theorem accumulate_not_ready_queue {G : Type} [DecidableEq G] [Add G] (s : EngineState G)
    (P : FnId) (buf : grad_buffer_type G) (slot : Nat) (grad_prev : PyObject G)
    (h : fifo_replay s.trace [] = some s.ready) :
    QueueInv (accumulate_not_ready s P buf slot grad_prev) := by
  have hsil := add_grad_events_silent s.need_copy buf slot ⟨grad_prev, .returned⟩ s.ready
  rcases hadd : THPEngine_add_grad s.need_copy buf slot ⟨grad_prev, .returned⟩
    with ⟨evs, (err | ⟨nc1, b1⟩)⟩
  · rw [hadd] at hsil
    simp [accumulate_not_ready, hadd, QueueInv, EngineState.fail, EngineState.log,
      fifo_replay_append, h, hsil]
  · rw [hadd] at hsil
    simp [accumulate_not_ready, hadd, QueueInv, fifo_replay_append, h, hsil]

theorem route_grad_queue {G : Type} [DecidableEq G] [Add G] (g : Graph) (cb : Callbacks G)
    (s : EngineState G) (e : Edge) (grad_prev : PyObject G)
    (h : fifo_replay s.trace [] = some s.ready) :
    QueueInv (route_grad g cb s e grad_prev) := by
  rcases he : e.obj with v | p
  · by_cases hrg : (g.var v).requires_grad = true
    · by_cases hcb : cb.var_do_backward v grad_prev = true <;>
        simp [route_grad, he, hrg, hcb, QueueInv, EngineState.log, EngineState.fail,
          fifo_replay_append, h, fifo_replay]
    · simpa [route_grad, he, hrg, QueueInv] using h
  · by_cases hrg : (g.fn p).requires_grad = true
    · by_cases hst : (g.fn p).is_stochastic = true
      · simpa [route_grad, he, hrg, hst, QueueInv] using h
      · rcases hf : THPEngine_free_backward_dependency s.dependencies p with err | ⟨deps, is_ready⟩
        · simp [route_grad, he, hrg, hst, hf, QueueInv, EngineState.fail, h]
        · cases is_ready
          · rcases hfind : Map.find s.not_ready p with _ | buffer
            · simp only [route_grad, he, hrg, hst, hf, hfind, Bool.not_true, Bool.false_eq_true,
                if_false]
              exact accumulate_not_ready_queue _ p _ _ _ h
            · simp only [route_grad, he, hrg, hst, hf, hfind, Bool.not_true, Bool.false_eq_true,
                if_false]
              exact accumulate_not_ready_queue _ p _ _ _ h
          · rcases hfind : Map.find s.not_ready p with _ | buffer
            · by_cases hidx : e.output_nr < (g.fn p).num_outputs <;>
                simp [route_grad, he, hrg, hst, hf, hfind, hidx, QueueInv, EngineState.fail,
                  fifo_replay_append, h, fifo_replay, ready_queue_type.emplace_front]
            · have hsil := add_grad_events_silent s.need_copy buffer e.output_nr
                ⟨grad_prev, .returned⟩ s.ready
              rcases hadd : THPEngine_add_grad s.need_copy buffer e.output_nr
                ⟨grad_prev, .returned⟩ with ⟨evs, (err | ⟨nc1, b1⟩)⟩
              · rw [hadd] at hsil
                simp [route_grad, he, hrg, hst, hf, hfind, hadd, QueueInv, EngineState.fail,
                  EngineState.log, fifo_replay_append, h, hsil]
              · rw [hadd] at hsil
                simp [route_grad, he, hrg, hst, hf, hfind, hadd, QueueInv,
                  fifo_replay_append, h, hsil, fifo_replay, ready_queue_type.emplace_front]
    · simpa [route_grad, he, hrg, QueueInv] using h

theorem process_grad_input_queue {G : Type} [DecidableEq G] [Add G] (g : Graph)
    (cb : Callbacks G) :
    ∀ (es : List Edge) (grads : List (PyObject G)) (s : EngineState G),
      fifo_replay s.trace [] = some s.ready →
      QueueInv (process_grad_input g cb es grads s) := by
  intro es grads
  induction grads generalizing es with
  | nil =>
    intro s h
    cases es <;> simpa [process_grad_input, QueueInv] using h
  | cons gp grads ih =>
    intro s h
    cases es with
    | nil => simp [process_grad_input, QueueInv, EngineState.fail, h]
    | cons e es =>
      have h1 := route_grad_queue g cb s e gp h
      rcases hr : route_grad g cb s e gp with f | s1
      · rw [hr] at h1
        simpa [process_grad_input, hr, QueueInv] using h1
      · rw [hr] at h1
        simp only [process_grad_input, hr]
        exact ih es s1 h1

theorem drain_queue {G : Type} [DecidableEq G] [Add G] (g : Graph) (cb : Callbacks G) :
    ∀ (fuel : Nat) (s : EngineState G), fifo_replay s.trace [] = some s.ready →
      QueueInv (drain g cb fuel s) := by
  intro fuel
  induction fuel with
  | zero =>
    intro s h
    rcases hr : s.ready with _ | ⟨p, rest⟩
    · simpa [drain, hr, QueueInv] using h
    · simp [drain, hr, QueueInv, EngineState.fail, h]
  | succ fuel ih =>
    intro s h
    rcases hr : s.ready with _ | ⟨⟨fn, buf⟩, rest⟩
    · simpa [drain, hr, QueueInv] using h
    · have hpop : fifo_replay (s.trace ++ [Event.pop fn buf,
          Event.fn_backward fn (grad_tuple buf)]) [] = some rest := by
        simp [fifo_replay_append, h, hr, fifo_replay]
      have h1 : QueueInv (dispatch g cb { s with ready := rest } fn buf) := by
        rcases hcb : cb.fn_do_backward fn (grad_tuple buf) with _ | _ | grad_input
        · simp [dispatch, hcb, QueueInv, EngineState.fail, EngineState.log, hpop]
        · simp [dispatch, hcb, QueueInv, EngineState.fail, EngineState.log, hpop]
        · simp only [dispatch, hcb]
          exact process_grad_input_queue g cb _ _ _ hpop
      rcases hd : dispatch g cb { s with ready := rest } fn buf with f | s1
      · rw [hd] at h1
        simpa [drain, hr, hd, QueueInv] using h1
      · rw [hd] at h1
        simp only [drain, hr, hd]
        exact ih s1 h1

theorem seed_queue {G : Type} [DecidableEq G] (g : Graph) (cb : Callbacks G) :
    ∀ (l : List (VarId × PyObject G)) (s : SeedState G),
      fifo_replay s.engine.trace [] = some s.engine.ready →
      match seed g cb l s with
      | .ok s1 => fifo_replay s1.engine.trace [] = some s1.engine.ready
      | .error f => fifo_replay f.trace [] ≠ none := by
  intro l
  induction l with
  | nil =>
    intro s h
    simpa [seed] using h
  | cons p l ih =>
    intro s h
    obtain ⟨v, grad⟩ := p
    have h1 : match seed_variable g cb s v grad with
        | .ok s1 => fifo_replay s1.engine.trace [] = some s1.engine.ready
        | .error f => fifo_replay f.trace [] ≠ none := by
      rcases hc : (g.var v).creator with _ | creator
      · by_cases hrg : (g.var v).requires_grad = true
        · by_cases hcb : cb.var_do_backward v grad = true <;>
            simp [seed_variable, hc, hrg, hcb, EngineState.log, EngineState.fail,
              fifo_replay_append, h, fifo_replay]
        · simpa [seed_variable, hc, hrg] using h
      · by_cases hrg : (g.fn creator).requires_grad = true
        · by_cases hidx : (g.var v).output_nr < (g.fn creator).num_outputs <;>
            simp [seed_variable, hc, hrg, hidx, EngineState.fail,
              fifo_replay_append, h, fifo_replay, ready_queue_type.emplace_front]
        · simpa [seed_variable, hc, hrg] using h
    rcases hr : seed_variable g cb s v grad with f | s1
    · rw [hr] at h1
      simpa [seed, hr] using h1
    · rw [hr] at h1
      simp only [seed, hr]
      exact ih s1 h1

theorem compute_dependencies_edge_ready {G : Type} (g : Graph)
    (hns : ∀ f, (g.fn f).is_stochastic = false) (fn : FnId) (s : DepState G) (e : Edge) :
    (compute_dependencies_edge g fn s e).ready = s.ready := by
  unfold compute_dependencies_edge
  rcases e.obj with v | p
  · rfl
  · simp only [hns p, Bool.false_and, Bool.false_eq_true, if_false]
    split <;> split <;> rfl

theorem compute_dependencies_fold_ready {G : Type} (g : Graph)
    (hns : ∀ f, (g.fn f).is_stochastic = false) (fn : FnId) :
    ∀ (es : List Edge) (s : DepState G),
      (es.foldl (compute_dependencies_edge g fn) s).ready = s.ready := by
  intro es
  induction es with
  | nil => intro s; rfl
  | cons e es ih =>
    intro s
    rw [List.foldl_cons, ih, compute_dependencies_edge_ready g hns]

theorem compute_dependencies_loop_ready {G : Type} (g : Graph)
    (hns : ∀ f, (g.fn f).is_stochastic = false) :
    ∀ (fuel : Nat) (s t : DepState G), compute_dependencies_loop g fuel s = some t →
      t.ready = s.ready := by
  intro fuel
  induction fuel with
  | zero =>
    intro s t h
    simp [compute_dependencies_loop] at h
  | succ fuel ih =>
    intro s t h
    rcases hq : s.queue with _ | ⟨fn, rest⟩
    · simp only [compute_dependencies_loop, hq, Option.some.injEq] at h
      rw [← h]
    · simp only [compute_dependencies_loop, hq] at h
      rw [ih _ t h, compute_dependencies_fold_ready g hns]

/-- C5 (refuted as stated): on two independent roots the seeding loop pushes
the pair of `fn 1` and then the pair of `fn 2`, and draining pops the pair of
`fn 1` first, which is the least recently pushed one; replaying the log against
a last-in-first-out stack fails. -/
theorem ready_queue_not_lifo :
    dispatched (trace_of (THPEngine_run_backward two_roots unit_cb 4 [1, 2]
      [.Tensor 1, .Tensor 2])) = [1, 2] ∧
    lifo_replay (trace_of (THPEngine_run_backward two_roots unit_cb 4 [1, 2]
      [.Tensor 1, .Tensor 2])) [] = none := by
  decide

/-- C5 (amended): on a graph without always-ready (stochastic) functions, in
every run of `run_backward`, successful or failed, every pair popped from the
ready queue is the least recently pushed pair still in the queue
(first-in-first-out), for pairs pushed during seeding as well as for pairs
pushed while draining: the log replays against a first-in-first-out queue. -/
theorem ready_queue_fifo {G : Type} [DecidableEq G] [Add G] (g : Graph) (cb : Callbacks G)
    (fuel : Nat) (vars : List VarId) (grad_vars : List (PyObject G))
    (hns : ∀ f, (g.fn f).is_stochastic = false) :
    fifo_replay (trace_of (THPEngine_run_backward g cb fuel vars grad_vars)) [] ≠ none := by
  unfold THPEngine_run_backward
  by_cases hlen : vars.length ≠ grad_vars.length
  · rw [if_pos hlen]
    simp [trace_of, fifo_replay]
  · rw [if_neg hlen]
    have h0 := seed_queue g cb (vars.zip grad_vars) ⟨EngineState.init, [], false⟩ rfl
    rcases hs : seed g cb (vars.zip grad_vars) ⟨EngineState.init, [], false⟩ with f | seeded
    · rw [hs] at h0
      exact h0
    · rw [hs] at h0
      dsimp only at h0 ⊢
      rcases hcd : THPEngine_compute_dependencies g fuel seeded.creators
          seeded.engine.dependencies seeded.engine.ready with _ | ⟨deps, ready⟩
      · simp [trace_of, EngineState.fail, h0]
      · dsimp only
        have hready : ready = seeded.engine.ready := by
          unfold THPEngine_compute_dependencies at hcd
          rcases hl : compute_dependencies_loop g fuel
              (⟨[], seeded.creators.reverse, seeded.engine.dependencies,
                seeded.engine.ready⟩ : DepState G) with _ | t
          · simp [hl] at hcd
          · simp only [hl, Option.map_some', Option.some.injEq, Prod.mk.injEq] at hcd
            rw [← hcd.2]
            exact compute_dependencies_loop_ready g hns fuel _ t hl
        by_cases hb : (!(seeded.did_leaf_backward || !ready.isEmpty)) = true
        · rw [if_pos hb]
          simp [trace_of, EngineState.fail, h0]
        · rw [if_neg hb]
          have h1 := drain_queue g cb fuel
            { seeded.engine with dependencies := deps, ready := ready }
            (by rw [hready]; exact h0)
          rcases hd : drain g cb fuel
              { seeded.engine with dependencies := deps, ready := ready } with f | s1
          · rw [hd] at h1
            exact h1
          · rw [hd] at h1
            dsimp only [QueueInv] at h1 ⊢
            by_cases he : s1.not_ready.isEmpty = true
            · rw [if_pos he]
              simp [trace_of, h1]
            · rw [if_neg he]
              simp [trace_of, EngineState.fail, h1]

theorem ready_queue_fifo_witness :
    (∀ f, (two_roots.fn f).is_stochastic = false) ∧
    fifo_replay (trace_of (THPEngine_run_backward two_roots unit_cb 4 [1, 2]
      [.Tensor 1, .Tensor 2])) [] ≠ none :=
  have h : ∀ f, (two_roots.fn f).is_stochastic = false := by
    intro f
    unfold two_roots
    dsimp only
    split <;> rfl
  ⟨h, ready_queue_fifo two_roots unit_cb 4 [1, 2] [.Tensor 1, .Tensor 2] h⟩

/-! ## The diamond graph -/

/-- C4 (refuted as stated): on the diamond, with `D` sending `10` towards `B`
and `20` towards `C`, the leaf `A` has its `_do_backward` invoked twice, with
`10` and then with `20`; it is not invoked once with the sum `30`. -/
theorem diamond_leaf_called_twice :
    leaf_calls 0 (trace_of (THPEngine_run_backward diamond diamond_cb 4 [1] [.Tensor 1]))
      = [.Tensor 10, .Tensor 20] ∧
    leaf_calls 0 (trace_of (THPEngine_run_backward diamond diamond_cb 4 [1] [.Tensor 1]))
      ≠ [.Tensor (10 + 20)] := by
  decide

/-- C4 (amended): on the diamond, when `D` returns `(gB, gC)` for the initial
gradient `g0`, `B` returns `aB` for `gB`, `C` returns `aC` for `gC` and the
deliveries to `A` succeed, `run_backward` succeeds and invokes the gradient
delivery of the leaf `A` exactly twice: first with the gradient `aB` produced
through `B`, then with the gradient `aC` produced through `C`.  The engine does
not add them; each function is invoked once, in the order `D`, `B`, `C`. -/
theorem diamond_leaf_delivery {G : Type} [Add G] (cb : Callbacks G) (fuel : Nat)
    (g0 gB gC aB aC : PyObject G) (hfuel : 4 ≤ fuel)
    (hD : cb.fn_do_backward 3 [g0] = .tuple [gB, gC])
    (hB : cb.fn_do_backward 1 [gB] = .tuple [aB])
    (hC : cb.fn_do_backward 2 [gC] = .tuple [aC])
    (hA : ∀ x, cb.var_do_backward 0 x = true) :
    ∃ s, THPEngine_run_backward diamond cb fuel [1] [g0] = .ok s ∧
      leaf_calls 0 s.trace = [aB, aC] ∧ dispatched s.trace = [3, 1, 2] := by
  obtain ⟨n, rfl⟩ := Nat.exists_eq_add_of_le hfuel
  rw [Nat.add_comm]
  simp [THPEngine_run_backward, seed, seed_variable, diamond, EngineState.init,
    THPEngine_compute_dependencies, compute_dependencies_loop, compute_dependencies_edge,
    ready_queue_type.emplace_front, Map.insert, Map.erase, Map.find,
    dependencies_type.count, drain, dispatch, grad_tuple, hD, hB, hC, hA, process_grad_input,
    route_grad, THPEngine_free_backward_dependency, EngineState.log, leaf_calls, dispatched]

theorem diamond_leaf_delivery_witness :
    ∃ s, THPEngine_run_backward diamond diamond_cb 4 [1] [.Tensor 1] = .ok s ∧
      leaf_calls 0 s.trace = [.Tensor 10, .Tensor 20] ∧ dispatched s.trace = [3, 1, 2] :=
  diamond_leaf_delivery diamond_cb 4 (.Tensor 1) (.Tensor 10) (.Tensor 20) (.Tensor 10)
    (.Tensor 20) (by decide) rfl rfl rfl (fun _ => rfl)

end Autograd

namespace Autograd

/-! ## `THPEngine_compute_dependencies` -/

theorem consumer_edges_cons (g : Graph) (c : FnId) (E : List FnId) (P : FnId) :
    consumer_edges g (c :: E) P
      = (if (g.fn c).requires_grad then edge_count g c P else 0) + consumer_edges g E P := by
  unfold consumer_edges
  by_cases h : (g.fn c).requires_grad = true
  · simp [List.filter_cons, h]
  · simp [List.filter_cons, h]

theorem consumer_edges_perm (g : Graph) {X E : List FnId} (h : X.Perm E) (P : FnId) :
    consumer_edges g X P = consumer_edges g E P := by
  unfold consumer_edges
  exact ((h.filter _).map _).sum_eq

theorem compute_dependencies_edge_seen {G : Type} (g : Graph) (c : FnId) (s : DepState G)
    (e : Edge) (p : FnId) (he : e.obj = .fn p) :
    (compute_dependencies_edge g c s e).seen = (if p ∈ s.seen then s.seen else p :: s.seen) ∧
    (compute_dependencies_edge g c s e).queue = (if p ∈ s.seen then s.queue else p :: s.queue) := by
  by_cases hp : p ∈ s.seen <;>
  by_cases h1 : (g.fn p).is_stochastic = true <;>
  by_cases h2 : (g.fn p).requires_grad = true <;>
  by_cases h3 : (g.fn c).requires_grad = true <;>
  simp [compute_dependencies_edge, he, hp, h1, h2, h3]

theorem compute_dependencies_edge_deps {G : Type} (g : Graph) (c : FnId) (s : DepState G)
    (e : Edge) (p : FnId) (he : e.obj = .fn p) (hns : (g.fn p).is_stochastic = false) :
    (compute_dependencies_edge g c s e).dependencies =
      (if (g.fn c).requires_grad = true ∧ (g.fn p).requires_grad = true then
        Map.insert s.dependencies p (s.dependencies.count p + 1)
       else s.dependencies) := by
  by_cases hp : p ∈ s.seen <;>
  by_cases h2 : (g.fn p).requires_grad = true <;>
  by_cases h3 : (g.fn c).requires_grad = true <;>
  simp [compute_dependencies_edge, he, hp, hns, h2, h3]

theorem compute_dependencies_edge_deps_other {G : Type} (g : Graph) (c : FnId) (s : DepState G)
    (e : Edge) (P : FnId) (he : e.obj ≠ .fn P) :
    Map.find (compute_dependencies_edge g c s e).dependencies P = Map.find s.dependencies P := by
  rcases h : e.obj with v | p
  · simp [compute_dependencies_edge, h]
  · have hne : P ≠ p := by
      intro e1
      apply he
      rw [h, e1]
    have hins := Map.find_insert_ne s.dependencies (s.dependencies.count p + 1) hne
    by_cases hp : p ∈ s.seen <;>
    by_cases h1 : (g.fn p).is_stochastic = true <;>
    by_cases h2 : (g.fn p).requires_grad = true <;>
    by_cases h3 : (g.fn c).requires_grad = true <;>
    simp [compute_dependencies_edge, h, hp, h1, h2, h3, hins]

theorem compute_dependencies_edge_var {G : Type} (g : Graph) (c : FnId) (s : DepState G)
    (e : Edge) (v : VarId) (he : e.obj = .var v) :
    compute_dependencies_edge g c s e = s := by
  simp [compute_dependencies_edge, he]

theorem reach_edge_transGen (g : Graph) (creators : List FnId) (c p : FnId)
    (hc : Reach g creators c) (hcp : EdgeTo g c p) :
    ∃ r ∈ creators, Relation.TransGen (EdgeTo g) r p := by
  obtain ⟨r, hr, hrc⟩ := hc
  exact ⟨r, hr, Relation.TransGen.tail' hrc hcp⟩

theorem filter_fn_cons (e : Edge) (todo : List Edge) (P : FnId) :
    ((e :: todo).filter (fun x => decide (x.obj = .fn P))).length
      = (if e.obj = .fn P then 1 else 0) + (todo.filter (fun x => decide (x.obj = .fn P))).length := by
  by_cases h : e.obj = .fn P
  · simp [List.filter_cons, h, Nat.add_comm]
  · simp [List.filter_cons, h]

/-- One iteration of the inner loop keeps the invariant. -/
theorem depInv_edge {G : Type} (g : Graph) (creators : List FnId)
    (hindep : ∀ r ∈ creators, ∀ r1 ∈ creators, ¬ Relation.TransGen (EdgeTo g) r r1)
    (E : List FnId) (c : FnId) (e : Edge) (todo : List Edge) (s : DepState G)
    (hc : c ∈ E) (hmem : e ∈ (g.fn c).previous_functions)
    (h : DepInv g creators E c (e :: todo) s) :
    DepInv g creators E c todo (compute_dependencies_edge g c s e) := by
  rcases he : e.obj with v | p
  · rw [compute_dependencies_edge_var g c s e v he]
    refine ⟨h.nodup, h.seen_sub, ?_, h.reach, h.origin, h.roots_in, ?_⟩
    · intro x hx e1 he1 p hp
      rcases h.closed x hx e1 he1 p hp with h1 | ⟨h1, h2⟩
      · exact Or.inl h1
      · rcases List.mem_cons.1 h2 with h3 | h3
        · rw [h3, he] at hp
          exact absurd hp (by simp)
        · exact Or.inr ⟨h1, h3⟩
    · intro P hP hS
      have := h.counts P hP hS
      rw [filter_fn_cons] at this
      simpa [he] using this
  · obtain ⟨hseen, hqueue⟩ := compute_dependencies_edge_seen g c s e p he
    have hcp : EdgeTo g c p := ⟨e, hmem, he⟩
    have hpreach : Reach g creators p := by
      obtain ⟨r, hr, hrc⟩ := h.reach c (Or.inl hc)
      exact ⟨r, hr, Relation.ReflTransGen.tail hrc hcp⟩
    have hpnew : p ∉ s.seen → p ∉ E ++ s.queue := by
      intro hp hin
      rcases h.origin p (List.mem_append.1 hin) with h1 | h1
      · obtain ⟨r, hr, hrp⟩ := reach_edge_transGen g creators c p (h.reach c (Or.inl hc)) hcp
        exact hindep r hr p h1 hrp
      · exact hp h1
    refine ⟨?_, ?_, ?_, ?_, ?_, ?_, ?_⟩
    · rw [hqueue]
      by_cases hp : p ∈ s.seen
      · simpa [hp] using h.nodup
      · simp only [hp, if_false]
        have h1 := hpnew hp
        have h2 := h.nodup
        rw [List.nodup_append] at h2 ⊢
        obtain ⟨n1, n2, n3⟩ := h2
        simp only [List.mem_append, not_or] at h1
        refine ⟨n1, List.nodup_cons.2 ⟨h1.2, n2⟩, ?_⟩
        intro a ha hb
        rcases List.mem_cons.1 hb with h3 | h3
        · rw [h3] at ha
          exact h1.1 ha
        · exact n3 ha h3
    · intro x hx
      rw [hseen] at hx
      rw [hqueue]
      by_cases hp : p ∈ s.seen
      · simp only [hp, if_true] at hx ⊢
        exact h.seen_sub x hx
      · simp only [hp, if_false] at hx ⊢
        rcases List.mem_cons.1 hx with h3 | h3
        · exact Or.inr (by rw [h3]; exact List.mem_cons_self _ _)
        · rcases h.seen_sub x h3 with h4 | h4
          · exact Or.inl h4
          · exact Or.inr (List.mem_cons_of_mem _ h4)
    · intro x hx e1 he1 p1 hp1
      rw [hseen]
      have hsub : ∀ y, y ∈ s.seen → y ∈ (if p ∈ s.seen then s.seen else p :: s.seen) := by
        intro y hy
        by_cases hp : p ∈ s.seen
        · simpa [hp] using hy
        · simp only [hp, if_false]
          exact List.mem_cons_of_mem _ hy
      have hpin : p ∈ (if p ∈ s.seen then s.seen else p :: s.seen) := by
        by_cases hp : p ∈ s.seen
        · simp [hp]
        · simp [hp]
      rcases h.closed x hx e1 he1 p1 hp1 with h1 | ⟨h1, h2⟩
      · exact Or.inl (hsub _ h1)
      · rcases List.mem_cons.1 h2 with h3 | h3
        · rw [h3, he] at hp1
          simp only [PrevObj.fn.injEq] at hp1
          rw [← hp1]
          exact Or.inl hpin
        · exact Or.inr ⟨h1, h3⟩
    · intro x hx
      rw [hqueue] at hx
      by_cases hp : p ∈ s.seen
      · simp only [hp, if_true] at hx
        exact h.reach x hx
      · simp only [hp, if_false] at hx
        rcases hx with h1 | h1
        · exact h.reach x (Or.inl h1)
        · rcases List.mem_cons.1 h1 with h3 | h3
          · rw [h3]
            exact hpreach
          · exact h.reach x (Or.inr h3)
    · intro x hx
      rw [hqueue] at hx
      rw [hseen]
      by_cases hp : p ∈ s.seen
      · simp only [hp, if_true] at hx ⊢
        exact h.origin x hx
      · simp only [hp, if_false] at hx ⊢
        have hlift : x ∈ creators ∨ x ∈ s.seen → x ∈ creators ∨ x ∈ p :: s.seen := by
          rintro (h1 | h1)
          · exact Or.inl h1
          · exact Or.inr (List.mem_cons_of_mem _ h1)
        rcases hx with h1 | h1
        · exact hlift (h.origin x (Or.inl h1))
        · rcases List.mem_cons.1 h1 with h3 | h3
          · exact Or.inr (by rw [h3]; exact List.mem_cons_self _ _)
          · exact hlift (h.origin x (Or.inr h3))
    · intro r hr
      rw [hqueue]
      rcases h.roots_in r hr with h1 | h1
      · exact Or.inl h1
      · right
        by_cases hp : p ∈ s.seen
        · simpa [hp] using h1
        · simp only [hp, if_false]
          exact List.mem_cons_of_mem _ h1
    · intro P hP hS
      obtain ⟨hsum, hpos⟩ := h.counts P hP hS
      rw [filter_fn_cons] at hsum
      have hnonneg : 0 ≤ s.dependencies.count P := by
        rcases hpos with h1 | h1
        · simp [dependencies_type.count, h1]
        · exact le_of_lt h1
      by_cases hpP : p = P
      · subst hpP
        rw [compute_dependencies_edge_deps g c s e p he hS]
        by_cases hrc : (g.fn c).requires_grad = true
        · simp only [hrc, hP, and_self, if_true] at hsum ⊢
          rw [dependencies_type.count_insert_self]
          refine ⟨?_, Or.inr (by omega)⟩
          simp only [he, if_true] at hsum
          push_cast at hsum ⊢
          omega
        · simp only [hrc, false_and, if_false] at hsum ⊢
          exact ⟨by simpa using hsum, hpos⟩
      · have hne : e.obj ≠ .fn P := by
          rw [he]
          intro e1
          exact hpP (PrevObj.fn.inj e1)
        have hfind := compute_dependencies_edge_deps_other g c s e P hne
        have hcount : (compute_dependencies_edge g c s e).dependencies.count P
            = s.dependencies.count P := by
          simp [dependencies_type.count, hfind]
        rw [hcount, hfind]
        refine ⟨?_, hpos⟩
        simpa [hne] using hsum

/-- The inner loop keeps the invariant. -/
theorem depInv_fold {G : Type} (g : Graph) (creators : List FnId)
    (hindep : ∀ r ∈ creators, ∀ r1 ∈ creators, ¬ Relation.TransGen (EdgeTo g) r r1)
    (E : List FnId) (c : FnId) (hc : c ∈ E) :
    ∀ (todo : List Edge) (s : DepState G), (∀ e ∈ todo, e ∈ (g.fn c).previous_functions) →
      DepInv g creators E c todo s →
      DepInv g creators E c [] (todo.foldl (compute_dependencies_edge g c) s) := by
  intro todo
  induction todo with
  | nil => intro s _ h; exact h
  | cons e todo ih =>
    intro s hsub h
    rw [List.foldl_cons]
    exact ih _ (fun e1 he1 => hsub e1 (List.mem_cons_of_mem _ he1))
      (depInv_edge g creators hindep E c e todo s hc (hsub e (List.mem_cons_self _ _)) h)

/-- Popping a function from the worklist keeps the invariant. -/
theorem depInv_pop {G : Type} (g : Graph) (creators : List FnId) (E : List FnId) (c0 c : FnId)
    (rest : List FnId) (s : DepState G) (hq : s.queue = c :: rest)
    (h : DepInv g creators E c0 [] s) :
    DepInv g creators (c :: E) c (g.fn c).previous_functions { s with queue := rest } := by
  have hmem : ∀ x, x ∈ E ∨ x ∈ s.queue ↔ x ∈ c :: E ∨ x ∈ rest := by
    intro x
    rw [hq]
    simp only [List.mem_cons]
    tauto
  refine ⟨?_, ?_, ?_, ?_, ?_, ?_, ?_⟩
  · have h1 := h.nodup
    rw [hq] at h1
    have hp : (E ++ c :: rest).Perm ((c :: E) ++ rest) := by
      simp
    exact hp.nodup_iff.1 h1
  · intro x hx
    exact (hmem x).1 (h.seen_sub x hx)
  · intro x hx e he p hp
    rcases List.mem_cons.1 hx with h1 | h1
    · subst h1
      exact Or.inr ⟨rfl, he⟩
    · rcases h.closed x h1 e he p hp with h2 | ⟨_, h2⟩
      · exact Or.inl h2
      · simp at h2
  · intro x hx
    exact h.reach x ((hmem x).2 hx)
  · intro x hx
    exact h.origin x ((hmem x).2 hx)
  · intro r hr
    exact (hmem r).1 (h.roots_in r hr)
  · intro P hP hS
    obtain ⟨hsum, hpos⟩ := h.counts P hP hS
    refine ⟨?_, hpos⟩
    rw [consumer_edges_cons]
    simp only [List.filter_nil, List.length_nil, ite_self, Nat.cast_zero, add_zero] at hsum
    rw [hsum]
    unfold edge_count
    push_cast
    ring

/-- With enough fuel the outer loop returns, with the invariant and an empty
worklist. -/
theorem depInv_loop {G : Type} (g : Graph) (creators : List FnId)
    (hindep : ∀ r ∈ creators, ∀ r1 ∈ creators, ¬ Relation.TransGen (EdgeTo g) r r1)
    (X : List FnId) (hXr : ∀ c, Reach g creators c → c ∈ X) :
    ∀ (fuel : Nat) (E : List FnId) (c : FnId) (s : DepState G),
      DepInv g creators E c [] s → X.length < E.length + fuel →
      ∃ t E1 c1, compute_dependencies_loop g fuel s = some t ∧
        DepInv g creators E1 c1 [] t ∧ t.queue = [] := by
  intro fuel
  induction fuel with
  | zero =>
    intro E c s h hlt
    exfalso
    have hnd : E.Nodup := (List.nodup_append.1 h.nodup).1
    have hsub : E ⊆ X := fun x hx => hXr x (h.reach x (Or.inl hx))
    have := (List.subperm_of_subset hnd hsub).length_le
    omega
  | succ fuel ih =>
    intro E c s h hlt
    rcases hq : s.queue with _ | ⟨fn, rest⟩
    · exact ⟨s, E, c, by simp [compute_dependencies_loop, hq], h, hq⟩
    · have h1 := depInv_pop g creators E c fn rest s hq h
      have h2 := depInv_fold g creators hindep (fn :: E) fn (List.mem_cons_self _ _)
        (g.fn fn).previous_functions { s with queue := rest } (fun e he => he) h1
      obtain ⟨t, E1, c1, ht, hinv, hqt⟩ := ih (fn :: E) fn _ h2
        (by simp only [List.length_cons]; omega)
      exact ⟨t, E1, c1, by simp only [compute_dependencies_loop, hq]; exact ht, hinv, hqt⟩

theorem depInv_init {G : Type} (g : Graph) (creators : List FnId) (hdist : creators.Nodup)
    (ready : ready_queue_type G) :
    DepInv g creators [] 0 [] (⟨[], creators.reverse, [], ready⟩ : DepState G) := by
  refine ⟨?_, ?_, ?_, ?_, ?_, ?_, ?_⟩
  · simpa using hdist
  · intro x hx
    simp at hx
  · intro x hx
    simp at hx
  · intro x hx
    simp only [List.not_mem_nil, List.mem_reverse, false_or] at hx
    exact ⟨x, hx, Relation.ReflTransGen.refl⟩
  · intro x hx
    simp only [List.not_mem_nil, List.mem_reverse, false_or] at hx
    exact Or.inl hx
  · intro r hr
    exact Or.inr (List.mem_reverse.2 hr)
  · intro P _ _
    simp [consumer_edges, dependencies_type.count, Map.find]

/-- What `THPEngine_compute_dependencies` returns on an empty table when no
root lies on a path that starts at a root: with fuel above the number of
reachable functions it returns, and the count of every grad-requiring
non-stochastic function is its number of grad-requiring reachable consumer
edges, without an entry when that number is zero. -/
theorem compute_dependencies_spec {G : Type} (g : Graph) (creators X : List FnId) (fuel : Nat)
    (ready0 : ready_queue_type G) (hdist : creators.Nodup)
    (hindep : ∀ r ∈ creators, ∀ r1 ∈ creators, ¬ Relation.TransGen (EdgeTo g) r r1)
    (hX : X.Nodup) (hXr : ∀ c, c ∈ X ↔ Reach g creators c) (hfuel : X.length < fuel) :
    ∃ deps ready, THPEngine_compute_dependencies g fuel creators [] ready0 = some (deps, ready) ∧
      ∀ P, (g.fn P).requires_grad = true → (g.fn P).is_stochastic = false →
        Map.find deps P =
          (if consumer_edges g X P = 0 then none else some (consumer_edges g X P : Int)) := by
  obtain ⟨t, E, c, ht, hinv, hqt⟩ := depInv_loop g creators hindep X (fun c hc => (hXr c).2 hc)
    fuel [] 0 _ (depInv_init g creators hdist ready0) (by simpa using hfuel)
  have hE : E.Nodup := (List.nodup_append.1 hinv.nodup).1
  have hsub : ∀ x, Reach g creators x → x ∈ E := by
    rintro x ⟨r, hr, hrx⟩
    induction hrx with
    | refl =>
      rcases hinv.roots_in r hr with h1 | h1
      · exact h1
      · rw [hqt] at h1
        simp at h1
    | tail _ hyz ih =>
      obtain ⟨e, he, hp⟩ := hyz
      rcases hinv.closed _ ih e he _ hp with h1 | ⟨_, h1⟩
      · rcases hinv.seen_sub _ h1 with h2 | h2
        · exact h2
        · rw [hqt] at h2
          simp at h2
      · simp at h1
  have hperm : X.Perm E := by
    rw [List.perm_ext_iff_of_nodup hX hE]
    intro x
    rw [hXr]
    exact ⟨hsub x, fun hx => hinv.reach x (Or.inl hx)⟩
  refine ⟨t.dependencies, t.ready, by simp [THPEngine_compute_dependencies, ht], ?_⟩
  intro P hP hS
  obtain ⟨hsum, hpos⟩ := hinv.counts P hP hS
  simp only [List.filter_nil, List.length_nil, ite_self, Nat.cast_zero, add_zero] at hsum
  rw [consumer_edges_perm g hperm P]
  by_cases h0 : consumer_edges g E P = 0
  · rw [h0] at hsum
    rcases hpos with h1 | h1
    · simp [h0, h1]
    · omega
  · rcases hf : Map.find t.dependencies P with _ | v
    · simp [dependencies_type.count, hf] at hsum
      omega
    · simp only [dependencies_type.count, hf, Option.getD_some] at hsum
      simp [h0, hsum]

end Autograd

namespace Autograd

theorem reach_enum (g : Graph) (roots X : List FnId) (h1 : ∀ r ∈ roots, r ∈ X)
    (h2 : ∀ c ∈ X, ∀ p, EdgeTo g c p → p ∈ X) (h3 : ∀ c ∈ X, Reach g roots c) :
    ∀ c, c ∈ X ↔ Reach g roots c := by
  intro c
  refine ⟨h3 c, ?_⟩
  rintro ⟨r, hr, hrc⟩
  induction hrc with
  | refl => exact h1 r hr
  | tail _ hyz ih => exact h2 _ ih _ hyz

theorem transGen_lt (g : Graph) (h : ∀ c p, EdgeTo g c p → p < c) :
    ∀ c p, Relation.TransGen (EdgeTo g) c p → p < c := by
  intro c p hcp
  induction hcp with
  | single h1 => exact h _ _ h1
  | tail _ h2 ih => exact lt_trans (h _ _ h2) ih

theorem fan_in_edges (c p : FnId) :
    EdgeTo fan_in c p ↔ (c = 2 ∧ p = 1) ∨ (c = 3 ∧ (p = 1 ∨ p = 2)) := by
  unfold EdgeTo
  rcases c with _ | _ | _ | _ | c
  · simp [fan_in]
  · simp [fan_in]
  · simp only [fan_in]
    constructor
    · rintro ⟨e, he, hp⟩
      simp only [List.mem_singleton] at he
      subst he
      simp only [PrevObj.fn.injEq] at hp
      exact Or.inl ⟨by simp, hp.symm⟩
    · rintro (⟨_, rfl⟩ | ⟨h, _⟩)
      · exact ⟨_, List.mem_singleton_self _, rfl⟩
      · simp at h
  · simp only [fan_in]
    constructor
    · rintro ⟨e, he, hp⟩
      simp only [List.mem_cons, List.mem_singleton, List.not_mem_nil, or_false] at he
      rcases he with rfl | rfl
      · simp only [PrevObj.fn.injEq] at hp
        exact Or.inr ⟨by simp, Or.inl hp.symm⟩
      · simp only [PrevObj.fn.injEq] at hp
        exact Or.inr ⟨by simp, Or.inr hp.symm⟩
    · rintro (⟨h, _⟩ | ⟨_, rfl | rfl⟩)
      · simp at h
      · exact ⟨⟨.fn 1, 0⟩, by simp, rfl⟩
      · exact ⟨⟨.fn 2, 0⟩, by simp, rfl⟩
  · simp [fan_in]

theorem fan_in_acyclic : ∀ c p, Relation.TransGen (EdgeTo fan_in) c p → p < c := by
  apply transGen_lt
  intro c p h
  rcases (fan_in_edges c p).1 h with ⟨rfl, rfl⟩ | ⟨rfl, rfl | rfl⟩ <;> decide

theorem fan_in_reach : ∀ c, c ∈ [3, 2, 1] ↔ Reach fan_in [3] c := by
  apply reach_enum
  · intro r hr
    simp only [List.mem_singleton] at hr
    subst hr
    simp
  · intro c _ p h
    rcases (fan_in_edges c p).1 h with ⟨rfl, rfl⟩ | ⟨rfl, rfl | rfl⟩ <;> simp
  · intro c hc
    have e31 : EdgeTo fan_in 3 1 := (fan_in_edges 3 1).2 (Or.inr ⟨rfl, Or.inl rfl⟩)
    have e32 : EdgeTo fan_in 3 2 := (fan_in_edges 3 2).2 (Or.inr ⟨rfl, Or.inr rfl⟩)
    simp only [List.mem_cons, List.mem_singleton, List.not_mem_nil, or_false] at hc
    rcases hc with rfl | rfl | rfl
    · exact ⟨3, by simp, Relation.ReflTransGen.refl⟩
    · exact ⟨3, by simp, Relation.ReflTransGen.single e32⟩
    · exact ⟨3, by simp, Relation.ReflTransGen.single e31⟩

theorem fan_in_indep :
    ∀ r ∈ [3], ∀ r1 ∈ [3], ¬ Relation.TransGen (EdgeTo fan_in) r r1 := by
  intro r hr r1 hr1 h
  simp only [List.mem_singleton] at hr hr1
  subst hr hr1
  exact absurd (fan_in_acyclic 3 3 h) (by decide)

theorem self_loop_edges (c p : FnId) : EdgeTo self_loop c p ↔ c = 1 ∧ p = 1 := by
  unfold EdgeTo
  rcases c with _ | _ | c
  · simp [self_loop]
  · simp only [self_loop]
    constructor
    · rintro ⟨e, he, hp⟩
      simp only [List.mem_singleton] at he
      subst he
      simp only [PrevObj.fn.injEq] at hp
      exact ⟨by simp, hp.symm⟩
    · rintro ⟨_, rfl⟩
      exact ⟨_, List.mem_singleton_self _, rfl⟩
  · simp [self_loop]

/-- C6 (refuted as stated): for the graph whose only function `fn 1` has itself
as input and the root list `[fn 1]` (pairwise distinct, no root reachable from
another root), `compute_dependencies` leaves the count 2 for `fn 1`, which has
a single grad-requiring reachable consumer edge. -/
theorem compute_dependencies_cycle_counterexample :
    ([1] : List FnId).Nodup ∧
    (∀ r ∈ ([1] : List FnId), ∀ r1 ∈ ([1] : List FnId), r ≠ r1 →
      ¬ Relation.ReflTransGen (EdgeTo self_loop) r r1) ∧
    (∀ c, c ∈ ([1] : List FnId) ↔ Reach self_loop [1] c) ∧
    (self_loop.fn 1).requires_grad = true ∧ (self_loop.fn 1).is_stochastic = false ∧
    THPEngine_compute_dependencies self_loop 5 [1] [] ([] : ready_queue_type Int)
      = some ([(1, 2)], []) ∧
    dependencies_type.count [(1, 2)] 1 = 2 ∧ consumer_edges self_loop [1] 1 = 1 := by
  refine ⟨by decide, ?_, ?_, rfl, rfl, by decide, by decide, by decide⟩
  · intro r hr r1 hr1 hne
    simp only [List.mem_singleton] at hr hr1
    subst hr hr1
    exact absurd rfl hne
  · apply reach_enum
    · intro r hr
      exact hr
    · intro c _ p h
      rw [((self_loop_edges c p).1 h).2]
      simp
    · intro c hc
      exact ⟨c, hc, Relation.ReflTransGen.refl⟩

/-- C6 (amended): for every graph and every list of root creators that are
pairwise distinct and none of which is reachable from a root creator (itself
included) through one or more input edges, `compute_dependencies` started on an
empty table returns, given fuel above the number of reachable functions, and
leaves for every grad-requiring non-stochastic function `P` a count equal to
the number of input edges `(C, i)` with `C` a root creator or reachable from
one, `C` requiring grad and the `i`-th input of `C` being `P`; `P` has no entry
when that number is zero.  `X` is any duplicate-free enumeration of the
reachable functions. -/
theorem compute_dependencies_counts {G : Type} (g : Graph) (creators X : List FnId)
    (fuel : Nat) (ready0 : ready_queue_type G) (hdist : creators.Nodup)
    (hindep : ∀ r ∈ creators, ∀ r1 ∈ creators, ¬ Relation.TransGen (EdgeTo g) r r1)
    (hX : X.Nodup) (hXr : ∀ c, c ∈ X ↔ Reach g creators c) (hfuel : X.length < fuel) :
    ∃ deps ready, THPEngine_compute_dependencies g fuel creators [] ready0 = some (deps, ready) ∧
      ∀ P, (g.fn P).requires_grad = true → (g.fn P).is_stochastic = false →
        dependencies_type.count deps P = (consumer_edges g X P : Int) ∧
        (consumer_edges g X P = 0 → Map.find deps P = none) := by
  obtain ⟨deps, ready, h1, h2⟩ :=
    compute_dependencies_spec g creators X fuel ready0 hdist hindep hX hXr hfuel
  refine ⟨deps, ready, h1, fun P hP hS => ?_⟩
  have h3 := h2 P hP hS
  by_cases h0 : consumer_edges g X P = 0
  · simp only [h0, if_true] at h3
    simp [dependencies_type.count, h3, h0]
  · simp only [h0, if_false] at h3
    simp [dependencies_type.count, h3, h0]

theorem compute_dependencies_counts_witness :
    ∃ deps ready, THPEngine_compute_dependencies fan_in 4 [3] [] ([] : ready_queue_type Int)
        = some (deps, ready) ∧
      ∀ P, (fan_in.fn P).requires_grad = true → (fan_in.fn P).is_stochastic = false →
        dependencies_type.count deps P = (consumer_edges fan_in [3, 2, 1] P : Int) ∧
        (consumer_edges fan_in [3, 2, 1] P = 0 → Map.find deps P = none) :=
  compute_dependencies_counts fan_in [3] [3, 2, 1] 4 [] (by decide) fan_in_indep (by decide)
    fan_in_reach (by decide)

end Autograd

namespace Autograd

/-! ## Reading the log -/

theorem dispatched_append {G : Type} (a b : List (Event G)) :
    dispatched (a ++ b) = dispatched a ++ dispatched b := by
  simp [dispatched, List.filterMap_append]

theorem fn_calls_append {G : Type} (P : FnId) (a b : List (Event G)) :
    fn_calls P (a ++ b) = fn_calls P a ++ fn_calls P b := by
  simp [fn_calls, List.filterMap_append]

theorem deliveries_append {G : Type} (g : Graph) (cb : Callbacks G) (a b : List (Event G))
    (P : FnId) (slot : Nat) :
    deliveries g cb (a ++ b) P slot = deliveries g cb a P slot ++ deliveries g cb b P slot := by
  induction a with
  | nil => rfl
  | cons e a ih =>
    cases e <;> simp [deliveries, ih]

theorem silent_dispatched {G : Type} (evs : List (Event G)) (h : Silent evs) :
    dispatched evs = [] := by
  induction evs with
  | nil => rfl
  | cons e evs ih =>
    have h1 : Silent evs := fun x hx => h x (List.mem_cons_of_mem _ hx)
    have h2 := h e (List.mem_cons_self _ _)
    cases e with
    | fn_backward f args => exact absurd rfl (h2 f args)
    | _ => simpa [dispatched] using ih h1

theorem silent_fn_calls {G : Type} (P : FnId) (evs : List (Event G)) (h : Silent evs) :
    fn_calls P evs = [] := by
  induction evs with
  | nil => rfl
  | cons e evs ih =>
    have h1 : Silent evs := fun x hx => h x (List.mem_cons_of_mem _ hx)
    have h2 := h e (List.mem_cons_self _ _)
    cases e with
    | fn_backward f args => exact absurd rfl (h2 f args)
    | _ => simpa [fn_calls] using ih h1

theorem silent_deliveries {G : Type} (g : Graph) (cb : Callbacks G) (P : FnId) (slot : Nat)
    (evs : List (Event G)) (h : Silent evs) : deliveries g cb evs P slot = [] := by
  induction evs with
  | nil => rfl
  | cons e evs ih =>
    have h1 : Silent evs := fun x hx => h x (List.mem_cons_of_mem _ hx)
    have h2 := h e (List.mem_cons_self _ _)
    cases e with
    | fn_backward f args => exact absurd rfl (h2 f args)
    | _ => simpa [deliveries] using ih h1

theorem silent_append {G : Type} (a b : List (Event G)) (ha : Silent a) (hb : Silent b) :
    Silent (a ++ b) := by
  intro e he
  rcases List.mem_append.1 he with h | h
  · exact ha e h
  · exact hb e h

theorem silent_push {G : Type} (fn : FnId) (b : grad_buffer_type G) :
    Silent [Event.push fn b] := by
  intro e he f args
  simp only [List.mem_singleton] at he
  subst he
  simp

theorem silent_var {G : Type} (v : VarId) (p : PyObject G) :
    Silent [Event.var_backward v p] := by
  intro e he f args
  simp only [List.mem_singleton] at he
  subst he
  simp

theorem silent_nil {G : Type} : Silent ([] : List (Event G)) := by
  intro e he
  simp at he

theorem add_grad_silent {G : Type} [Add G] (nc : buffer_set_type)
    (buf : grad_buffer_type G) (slot : Nat) (d : GradRef G) :
    Silent (THPEngine_add_grad nc buf slot d).1 := by
  intro e he f args
  rcases hs : buf.slots[slot]? with _ | _ | cur
  · simp [THPEngine_add_grad, hs] at he
  · simp [THPEngine_add_grad, hs] at he
  · by_cases hm : (buf.buffer_id, slot) ∈ nc
    · rcases hc : py_clone cur.obj with _ | c
      · simp only [THPEngine_add_grad, hs, hm, hc, if_true, List.mem_singleton] at he
        subst he
        simp
      · rcases ha : py_add_ c d.obj with _ | r <;>
        · simp only [THPEngine_add_grad, hs, hm, hc, ha, if_true, List.mem_cons,
            List.mem_singleton, List.not_mem_nil, or_false] at he
          rcases he with rfl | rfl <;> simp
    · rcases ha : py_add_ cur.obj d.obj with _ | r <;>
      · simp only [THPEngine_add_grad, hs, hm, ha, if_false, List.mem_singleton] at he
        subst he
        simp

/-- Functions of the log that only depend on the `_do_backward` calls are not
affected by appending silent events. -/
theorem silent_log {G : Type} (g : Graph) (cb : Callbacks G) (t evs : List (Event G))
    (h : Silent evs) :
    dispatched (t ++ evs) = dispatched t ∧
    (∀ P, fn_calls P (t ++ evs) = fn_calls P t) ∧
    (∀ P slot, deliveries g cb (t ++ evs) P slot = deliveries g cb t P slot) := by
  refine ⟨?_, fun P => ?_, fun P slot => ?_⟩
  · rw [dispatched_append, silent_dispatched evs h, List.append_nil]
  · rw [fn_calls_append, silent_fn_calls P evs h, List.append_nil]
  · rw [deliveries_append, silent_deliveries g cb P slot evs h, List.append_nil]

/-! ## Sums of gradients -/

theorem tensor_values_append {G : Type} (a b : List (PyObject G)) :
    tensor_values (a ++ b) = tensor_values a ++ tensor_values b := by
  simp [tensor_values, List.filterMap_append]

theorem grad_sum_congr {G : Type} [AddCommMonoid G] (a b c : List (PyObject G))
    (h : grad_sum a = grad_sum b) : grad_sum (a ++ c) = grad_sum (b ++ c) := by
  cases a with
  | nil =>
    cases b with
    | nil => rfl
    | cons y b => simp [grad_sum] at h
  | cons x a =>
    cases b with
    | nil => simp [grad_sum] at h
    | cons y b =>
      simp only [grad_sum, PyObject.Tensor.injEq] at h
      simp only [List.cons_append, grad_sum, PyObject.Tensor.injEq]
      rw [← List.cons_append, ← List.cons_append, tensor_values_append, tensor_values_append,
        List.sum_append, List.sum_append, h]

theorem grad_sum_singleton {G : Type} [AddCommMonoid G] (a : G) :
    grad_sum [PyObject.Tensor a] = .Tensor a := by
  simp [grad_sum, tensor_values]

theorem grad_sum_pair {G : Type} [AddCommMonoid G] (a b : G) :
    grad_sum [PyObject.Tensor a, PyObject.Tensor b] = .Tensor (a + b) := by
  simp [grad_sum, tensor_values]

/-! ## Sums over the functions not yet dispatched -/

theorem sum_filter_split (R : List FnId) (hR : R.Nodup) (C : FnId) (hC : C ∈ R)
    (p q : FnId → Bool) (hp : p C = true) (hq : q C = false)
    (hpq : ∀ x, x ≠ C → q x = p x) (f : FnId → Nat) :
    ((R.filter p).map f).sum = f C + ((R.filter q).map f).sum := by
  induction R with
  | nil => simp at hC
  | cons a R ih =>
    obtain ⟨ha, hR1⟩ := List.nodup_cons.1 hR
    by_cases hac : a = C
    · subst hac
      have hrest : R.filter q = R.filter p := by
        apply List.filter_congr
        intro x hx
        exact hpq x (fun e => ha (e ▸ hx))
      rw [List.filter_cons, List.filter_cons, hp, hq, hrest]
      simp
    · have hC1 : C ∈ R := by
        rcases List.mem_cons.1 hC with h | h
        · exact absurd h.symm hac
        · exact h
      have ih1 := ih hR1 hC1
      rw [List.filter_cons, List.filter_cons, hpq a hac]
      by_cases hpa : p a = true
      · simp only [hpa, if_true, List.map_cons, List.sum_cons]
        rw [ih1]
        omega
      · simp only [hpa, Bool.false_eq_true, if_false]
        exact ih1

theorem sum_filter_remove (R : List FnId) (hR : R.Nodup) (D : List FnId) (C : FnId)
    (hC : C ∈ R) (hD : C ∉ D) (f : FnId → Nat) :
    ((R.filter (fun x => decide (x ∉ D))).map f).sum
      = f C + ((R.filter (fun x => decide (x ∉ D ++ [C]))).map f).sum := by
  apply sum_filter_split R hR C hC
  · simp [hD]
  · simp
  · intro x hx
    simp [hx]

theorem zip_filter_length {α : Type} (es : List Edge) :
    ∀ (out : List α), out.length = es.length → ∀ (P : FnId),
      ((es.zip out).filter (fun x => decide (x.1.obj = .fn P))).length
        = (es.filter (fun e => decide (e.obj = .fn P))).length := by
  induction es with
  | nil => intro out _ P; simp
  | cons e es ih =>
    intro out hlen P
    cases out with
    | nil => simp at hlen
    | cons x out =>
      simp only [List.length_cons, add_left_inj] at hlen
      have := ih out hlen P
      by_cases h : e.obj = .fn P
      · simp [List.zip_cons_cons, List.filter_cons, h, this]
      · simp [List.zip_cons_cons, List.filter_cons, h, this]

end Autograd

namespace Autograd

/-! ## Buffers and the gradients they stand for -/

theorem pend_deliveries_cons {G : Type} (e : Edge) (x : PyObject G)
    (rest : List (Edge × PyObject G)) (P : FnId) (slot : Nat) :
    pend_deliveries ((e, x) :: rest) P slot
      = (if e.obj = .fn P ∧ e.output_nr = slot then [x] else []) ++
          pend_deliveries rest P slot := by
  by_cases h : e.obj = .fn P ∧ e.output_nr = slot
  · simp [pend_deliveries, List.filterMap_cons, h]
  · simp [pend_deliveries, List.filterMap_cons, h]

theorem pend_deliveries_none {G : Type} (pend : List (Edge × PyObject G)) (P : FnId)
    (slot : Nat) (h : (pend.filter (fun x => decide (x.1.obj = .fn P))).length = 0) :
    pend_deliveries pend P slot = [] := by
  induction pend with
  | nil => rfl
  | cons y pend ih =>
    obtain ⟨e, x⟩ := y
    by_cases he : e.obj = .fn P
    · simp [List.filter_cons, he] at h
    · rw [pend_deliveries_cons]
      simp only [List.filter_cons, he, decide_False, Bool.false_eq_true, if_false] at h
      simp [he, ih h]

theorem pending_count_cons {G : Type} (g : Graph) (R : List FnId) (t : List (Event G))
    (e : Edge) (x : PyObject G) (rest : List (Edge × PyObject G)) (P : FnId) :
    pending_count g R t ((e, x) :: rest) P
      = pending_count g R t rest P + (if e.obj = .fn P then 1 else 0) := by
  unfold pending_count
  by_cases h : e.obj = .fn P
  · simp [List.filter_cons, h]
    omega
  · simp [List.filter_cons, h]

theorem pending_count_trace {G : Type} (g : Graph) (R : List FnId) (t t1 : List (Event G))
    (pend : List (Edge × PyObject G)) (P : FnId) (h : dispatched t1 = dispatched t) :
    pending_count g R t1 pend P = pending_count g R t pend P := by
  unfold pending_count
  rw [h]

theorem grad_tuple_slot {G : Type} [AddCommMonoid G] (b : grad_buffer_type G) (hb : TensorBuf b)
    (slot : Nat) (h : slot < b.slots.length) :
    (grad_tuple b)[slot]? = some (grad_sum (slot_list (some b) slot)) := by
  have hget : b.slots[slot]? = some b.slots[slot] := List.getElem?_eq_getElem h
  rcases hs : b.slots[slot] with _ | r
  · rw [hs] at hget
    simp [grad_tuple, slot_list, hget, grad_sum]
  · rw [hs] at hget
    obtain ⟨a, ha⟩ := hb slot r hget
    simp [grad_tuple, slot_list, hget, ha, grad_sum_singleton]

theorem grad_tuple_length {G : Type} (b : grad_buffer_type G) :
    (grad_tuple b).length = b.slots.length := by
  simp [grad_tuple]

/-- The value a successful tensor write leaves in the buffer. -/
theorem add_grad_slot_list {G : Type} [AddCommMonoid G] (nc : buffer_set_type)
    (buf : grad_buffer_type G) (idx : Nat) (a : G) (o : Origin)
    (hb : TensorBuf buf) (hidx : idx < buf.slots.length) :
    ∃ evs nc1 b1, THPEngine_add_grad nc buf idx ⟨.Tensor a, o⟩ = (evs, .ok (nc1, b1)) ∧
      TensorBuf b1 ∧ b1.slots.length = buf.slots.length ∧
      ∀ slot, grad_sum (slot_list (some b1) slot)
        = grad_sum (slot_list (some buf) slot ++ (if idx = slot then [.Tensor a] else [])) := by
  obtain ⟨evs, nc1, b1, hstep, hb1, _, hlen, hother, _, _, hE, hS, hO⟩ :=
    add_grad_tensor_step nc buf idx a o hb hidx
  refine ⟨evs, nc1, b1, hstep, hb1, hlen, fun slot => ?_⟩
  by_cases hs : idx = slot
  · subst hs
    simp only [if_true]
    have hget : buf.slots[idx]? = some buf.slots[idx] := List.getElem?_eq_getElem hidx
    rcases hcur : buf.slots[idx] with _ | cur
    · rw [hcur] at hget
      obtain ⟨_, _, h3⟩ := hE hget
      simp [slot_list, hget, h3]
    · rw [hcur] at hget
      obtain ⟨c, hc⟩ := hb idx cur hget
      obtain ⟨cobj, co⟩ := cur
      simp only at hc
      subst hc
      by_cases hm : (buf.buffer_id, idx) ∈ nc
      · obtain ⟨_, _, _, h4⟩ := hS c co hget hm
        simp [slot_list, hget, h4, grad_sum_singleton, grad_sum_pair]
      · obtain ⟨_, _, _, h4⟩ := hO c co hget hm
        simp [slot_list, hget, h4, grad_sum_singleton, grad_sum_pair]
  · simp only [hs, if_false, List.append_nil]
    simp [slot_list, hother slot (Ne.symm hs)]

theorem slot_list_new {G : Type} (id n slot : Nat) :
    slot_list (some (grad_buffer_type.new id n : grad_buffer_type G)) slot = [] := by
  simp only [slot_list, grad_buffer_type.new]
  by_cases h : slot < n
  · simp [List.getElem?_replicate, h]
  · simp [List.getElem?_replicate, h]

end Autograd

namespace Autograd

/-! ## The scheduling invariant: routing one gradient -/

/-- Routing a gradient along an edge that does not point to a relevant function
(a variable, or a function that does not require grad). -/
theorem schedInv_skip {G : Type} [AddCommMonoid G] (g : Graph) (cb : Callbacks G)
    (R roots : List FnId) (e : Edge) (x : PyObject G) (rest : List (Edge × PyObject G))
    (s s1 : EngineState G) (hskip : ∀ P ∈ R, e.obj ≠ .fn P)
    (hready : s1.ready = s.ready) (hnr : s1.not_ready = s.not_ready)
    (hdeps : s1.dependencies = s.dependencies)
    (htr : ∃ evs, s1.trace = s.trace ++ evs ∧ Silent evs)
    (h : SchedInv g cb R roots ((e, x) :: rest) s) :
    SchedInv g cb R roots rest s1 ∧ dispatched s1.trace = dispatched s.trace := by
  obtain ⟨evs, htr1, hsil⟩ := htr
  obtain ⟨hD, hF, hDel⟩ := silent_log g cb s.trace evs hsil
  rw [← htr1] at hD hF hDel
  have hpc : ∀ P ∈ R, pending_count g R s1.trace rest P
      = pending_count g R s.trace ((e, x) :: rest) P := by
    intro P hP
    rw [pending_count_cons, pending_count_trace g R s.trace s1.trace rest P hD]
    simp [hskip P hP]
  have hpd : ∀ P ∈ R, ∀ slot, pend_deliveries rest P slot
      = pend_deliveries ((e, x) :: rest) P slot := by
    intro P hP slot
    rw [pend_deliveries_cons]
    simp [hskip P hP]
  refine ⟨⟨?_, ?_, ?_, ?_, ?_, ?_, ?_, ?_, ?_, ?_, ?_⟩, hD⟩
  · rw [hD]; exact h.disp_nodup
  · rw [hD]; exact h.disp_sub
  · rw [hready]; exact h.ready_nodup
  · rw [hready, hD]; exact h.ready_sub
  · intro P hP
    rw [hdeps, hpc P hP]
    exact h.deps_eq P hP
  · intro P hP
    rw [hpc P hP, hD, hready]
    exact h.status P hP
  · intro P buf hb
    rw [hnr] at hb
    obtain ⟨h1, h2, h3, h4⟩ := h.waiting P buf hb
    exact ⟨h1, by rw [hpc P h1]; exact h2, h3, h4⟩
  · intro P hP hpos slot
    rw [hpc P hP] at hpos
    rw [hnr, hpd P hP, hDel]
    exact h.val_waiting P hP hpos slot
  · intro P buf hb hroot
    rw [hready] at hb
    obtain ⟨h1, h2⟩ := h.val_ready P buf hb hroot
    refine ⟨h1, fun slot hs => ?_⟩
    rw [hDel]
    exact h2 slot hs
  · intro P hroot args hargs
    rw [hF] at hargs
    obtain ⟨h1, h2⟩ := h.val_disp P hroot args hargs
    refine ⟨h1, fun slot hs => ?_⟩
    rw [hDel]
    exact h2 slot hs
  · rw [hD]; exact h.order

/-- Routing the last gradient a relevant function `p` waits for: `p` joins the
ready queue with the buffer `b1`. -/
theorem schedInv_ready {G : Type} [AddCommMonoid G] (g : Graph) (cb : Callbacks G)
    (R roots : List FnId) (e : Edge) (x : PyObject G) (rest : List (Edge × PyObject G))
    (s s1 : EngineState G) (p : FnId) (b1 : grad_buffer_type G)
    (hep : e.obj = .fn p) (hp : p ∈ R)
    (hone : pending_count g R s.trace ((e, x) :: rest) p = 1)
    (htr : ∃ evs, s1.trace = s.trace ++ evs ∧ Silent evs)
    (hready : s1.ready = s.ready ++ [(p, b1)])
    (hnr : ∀ P, P ≠ p → Map.find s1.not_ready P = Map.find s.not_ready P)
    (hnrp : Map.find s1.not_ready p = none)
    (hdeps : ∀ P, P ≠ p → Map.find s1.dependencies P = Map.find s.dependencies P)
    (hdepsp : Map.find s1.dependencies p = none)
    (hlen : b1.slots.length = (g.fn p).num_outputs) (hb1 : TensorBuf b1)
    (hval : ∀ slot, grad_sum (slot_list (some b1) slot)
      = grad_sum (slot_list (Map.find s.not_ready p) slot ++
          (if e.output_nr = slot then [x] else [])))
    (h : SchedInv g cb R roots ((e, x) :: rest) s) :
    SchedInv g cb R roots rest s1 ∧ dispatched s1.trace = dispatched s.trace := by
  obtain ⟨evs, htr1, hsil⟩ := htr
  obtain ⟨hD, hF, hDel⟩ := silent_log g cb s.trace evs hsil
  rw [← htr1] at hD hF hDel
  have hpc : ∀ P, P ≠ p → pending_count g R s1.trace rest P
      = pending_count g R s.trace ((e, x) :: rest) P := by
    intro P hP
    rw [pending_count_cons, pending_count_trace g R s.trace s1.trace rest P hD]
    have : ¬ (e.obj = .fn P) := by
      rw [hep]
      intro e1
      exact hP (PrevObj.fn.inj e1).symm
    simp [this]
  have hpcp : pending_count g R s1.trace rest p = 0 := by
    have := pending_count_cons g R s.trace e x rest p
    rw [hone] at this
    simp only [hep, if_true] at this
    rw [pending_count_trace g R s.trace s1.trace rest p hD]
    omega
  have hpd : ∀ P, P ≠ p → ∀ slot, pend_deliveries rest P slot
      = pend_deliveries ((e, x) :: rest) P slot := by
    intro P hP slot
    rw [pend_deliveries_cons]
    have : ¬ (e.obj = .fn P) := by
      rw [hep]
      intro e1
      exact hP (PrevObj.fn.inj e1).symm
    simp [this]
  have hstat := (h.status p hp).not.1 (by rw [hone]; decide)
  have hpD : p ∉ dispatched s.trace := fun hc => hstat (Or.inl hc)
  have hpQ : p ∉ s.ready.map Prod.fst := fun hc => hstat (Or.inr hc)
  have hmapready : s1.ready.map Prod.fst = s.ready.map Prod.fst ++ [p] := by
    rw [hready]
    simp
  refine ⟨⟨?_, ?_, ?_, ?_, ?_, ?_, ?_, ?_, ?_, ?_, ?_⟩, hD⟩
  · rw [hD]; exact h.disp_nodup
  · rw [hD]; exact h.disp_sub
  · rw [hmapready]
    rw [List.nodup_append]
    refine ⟨h.ready_nodup, List.nodup_singleton _, ?_⟩
    intro a ha hb
    simp only [List.mem_singleton] at hb
    subst hb
    exact hpQ ha
  · intro c hc
    rw [hmapready] at hc
    rw [hD]
    rcases List.mem_append.1 hc with h1 | h1
    · exact h.ready_sub c h1
    · simp only [List.mem_singleton] at h1
      subst h1
      exact ⟨hp, hpD⟩
  · intro P hP
    by_cases hPp : P = p
    · subst hPp
      rw [hdepsp, hpcp]
      simp
    · rw [hdeps P hPp, hpc P hPp]
      exact h.deps_eq P hP
  · intro P hP
    rw [hD, hmapready]
    by_cases hPp : P = p
    · subst hPp
      rw [hpcp]
      simp
    · rw [hpc P hPp]
      rw [h.status P hP]
      simp [hPp]
  · intro P buf hb
    by_cases hPp : P = p
    · subst hPp
      rw [hnrp] at hb
      simp at hb
    · rw [hnr P hPp] at hb
      obtain ⟨h1, h2, h3, h4⟩ := h.waiting P buf hb
      exact ⟨h1, by rw [hpc P hPp]; exact h2, h3, h4⟩
  · intro P hP hpos slot
    by_cases hPp : P = p
    · subst hPp
      rw [hpcp] at hpos
      exact absurd hpos (by decide)
    · rw [hpc P hPp] at hpos
      rw [hnr P hPp, hpd P hPp, hDel]
      exact h.val_waiting P hP hpos slot
  · intro P buf hb hroot
    rw [hready] at hb
    rcases List.mem_append.1 hb with h1 | h1
    · obtain ⟨h2, h3⟩ := h.val_ready P buf h1 hroot
      refine ⟨h2, fun slot hs => ?_⟩
      rw [hDel]
      exact h3 slot hs
    · simp only [List.mem_singleton, Prod.mk.injEq] at h1
      obtain ⟨rfl, rfl⟩ := h1
      refine ⟨by rw [grad_tuple_length, hlen], fun slot hs => ?_⟩
      rw [grad_tuple_slot buf hb1 slot (by rw [hlen]; exact hs), hval slot, hDel]
      have hw := h.val_waiting P hp (by rw [hone]; decide) slot
      rw [pend_deliveries_cons] at hw
      have hnone : pend_deliveries rest P slot = [] := by
        apply pend_deliveries_none
        have h0 := hpcp
        rw [pending_count] at h0
        omega
      rw [hnone, List.append_nil] at hw
      simp only [hep, true_and] at hw
      rw [hw]
  · intro P hroot args hargs
    rw [hF] at hargs
    obtain ⟨h1, h2⟩ := h.val_disp P hroot args hargs
    refine ⟨h1, fun slot hs => ?_⟩
    rw [hDel]
    exact h2 slot hs
  · rw [hD]; exact h.order

/-- Routing a gradient to a relevant function `p` that waits for more: the
buffer `b1` of `p` stays in the waiting table. -/
theorem schedInv_wait {G : Type} [AddCommMonoid G] (g : Graph) (cb : Callbacks G)
    (R roots : List FnId) (e : Edge) (x : PyObject G) (rest : List (Edge × PyObject G))
    (s s1 : EngineState G) (p : FnId) (b1 : grad_buffer_type G)
    (hep : e.obj = .fn p) (hp : p ∈ R)
    (htwo : 2 ≤ pending_count g R s.trace ((e, x) :: rest) p)
    (htr : ∃ evs, s1.trace = s.trace ++ evs ∧ Silent evs)
    (hready : s1.ready = s.ready)
    (hnr : ∀ P, P ≠ p → Map.find s1.not_ready P = Map.find s.not_ready P)
    (hnrp : Map.find s1.not_ready p = some b1)
    (hdeps : ∀ P, P ≠ p → Map.find s1.dependencies P = Map.find s.dependencies P)
    (hdepsp : Map.find s1.dependencies p
      = some ((pending_count g R s.trace ((e, x) :: rest) p : Int) - 1))
    (hlen : b1.slots.length = (g.fn p).num_outputs) (hb1 : TensorBuf b1)
    (hval : ∀ slot, grad_sum (slot_list (some b1) slot)
      = grad_sum (slot_list (Map.find s.not_ready p) slot ++
          (if e.output_nr = slot then [x] else [])))
    (h : SchedInv g cb R roots ((e, x) :: rest) s) :
    SchedInv g cb R roots rest s1 ∧ dispatched s1.trace = dispatched s.trace := by
  obtain ⟨evs, htr1, hsil⟩ := htr
  obtain ⟨hD, hF, hDel⟩ := silent_log g cb s.trace evs hsil
  rw [← htr1] at hD hF hDel
  have hne : ∀ P, P ≠ p → ¬ (e.obj = .fn P) := by
    intro P hP
    rw [hep]
    intro e1
    exact hP (PrevObj.fn.inj e1).symm
  have hpc : ∀ P, P ≠ p → pending_count g R s1.trace rest P
      = pending_count g R s.trace ((e, x) :: rest) P := by
    intro P hP
    rw [pending_count_cons, pending_count_trace g R s.trace s1.trace rest P hD]
    simp [hne P hP]
  have hpcp : pending_count g R s1.trace rest p + 1
      = pending_count g R s.trace ((e, x) :: rest) p := by
    have := pending_count_cons g R s.trace e x rest p
    simp only [hep, if_true] at this
    rw [pending_count_trace g R s.trace s1.trace rest p hD]
    omega
  have hpd : ∀ P, P ≠ p → ∀ slot, pend_deliveries rest P slot
      = pend_deliveries ((e, x) :: rest) P slot := by
    intro P hP slot
    rw [pend_deliveries_cons]
    simp [hne P hP]
  have hstat := (h.status p hp).not.1 (by omega)
  refine ⟨⟨?_, ?_, ?_, ?_, ?_, ?_, ?_, ?_, ?_, ?_, ?_⟩, hD⟩
  · rw [hD]; exact h.disp_nodup
  · rw [hD]; exact h.disp_sub
  · rw [hready]; exact h.ready_nodup
  · rw [hready, hD]; exact h.ready_sub
  · intro P hP
    by_cases hPp : P = p
    · subst hPp
      rw [hdepsp]
      have : pending_count g R s1.trace rest P ≠ 0 := by omega
      simp only [this, if_false, Option.some.injEq]
      omega
    · rw [hdeps P hPp, hpc P hPp]
      exact h.deps_eq P hP
  · intro P hP
    rw [hD, hready]
    by_cases hPp : P = p
    · subst hPp
      constructor
      · intro h0
        omega
      · intro h1
        exact absurd h1 hstat
    · rw [hpc P hPp]
      exact h.status P hP
  · intro P buf hb
    by_cases hPp : P = p
    · subst hPp
      rw [hnrp] at hb
      simp only [Option.some.injEq] at hb
      subst hb
      exact ⟨hp, by omega, hlen, hb1⟩
    · rw [hnr P hPp] at hb
      obtain ⟨h1, h2, h3, h4⟩ := h.waiting P buf hb
      exact ⟨h1, by rw [hpc P hPp]; exact h2, h3, h4⟩
  · intro P hP hpos slot
    by_cases hPp : P = p
    · subst hPp
      rw [hnrp, hDel]
      have hw := h.val_waiting P hp (by omega) slot
      rw [pend_deliveries_cons] at hw
      simp only [hep, true_and] at hw
      rw [← hw, ← List.append_assoc]
      exact grad_sum_congr _ _ _ (hval slot)
    · rw [hpc P hPp] at hpos
      rw [hnr P hPp, hpd P hPp, hDel]
      exact h.val_waiting P hP hpos slot
  · intro P buf hb hroot
    rw [hready] at hb
    obtain ⟨h1, h2⟩ := h.val_ready P buf hb hroot
    refine ⟨h1, fun slot hs => ?_⟩
    rw [hDel]
    exact h2 slot hs
  · intro P hroot args hargs
    rw [hF] at hargs
    obtain ⟨h1, h2⟩ := h.val_disp P hroot args hargs
    refine ⟨h1, fun slot hs => ?_⟩
    rw [hDel]
    exact h2 slot hs
  · rw [hD]; exact h.order

end Autograd

namespace Autograd

theorem free_backward_dependency_last (deps : dependencies_type) (p : FnId)
    (h : Map.find deps p = some 1) :
    THPEngine_free_backward_dependency deps p
      = .ok (Map.erase (Map.insert deps p 0) p, true) := by
  simp [THPEngine_free_backward_dependency, dependencies_type.count, h]

theorem free_backward_dependency_more (deps : dependencies_type) (p : FnId) (n : Nat)
    (hn : 2 ≤ n) (h : Map.find deps p = some (n : Int)) :
    THPEngine_free_backward_dependency deps p
      = .ok (Map.insert deps p ((n : Int) - 1), false) := by
  have h1 : ¬ ((n : Int) - 1 < 0) := by omega
  have h2 : ¬ ((n : Int) - 1 = 0) := by omega
  simp [THPEngine_free_backward_dependency, dependencies_type.count, h, h1, h2]

theorem mem_relevant (g : Graph) (X : List FnId) (P : FnId) :
    P ∈ X.filter (fun c => (g.fn c).requires_grad) ↔ P ∈ X ∧ (g.fn P).requires_grad = true := by
  simp [List.mem_filter]

/-- Routing one returned gradient keeps the scheduling invariant and succeeds. -/
theorem route_grad_sched {G : Type} [AddCommMonoid G] (g : Graph) (cb : Callbacks G)
    (vars : List VarId) (grads : List (PyObject G)) (X : List FnId)
    (hpre : BackwardPre g cb vars grads X) (C : FnId) (hC : C ∈ X)
    (e : Edge) (x : PyObject G) (rest : List (Edge × PyObject G)) (s : EngineState G)
    (he : e ∈ (g.fn C).previous_functions)
    (hx : ∀ p, e.obj = .fn p → (g.fn p).requires_grad = true → ∃ a, x = .Tensor a)
    (h : SchedInv g cb (X.filter (fun c => (g.fn c).requires_grad)) (creators_of g vars)
      ((e, x) :: rest) s) :
    ∃ s1, route_grad g cb s e x = .ok s1 ∧
      SchedInv g cb (X.filter (fun c => (g.fn c).requires_grad)) (creators_of g vars)
        rest s1 ∧ dispatched s1.trace = dispatched s.trace := by
  rcases hep : e.obj with v | p
  · have hskip : ∀ P ∈ X.filter (fun c => (g.fn c).requires_grad), e.obj ≠ .fn P := by
      intro P _
      rw [hep]
      simp
    by_cases hrg : (g.var v).requires_grad = true
    · refine ⟨s.log [.var_backward v x], ?_, ?_⟩
      · simp [route_grad, hep, hrg, hpre.var_ok]
      · exact schedInv_skip g cb _ _ e x rest s _ hskip rfl rfl rfl
          ⟨_, rfl, silent_var _ _⟩ h
    · refine ⟨s, ?_, ?_⟩
      · simp [route_grad, hep, hrg]
      · exact schedInv_skip g cb _ _ e x rest s _ hskip rfl rfl rfl
          ⟨[], by simp, silent_nil⟩ h
  · by_cases hrg : (g.fn p).requires_grad = true
    · have hst := hpre.no_stoch p
      have hpX : p ∈ X := by
        rw [hpre.X_reach]
        obtain ⟨r, hr, hrc⟩ := (hpre.X_reach C).1 hC
        exact ⟨r, hr, Relation.ReflTransGen.tail hrc ⟨e, he, hep⟩⟩
      have hpR : p ∈ X.filter (fun c => (g.fn c).requires_grad) :=
        (mem_relevant g X p).2 ⟨hpX, hrg⟩
      obtain ⟨a, rfl⟩ := hx p hep hrg
      have hidx := hpre.edge_slot C hC e he p hep hrg
      have hcons := pending_count_cons g (X.filter (fun c => (g.fn c).requires_grad))
        s.trace e (.Tensor a) rest p
      simp only [hep, if_true] at hcons
      have hdeps := h.deps_eq p hpR
      have hne0 : pending_count g (X.filter (fun c => (g.fn c).requires_grad)) s.trace
          ((e, .Tensor a) :: rest) p ≠ 0 := by omega
      simp only [hne0, if_false] at hdeps
      have hsetval : ∀ slot, grad_sum (slot_list (some (⟨s.next_buf_id,
            (List.replicate (g.fn p).num_outputs none).set e.output_nr
              (some ⟨.Tensor a, .returned⟩)⟩ : grad_buffer_type G)) slot)
          = grad_sum (slot_list (none : Option (grad_buffer_type G)) slot ++
              (if e.output_nr = slot then [PyObject.Tensor a] else [])) := by
        intro slot
        by_cases hs : e.output_nr = slot
        · subst hs
          simp [slot_list, List.getElem?_set, hidx]
        · simp [slot_list, List.getElem?_set_ne hs, List.getElem?_replicate, hs]
      by_cases hone : pending_count g (X.filter (fun c => (g.fn c).requires_grad)) s.trace
          ((e, .Tensor a) :: rest) p = 1
      · rw [hone] at hdeps
        have hfree := free_backward_dependency_last s.dependencies p hdeps
        have hd1 : ∀ P, P ≠ p → Map.find (Map.erase (Map.insert s.dependencies p 0) p) P
            = Map.find s.dependencies P := by
          intro P hP
          rw [Map.find_erase_ne _ hP, Map.find_insert_ne _ _ hP]
        have hd2 : Map.find (Map.erase (Map.insert s.dependencies p 0) p) p = none :=
          Map.find_erase_self _ _
        rcases hfind : Map.find s.not_ready p with _ | buffer
        · refine ⟨_, ?_, schedInv_ready g cb _ _ e (.Tensor a) rest s
            { s with
              dependencies := Map.erase (Map.insert s.dependencies p 0) p
              next_buf_id := s.next_buf_id + 1
              ready := s.ready ++ [(p, ⟨s.next_buf_id,
                (List.replicate (g.fn p).num_outputs none).set e.output_nr
                  (some ⟨.Tensor a, .returned⟩)⟩)]
              trace := s.trace ++ [.push p ⟨s.next_buf_id,
                (List.replicate (g.fn p).num_outputs none).set e.output_nr
                  (some ⟨.Tensor a, .returned⟩)⟩] }
            p _ hep hpR hone ⟨_, rfl, silent_push _ _⟩ rfl (fun P _ => rfl) hfind hd1 hd2
            (by simp) ?_ ?_ h⟩
          · simp [route_grad, hep, hrg, hst, hfree, hfind, hidx,
              ready_queue_type.emplace_front]
          · have := tensorBuf_set (grad_buffer_type.new s.next_buf_id (g.fn p).num_outputs)
              (tensorBuf_new _ _) e.output_nr a .returned
            simpa [grad_buffer_type.new] using this
          · rw [hfind]
            exact hsetval
        · obtain ⟨_, _, hblen, hbT⟩ := h.waiting p buffer hfind
          obtain ⟨evs, nc1, b1, hadd, hb1, hlen1, hval1⟩ := add_grad_slot_list s.need_copy
            buffer e.output_nr a .returned hbT (by rw [hblen]; exact hidx)
          have hsil : Silent (evs ++ [Event.push p b1]) := by
            apply silent_append _ _ _ (silent_push _ _)
            have := add_grad_silent s.need_copy buffer e.output_nr ⟨.Tensor a, .returned⟩
            rw [hadd] at this
            exact this
          refine ⟨_, ?_, schedInv_ready g cb _ _ e (.Tensor a) rest s
            { s with
              dependencies := Map.erase (Map.insert s.dependencies p 0) p
              not_ready := Map.erase s.not_ready p
              need_copy := nc1
              ready := s.ready ++ [(p, b1)]
              trace := s.trace ++ (evs ++ [.push p b1]) }
            p b1 hep hpR hone ⟨_, rfl, hsil⟩ rfl (fun P hP => Map.find_erase_ne _ hP)
            (Map.find_erase_self _ _) hd1 hd2 (by rw [hlen1, hblen]) hb1 ?_ h⟩
          · simp [route_grad, hep, hrg, hst, hfree, hfind, hadd,
              ready_queue_type.emplace_front]
          · rw [hfind]
            exact hval1
      · have htwo : 2 ≤ pending_count g (X.filter (fun c => (g.fn c).requires_grad)) s.trace
            ((e, .Tensor a) :: rest) p := by omega
        have hfree := free_backward_dependency_more s.dependencies p _ htwo hdeps
        have hd1 : ∀ P, P ≠ p → Map.find (Map.insert s.dependencies p
            ((pending_count g (X.filter (fun c => (g.fn c).requires_grad)) s.trace
              ((e, .Tensor a) :: rest) p : Int) - 1)) P = Map.find s.dependencies P := by
          intro P hP
          rw [Map.find_insert_ne _ _ hP]
        rcases hfind : Map.find s.not_ready p with _ | buffer
        · obtain ⟨evs, nc1, b1, hadd, hb1, hlen1, hval1⟩ := add_grad_slot_list s.need_copy
            (grad_buffer_type.new s.next_buf_id (g.fn p).num_outputs) e.output_nr a .returned
            (tensorBuf_new _ _) (by simpa [grad_buffer_type.new] using hidx)
          have hsil : Silent evs := by
            have := add_grad_silent s.need_copy
              (grad_buffer_type.new s.next_buf_id (g.fn p).num_outputs : grad_buffer_type G)
              e.output_nr ⟨.Tensor a, .returned⟩
            rw [hadd] at this
            exact this
          refine ⟨_, ?_, schedInv_wait g cb _ _ e (.Tensor a) rest s
            { s with
              dependencies := Map.insert s.dependencies p
                ((pending_count g (X.filter (fun c => (g.fn c).requires_grad)) s.trace
                  ((e, .Tensor a) :: rest) p : Int) - 1)
              next_buf_id := s.next_buf_id + 1
              need_copy := nc1
              not_ready := Map.insert s.not_ready p b1
              trace := s.trace ++ evs }
            p b1 hep hpR htwo ⟨_, rfl, hsil⟩ rfl (fun P hP => Map.find_insert_ne _ _ hP)
            (Map.find_insert_self _ _ _) hd1 (Map.find_insert_self _ _ _)
            (by rw [hlen1]; simp [grad_buffer_type.new]) hb1 ?_ h⟩
          · simp [route_grad, hep, hrg, hst, hfree, hfind, accumulate_not_ready, hadd]
          · intro slot
            rw [hfind, hval1 slot, slot_list_new]
            rfl
        · obtain ⟨_, _, hblen, hbT⟩ := h.waiting p buffer hfind
          obtain ⟨evs, nc1, b1, hadd, hb1, hlen1, hval1⟩ := add_grad_slot_list s.need_copy
            buffer e.output_nr a .returned hbT (by rw [hblen]; exact hidx)
          have hsil : Silent evs := by
            have := add_grad_silent s.need_copy buffer e.output_nr ⟨.Tensor a, .returned⟩
            rw [hadd] at this
            exact this
          refine ⟨_, ?_, schedInv_wait g cb _ _ e (.Tensor a) rest s
            { s with
              dependencies := Map.insert s.dependencies p
                ((pending_count g (X.filter (fun c => (g.fn c).requires_grad)) s.trace
                  ((e, .Tensor a) :: rest) p : Int) - 1)
              need_copy := nc1
              not_ready := Map.insert s.not_ready p b1
              trace := s.trace ++ evs }
            p b1 hep hpR htwo ⟨_, rfl, hsil⟩ rfl (fun P hP => Map.find_insert_ne _ _ hP)
            (Map.find_insert_self _ _ _) hd1 (Map.find_insert_self _ _ _)
            (by rw [hlen1, hblen]) hb1 ?_ h⟩
          · simp [route_grad, hep, hrg, hst, hfree, hfind, accumulate_not_ready, hadd]
          · rw [hfind]
            exact hval1
    · have hskip : ∀ P ∈ X.filter (fun c => (g.fn c).requires_grad), e.obj ≠ .fn P := by
        intro P hP
        rw [hep]
        intro e1
        rw [← PrevObj.fn.inj e1] at hP
        exact hrg ((mem_relevant g X p).1 hP).2
      refine ⟨s, ?_, ?_⟩
      · simp [route_grad, hep, hrg]
      · exact schedInv_skip g cb _ _ e x rest s _ hskip rfl rfl rfl
          ⟨[], by simp, silent_nil⟩ h

end Autograd

namespace Autograd

/-! ## The scheduling invariant: dispatching a function -/

theorem process_grad_input_sched {G : Type} [AddCommMonoid G] (g : Graph) (cb : Callbacks G)
    (vars : List VarId) (grads : List (PyObject G)) (X : List FnId)
    (hpre : BackwardPre g cb vars grads X) (C : FnId) (hC : C ∈ X) :
    ∀ (es : List Edge) (out : List (PyObject G)) (s : EngineState G),
      out.length = es.length → (∀ e ∈ es, e ∈ (g.fn C).previous_functions) →
      (∀ x ∈ es.zip out, ∀ p, x.1.obj = .fn p → (g.fn p).requires_grad = true →
        ∃ a, x.2 = .Tensor a) →
      SchedInv g cb (X.filter (fun c => (g.fn c).requires_grad)) (creators_of g vars)
        (es.zip out) s →
      ∃ s1, process_grad_input g cb es out s = .ok s1 ∧
        SchedInv g cb (X.filter (fun c => (g.fn c).requires_grad)) (creators_of g vars) [] s1 ∧
        dispatched s1.trace = dispatched s.trace := by
  intro es
  induction es with
  | nil =>
    intro out s hlen _ _ h
    cases out with
    | nil => exact ⟨s, rfl, h, rfl⟩
    | cons x out => simp at hlen
  | cons e es ih =>
    intro out s hlen hsub hx h
    cases out with
    | nil => simp at hlen
    | cons x out =>
      simp only [List.length_cons, add_left_inj] at hlen
      rw [List.zip_cons_cons] at h hx
      obtain ⟨s1, hr, hinv, hd⟩ := route_grad_sched g cb vars grads X hpre C hC e x
        (es.zip out) s (hsub e (List.mem_cons_self _ _))
        (hx (e, x) (List.mem_cons_self _ _)) h
      obtain ⟨s2, hr2, hinv2, hd2⟩ := ih out s1 hlen
        (fun e1 he1 => hsub e1 (List.mem_cons_of_mem _ he1))
        (fun y hy => hx y (List.mem_cons_of_mem _ hy)) hinv
      exact ⟨s2, by simp only [process_grad_input, hr]; exact hr2, hinv2, hd2.trans hd⟩

theorem edge_count_pos (g : Graph) (C P : FnId) : 0 < edge_count g C P ↔ EdgeTo g C P := by
  unfold edge_count EdgeTo
  rw [List.length_pos_iff_exists_mem]
  constructor
  · rintro ⟨e, he⟩
    rw [List.mem_filter] at he
    exact ⟨e, he.1, by simpa using he.2⟩
  · rintro ⟨e, he, hp⟩
    exact ⟨e, List.mem_filter.2 ⟨he, by simpa using hp⟩⟩

theorem pending_zero_edge {G : Type} (g : Graph) (R : List FnId) (t : List (Event G))
    (pend : List (Edge × PyObject G)) (P C : FnId)
    (h : pending_count g R t pend P = 0) (hC : C ∈ R) (hD : C ∉ dispatched t) :
    edge_count g C P = 0 := by
  unfold pending_count at h
  have h1 : ((R.filter (fun C => decide (C ∉ dispatched t))).map
      (fun C => edge_count g C P)).sum = 0 := by omega
  rw [List.sum_eq_zero_iff] at h1
  apply h1
  rw [List.mem_map]
  exact ⟨C, List.mem_filter.2 ⟨hC, by simpa using hD⟩, rfl⟩

theorem node_deliveries_none {G : Type} (g : Graph) (C P : FnId) (out : List (PyObject G))
    (slot : Nat) (hlen : out.length = (g.fn C).previous_functions.length)
    (h : edge_count g C P = 0) : node_deliveries g C out P slot = [] := by
  apply pend_deliveries_none
  rw [zip_filter_length _ out hlen P]
  exact h

theorem fn_calls_mem_dispatched {G : Type} (P : FnId) (t : List (Event G))
    (args : List (PyObject G)) (h : args ∈ fn_calls P t) : P ∈ dispatched t := by
  induction t with
  | nil => simp [fn_calls] at h
  | cons e t ih =>
    cases e with
    | fn_backward f a =>
      by_cases hf : f = P
      · subst hf
        simp [dispatched]
      · have : args ∈ fn_calls P t := by
          simpa [fn_calls, List.filterMap_cons, hf] using h
        have := ih this
        simp only [dispatched, List.filterMap_cons] at this ⊢
        exact List.mem_cons_of_mem _ this
    | _ =>
      have : args ∈ fn_calls P t := by
        simpa [fn_calls, List.filterMap_cons] using h
      simpa [dispatched, List.filterMap_cons] using ih this

/-- Taking the pair of `C` from the back of the ready queue and calling its
`_do_backward`, which returns `out`. -/
theorem schedInv_dispatch {G : Type} [AddCommMonoid G] (g : Graph) (cb : Callbacks G)
    (R roots : List FnId) (hR : R.Nodup) (s : EngineState G) (C : FnId)
    (buf : grad_buffer_type G) (rest : ready_queue_type G) (out : List (PyObject G))
    (hq : s.ready = (C, buf) :: rest)
    (hout : cb.fn_do_backward C (grad_tuple buf) = .tuple out)
    (hlen : out.length = (g.fn C).previous_functions.length)
    (h : SchedInv g cb R roots [] s) :
    SchedInv g cb R roots ((g.fn C).previous_functions.zip out)
      { s with ready := rest,
               trace := s.trace ++ [.pop C buf, .fn_backward C (grad_tuple buf)] } := by
  have hCready : C ∈ s.ready.map Prod.fst := by rw [hq]; simp
  obtain ⟨hCR, hCD⟩ := h.ready_sub C hCready
  have hqnd := h.ready_nodup
  rw [hq, List.map_cons, List.nodup_cons] at hqnd
  have hD : dispatched (s.trace ++ [Event.pop C buf, Event.fn_backward C (grad_tuple buf)])
      = dispatched s.trace ++ [C] := by
    rw [dispatched_append]
    simp [dispatched]
  have hF : ∀ P, fn_calls P (s.trace ++ [Event.pop C buf,
      Event.fn_backward C (grad_tuple buf)])
      = fn_calls P s.trace ++ (if C = P then [grad_tuple buf] else []) := by
    intro P
    rw [fn_calls_append]
    by_cases hcp : C = P <;> simp [fn_calls, hcp]
  have hDel : ∀ P slot, deliveries g cb (s.trace ++ [Event.pop C buf,
      Event.fn_backward C (grad_tuple buf)]) P slot
      = deliveries g cb s.trace P slot ++ node_deliveries g C out P slot := by
    intro P slot
    rw [deliveries_append]
    simp [deliveries, hout]
  have hpc : ∀ P, pending_count g R (s.trace ++ [Event.pop C buf,
      Event.fn_backward C (grad_tuple buf)]) ((g.fn C).previous_functions.zip out) P
      = pending_count g R s.trace [] P := by
    intro P
    unfold pending_count
    rw [hD, zip_filter_length _ out hlen P,
      sum_filter_remove R hR (dispatched s.trace) C hCR hCD (fun C => edge_count g C P)]
    simp only [List.filter_nil, List.length_nil, add_zero]
    unfold edge_count
    omega
  have hzero : ∀ P ∈ R, (P ∈ dispatched s.trace ∨ P ∈ s.ready.map Prod.fst) →
      ∀ slot, node_deliveries g C out P slot = [] := by
    intro P hP hst slot
    have h0 := (h.status P hP).2 hst
    exact node_deliveries_none g C P out slot hlen
      (pending_zero_edge g R s.trace [] P C h0 hCR hCD)
  refine ⟨?_, ?_, ?_, ?_, ?_, ?_, ?_, ?_, ?_, ?_, ?_⟩
  · rw [hD, List.nodup_append]
    refine ⟨h.disp_nodup, List.nodup_singleton _, ?_⟩
    intro a ha hb
    simp only [List.mem_singleton] at hb
    subst hb
    exact hCD ha
  · intro c hc
    rw [hD] at hc
    rcases List.mem_append.1 hc with h1 | h1
    · exact h.disp_sub c h1
    · simp only [List.mem_singleton] at h1
      subst h1
      exact hCR
  · exact hqnd.2
  · intro c hc
    have hc1 : c ∈ s.ready.map Prod.fst := by
      rw [hq, List.map_cons]
      exact List.mem_cons_of_mem _ hc
    obtain ⟨h1, h2⟩ := h.ready_sub c hc1
    refine ⟨h1, ?_⟩
    rw [hD]
    intro h3
    rcases List.mem_append.1 h3 with h4 | h4
    · exact h2 h4
    · simp only [List.mem_singleton] at h4
      subst h4
      exact hqnd.1 hc
  · intro P hP
    rw [hpc P]
    exact h.deps_eq P hP
  · intro P hP
    rw [hpc P, h.status P hP, hD, hq]
    simp only [List.map_cons, List.mem_cons, List.mem_append, List.mem_singleton]
    tauto
  · intro P b hb
    obtain ⟨h1, h2, h3, h4⟩ := h.waiting P b hb
    exact ⟨h1, by rw [hpc P]; exact h2, h3, h4⟩
  · intro P hP hpos slot
    rw [hpc P] at hpos
    rw [hDel]
    have hw := h.val_waiting P hP hpos slot
    simp only [pend_deliveries, List.filterMap_nil, List.append_nil] at hw
    exact grad_sum_congr _ _ _ hw
  · intro P b hb hroot
    have hb1 : (P, b) ∈ s.ready := by
      rw [hq]
      exact List.mem_cons_of_mem _ hb
    have hP1 : P ∈ s.ready.map Prod.fst := List.mem_map.2 ⟨(P, b), hb1, rfl⟩
    obtain ⟨h1, h2⟩ := h.val_ready P b hb1 hroot
    refine ⟨h1, fun slot hs => ?_⟩
    rw [hDel, hzero P (h.ready_sub P hP1).1 (Or.inr hP1) slot, List.append_nil]
    exact h2 slot hs
  · intro P hroot args hargs
    rw [hF] at hargs
    rcases List.mem_append.1 hargs with h1 | h1
    · have hPD := fn_calls_mem_dispatched P s.trace args h1
      obtain ⟨h2, h3⟩ := h.val_disp P hroot args h1
      refine ⟨h2, fun slot hs => ?_⟩
      rw [hDel, hzero P (h.disp_sub P hPD) (Or.inl hPD) slot, List.append_nil]
      exact h3 slot hs
    · by_cases hcp : C = P
      · subst hcp
        simp only [if_true, List.mem_singleton] at h1
        subst h1
        obtain ⟨h2, h3⟩ := h.val_ready C buf (by rw [hq]; exact List.mem_cons_self _ _) hroot
        refine ⟨h2, fun slot hs => ?_⟩
        rw [hDel, hzero C hCR (Or.inr hCready) slot, List.append_nil]
        exact h3 slot hs
      · simp [hcp] at h1
  · intro l1 P l2 hsplit C1 hC1 hedge
    rw [hD] at hsplit
    rcases List.eq_nil_or_concat l2 with h2 | ⟨l3, c, h2⟩
    · subst h2
      have h3 : dispatched s.trace ++ [C] = l1 ++ [P] := hsplit
      obtain ⟨h4, h5⟩ := List.append_inj' h3 rfl
      simp only [List.cons.injEq, and_true] at h5
      subst h5
      rw [← h4]
      by_contra hn
      have h0 := (h.status C hCR).2 (Or.inr hCready)
      have := pending_zero_edge g R s.trace [] C C1 h0 hC1 hn
      have hpos := (edge_count_pos g C1 C).2 hedge
      omega
    · subst h2
      have h3 : dispatched s.trace ++ [C] = (l1 ++ P :: l3) ++ [c] := by
        rw [hsplit]
        simp
      obtain ⟨h4, _⟩ := List.append_inj' h3 rfl
      exact h.order l1 P l3 h4 C1 hC1 hedge

end Autograd

namespace Autograd

/-! ## The scheduling invariant: the draining loop -/

theorem dispatch_sched {G : Type} [AddCommMonoid G] (g : Graph) (cb : Callbacks G)
    (vars : List VarId) (grads : List (PyObject G)) (X : List FnId)
    (hpre : BackwardPre g cb vars grads X) (s : EngineState G) (C : FnId)
    (buf : grad_buffer_type G) (rest : ready_queue_type G)
    (hq : s.ready = (C, buf) :: rest)
    (h : SchedInv g cb (X.filter (fun c => (g.fn c).requires_grad)) (creators_of g vars) [] s) :
    ∃ s1, dispatch g cb { s with ready := rest } C buf = .ok s1 ∧
      SchedInv g cb (X.filter (fun c => (g.fn c).requires_grad)) (creators_of g vars) [] s1 ∧
      dispatched s1.trace = dispatched s.trace ++ [C] := by
  have hCready : C ∈ s.ready.map Prod.fst := by rw [hq]; simp
  obtain ⟨hCR, _⟩ := h.ready_sub C hCready
  obtain ⟨hCX, hCg⟩ := (mem_relevant g X C).1 hCR
  obtain ⟨out, hout, hlen, htens⟩ := hpre.fn_ok C hCX hCg (grad_tuple buf)
  have h1 := schedInv_dispatch g cb _ (creators_of g vars) (hpre.X_nodup.filter _) s C buf rest
    out hq hout hlen h
  obtain ⟨s1, hp, hinv, hd⟩ := process_grad_input_sched g cb vars grads X hpre C hCX
    (g.fn C).previous_functions out _ hlen (fun e he => he) htens h1
  refine ⟨s1, ?_, hinv, ?_⟩
  · simp only [dispatch, hout, EngineState.log]
    exact hp
  · rw [hd, dispatched_append]
    simp [dispatched]

theorem drain_sched {G : Type} [AddCommMonoid G] (g : Graph) (cb : Callbacks G)
    (vars : List VarId) (grads : List (PyObject G)) (X : List FnId)
    (hpre : BackwardPre g cb vars grads X) :
    ∀ (fuel : Nat) (s : EngineState G),
      SchedInv g cb (X.filter (fun c => (g.fn c).requires_grad)) (creators_of g vars) [] s →
      (X.filter (fun c => (g.fn c).requires_grad)).length
        ≤ (dispatched s.trace).length + fuel →
      ∃ s1, drain g cb fuel s = .ok s1 ∧
        SchedInv g cb (X.filter (fun c => (g.fn c).requires_grad)) (creators_of g vars) [] s1 ∧
        s1.ready = [] := by
  intro fuel
  induction fuel with
  | zero =>
    intro s h hlen
    rcases hq : s.ready with _ | ⟨⟨C, buf⟩, rest⟩
    · exact ⟨s, by simp [drain, hq], h, hq⟩
    · exfalso
      have hCready : C ∈ s.ready.map Prod.fst := by rw [hq]; simp
      obtain ⟨hCR, hCD⟩ := h.ready_sub C hCready
      have hnd : (C :: dispatched s.trace).Nodup := List.nodup_cons.2 ⟨hCD, h.disp_nodup⟩
      have hsub : (C :: dispatched s.trace) ⊆ X.filter (fun c => (g.fn c).requires_grad) := by
        intro x hx
        rcases List.mem_cons.1 hx with h1 | h1
        · rw [h1]; exact hCR
        · exact h.disp_sub x h1
      have := (List.subperm_of_subset hnd hsub).length_le
      simp only [List.length_cons] at this
      omega
  | succ fuel ih =>
    intro s h hlen
    rcases hq : s.ready with _ | ⟨⟨C, buf⟩, rest⟩
    · exact ⟨s, by simp [drain, hq], h, hq⟩
    · obtain ⟨s1, hd, hinv, hdisp⟩ := dispatch_sched g cb vars grads X hpre s C buf rest hq h
      obtain ⟨s2, hd2, hinv2, hq2⟩ := ih s1 hinv (by
        rw [hdisp, List.length_append]
        simp only [List.length_singleton]
        omega)
      exact ⟨s2, by simp only [drain, hq, hd]; exact hd2, hinv2, hq2⟩

/-- In a non-empty list of functions of an acyclic graph, some function has no
consumer in the list. -/
theorem exists_no_ancestor (g : Graph) (hac : ∀ c, ¬ Relation.TransGen (EdgeTo g) c c) :
    ∀ (U : List FnId), U ≠ [] → ∃ P ∈ U, ∀ C ∈ U, ¬ Relation.TransGen (EdgeTo g) C P := by
  intro U
  induction U with
  | nil => intro h; exact absurd rfl h
  | cons a U ih =>
    intro _
    by_cases hU : U = []
    · subst hU
      refine ⟨a, List.mem_cons_self _ _, ?_⟩
      intro C hC
      simp only [List.mem_singleton] at hC
      subst hC
      exact hac C
    · obtain ⟨P, hP, hmin⟩ := ih hU
      by_cases haP : Relation.TransGen (EdgeTo g) a P
      · refine ⟨a, List.mem_cons_self _ _, ?_⟩
        intro C hC hCa
        rcases List.mem_cons.1 hC with h1 | h1
        · subst h1
          exact hac C hCa
        · exact hmin C h1 (Relation.TransGen.trans hCa haP)
      · refine ⟨P, List.mem_cons_of_mem _ hP, ?_⟩
        intro C hC
        rcases List.mem_cons.1 hC with h1 | h1
        · subst h1
          exact haP
        · exact hmin C h1

/-- When the ready queue is empty between two iterations, every relevant
function has been dispatched. -/
theorem schedInv_complete {G : Type} [AddCommMonoid G] (g : Graph) (cb : Callbacks G)
    (R roots : List FnId) (hac : ∀ c, ¬ Relation.TransGen (EdgeTo g) c c)
    (s : EngineState G) (h : SchedInv g cb R roots [] s) (hq : s.ready = []) :
    ∀ P ∈ R, P ∈ dispatched s.trace := by
  by_contra hcon
  push_neg at hcon
  obtain ⟨P0, hP0, hP0D⟩ := hcon
  have hne : R.filter (fun C => decide (C ∉ dispatched s.trace)) ≠ [] := by
    intro he
    have : P0 ∈ R.filter (fun C => decide (C ∉ dispatched s.trace)) :=
      List.mem_filter.2 ⟨hP0, by simpa using hP0D⟩
    rw [he] at this
    simp at this
  obtain ⟨P, hP, hmin⟩ := exists_no_ancestor g hac _ hne
  rw [List.mem_filter] at hP
  have hPD : P ∉ dispatched s.trace := by simpa using hP.2
  have h0 : pending_count g R s.trace [] P = 0 := by
    unfold pending_count
    simp only [List.filter_nil, List.length_nil, add_zero]
    rw [List.sum_eq_zero_iff]
    intro n hn
    rw [List.mem_map] at hn
    obtain ⟨C, hC, rfl⟩ := hn
    by_contra hpos
    have : 0 < edge_count g C P := Nat.pos_of_ne_zero hpos
    exact hmin C hC (Relation.TransGen.single ((edge_count_pos g C P).1 this))
  rcases (h.status P hP.1).1 h0 with h1 | h1
  · exact hPD h1
  · rw [hq] at h1
    simp at h1

theorem map_eq_nil_of_find {V : Type} (m : Map V) (h : ∀ k, Map.find m k = none) : m = [] := by
  cases m with
  | nil => rfl
  | cons p m =>
    obtain ⟨k, v⟩ := p
    have := h k
    simp [Map.find] at this

end Autograd

namespace Autograd

/-! ## Seeding, and the whole run under the preconditions -/

theorem seed_pre {G : Type} (g : Graph) (cb : Callbacks G) :
    ∀ (l : List (VarId × PyObject G)) (s : SeedState G),
      (∀ y ∈ l, (g.var y.1).creator ≠ none) →
      (∀ y ∈ l, ∀ r, (g.var y.1).creator = some r → (g.fn r).requires_grad = true →
        (g.var y.1).output_nr < (g.fn r).num_outputs) →
      ∃ s1, seed g cb l s = .ok s1 ∧
        s1.creators = s.creators ++ creators_of g (l.map Prod.fst) ∧
        s1.engine.ready.map Prod.fst = s.engine.ready.map Prod.fst ++
          (creators_of g (l.map Prod.fst)).filter (fun c => (g.fn c).requires_grad) ∧
        (∃ evs, s1.engine.trace = s.engine.trace ++ evs ∧ Silent evs) ∧
        s1.engine.not_ready = s.engine.not_ready ∧
        s1.engine.dependencies = s.engine.dependencies := by
  intro l
  induction l with
  | nil =>
    intro s _ _
    exact ⟨s, rfl, by simp [creators_of], by simp [creators_of], ⟨[], by simp, silent_nil⟩,
      rfl, rfl⟩
  | cons y l ih =>
    intro s hc hslot
    obtain ⟨v, grad⟩ := y
    rcases hcr : (g.var v).creator with _ | r
    · exact absurd hcr (hc (v, grad) (List.mem_cons_self _ _))
    · have hcre : creators_of g (((v, grad) :: l).map Prod.fst)
          = r :: creators_of g (l.map Prod.fst) := by
        simp [creators_of, List.filterMap_cons, hcr]
      have hc1 : ∀ y ∈ l, (g.var y.1).creator ≠ none :=
        fun y hy => hc y (List.mem_cons_of_mem _ hy)
      have hslot1 : ∀ y ∈ l, ∀ r, (g.var y.1).creator = some r →
          (g.fn r).requires_grad = true → (g.var y.1).output_nr < (g.fn r).num_outputs :=
        fun y hy => hslot y (List.mem_cons_of_mem _ hy)
      have hstep : ∃ st, seed_variable g cb s v grad = .ok st ∧
          st.creators = s.creators ++ [r] ∧
          st.engine.ready.map Prod.fst = s.engine.ready.map Prod.fst ++
            [r].filter (fun c => (g.fn c).requires_grad) ∧
          (∃ evs, st.engine.trace = s.engine.trace ++ evs ∧ Silent evs) ∧
          st.engine.not_ready = s.engine.not_ready ∧
          st.engine.dependencies = s.engine.dependencies := by
        by_cases hrg : (g.fn r).requires_grad = true
        · have hidx := hslot (v, grad) (List.mem_cons_self _ _) r hcr hrg
          simp only at hidx
          refine ⟨{ s with
              creators := s.creators ++ [r]
              engine :=
                { s.engine with
                  next_buf_id := s.engine.next_buf_id + 1
                  ready := s.engine.ready.emplace_front (r, ⟨s.engine.next_buf_id,
                    (List.replicate (g.fn r).num_outputs none).set (g.var v).output_nr
                      (some ⟨grad, .caller⟩)⟩)
                  trace := s.engine.trace ++ [.push r ⟨s.engine.next_buf_id,
                    (List.replicate (g.fn r).num_outputs none).set (g.var v).output_nr
                      (some ⟨grad, .caller⟩)⟩] } },
            by simp only [seed_variable, hcr, hrg, hidx, if_true], rfl, ?_,
            ⟨_, rfl, silent_push _ _⟩, rfl, rfl⟩
          simp [ready_queue_type.emplace_front, List.filter_cons, hrg]
        · refine ⟨{ s with creators := s.creators ++ [r] },
            by simp [seed_variable, hcr, hrg], rfl, ?_,
            ⟨[], by simp, silent_nil⟩, rfl, rfl⟩
          simp [List.filter_cons, hrg]
      obtain ⟨st, hst, g1, g2, ⟨evs0, g3, g4⟩, g5, g6⟩ := hstep
      obtain ⟨s1, h1, h2, h3, ⟨evs, h4, h5⟩, h6, h7⟩ := ih st hc1 hslot1
      refine ⟨s1, by simp only [seed, hst]; exact h1, ?_, ?_, ?_, h6.trans g5, h7.trans g6⟩
      · rw [h2, g1, hcre]
        simp
      · rw [h3, g2, hcre]
        by_cases hrg : (g.fn r).requires_grad = true <;> simp [List.filter_cons, hrg]
      · exact ⟨evs0 ++ evs, by rw [h4, g3]; simp, silent_append _ _ g4 h5⟩

theorem pre_indep {G : Type} (g : Graph) (cb : Callbacks G) (vars : List VarId)
    (grads : List (PyObject G)) (X : List FnId) (hpre : BackwardPre g cb vars grads X) :
    ∀ r ∈ creators_of g vars, ∀ r1 ∈ creators_of g vars,
      ¬ Relation.TransGen (EdgeTo g) r r1 := by
  intro r hr r1 hr1 h
  by_cases e : r = r1
  · subst e
    exact hpre.acyclic r h
  · exact hpre.indep r hr r1 hr1 e h.to_reflTransGen

/-- The state in which draining starts satisfies the scheduling invariant. -/
theorem schedInv_start {G : Type} [AddCommMonoid G] (g : Graph) (cb : Callbacks G)
    (vars : List VarId) (grads : List (PyObject G)) (X : List FnId)
    (hpre : BackwardPre g cb vars grads X) (s : EngineState G)
    (hready : s.ready.map Prod.fst
      = (creators_of g vars).filter (fun c => (g.fn c).requires_grad))
    (htr : Silent s.trace) (hnr : s.not_ready = [])
    (hdeps : ∀ P, (g.fn P).requires_grad = true → Map.find s.dependencies P =
      (if consumer_edges g X P = 0 then none else some (consumer_edges g X P : Int))) :
    SchedInv g cb (X.filter (fun c => (g.fn c).requires_grad)) (creators_of g vars) [] s := by
  have hD : dispatched s.trace = [] := silent_dispatched _ htr
  have hpc : ∀ P, pending_count g (X.filter (fun c => (g.fn c).requires_grad)) s.trace [] P
      = consumer_edges g X P := by
    intro P
    unfold pending_count consumer_edges
    rw [hD]
    simp
  have hrootX : ∀ r ∈ creators_of g vars, r ∈ X := by
    intro r hr
    rw [hpre.X_reach]
    exact ⟨r, hr, Relation.ReflTransGen.refl⟩
  refine ⟨?_, ?_, ?_, ?_, ?_, ?_, ?_, ?_, ?_, ?_, ?_⟩
  · rw [hD]; exact List.nodup_nil
  · rw [hD]; intro c hc; simp at hc
  · rw [hready]; exact hpre.creators_nodup.filter _
  · intro c hc
    rw [hready, List.mem_filter] at hc
    rw [hD]
    exact ⟨(mem_relevant g X c).2 ⟨hrootX c hc.1, hc.2⟩, by simp⟩
  · intro P hP
    rw [hpc P]
    exact hdeps P ((mem_relevant g X P).1 hP).2
  · intro P hP
    obtain ⟨hPX, hPg⟩ := (mem_relevant g X P).1 hP
    rw [hpc P, hD, hready]
    simp only [List.not_mem_nil, false_or, List.mem_filter, hPg, and_true]
    constructor
    · intro h0
      obtain ⟨r, hr, hrP⟩ := (hpre.X_reach P).1 hPX
      rcases Relation.ReflTransGen.cases_tail hrP with h1 | ⟨C, hrC, hCP⟩
      · subst h1; exact hr
      · exfalso
        have hCX : C ∈ X := (hpre.X_reach C).2 ⟨r, hr, hrC⟩
        have hCg := hpre.grad_up C hCX P hCP hPg
        have hpos := (edge_count_pos g C P).2 hCP
        unfold consumer_edges at h0
        rw [List.sum_eq_zero_iff] at h0
        have := h0 (edge_count g C P) (List.mem_map.2 ⟨C, (mem_relevant g X C).2 ⟨hCX, hCg⟩, rfl⟩)
        omega
    · intro hPr
      unfold consumer_edges
      rw [List.sum_eq_zero_iff]
      intro n hn
      rw [List.mem_map] at hn
      obtain ⟨C, hC, rfl⟩ := hn
      by_contra hpos
      have hedge := (edge_count_pos g C P).1 (Nat.pos_of_ne_zero hpos)
      obtain ⟨r, hr, hrC⟩ := (hpre.X_reach C).1 ((mem_relevant g X C).1 hC).1
      exact pre_indep g cb vars grads X hpre r hr P hPr (Relation.TransGen.tail' hrC hedge)
  · intro P buf hb
    rw [hnr] at hb
    simp [Map.find] at hb
  · intro P _ _ slot
    rw [hnr, silent_deliveries g cb P slot _ htr]
    simp [Map.find, slot_list, pend_deliveries]
  · intro P buf hb hroot
    exfalso
    have : P ∈ s.ready.map Prod.fst := List.mem_map.2 ⟨(P, buf), hb, rfl⟩
    rw [hready, List.mem_filter] at this
    exact hroot this.1
  · intro P _ args hargs
    rw [silent_fn_calls P _ htr] at hargs
    simp at hargs
  · intro l1 P l2 hsplit
    rw [hD] at hsplit
    simp at hsplit

/-- The run as a whole under the preconditions: it succeeds, ends in a state
that satisfies the scheduling invariant, and has dispatched exactly the
relevant functions. -/
theorem run_backward_sched {G : Type} [AddCommMonoid G] (g : Graph) (cb : Callbacks G)
    (vars : List VarId) (grads : List (PyObject G)) (X : List FnId) (fuel : Nat)
    (hpre : BackwardPre g cb vars grads X) (hfuel : X.length < fuel) :
    ∃ s, THPEngine_run_backward g cb fuel vars grads = .ok s ∧
      SchedInv g cb (X.filter (fun c => (g.fn c).requires_grad)) (creators_of g vars) [] s ∧
      (dispatched s.trace).Perm (X.filter (fun c => (g.fn c).requires_grad)) := by
  have hmapfst : (vars.zip grads).map Prod.fst = vars :=
    List.map_fst_zip _ _ (le_of_eq hpre.vars_len)
  obtain ⟨seeded, hseed, hcr, hrd, ⟨evs, htr, hsil⟩, hnr, hdp⟩ :=
    seed_pre g cb (vars.zip grads) ⟨EngineState.init, [], false⟩
      (fun y hy => hpre.has_creator y.1 (hmapfst ▸ List.mem_map_of_mem Prod.fst hy))
      (fun y hy => hpre.root_slot y.1 (hmapfst ▸ List.mem_map_of_mem Prod.fst hy))
  rw [hmapfst] at hcr hrd
  simp only [EngineState.init, List.nil_append, List.map_nil] at hcr hrd htr hnr hdp
  obtain ⟨deps, ready, hcd, hcount⟩ := compute_dependencies_spec g (creators_of g vars) X fuel
    seeded.engine.ready hpre.creators_nodup (pre_indep g cb vars grads X hpre) hpre.X_nodup
    hpre.X_reach hfuel
  have hready : ready = seeded.engine.ready := by
    unfold THPEngine_compute_dependencies at hcd
    rcases hl : compute_dependencies_loop g fuel
        (⟨[], (creators_of g vars).reverse, [], seeded.engine.ready⟩ : DepState G) with _ | t
    · simp [hl] at hcd
    · simp only [hl, Option.map_some', Option.some.injEq, Prod.mk.injEq] at hcd
      rw [← hcd.2]
      exact compute_dependencies_loop_ready g hpre.no_stoch fuel _ t hl
  subst hready
  have hne : seeded.engine.ready ≠ [] := by
    obtain ⟨r, hr, hrg⟩ := hpre.some_grad
    intro he
    have : r ∈ seeded.engine.ready.map Prod.fst := by
      rw [hrd]
      exact List.mem_filter.2 ⟨hr, hrg⟩
    rw [he] at this
    simp at this
  have hstart := schedInv_start g cb vars grads X hpre
    { seeded.engine with dependencies := deps } hrd (by rw [htr]; exact hsil) hnr
    (fun P hP => hcount P hP (hpre.no_stoch P))
  have hlenR : (X.filter (fun c => (g.fn c).requires_grad)).length ≤ X.length :=
    List.length_filter_le _ _
  obtain ⟨s1, hdrain, hinv, hq⟩ := drain_sched g cb vars grads X hpre fuel
    { seeded.engine with dependencies := deps } hstart (by omega)
  have hall := schedInv_complete g cb _ _ hpre.acyclic s1 hinv hq
  have hperm : (dispatched s1.trace).Perm (X.filter (fun c => (g.fn c).requires_grad)) := by
    rw [List.perm_ext_iff_of_nodup hinv.disp_nodup (hpre.X_nodup.filter _)]
    intro x
    exact ⟨hinv.disp_sub x, hall x⟩
  have hempty : s1.not_ready = [] := by
    apply map_eq_nil_of_find
    intro k
    rcases hf : Map.find s1.not_ready k with _ | buf
    · rfl
    · exfalso
      obtain ⟨hk, hpos, _, _⟩ := hinv.waiting k buf hf
      have := (hinv.status k hk).2 (Or.inl (hall k hk))
      omega
  refine ⟨s1, ?_, hinv, hperm⟩
  unfold THPEngine_run_backward
  rw [if_neg (by simp [hpre.vars_len])]
  simp only [hseed, hcr, hdp, hcd]
  have hb : ¬ ((!(seeded.did_leaf_backward || !seeded.engine.ready.isEmpty)) = true) := by
    cases hr : seeded.engine.ready with
    | nil => exact absurd hr hne
    | cons a l => simp
  rw [if_neg hb]
  simp only [hdrain, hempty, List.isEmpty_nil, if_true]

end Autograd

namespace Autograd

/-! ## The scheduling theorems -/

theorem fn_calls_length_eq_count {G : Type} (c : FnId) (t : List (Event G)) :
    (fn_calls c t).length = (dispatched t).count c := by
  induction t with
  | nil => rfl
  | cons e t ih =>
    cases e with
    | fn_backward f args =>
      by_cases hf : f = c
      · subst hf
        simp [fn_calls, dispatched, List.filterMap_cons] at ih ⊢
        exact ih
      · simp only [fn_calls, dispatched, List.filterMap_cons, hf, if_false] at ih ⊢
        rw [List.count_cons_of_ne (fun e => hf e.symm)]
        exact ih
    | _ => simpa [fn_calls, dispatched, List.filterMap_cons] using ih

theorem pend_deliveries_nil_of_no_edge {G : Type} (pend : List (Edge × PyObject G)) (P : FnId)
    (slot : Nat) (h : ∀ x ∈ pend, ¬ (x.1.obj = .fn P ∧ x.1.output_nr = slot)) :
    pend_deliveries pend P slot = [] := by
  induction pend with
  | nil => rfl
  | cons y pend ih =>
    obtain ⟨e, x⟩ := y
    rw [pend_deliveries_cons, ih (fun z hz => h z (List.mem_cons_of_mem _ hz))]
    have := h (e, x) (List.mem_cons_self _ _)
    simp only at this
    simp [this]

theorem deliveries_nil_of_no_edge {G : Type} (g : Graph) (cb : Callbacks G) (P : FnId)
    (slot : Nat)
    (h : ∀ C, ∀ e ∈ (g.fn C).previous_functions, ¬ (e.obj = .fn P ∧ e.output_nr = slot)) :
    ∀ t : List (Event G), deliveries g cb t P slot = [] := by
  intro t
  induction t with
  | nil => rfl
  | cons ev t ih =>
    cases ev with
    | fn_backward C args =>
      simp only [deliveries, ih, List.append_nil]
      rcases cb.fn_do_backward C args with _ | _ | out
      · rfl
      · rfl
      · simp only [node_deliveries]
        apply pend_deliveries_nil_of_no_edge
        intro x hx
        exact h C x.1 (List.of_mem_zip (a := x.1) (b := x.2) hx).1
    | _ => simpa [deliveries] using ih

/-- C1: under the preconditions `BackwardPre` (finite acyclic graph without
stochastic functions, grad-requirement closed under consumers, well-formed
`_do_backward` results, pairwise distinct and mutually unreachable root
creators of which one requires grad) and with fuel above the number of
reachable functions, `run_backward` succeeds; the `_do_backward` of every
grad-requiring function reachable from the roots is invoked exactly once, and
no other function is invoked. -/
theorem run_backward_invokes_each_once {G : Type} [AddCommMonoid G] (g : Graph)
    (cb : Callbacks G) (vars : List VarId) (grads : List (PyObject G)) (X : List FnId)
    (fuel : Nat) (hpre : BackwardPre g cb vars grads X) (hfuel : X.length < fuel) :
    ∃ s, THPEngine_run_backward g cb fuel vars grads = .ok s ∧
      (∀ c, c ∈ X → (g.fn c).requires_grad = true → (fn_calls c s.trace).length = 1) ∧
      (∀ c, ¬ (c ∈ X ∧ (g.fn c).requires_grad = true) → fn_calls c s.trace = []) := by
  obtain ⟨s, hrun, hinv, hperm⟩ := run_backward_sched g cb vars grads X fuel hpre hfuel
  refine ⟨s, hrun, fun c hc hg => ?_, fun c hc => ?_⟩
  · rw [fn_calls_length_eq_count]
    exact List.count_eq_one_of_mem hinv.disp_nodup
      (hperm.mem_iff.2 ((mem_relevant g X c).2 ⟨hc, hg⟩))
  · rw [← List.length_eq_zero, fn_calls_length_eq_count, List.count_eq_zero]
    intro hd
    exact hc ((mem_relevant g X c).1 (hperm.mem_iff.1 hd))

/-- C2: under the preconditions `BackwardPre`, `run_backward` succeeds and its
order of invocation is a topological order of the gradient-flow graph: whenever
the `_do_backward` of a function `P` is invoked (the invocations so far being
`l1`), every grad-requiring consumer `C` of `P` that is reachable from the
roots has already been invoked. -/
theorem run_backward_topological {G : Type} [AddCommMonoid G] (g : Graph)
    (cb : Callbacks G) (vars : List VarId) (grads : List (PyObject G)) (X : List FnId)
    (fuel : Nat) (hpre : BackwardPre g cb vars grads X) (hfuel : X.length < fuel) :
    ∃ s, THPEngine_run_backward g cb fuel vars grads = .ok s ∧
      ∀ l1 P l2, dispatched s.trace = l1 ++ P :: l2 →
        ∀ C, C ∈ X → (g.fn C).requires_grad = true → EdgeTo g C P → C ∈ l1 := by
  obtain ⟨s, hrun, hinv, _⟩ := run_backward_sched g cb vars grads X fuel hpre hfuel
  exact ⟨s, hrun, fun l1 P l2 h C hC hg hedge =>
    hinv.order l1 P l2 h C ((mem_relevant g X C).2 ⟨hC, hg⟩) hedge⟩

/-- C3: under the preconditions `BackwardPre`, `run_backward` succeeds and
every invocation of the `_do_backward` of a function `P` that is not a root
creator is passed one value per output slot of `P`; the value at slot `slot` is
the sum (`grad_sum`) of all gradients that the `_do_backward` calls of the run
returned for input edges pointing to `(P, slot)`, and it is `None` ("no
gradient") when no input edge of the graph points to `(P, slot)`. -/
theorem run_backward_passes_sums {G : Type} [AddCommMonoid G] (g : Graph)
    (cb : Callbacks G) (vars : List VarId) (grads : List (PyObject G)) (X : List FnId)
    (fuel : Nat) (hpre : BackwardPre g cb vars grads X) (hfuel : X.length < fuel) :
    ∃ s, THPEngine_run_backward g cb fuel vars grads = .ok s ∧
      ∀ P, P ∉ creators_of g vars → ∀ args ∈ fn_calls P s.trace,
        args.length = (g.fn P).num_outputs ∧
        ∀ slot, slot < (g.fn P).num_outputs →
          args[slot]? = some (grad_sum (deliveries g cb s.trace P slot)) ∧
          ((∀ C, ∀ e ∈ (g.fn C).previous_functions,
              ¬ (e.obj = .fn P ∧ e.output_nr = slot)) → args[slot]? = some .None) := by
  obtain ⟨s, hrun, hinv, _⟩ := run_backward_sched g cb vars grads X fuel hpre hfuel
  refine ⟨s, hrun, fun P hP args hargs => ?_⟩
  obtain ⟨h1, h2⟩ := hinv.val_disp P hP args hargs
  refine ⟨h1, fun slot hs => ⟨h2 slot hs, fun hno => ?_⟩⟩
  rw [h2 slot hs, deliveries_nil_of_no_edge g cb P slot hno]
  rfl

/-! ## The example `fan_in` meets the preconditions -/

theorem fan_in_pre : BackwardPre fan_in fan_in_cb [1] [.Tensor 1] [3, 2, 1] where
  vars_len := rfl
  has_creator := by
    intro v hv
    simp only [List.mem_singleton] at hv
    subst hv
    decide
  creators_nodup := by decide
  indep := by
    intro r hr r1 hr1 hne
    have h3 : creators_of fan_in [1] = [3] := rfl
    rw [h3, List.mem_singleton] at hr hr1
    exact absurd (hr.trans hr1.symm) hne
  some_grad := ⟨3, by decide, rfl⟩
  root_slot := by
    intro v hv r hr _
    simp only [List.mem_singleton] at hv
    subst hv
    have : r = 3 := by
      have h3 : (fan_in.var 1).creator = some 3 := rfl
      rw [h3] at hr
      exact (Option.some.inj hr).symm
    subst this
    decide
  no_stoch := by
    intro f
    unfold fan_in
    dsimp only
    split <;> rfl
  acyclic := fun c h => lt_irrefl _ (fan_in_acyclic c c h)
  X_nodup := by decide
  X_reach := fan_in_reach
  grad_up := by
    intro c hc p _ _
    simp only [List.mem_cons, List.mem_singleton, List.not_mem_nil, or_false] at hc
    rcases hc with rfl | rfl | rfl <;> rfl
  edge_slot := by
    intro c hc e he p hp _
    simp only [List.mem_cons, List.mem_singleton, List.not_mem_nil, or_false] at hc
    rcases hc with rfl | rfl | rfl
    · simp only [fan_in, List.mem_cons, List.mem_singleton, List.not_mem_nil, or_false] at he
      rcases he with rfl | rfl
      · simp only [PrevObj.fn.injEq] at hp
        subst hp
        decide
      · simp only [PrevObj.fn.injEq] at hp
        subst hp
        decide
    · simp only [fan_in, List.mem_singleton] at he
      subst he
      simp only [PrevObj.fn.injEq] at hp
      subst hp
      decide
    · simp only [fan_in, List.mem_singleton] at he
      subst he
      simp at hp
  fn_ok := by
    intro c _ _ args
    refine ⟨_, rfl, by simp [THPFunction.num_inputs], ?_⟩
    intro x hx p _ _
    have := (List.of_mem_zip (a := x.1) (b := x.2) hx).2
    exact ⟨_, List.eq_of_mem_replicate this⟩
  var_ok := fun _ _ => rfl

theorem run_backward_invokes_each_once_witness :
    ∃ s, THPEngine_run_backward fan_in fan_in_cb 4 [1] [.Tensor 1] = .ok s ∧
      (∀ c, c ∈ [3, 2, 1] → (fan_in.fn c).requires_grad = true →
        (fn_calls c s.trace).length = 1) ∧
      (∀ c, ¬ (c ∈ [3, 2, 1] ∧ (fan_in.fn c).requires_grad = true) →
        fn_calls c s.trace = []) :=
  run_backward_invokes_each_once fan_in fan_in_cb [1] [.Tensor 1] [3, 2, 1] 4 fan_in_pre
    (by decide)

theorem run_backward_topological_witness :
    ∃ s, THPEngine_run_backward fan_in fan_in_cb 4 [1] [.Tensor 1] = .ok s ∧
      ∀ l1 P l2, dispatched s.trace = l1 ++ P :: l2 →
        ∀ C, C ∈ [3, 2, 1] → (fan_in.fn C).requires_grad = true → EdgeTo fan_in C P →
          C ∈ l1 :=
  run_backward_topological fan_in fan_in_cb [1] [.Tensor 1] [3, 2, 1] 4 fan_in_pre
    (by decide)

theorem run_backward_passes_sums_witness :
    ∃ s, THPEngine_run_backward fan_in fan_in_cb 4 [1] [.Tensor 1] = .ok s ∧
      ∀ P, P ∉ creators_of fan_in [1] → ∀ args ∈ fn_calls P s.trace,
        args.length = (fan_in.fn P).num_outputs ∧
        ∀ slot, slot < (fan_in.fn P).num_outputs →
          args[slot]? = some (grad_sum (deliveries fan_in fan_in_cb s.trace P slot)) ∧
          ((∀ C, ∀ e ∈ (fan_in.fn C).previous_functions,
              ¬ (e.obj = .fn P ∧ e.output_nr = slot)) → args[slot]? = some .None) :=
  run_backward_passes_sums fan_in fan_in_cb [1] [.Tensor 1] [3, 2, 1] 4 fan_in_pre
    (by decide)

end Autograd

namespace Autograd

/-! ## The phases of a run -/

/-- `THPEngine_run_backward` is its start phase, the draining loop and the final
check, one after the other. -/
theorem run_backward_eq {G : Type} [Add G] (g : Graph) (cb : Callbacks G) (fuel : Nat)
    (vars : List VarId) (grads : List (PyObject G)) :
    THPEngine_run_backward g cb fuel vars grads =
      match run_backward_start g cb fuel vars grads with
      | .error f => .error f
      | .ok s =>
        match drain g cb fuel s with
        | .error f => .error f
        | .ok s1 => run_backward_finish s1 := by
  unfold THPEngine_run_backward run_backward_start run_backward_finish
  by_cases hlen : vars.length ≠ grads.length
  · rw [if_pos hlen, if_pos hlen]
  · rw [if_neg hlen, if_neg hlen]
    rcases hseed : seed g cb (vars.zip grads) ⟨EngineState.init, [], false⟩ with f | seeded
    · rfl
    · dsimp only
      rcases hcd : THPEngine_compute_dependencies g fuel seeded.creators
          seeded.engine.dependencies seeded.engine.ready with _ | ⟨deps, ready⟩
      · rfl
      · dsimp only
        by_cases hchk : (!(seeded.did_leaf_backward || !ready.isEmpty)) = true
        · simp only [hchk, if_true]
        · simp only [hchk, if_false]
          rfl

theorem drain_ready_nil {G : Type} [Add G] (g : Graph) (cb : Callbacks G) :
    ∀ (fuel : Nat) (s s1 : EngineState G), drain g cb fuel s = .ok s1 → s1.ready = [] := by
  intro fuel
  induction fuel with
  | zero =>
    intro s s1 h
    rcases hr : s.ready with _ | ⟨p, rest⟩
    · simp only [drain, hr, Except.ok.injEq] at h
      rw [← h]; exact hr
    · simp [drain, hr] at h
  | succ n ih =>
    intro s s1 h
    rcases hr : s.ready with _ | ⟨⟨fn, buf⟩, rest⟩
    · simp only [drain, hr, Except.ok.injEq] at h
      rw [← h]; exact hr
    · simp only [drain, hr] at h
      rcases hd : dispatch g cb { s with ready := rest } fn buf with f | s2
      · simp [hd] at h
      · simp only [hd] at h
        exact ih s2 s1 h

/-- The final check succeeds exactly on an empty `not_ready` table, and
otherwise reports the keys of the table. -/
theorem run_backward_finish_cases {G : Type} (s1 : EngineState G) :
    (s1.not_ready = [] → run_backward_finish s1 = .ok s1) ∧
    (s1.not_ready ≠ [] → run_backward_finish s1 =
      .error ⟨.could_not_compute (Map.keys s1.not_ready), s1.trace⟩) := by
  unfold run_backward_finish
  rcases h : s1.not_ready with _ | ⟨p, rest⟩
  · simp
  · simp [EngineState.fail, h]

theorem Map.mem_keys_of_find {V : Type} (m : Map V) (k : FnId) (v : V)
    (h : Map.find m k = some v) : k ∈ Map.keys m := by
  by_contra hk
  rw [← Map.find_eq_none_iff] at hk
  rw [hk] at h
  cases h

/-! ## `THPEngine_free_backward_dependency` raising -/

/-- C11: `THPEngine_free_backward_dependency` raises exactly when the decremented
count is below zero, that is when the count before the call (zero for a node
without entry) is not positive, and the error is "dependencies is negative" for
that node; for counts that are not negative this is the case of a stored zero or
of no entry.  A node whose count is 1 is reported ready by the first decrement
and its entry erased, and a second decrement raises. -/
theorem free_backward_dependency_raises (dependencies : dependencies_type) (prev_fn : FnId) :
    ((∃ err, THPEngine_free_backward_dependency dependencies prev_fn = .error err) ↔
      dependencies.count prev_fn - 1 < 0) ∧
    (∀ err, THPEngine_free_backward_dependency dependencies prev_fn = .error err →
      err = .dependencies_negative prev_fn) ∧
    (0 ≤ dependencies.count prev_fn →
      ((∃ err, THPEngine_free_backward_dependency dependencies prev_fn = .error err) ↔
        (Map.find dependencies prev_fn = some 0 ∨ Map.find dependencies prev_fn = none))) ∧
    (Map.find dependencies prev_fn = some 1 →
      ∃ d1, THPEngine_free_backward_dependency dependencies prev_fn = .ok (d1, true) ∧
        Map.find d1 prev_fn = none ∧
        THPEngine_free_backward_dependency d1 prev_fn =
          .error (.dependencies_negative prev_fn)) := by
  have key : (∃ err, THPEngine_free_backward_dependency dependencies prev_fn = .error err) ↔
      dependencies.count prev_fn - 1 < 0 := by
    unfold THPEngine_free_backward_dependency
    by_cases h : dependencies.count prev_fn - 1 < 0
    · simp [h]
    · by_cases h0 : dependencies.count prev_fn - 1 = 0
      · simp [h0]
      · simp [h, h0]
  refine ⟨key, ?_, ?_, ?_⟩
  · intro err herr
    unfold THPEngine_free_backward_dependency at herr
    by_cases h : dependencies.count prev_fn - 1 < 0
    · simp only [h, if_true, Except.error.injEq] at herr
      exact herr.symm
    · by_cases h0 : dependencies.count prev_fn - 1 = 0
      · simp [h0] at herr
      · simp [h, h0] at herr
  · intro hnn
    rw [key]
    unfold dependencies_type.count at hnn ⊢
    rcases hf : Map.find dependencies prev_fn with _ | c
    · simp
    · simp only [hf, Option.getD_some] at hnn
      simp only [Option.getD_some, Option.some.injEq, or_false, reduceCtorEq]
      omega
  · intro h1
    have hc : dependencies.count prev_fn = 1 := by
      simp [dependencies_type.count, h1]
    refine ⟨Map.erase (Map.insert dependencies prev_fn 0) prev_fn, ?_, ?_, ?_⟩
    · simp [THPEngine_free_backward_dependency, hc]
    · exact Map.find_erase_self _ _
    · have hc2 : dependencies_type.count
          (Map.erase (Map.insert dependencies prev_fn 0) prev_fn) prev_fn = 0 := by
        simp [dependencies_type.count, Map.find_erase_self]
      simp [THPEngine_free_backward_dependency, hc2]

end Autograd

namespace Autograd

/-! ## Seeding -/

/-- C20: what the seeding loop does for one root pair.  A leaf that requires
grad has its `_do_backward` invoked at once with the gradient of the pair (and
the run fails at once if the call fails); a leaf that does not require grad
leaves the state as it is; a creator that requires grad is put on the front of
`ready` (the end that is popped last) with a buffer of `num_outputs` slots that
holds the gradient of the pair at `output_nr` and is null elsewhere, so that the
tuple built from it has `None` there; a creator that does not require grad is
only recorded as a root of the dependency scan. -/
theorem seed_variable_post {G : Type} (g : Graph) (cb : Callbacks G) (s : SeedState G)
    (root_var : VarId) (grad : PyObject G) :
    ((g.var root_var).creator = none → (g.var root_var).requires_grad = true →
      (cb.var_do_backward root_var grad = true →
        seed_variable g cb s root_var grad =
          .ok { s with engine := s.engine.log [.var_backward root_var grad],
                       did_leaf_backward := true }) ∧
      (cb.var_do_backward root_var grad = false →
        seed_variable g cb s root_var grad =
          .error ⟨.python_error, s.engine.trace ++ [.var_backward root_var grad]⟩)) ∧
    ((g.var root_var).creator = none → (g.var root_var).requires_grad = false →
      seed_variable g cb s root_var grad = .ok s) ∧
    (∀ creator, (g.var root_var).creator = some creator →
      (g.fn creator).requires_grad = true →
      (g.var root_var).output_nr < (g.fn creator).num_outputs →
      ∃ buf : grad_buffer_type G,
        seed_variable g cb s root_var grad =
          .ok { creators := s.creators ++ [creator]
                did_leaf_backward := s.did_leaf_backward
                engine := { s.engine with
                  ready := s.engine.ready.emplace_front (creator, buf)
                  next_buf_id := s.engine.next_buf_id + 1
                  trace := s.engine.trace ++ [.push creator buf] } } ∧
        s.engine.ready.emplace_front (creator, buf) = s.engine.ready ++ [(creator, buf)] ∧
        buf.slots.length = (g.fn creator).num_outputs ∧
        buf.slots[(g.var root_var).output_nr]? = some (some ⟨grad, .caller⟩) ∧
        (∀ j, j < (g.fn creator).num_outputs → j ≠ (g.var root_var).output_nr →
          buf.slots[j]? = some none ∧ (grad_tuple buf)[j]? = some .None) ∧
        (grad_tuple buf)[(g.var root_var).output_nr]? = some grad) ∧
    (∀ creator, (g.var root_var).creator = some creator →
      (g.fn creator).requires_grad = false →
      seed_variable g cb s root_var grad =
        .ok { s with creators := s.creators ++ [creator] }) := by
  refine ⟨?_, ?_, ?_, ?_⟩
  · intro hc hrg
    constructor
    · intro hcb
      simp [seed_variable, hc, hrg, hcb]
    · intro hcb
      simp [seed_variable, hc, hrg, hcb, EngineState.fail, EngineState.log]
  · intro hc hrg
    simp [seed_variable, hc, hrg]
  · intro creator hc hrg hlt
    refine ⟨⟨s.engine.next_buf_id,
      (List.replicate (g.fn creator).num_outputs none).set (g.var root_var).output_nr
        (some ⟨grad, .caller⟩)⟩, ?_, rfl, ?_, ?_, ?_, ?_⟩
    · simp [seed_variable, hc, hrg, hlt]
    · simp
    · simp [List.getElem?_set, hlt]
    · intro j hj hne
      have hne' : (g.var root_var).output_nr ≠ j := fun e => hne e.symm
      constructor
      · simp [List.getElem?_set_ne hne', hj]
      · simp [grad_tuple, List.getElem?_set_ne hne', hj]
    · simp [grad_tuple, List.getElem?_set, hlt]
  · intro creator hc hrg
    simp [seed_variable, hc, hrg]

/-! ## The number of gradients returned by `_do_backward` -/

/-- C14 (evaluation of the code): on the diamond, when `D` returns one gradient
for its two input edges the run returns without error, having invoked `D` and
`B` only: the edge to `C` is skipped and `C` is never invoked.  When `D` returns
three gradients, the first two are routed and the third makes the loop read
`previous_functions[2]` of a list of two edges; nothing in between checks the
length of the returned tuple. -/
theorem backward_tuple_length_unchecked :
    error_of (THPEngine_run_backward diamond short_cb 4 [1] [.Tensor 1]) = none ∧
    dispatched (trace_of (THPEngine_run_backward diamond short_cb 4 [1] [.Tensor 1]))
      = [3, 1] ∧
    leaf_calls 0 (trace_of (THPEngine_run_backward diamond short_cb 4 [1] [.Tensor 1]))
      = [.Tensor 10] ∧
    error_of (THPEngine_run_backward diamond long_cb 4 [1] [.Tensor 1])
      = some .out_of_bounds ∧
    dispatched (trace_of (THPEngine_run_backward diamond long_cb 4 [1] [.Tensor 1]))
      = [3] := by
  decide

/-! ## The final check -/

/-- C15: when the draining loop has emptied `ready` (the start phase gave `s0`
and the loop returned `s1`), `run_backward` returns exactly when no function is
left with a buffer in `not_ready`, and it then returns `s1`; otherwise it fails
with "could not compute gradients for some functions", and the names of the
message include every function that holds a buffer in `not_ready`. -/
theorem run_backward_final_check {G : Type} [Add G] (g : Graph) (cb : Callbacks G)
    (fuel : Nat) (vars : List VarId) (grads : List (PyObject G)) (s0 s1 : EngineState G)
    (h0 : run_backward_start g cb fuel vars grads = .ok s0)
    (h1 : drain g cb fuel s0 = .ok s1) :
    s1.ready = [] ∧
    ((∃ s, THPEngine_run_backward g cb fuel vars grads = .ok s) ↔
      ∀ P, Map.find s1.not_ready P = none) ∧
    ((∀ P, Map.find s1.not_ready P = none) →
      THPEngine_run_backward g cb fuel vars grads = .ok s1) ∧
    ((∃ P, Map.find s1.not_ready P ≠ none) →
      ∃ names, THPEngine_run_backward g cb fuel vars grads =
          .error ⟨.could_not_compute names, s1.trace⟩ ∧
        ∀ P, Map.find s1.not_ready P ≠ none → P ∈ names) := by
  have hrun : THPEngine_run_backward g cb fuel vars grads = run_backward_finish s1 := by
    rw [run_backward_eq, h0]
    dsimp only
    rw [h1]
  have hfin := run_backward_finish_cases s1
  have hnil : (∀ P, Map.find s1.not_ready P = none) ↔ s1.not_ready = [] :=
    ⟨map_eq_nil_of_find _, fun h P => by rw [h]; rfl⟩
  refine ⟨drain_ready_nil g cb fuel s0 s1 h1, ?_, ?_, ?_⟩
  · rw [hrun, hnil]
    constructor
    · rintro ⟨s, hs⟩
      by_contra hne
      rw [hfin.2 hne] at hs
      cases hs
    · intro h
      exact ⟨s1, hfin.1 h⟩
  · intro h
    rw [hrun]
    exact hfin.1 (hnil.1 h)
  · rintro ⟨P, hP⟩
    have hne : s1.not_ready ≠ [] := fun h => hP (hnil.2 h P)
    refine ⟨Map.keys s1.not_ready, ?_, ?_⟩
    · rw [hrun]; exact hfin.2 hne
    · intro Q hQ
      by_contra hk
      exact hQ ((Map.find_eq_none_iff _ _).2 hk)

theorem run_backward_final_check_witness :
    ∃ s1 : EngineState Int,
      THPEngine_run_backward two_roots unit_cb 4 [1] [.Tensor 1] = .ok s1 ∧
      s1.ready = [] :=
  ⟨_, (run_backward_final_check two_roots unit_cb 4 [1] [.Tensor 1] _ _ rfl rfl).2.2.1
        (fun _ => rfl),
      (run_backward_final_check two_roots unit_cb 4 [1] [.Tensor 1] _ _ rfl rfl).1⟩

end Autograd

namespace Autograd

/-! ## The steps of the draining loop -/

theorem Map.erase_length_le {V : Type} (m : Map V) (k : FnId) :
    (Map.erase m k).length ≤ m.length :=
  List.length_filter_le _ _

theorem Map.erase_length_lt {V : Type} (m : Map V) (k : FnId) (v : V)
    (h : Map.find m k = some v) : (Map.erase m k).length + 1 ≤ m.length := by
  induction m with
  | nil => simp [Map.find] at h
  | cons p m ih =>
    obtain ⟨k0, v0⟩ := p
    by_cases h0 : k0 = k
    · have := Map.erase_length_le m k
      simp only [Map.erase, List.filter_cons, h0, ne_eq, not_true_eq_false, decide_False,
        Bool.false_eq_true, if_false, List.length_cons] at this ⊢
      omega
    · simp only [Map.find, h0, if_false] at h
      have := ih h
      simp only [Map.erase, List.filter_cons, h0, ne_eq, not_false_eq_true, decide_True,
        if_true, List.length_cons] at this ⊢
      omega

theorem Map.erase_insert_self {V : Type} (m : Map V) (k : FnId) (v : V) :
    Map.erase (Map.insert m k v) k = Map.erase m k := by
  simp [Map.erase, Map.insert, List.filter_filter]

theorem Map.insert_length {V : Type} (m : Map V) (k : FnId) (v : V) :
    (Map.insert m k v).length = (Map.erase m k).length + 1 := by
  simp [Map.insert]

/-- The two ways in which `THPEngine_free_backward_dependency` returns. -/
theorem free_backward_dependency_ok (d : dependencies_type) (p : FnId)
    (deps : dependencies_type) (b : Bool)
    (h : THPEngine_free_backward_dependency d p = .ok (deps, b)) :
    ∃ c, Map.find d p = some c ∧
      ((b = true ∧ c = 1 ∧ deps = Map.erase d p) ∨
       (b = false ∧ 2 ≤ c ∧ deps = Map.insert d p (c - 1))) := by
  unfold THPEngine_free_backward_dependency at h
  by_cases h1 : d.count p - 1 < 0
  · simp [h1] at h
  · by_cases h2 : d.count p - 1 = 0
    · simp only [h2, lt_self_iff_false, if_false, if_true, Except.ok.injEq,
        Prod.mk.injEq] at h
      obtain ⟨rfl, rfl⟩ := h
      rcases hf : Map.find d p with _ | c
      · simp [dependencies_type.count, hf] at h2
      · simp only [dependencies_type.count, hf, Option.getD_some] at h2
        refine ⟨c, rfl, Or.inl ⟨rfl, by omega, ?_⟩⟩
        rw [Map.erase_insert_self]
    · simp only [h1, h2, if_false, Except.ok.injEq, Prod.mk.injEq] at h
      obtain ⟨rfl, rfl⟩ := h
      rcases hf : Map.find d p with _ | c
      · simp [dependencies_type.count, hf] at h1 h2
      · simp only [dependencies_type.count, hf, Option.getD_some] at h1 h2
        refine ⟨c, rfl, Or.inr ⟨rfl, by omega, ?_⟩⟩
        simp [dependencies_type.count, hf]

theorem free_backward_dependency_error (d : dependencies_type) (p : FnId) (err : Error)
    (h : THPEngine_free_backward_dependency d p = .error err) :
    err = .dependencies_negative p := by
  unfold THPEngine_free_backward_dependency at h
  by_cases h1 : d.count p - 1 < 0
  · simp only [h1, if_true, Except.error.injEq] at h
    exact h.symm
  · by_cases h2 : d.count p - 1 = 0
    · simp [h2] at h
    · simp [h1, h2] at h

theorem add_grad_memEvents {G : Type} [Add G] (nc : buffer_set_type)
    (buf : grad_buffer_type G) (slot : Nat) (d : GradRef G) :
    MemEvents (THPEngine_add_grad nc buf slot d).1 ∧
    (∀ err, (THPEngine_add_grad nc buf slot d).2 = .error err →
      err = .python_error ∨ err = .out_of_bounds) := by
  rcases hs : buf.slots[slot]? with _ | _ | cur
  · simp [THPEngine_add_grad, hs, MemEvents]
  · simp [THPEngine_add_grad, hs, MemEvents]
  · by_cases hm : (buf.buffer_id, slot) ∈ nc
    · rcases hc : py_clone cur.obj with _ | c
      · simp [THPEngine_add_grad, hs, hm, hc, MemEvents]
      · rcases ha : py_add_ c d.obj with _ | r <;>
          simp [THPEngine_add_grad, hs, hm, hc, ha, MemEvents]
    · rcases ha : py_add_ cur.obj d.obj with _ | r <;>
        simp [THPEngine_add_grad, hs, hm, ha, MemEvents]

theorem memEvents_nil {G : Type} : MemEvents ([] : List (Event G)) := by
  intro e he
  cases he

/-- Accumulating into a waiting buffer is a `quiet` step or an `abort`. -/
theorem accumulate_not_ready_step {G : Type} [Add G] (g : Graph) (cb : Callbacks G)
    (s0 s : EngineState G) (p : FnId) (buffer : grad_buffer_type G) (idx : Nat)
    (x : PyObject G) (htr : s.trace = s0.trace) (hrd : s.ready = s0.ready)
    (hlen : s.dependencies.length ≤ s0.dependencies.length)
    (hnr : s.not_ready = s0.not_ready)
    (hpos : CountInv s0 → (∀ P c, Map.find s.dependencies P = some c → 1 ≤ c) ∧
      (∀ P buf, Map.find s0.not_ready P = some buf → ∃ c, Map.find s.dependencies P = some c) ∧
      ∃ c, Map.find s.dependencies p = some c) :
    Step g cb s0 (accumulate_not_ready s p buffer idx x) := by
  have hm := add_grad_memEvents s.need_copy buffer idx ⟨x, .returned⟩
  rcases hadd : THPEngine_add_grad s.need_copy buffer idx ⟨x, .returned⟩
    with ⟨evs, (err | ⟨nc1, b1⟩)⟩
  · rw [hadd] at hm
    simp only [accumulate_not_ready, hadd, EngineState.fail, EngineState.log, htr]
    exact Step.abort s0 evs err hm.1 (by
      rcases hm.2 err rfl with h | h
      · exact Or.inl h
      · exact Or.inr (Or.inl h))
  · rw [hadd] at hm
    simp only [accumulate_not_ready, hadd]
    refine Step.quiet s0 _ evs hm.1 (by simp [htr]) hrd hlen ?_
    intro hci
    obtain ⟨h1, h2, c, hc⟩ := hpos hci
    refine ⟨h1, ?_⟩
    intro P buf hP
    by_cases hPp : P = p
    · subst hPp
      exact ⟨c, hc⟩
    · simp only at hP
      rw [Map.find_insert_ne _ _ hPp, hnr] at hP
      exact h2 P buf hP

/-- Routing one returned gradient is a step. -/
theorem route_grad_step {G : Type} [Add G] (g : Graph) (cb : Callbacks G) (s : EngineState G)
    (e : Edge) (x : PyObject G) : Step g cb s (route_grad g cb s e x) := by
  rcases he : e.obj with v | p
  · by_cases hrg : (g.var v).requires_grad = true
    · by_cases hcb : cb.var_do_backward v x = true
      · simp only [route_grad, he, hrg, hcb, if_true]
        exact Step.leaf_ok s v x hrg hcb
      · simp only [route_grad, he, hrg, hcb, if_true, EngineState.fail, EngineState.log]
        exact Step.leaf_raised s v x hrg (by simpa using hcb)
    · simp only [route_grad, he, hrg]
      exact Step.skip s
  · by_cases hrg : (g.fn p).requires_grad = true
    · by_cases hst : (g.fn p).is_stochastic = true
      · simp only [route_grad, he, hrg, hst]
        exact Step.skip s
      · have hst' : (g.fn p).is_stochastic = false := by simpa using hst
        rcases hf : THPEngine_free_backward_dependency s.dependencies p
          with err | ⟨deps, is_ready⟩
        · simp only [route_grad, he, hrg, hst, hf, EngineState.fail]
          have : Step g cb s (.error ⟨err, s.trace ++ []⟩) :=
            Step.abort s [] err memEvents_nil
              (Or.inr (Or.inr ⟨p, free_backward_dependency_error _ _ _ hf⟩))
          simpa using this
        · obtain ⟨c, hc, hcase⟩ := free_backward_dependency_ok _ _ _ _ hf
          rcases hcase with ⟨rfl, hc1, rfl⟩ | ⟨rfl, hc2, rfl⟩
          · -- the last gradient of `p`
            have hlen : (Map.erase s.dependencies p).length + 1 ≤ s.dependencies.length :=
              Map.erase_length_lt _ _ _ hc
            have hpos : CountInv s →
                ∀ P c, Map.find (Map.erase s.dependencies p) P = some c → 1 ≤ c := by
              intro hci P c1 hP
              by_cases hPp : P = p
              · subst hPp
                rw [Map.find_erase_self] at hP
                cases hP
              · rw [Map.find_erase_ne _ hPp] at hP
                exact hci.pos P c1 hP
            rcases hfind : Map.find s.not_ready p with _ | buffer
            · by_cases hidx : e.output_nr < (g.fn p).num_outputs
              · simp only [route_grad, he, hrg, hst, hf, hfind, Bool.not_true,
                  Bool.false_eq_true, if_false, if_true, hidx]
                refine Step.push s _ [] p _ hrg hst' memEvents_nil (by simp) rfl hlen ?_
                intro hci
                refine ⟨hpos hci, ?_⟩
                intro P buf hP
                have hPp : P ≠ p := by
                  rintro rfl
                  simp only at hP
                  rw [hfind] at hP
                  cases hP
                simp only
                rw [Map.find_erase_ne _ hPp]
                exact hci.held P buf hP
              · simp only [route_grad, he, hrg, hst, hf, hfind, Bool.not_true,
                  Bool.false_eq_true, if_false, if_true, hidx, EngineState.fail]
                have : Step g cb s (.error ⟨.out_of_bounds, s.trace ++ []⟩) :=
                  Step.abort s [] .out_of_bounds memEvents_nil (Or.inr (Or.inl rfl))
                simpa using this
            · have hm := add_grad_memEvents s.need_copy buffer e.output_nr ⟨x, .returned⟩
              rcases hadd : THPEngine_add_grad s.need_copy buffer e.output_nr
                ⟨x, .returned⟩ with ⟨evs, (err | ⟨nc1, b1⟩)⟩
              · rw [hadd] at hm
                simp only [route_grad, he, hrg, hst, hf, hfind, Bool.not_true,
                  Bool.false_eq_true, if_false, if_true, hadd, EngineState.fail,
                  EngineState.log]
                exact Step.abort s evs err hm.1 (by
                  rcases hm.2 err rfl with h | h
                  · exact Or.inl h
                  · exact Or.inr (Or.inl h))
              · rw [hadd] at hm
                simp only [route_grad, he, hrg, hst, hf, hfind, Bool.not_true,
                  Bool.false_eq_true, if_false, if_true, hadd]
                refine Step.push s _ evs p b1 hrg hst' hm.1 rfl rfl hlen ?_
                intro hci
                refine ⟨hpos hci, ?_⟩
                intro P buf hP
                simp only at hP
                have hPp : P ≠ p := by
                  rintro rfl
                  rw [Map.find_erase_self] at hP
                  cases hP
                rw [Map.find_erase_ne _ hPp] at hP
                simp only
                rw [Map.find_erase_ne _ hPp]
                exact hci.held P buf hP
          · -- more gradients of `p` are to come
            have hlen : (Map.insert s.dependencies p (c - 1)).length
                ≤ s.dependencies.length := by
              rw [Map.insert_length]
              exact Map.erase_length_lt _ _ _ hc
            have hpos : CountInv s →
                (∀ P c1, Map.find (Map.insert s.dependencies p (c - 1)) P = some c1 → 1 ≤ c1) ∧
                (∀ P buf, Map.find s.not_ready P = some buf →
                  ∃ c1, Map.find (Map.insert s.dependencies p (c - 1)) P = some c1) ∧
                ∃ c1, Map.find (Map.insert s.dependencies p (c - 1)) p = some c1 := by
              intro hci
              refine ⟨?_, ?_, ⟨c - 1, Map.find_insert_self _ _ _⟩⟩
              · intro P c1 hP
                by_cases hPp : P = p
                · subst hPp
                  rw [Map.find_insert_self] at hP
                  simp only [Option.some.injEq] at hP
                  omega
                · rw [Map.find_insert_ne _ _ hPp] at hP
                  exact hci.pos P c1 hP
              · intro P buf hP
                by_cases hPp : P = p
                · subst hPp
                  exact ⟨c - 1, Map.find_insert_self _ _ _⟩
                · rw [Map.find_insert_ne _ _ hPp]
                  exact hci.held P buf hP
            rcases hfind : Map.find s.not_ready p with _ | buffer
            · simp only [route_grad, he, hrg, hst, hf, hfind, Bool.not_true,
                Bool.false_eq_true, if_false]
              exact accumulate_not_ready_step g cb s _ p _ _ _ rfl rfl hlen rfl hpos
            · simp only [route_grad, he, hrg, hst, hf, hfind, Bool.not_true,
                Bool.false_eq_true, if_false]
              exact accumulate_not_ready_step g cb s _ p _ _ _ rfl rfl hlen rfl hpos
    · simp only [route_grad, he, hrg]
      exact Step.skip s

end Autograd

namespace Autograd

/-! ## Relations kept by every step are kept by the loops -/

theorem process_grad_input_rel {G : Type} [Add G] (g : Graph) (cb : Callbacks G)
    (R : EngineState G → Except (Failure G) (EngineState G) → Prop)
    (htrans : ∀ s s1 r, R s (.ok s1) → R s1 r → R s r)
    (hstep : ∀ s r, Step g cb s r → R s r) :
    ∀ (es : List Edge) (xs : List (PyObject G)) (s : EngineState G),
      R s (process_grad_input g cb es xs s) := by
  intro es xs
  induction xs generalizing es with
  | nil =>
    intro s
    cases es <;> simpa [process_grad_input] using hstep s _ (Step.skip s)
  | cons x xs ih =>
    intro s
    cases es with
    | nil =>
      have := hstep s _ (Step.abort s [] .out_of_bounds memEvents_nil (Or.inr (Or.inl rfl)))
      simpa [process_grad_input, EngineState.fail] using this
    | cons e es =>
      have h1 := hstep s _ (route_grad_step g cb s e x)
      rcases hr : route_grad g cb s e x with f | s1
      · rw [hr] at h1
        simpa [process_grad_input, hr] using h1
      · rw [hr] at h1
        simp only [process_grad_input, hr]
        exact htrans s s1 _ h1 (ih es s1)

theorem dispatch_rel {G : Type} [Add G] (g : Graph) (cb : Callbacks G)
    (R : EngineState G → Except (Failure G) (EngineState G) → Prop)
    (htrans : ∀ s s1 r, R s (.ok s1) → R s1 r → R s r)
    (hstep : ∀ s r, Step g cb s r → R s r)
    (s : EngineState G) (fn : FnId) (buf : grad_buffer_type G) (rest : ready_queue_type G)
    (hr : s.ready = (fn, buf) :: rest) :
    R s (dispatch g cb { s with ready := rest } fn buf) := by
  rcases hcb : cb.fn_do_backward fn (grad_tuple buf) with _ | _ | grads
  · simp only [dispatch, hcb, EngineState.fail, EngineState.log]
    exact hstep s _ (Step.call_raised s fn buf rest hr hcb)
  · simp only [dispatch, hcb, EngineState.fail, EngineState.log]
    exact hstep s _ (Step.call_not_a_tuple s fn buf rest hr hcb)
  · simp only [dispatch, hcb]
    exact htrans s _ _ (hstep s _ (Step.call s fn buf rest grads hr hcb))
      (process_grad_input_rel g cb R htrans hstep _ _ _)

theorem drain_rel {G : Type} [Add G] (g : Graph) (cb : Callbacks G)
    (R : EngineState G → Except (Failure G) (EngineState G) → Prop)
    (htrans : ∀ s s1 r, R s (.ok s1) → R s1 r → R s r)
    (hstep : ∀ s r, Step g cb s r → R s r)
    (hfuel : ∀ s, R s (.error ⟨.out_of_fuel, s.trace⟩)) :
    ∀ (fuel : Nat) (s : EngineState G), R s (drain g cb fuel s) := by
  intro fuel
  induction fuel with
  | zero =>
    intro s
    rcases hr : s.ready with _ | ⟨p, rest⟩
    · simpa [drain, hr] using hstep s _ (Step.skip s)
    · simpa [drain, hr, EngineState.fail] using hfuel s
  | succ n ih =>
    intro s
    rcases hr : s.ready with _ | ⟨⟨fn, buf⟩, rest⟩
    · simpa [drain, hr] using hstep s _ (Step.skip s)
    · have h1 := dispatch_rel g cb R htrans hstep s fn buf rest hr
      rcases hd : dispatch g cb { s with ready := rest } fn buf with f | s1
      · rw [hd] at h1
        simpa [drain, hr, hd] using h1
      · rw [hd] at h1
        simp only [drain, hr, hd]
        exact htrans s s1 _ h1 (ih s1)

/-! ## The steps of the seeding loop -/

theorem seed_variable_step {G : Type} (g : Graph) (cb : Callbacks G) (s : SeedState G)
    (v : VarId) (x : PyObject G) :
    SeedStep g cb v x s.engine (Except.map SeedState.engine (seed_variable g cb s v x)) := by
  rcases hc : (g.var v).creator with _ | c
  · by_cases hrg : (g.var v).requires_grad = true
    · by_cases hcb : cb.var_do_backward v x = true
      · simp only [seed_variable, hc, hrg, hcb, if_true, Except.map]
        exact SeedStep.leaf_ok s.engine hc hrg hcb
      · simp only [seed_variable, hc, hrg, hcb, if_true, Except.map, EngineState.fail,
          EngineState.log]
        exact SeedStep.leaf_raised s.engine hc hrg (by simpa using hcb)
    · simp only [seed_variable, hc, hrg, Except.map]
      exact SeedStep.skip s.engine
  · by_cases hrg : (g.fn c).requires_grad = true
    · by_cases hidx : (g.var v).output_nr < (g.fn c).num_outputs
      · simp only [seed_variable, hc, hrg, hidx, if_true, Except.map,
          ready_queue_type.emplace_front]
        exact SeedStep.push s.engine c _ hc hrg
      · simp only [seed_variable, hc, hrg, hidx, if_true, if_false, Except.map,
          EngineState.fail]
        exact SeedStep.abort s.engine
    · simp only [seed_variable, hc, hrg, Except.map]
      exact SeedStep.skip s.engine

theorem seed_rel_mem {G : Type} (g : Graph) (cb : Callbacks G)
    (R : EngineState G → Except (Failure G) (EngineState G) → Prop)
    (htrans : ∀ s s1 r, R s (.ok s1) → R s1 r → R s r)
    (hskip : ∀ s, R s (.ok s)) :
    ∀ (l : List (VarId × PyObject G)),
      (∀ y ∈ l, ∀ s r, SeedStep g cb y.1 y.2 s r → R s r) →
      ∀ (s : SeedState G), R s.engine (Except.map SeedState.engine (seed g cb l s)) := by
  intro l
  induction l with
  | nil =>
    intro _ s
    simpa [seed, Except.map] using hskip s.engine
  | cons y l ih =>
    intro hseed s
    obtain ⟨v, x⟩ := y
    have h1 := hseed (v, x) (List.mem_cons_self _ _) s.engine _ (seed_variable_step g cb s v x)
    rcases hr : seed_variable g cb s v x with f | s1
    · rw [hr] at h1
      simpa [seed, hr] using h1
    · rw [hr] at h1
      simp only [seed, hr]
      exact htrans s.engine s1.engine _ h1
        (ih (fun y hy => hseed y (List.mem_cons_of_mem _ hy)) s1)

theorem seed_rel {G : Type} (g : Graph) (cb : Callbacks G)
    (R : EngineState G → Except (Failure G) (EngineState G) → Prop)
    (htrans : ∀ s s1 r, R s (.ok s1) → R s1 r → R s r)
    (hseed : ∀ v x s r, SeedStep g cb v x s r → R s r) :
    ∀ (l : List (VarId × PyObject G)) (s : SeedState G),
      R s.engine (Except.map SeedState.engine (seed g cb l s)) :=
  fun l s => seed_rel_mem g cb R htrans (fun s => hseed 0 .None s _ (SeedStep.skip s)) l
    (fun y _ s r h => hseed y.1 y.2 s r h) s

/-- A relation between a state and a later outcome that is transitive and is
kept by the seeding steps, by the update of `ready` and of the dependency table
made by `THPEngine_compute_dependencies`, by the draining steps and by the
failures that log nothing, holds between the initial state and the outcome of
`THPEngine_run_backward`. -/
theorem run_backward_rel_mem {G : Type} [Add G] (g : Graph) (cb : Callbacks G)
    (R : EngineState G → Except (Failure G) (EngineState G) → Prop)
    (htrans : ∀ s s1 r, R s (.ok s1) → R s1 r → R s r)
    (hstep : ∀ s r, Step g cb s r → R s r)
    (hcd : ∀ (s : EngineState G) deps ready,
      R s (.ok { s with dependencies := deps, ready := ready }))
    (hfail : ∀ (s : EngineState G) err,
      (err = .length_mismatch ∨ err = .out_of_fuel ∨ err = .no_graph_nodes ∨
        ∃ names, err = .could_not_compute names) →
      R s (.error ⟨err, s.trace⟩))
    (fuel : Nat) (vars : List VarId) (grads : List (PyObject G))
    (hseed : ∀ y ∈ vars.zip grads, ∀ s r, SeedStep g cb y.1 y.2 s r → R s r) :
    R EngineState.init (THPEngine_run_backward g cb fuel vars grads) := by
  unfold THPEngine_run_backward
  by_cases hlen : vars.length ≠ grads.length
  · rw [if_pos hlen]
    exact hfail EngineState.init _ (Or.inl rfl)
  · rw [if_neg hlen]
    have h1 := seed_rel_mem g cb R htrans
      (fun s => hstep s _ (Step.skip s)) (vars.zip grads) hseed ⟨EngineState.init, [], false⟩
    rcases hs : seed g cb (vars.zip grads) ⟨EngineState.init, [], false⟩ with f | seeded
    · rw [hs] at h1
      exact h1
    · rw [hs] at h1
      simp only [Except.map] at h1
      dsimp only
      rcases hcdr : THPEngine_compute_dependencies g fuel seeded.creators
          seeded.engine.dependencies seeded.engine.ready with _ | ⟨deps, ready⟩
      · exact htrans _ _ _ h1 (hfail _ _ (Or.inr (Or.inl rfl)))
      · dsimp only
        have h2 := htrans _ _ _ h1 (hcd seeded.engine deps ready)
        by_cases hchk : (!(seeded.did_leaf_backward || !ready.isEmpty)) = true
        · rw [if_pos hchk]
          exact htrans _ _ _ h2 (hfail _ _ (Or.inr (Or.inr (Or.inl rfl))))
        · rw [if_neg hchk]
          have h3 := drain_rel g cb R htrans hstep
            (fun s => hfail s _ (Or.inr (Or.inl rfl))) fuel
            { seeded.engine with dependencies := deps, ready := ready }
          rcases hd : drain g cb fuel
              { seeded.engine with dependencies := deps, ready := ready } with f | s1
          · rw [hd] at h3
            exact htrans _ _ _ h2 h3
          · rw [hd] at h3
            have h4 := htrans _ _ _ h2 h3
            dsimp only
            by_cases hnr : s1.not_ready.isEmpty = true
            · rw [if_pos hnr]
              exact h4
            · rw [if_neg hnr]
              exact htrans _ _ _ h4 (hfail _ _ (Or.inr (Or.inr (Or.inr ⟨_, rfl⟩))))

theorem run_backward_rel {G : Type} [Add G] (g : Graph) (cb : Callbacks G)
    (R : EngineState G → Except (Failure G) (EngineState G) → Prop)
    (htrans : ∀ s s1 r, R s (.ok s1) → R s1 r → R s r)
    (hseed : ∀ v x s r, SeedStep g cb v x s r → R s r)
    (hstep : ∀ s r, Step g cb s r → R s r)
    (hcd : ∀ (s : EngineState G) deps ready,
      R s (.ok { s with dependencies := deps, ready := ready }))
    (hfail : ∀ (s : EngineState G) err,
      (err = .length_mismatch ∨ err = .out_of_fuel ∨ err = .no_graph_nodes ∨
        ∃ names, err = .could_not_compute names) →
      R s (.error ⟨err, s.trace⟩))
    (fuel : Nat) (vars : List VarId) (grads : List (PyObject G)) :
    R EngineState.init (THPEngine_run_backward g cb fuel vars grads) :=
  run_backward_rel_mem g cb R htrans hstep hcd hfail fuel vars grads
    (fun y _ s r h => hseed y.1 y.2 s r h)

end Autograd

namespace Autograd

/-! ## The arguments of `_do_backward` -/

theorem silent_of_memEvents {G : Type} (evs : List (Event G)) (h : MemEvents evs) :
    Silent evs := by
  intro e he f args hne
  rcases h e he with ⟨k, c, rfl⟩ | ⟨k, t, a, rfl⟩ <;> cases hne

theorem callsFromBuffers_of_silent {G : Type} (evs : List (Event G)) (h : Silent evs) :
    CallsFromBuffers evs := by
  intro t1 fn args t2 heq
  exact absurd rfl (h (.fn_backward fn args) (by rw [heq]; simp) fn args)

theorem callsFromBuffers_append {G : Type} (a b : List (Event G))
    (ha : CallsFromBuffers a) (hb : CallsFromBuffers b) : CallsFromBuffers (a ++ b) := by
  intro t1 fn args t2 heq
  rcases List.append_eq_append_iff.1 heq with ⟨a', h1, h2⟩ | ⟨c', h1, h2⟩
  · obtain ⟨t0, buf, h3, h4⟩ := hb a' fn args t2 h2
    exact ⟨a ++ t0, buf, by rw [h1, h3, List.append_assoc], h4⟩
  · cases c' with
    | nil =>
      obtain ⟨t0, buf, h3, _⟩ := hb [] fn args t2 (by simpa using h2.symm)
      simp at h3
    | cons y c2 =>
      simp only [List.cons_append, List.cons.injEq] at h2
      obtain ⟨rfl, _⟩ := h2
      exact ha t1 fn args c2 h1

theorem callsFromBuffers_call {G : Type} (fn : FnId) (buf : grad_buffer_type G) :
    CallsFromBuffers [.pop fn buf, .fn_backward fn (grad_tuple buf)] := by
  intro t1 f args t2 heq
  match t1, heq with
  | [], h => simp at h
  | [e], h =>
    simp only [List.singleton_append, List.cons.injEq, Event.fn_backward.injEq] at h
    obtain ⟨rfl, ⟨rfl, rfl⟩, _⟩ := h
    exact ⟨[], buf, rfl, rfl⟩
  | e1 :: e2 :: t, h => simp at h

/-- In every run, successful or not, each `_do_backward` call on a function is
made right after a pair of that function was popped, with the tuple built from
the buffer of the pair. -/
theorem run_backward_callsFromBuffers {G : Type} [Add G] (g : Graph) (cb : Callbacks G)
    (fuel : Nat) (vars : List VarId) (grads : List (PyObject G)) :
    CallsFromBuffers (trace_of (THPEngine_run_backward g cb fuel vars grads)) := by
  have key := run_backward_rel g cb
    (fun s r => ∃ evs, trace_of r = s.trace ++ evs ∧ CallsFromBuffers evs)
    (by
      rintro s s1 r ⟨evs1, h1, c1⟩ ⟨evs2, h2, c2⟩
      refine ⟨evs1 ++ evs2, ?_, callsFromBuffers_append _ _ c1 c2⟩
      simp only [trace_of] at h1
      rw [h2, h1, List.append_assoc])
    (by
      intro v x s r hstep
      cases hstep with
      | skip => exact ⟨[], by simp [trace_of], callsFromBuffers_of_silent _ silent_nil⟩
      | leaf_ok _ _ _ =>
        exact ⟨[.var_backward v x], rfl, callsFromBuffers_of_silent _ (silent_var _ _)⟩
      | leaf_raised _ _ _ =>
        exact ⟨[.var_backward v x], rfl, callsFromBuffers_of_silent _ (silent_var _ _)⟩
      | push c b _ _ =>
        exact ⟨[.push c b], rfl, callsFromBuffers_of_silent _ (silent_push _ _)⟩
      | abort => exact ⟨[], by simp [trace_of], callsFromBuffers_of_silent _ silent_nil⟩)
    (by
      intro s r hstep
      cases hstep with
      | skip => exact ⟨[], by simp [trace_of], callsFromBuffers_of_silent _ silent_nil⟩
      | leaf_ok v x _ _ =>
        exact ⟨[.var_backward v x], rfl, callsFromBuffers_of_silent _ (silent_var _ _)⟩
      | leaf_raised v x _ _ =>
        exact ⟨[.var_backward v x], rfl, callsFromBuffers_of_silent _ (silent_var _ _)⟩
      | quiet s1 evs hm htr _ _ _ =>
        exact ⟨evs, htr, callsFromBuffers_of_silent _ (silent_of_memEvents _ hm)⟩
      | abort evs err hm _ =>
        exact ⟨evs, rfl, callsFromBuffers_of_silent _ (silent_of_memEvents _ hm)⟩
      | push s1 evs p b _ _ hm htr _ _ _ =>
        refine ⟨evs ++ [.push p b], by simp [trace_of, htr], ?_⟩
        exact callsFromBuffers_append _ _
          (callsFromBuffers_of_silent _ (silent_of_memEvents _ hm))
          (callsFromBuffers_of_silent _ (silent_push _ _))
      | call fn buf rest grads _ _ => exact ⟨_, rfl, callsFromBuffers_call fn buf⟩
      | call_raised fn buf rest _ _ => exact ⟨_, rfl, callsFromBuffers_call fn buf⟩
      | call_not_a_tuple fn buf rest _ _ => exact ⟨_, rfl, callsFromBuffers_call fn buf⟩)
    (by
      intro s deps ready
      exact ⟨[], by simp [trace_of], callsFromBuffers_of_silent _ silent_nil⟩)
    (by
      intro s err _
      exact ⟨[], by simp [trace_of], callsFromBuffers_of_silent _ silent_nil⟩)
    fuel vars grads
  obtain ⟨evs, h1, h2⟩ := key
  rw [h1]
  simpa [EngineState.init] using h2

/-- Every loop only appends to the log. -/
theorem process_grad_input_traceExt {G : Type} [Add G] (g : Graph) (cb : Callbacks G)
    (es : List Edge) (xs : List (PyObject G)) (s : EngineState G) :
    ∃ evs, trace_of (process_grad_input g cb es xs s) = s.trace ++ evs := by
  refine process_grad_input_rel g cb (fun s r => ∃ evs, trace_of r = s.trace ++ evs)
    ?_ ?_ es xs s
  · rintro s s1 r ⟨evs1, h1⟩ ⟨evs2, h2⟩
    simp only [trace_of] at h1
    exact ⟨evs1 ++ evs2, by rw [h2, h1, List.append_assoc]⟩
  · intro s r hstep
    cases hstep with
    | skip => exact ⟨[], by simp [trace_of]⟩
    | leaf_ok v x _ _ => exact ⟨_, rfl⟩
    | leaf_raised v x _ _ => exact ⟨_, rfl⟩
    | quiet s1 evs hm htr _ _ _ => exact ⟨evs, htr⟩
    | abort evs err hm _ => exact ⟨evs, rfl⟩
    | push s1 evs p b _ _ hm htr _ _ _ =>
      exact ⟨evs ++ [.push p b], by simp [trace_of, htr]⟩
    | call fn buf rest grads _ _ => exact ⟨_, rfl⟩
    | call_raised fn buf rest _ _ => exact ⟨_, rfl⟩
    | call_not_a_tuple fn buf rest _ _ => exact ⟨_, rfl⟩

theorem dispatch_traceExt {G : Type} [Add G] (g : Graph) (cb : Callbacks G)
    (s : EngineState G) (fn : FnId) (buf : grad_buffer_type G) :
    ∃ evs, trace_of (dispatch g cb s fn buf) =
      s.trace ++ [.pop fn buf, .fn_backward fn (grad_tuple buf)] ++ evs := by
  rcases hcb : cb.fn_do_backward fn (grad_tuple buf) with _ | _ | out
  · exact ⟨[], by simp [dispatch, hcb, trace_of, EngineState.fail, EngineState.log]⟩
  · exact ⟨[], by simp [dispatch, hcb, trace_of, EngineState.fail, EngineState.log]⟩
  · obtain ⟨evs, h⟩ := process_grad_input_traceExt g cb (g.fn fn).previous_functions out
      (s.log [.pop fn buf, .fn_backward fn (grad_tuple buf)])
    exact ⟨evs, by simp only [dispatch, hcb]; rw [h]; rfl⟩

theorem drain_traceExt {G : Type} [Add G] (g : Graph) (cb : Callbacks G) :
    ∀ (fuel : Nat) (s : EngineState G), ∃ evs, trace_of (drain g cb fuel s) = s.trace ++ evs := by
  intro fuel
  induction fuel with
  | zero =>
    intro s
    rcases hr : s.ready with _ | ⟨p, rest⟩
    · exact ⟨[], by simp [drain, hr, trace_of]⟩
    · exact ⟨[], by simp [drain, hr, trace_of, EngineState.fail]⟩
  | succ n ih =>
    intro s
    rcases hr : s.ready with _ | ⟨⟨fn, buf⟩, rest⟩
    · exact ⟨[], by simp [drain, hr, trace_of]⟩
    · obtain ⟨evs1, h1⟩ := dispatch_traceExt g cb { s with ready := rest } fn buf
      rcases hd : dispatch g cb { s with ready := rest } fn buf with f | s1
      · rw [hd] at h1
        refine ⟨[.pop fn buf, .fn_backward fn (grad_tuple buf)] ++ evs1, ?_⟩
        simp only [drain, hr, hd]
        rw [h1]
        simp
      · rw [hd] at h1
        obtain ⟨evs2, h2⟩ := ih s1
        simp only [trace_of] at h1
        refine ⟨[.pop fn buf, .fn_backward fn (grad_tuple buf)] ++ evs1 ++ evs2, ?_⟩
        simp only [drain, hr, hd]
        rw [h2, h1]
        simp

/-- C13: in every run, each `_do_backward` call on a function comes right after
the pair of that function was popped from `ready`, and its argument tuple has
one entry per slot of the buffer of the pair: `None` for a null slot (a slot
that received no gradient) and the gradient held for any other slot.  The call
is made whatever the slots hold: no error is raised for a null slot.  The
buffer `[null, x]`, for one, gives the tuple `(None, x)`, and in the run on
`two_outputs`, where only slot 1 of `fn 1` receives a gradient (the tensor 1),
`fn 1` is invoked once, with `(None, 1)`. -/
theorem missing_gradient_passed_as_none {G : Type} [Add G] (g : Graph) (cb : Callbacks G)
    (fuel : Nat) (vars : List VarId) (grads : List (PyObject G)) :
    (∀ t1 fn args t2,
      trace_of (THPEngine_run_backward g cb fuel vars grads)
        = t1 ++ .fn_backward fn args :: t2 →
      ∃ t0 buf, t1 = t0 ++ [.pop fn buf] ∧ args = grad_tuple buf ∧
        args.length = buf.slots.length ∧
        (∀ i : Nat, buf.slots[i]? = some none → args[i]? = some PyObject.None) ∧
        (∀ (i : Nat) (r : GradRef G), buf.slots[i]? = some (some r) →
          args[i]? = some r.obj)) ∧
    (∀ (s : EngineState G) (fn : FnId) (buf : grad_buffer_type G),
      ∃ evs, trace_of (dispatch g cb s fn buf) =
        s.trace ++ [.pop fn buf, .fn_backward fn (grad_tuple buf)] ++ evs) ∧
    (∀ (id : Nat) (x : GradRef G), grad_tuple ⟨id, [none, some x]⟩ = [.None, x.obj]) ∧
    fn_calls 1 (trace_of (THPEngine_run_backward two_outputs (ones_cb two_outputs) 4 [1]
      [.Tensor 7])) = [[.None, .Tensor 1]] ∧
    error_of (THPEngine_run_backward two_outputs (ones_cb two_outputs) 4 [1]
      [.Tensor 7]) = none := by
  refine ⟨?_, dispatch_traceExt g cb, fun _ _ => rfl, by decide, by decide⟩
  intro t1 fn args t2 heq
  obtain ⟨t0, buf, h1, h2⟩ := run_backward_callsFromBuffers g cb fuel vars grads t1 fn args t2 heq
  refine ⟨t0, buf, h1, h2, ?_, ?_, ?_⟩
  · rw [h2, grad_tuple_length]
  · intro i hi
    rw [h2]
    simp [grad_tuple, hi]
  · intro i r hi
    rw [h2]
    simp [grad_tuple, hi]

end Autograd

namespace Autograd

/-! ## Failing calls -/

theorem not_failing_of_memEvents {G : Type} (cb : Callbacks G) (evs : List (Event G))
    (h : MemEvents evs) : ∀ e ∈ evs, ¬ Failing cb e := by
  intro e he hf
  rcases h e he with ⟨k, c, rfl⟩ | ⟨k, t, a, rfl⟩ <;> exact hf

theorem callLog_of_ok {G : Type} (cb : Callbacks G) (evs : List (Event G))
    (r : Except (Failure G) (EngineState G)) (h : ∀ e ∈ evs, ¬ Failing cb e) :
    CallLog cb evs r := Or.inl h

theorem callLog_trans {G : Type} (cb : Callbacks G) (evs1 evs2 : List (Event G))
    (s1 : EngineState G) (r : Except (Failure G) (EngineState G))
    (h1 : CallLog cb evs1 (.ok s1)) (h2 : CallLog cb evs2 r) :
    CallLog cb (evs1 ++ evs2) r := by
  have hok : ∀ e ∈ evs1, ¬ Failing cb e := by
    rcases h1 with h | ⟨e0, e, f, _, _, _, hr, _⟩
    · exact h
    · cases hr
  rcases h2 with h | ⟨e0, e, f, he, h0, hf, hr, herr⟩
  · left
    intro e he
    rcases List.mem_append.1 he with h' | h'
    · exact hok e h'
    · exact h e h'
  · right
    refine ⟨evs1 ++ e0, e, f, by rw [he, List.append_assoc], ?_, hf, hr, herr⟩
    intro e1 he1
    rcases List.mem_append.1 he1 with h' | h'
    · exact hok e1 h'
    · exact h0 e1 h'

/-- In every run all calls but possibly the last event succeed, and a failing
call is the last event of the log of a run that fails with its error. -/
theorem run_backward_callLog {G : Type} [Add G] (g : Graph) (cb : Callbacks G)
    (fuel : Nat) (vars : List VarId) (grads : List (PyObject G)) :
    CallLog cb (trace_of (THPEngine_run_backward g cb fuel vars grads))
      (THPEngine_run_backward g cb fuel vars grads) := by
  have key := run_backward_rel g cb
    (fun s r => ∃ evs, trace_of r = s.trace ++ evs ∧ CallLog cb evs r)
    (by
      rintro s s1 r ⟨evs1, h1, c1⟩ ⟨evs2, h2, c2⟩
      refine ⟨evs1 ++ evs2, ?_, callLog_trans cb _ _ s1 r c1 c2⟩
      simp only [trace_of] at h1
      rw [h2, h1, List.append_assoc])
    (by
      intro v x s r hstep
      cases hstep with
      | skip => exact ⟨[], by simp [trace_of], Or.inl (by simp)⟩
      | leaf_ok _ _ hcb =>
        refine ⟨[.var_backward v x], rfl, Or.inl ?_⟩
        intro e he
        simp only [List.mem_singleton] at he
        subst he
        simp [Failing, hcb]
      | leaf_raised _ _ hcb =>
        exact ⟨[.var_backward v x], rfl,
          Or.inr ⟨[], _, _, rfl, by simp, hcb, rfl, rfl⟩⟩
      | push c b _ _ =>
        refine ⟨[.push c b], rfl, Or.inl ?_⟩
        intro e he
        simp only [List.mem_singleton] at he
        subst he
        simp [Failing]
      | abort => exact ⟨[], by simp [trace_of], Or.inl (by simp)⟩)
    (by
      intro s r hstep
      cases hstep with
      | skip => exact ⟨[], by simp [trace_of], Or.inl (by simp)⟩
      | leaf_ok v x _ hcb =>
        refine ⟨[.var_backward v x], rfl, Or.inl ?_⟩
        intro e he
        simp only [List.mem_singleton] at he
        subst he
        simp [Failing, hcb]
      | leaf_raised v x _ hcb =>
        exact ⟨[.var_backward v x], rfl,
          Or.inr ⟨[], _, _, rfl, by simp, hcb, rfl, rfl⟩⟩
      | quiet s1 evs hm htr _ _ _ =>
        exact ⟨evs, htr, Or.inl (not_failing_of_memEvents cb evs hm)⟩
      | abort evs err hm _ =>
        exact ⟨evs, rfl, Or.inl (not_failing_of_memEvents cb evs hm)⟩
      | push s1 evs p b _ _ hm htr _ _ _ =>
        refine ⟨evs ++ [.push p b], by simp [trace_of, htr], Or.inl ?_⟩
        intro e he
        rcases List.mem_append.1 he with h | h
        · exact not_failing_of_memEvents cb evs hm e h
        · simp only [List.mem_singleton] at h
          subst h
          simp [Failing]
      | call fn buf rest grads _ hcb =>
        refine ⟨_, rfl, Or.inl ?_⟩
        intro e he
        simp only [List.mem_cons, List.mem_singleton, List.not_mem_nil, or_false] at he
        rcases he with rfl | rfl
        · simp [Failing]
        · simp [Failing, hcb]
      | call_raised fn buf rest _ hcb =>
        refine ⟨_, rfl, Or.inr ⟨[.pop fn buf], _, _, rfl, ?_, hcb, rfl, rfl⟩⟩
        intro e he
        simp only [List.mem_singleton] at he
        subst he
        simp [Failing]
      | call_not_a_tuple fn buf rest _ hcb =>
        refine ⟨_, rfl, Or.inl ?_⟩
        intro e he
        simp only [List.mem_cons, List.mem_singleton, List.not_mem_nil, or_false] at he
        rcases he with rfl | rfl
        · simp [Failing]
        · simp [Failing, hcb])
    (by
      intro s deps ready
      exact ⟨[], by simp [trace_of], Or.inl (by simp)⟩)
    (by
      intro s err _
      exact ⟨[], by simp [trace_of], Or.inl (by simp)⟩)
    fuel vars grads
  obtain ⟨evs, h1, h2⟩ := key
  rw [h1]
  simpa [EngineState.init] using h2

/-- A failing call in a log described by `CallLog` is the last event, and the
outcome is its failure. -/
theorem callLog_failing_last {G : Type} (cb : Callbacks G) (evs : List (Event G))
    (r : Except (Failure G) (EngineState G)) (h : CallLog cb evs r)
    (t1 : List (Event G)) (e : Event G) (t2 : List (Event G))
    (heq : evs = t1 ++ e :: t2) (hf : Failing cb e) :
    t2 = [] ∧ error_of r = some .python_error := by
  rcases h with h | ⟨e0, e', f, he, h0, _, hr, herr⟩
  · exact absurd hf (h e (by rw [heq]; simp))
  · have herr' : error_of r = some .python_error := by
      rw [hr]
      simp [error_of, herr]
    rw [he] at heq
    rcases List.append_eq_append_iff.1 heq with ⟨a', _, h2⟩ | ⟨c', h1, h2⟩
    · cases a' with
      | nil =>
        simp only [List.nil_append, List.cons.injEq] at h2
        exact ⟨h2.2.symm, herr'⟩
      | cons y a2 =>
        simp only [List.cons_append, List.cons.injEq] at h2
        have := h2.2
        simp at this
    · cases c' with
      | nil =>
        simp only [List.nil_append, List.cons.injEq] at h2
        exact ⟨h2.2, herr'⟩
      | cons y c2 =>
        simp only [List.cons_append, List.cons.injEq] at h2
        obtain ⟨rfl, _⟩ := h2
        exact absurd hf (h0 e (by rw [h1]; simp))

end Autograd

namespace Autograd

/-! ## A run under callbacks that fail less often -/

theorem route_grad_sim {G : Type} [Add G] (g : Graph) (cb cb' : Callbacks G)
    (hvar : ∀ v x, cb.var_do_backward v x = true → cb'.var_do_backward v x = true)
    (s : EngineState G) (e : Edge) (x : PyObject G) :
    route_grad g cb s e x = route_grad g cb' s e x ∨
    ∃ f rest, route_grad g cb s e x = .error f ∧
      trace_of (route_grad g cb' s e x) = f.trace ++ rest := by
  rcases he : e.obj with v | p
  · by_cases hrg : (g.var v).requires_grad = true
    · by_cases hcb : cb.var_do_backward v x = true
      · left
        simp only [route_grad, he, hrg, hcb, hvar v x hcb, if_true]
      · right
        refine ⟨⟨.python_error, s.trace ++ [.var_backward v x]⟩, [], ?_, ?_⟩
        · simp [route_grad, he, hrg, hcb, EngineState.fail, EngineState.log]
        · by_cases hcb' : cb'.var_do_backward v x = true <;>
            simp [route_grad, he, hrg, hcb', trace_of, EngineState.fail, EngineState.log]
    · left
      simp [route_grad, he, hrg]
  · left
    simp only [route_grad, he]

theorem process_grad_input_sim {G : Type} [Add G] (g : Graph) (cb cb' : Callbacks G)
    (hvar : ∀ v x, cb.var_do_backward v x = true → cb'.var_do_backward v x = true) :
    ∀ (es : List Edge) (xs : List (PyObject G)) (s : EngineState G),
      process_grad_input g cb es xs s = process_grad_input g cb' es xs s ∨
      ∃ f rest, process_grad_input g cb es xs s = .error f ∧
        trace_of (process_grad_input g cb' es xs s) = f.trace ++ rest := by
  intro es xs
  induction xs generalizing es with
  | nil =>
    intro s
    left
    cases es <;> simp [process_grad_input]
  | cons x xs ih =>
    intro s
    cases es with
    | nil =>
      left
      simp [process_grad_input]
    | cons e es =>
      rcases route_grad_sim g cb cb' hvar s e x with heq | ⟨f, rest, h1, h2⟩
      · rcases hr : route_grad g cb s e x with f | s1
        · left
          simp only [process_grad_input, ← heq, hr]
        · rcases ih es s1 with h | ⟨f, rest, h3, h4⟩
          · left
            simp only [process_grad_input, ← heq, hr]
            exact h
          · right
            exact ⟨f, rest, by simp only [process_grad_input, hr]; exact h3,
              by simp only [process_grad_input, ← heq, hr]; exact h4⟩
      · right
        refine ⟨f, ?_⟩
        rcases hr' : route_grad g cb' s e x with f' | s1'
        · rw [hr'] at h2
          exact ⟨rest, by simp only [process_grad_input, h1],
            by simp only [process_grad_input, hr']; exact h2⟩
        · rw [hr'] at h2
          obtain ⟨evs, hext⟩ := process_grad_input_traceExt g cb' es xs s1'
          simp only [trace_of] at h2
          exact ⟨rest ++ evs, by simp only [process_grad_input, h1],
            by simp only [process_grad_input, hr']; rw [hext, h2, List.append_assoc]⟩

theorem dispatch_sim {G : Type} [Add G] (g : Graph) (cb cb' : Callbacks G)
    (hfn : ∀ f a, cb.fn_do_backward f a ≠ .raised →
      cb'.fn_do_backward f a = cb.fn_do_backward f a)
    (hvar : ∀ v x, cb.var_do_backward v x = true → cb'.var_do_backward v x = true)
    (s : EngineState G) (fn : FnId) (buf : grad_buffer_type G) :
    dispatch g cb s fn buf = dispatch g cb' s fn buf ∨
    ∃ f rest, dispatch g cb s fn buf = .error f ∧
      trace_of (dispatch g cb' s fn buf) = f.trace ++ rest := by
  rcases hcb : cb.fn_do_backward fn (grad_tuple buf) with _ | _ | out
  · right
    obtain ⟨evs, hext⟩ := dispatch_traceExt g cb' s fn buf
    refine ⟨⟨.python_error, s.trace ++ [.pop fn buf, .fn_backward fn (grad_tuple buf)]⟩,
      evs, ?_, ?_⟩
    · simp only [dispatch, hcb, EngineState.fail, EngineState.log]
    · rw [hext]
  · left
    have h' := hfn fn (grad_tuple buf) (by rw [hcb]; simp)
    rw [hcb] at h'
    simp only [dispatch, hcb, h']
  · have h' := hfn fn (grad_tuple buf) (by rw [hcb]; simp)
    rw [hcb] at h'
    simp only [dispatch, hcb, h']
    exact process_grad_input_sim g cb cb' hvar _ _ _

theorem drain_sim {G : Type} [Add G] (g : Graph) (cb cb' : Callbacks G)
    (hfn : ∀ f a, cb.fn_do_backward f a ≠ .raised →
      cb'.fn_do_backward f a = cb.fn_do_backward f a)
    (hvar : ∀ v x, cb.var_do_backward v x = true → cb'.var_do_backward v x = true) :
    ∀ (fuel : Nat) (s : EngineState G),
      drain g cb fuel s = drain g cb' fuel s ∨
      ∃ f rest, drain g cb fuel s = .error f ∧
        trace_of (drain g cb' fuel s) = f.trace ++ rest := by
  intro fuel
  induction fuel with
  | zero =>
    intro s
    left
    rcases hr : s.ready with _ | ⟨p, rest⟩ <;> simp [drain, hr]
  | succ n ih =>
    intro s
    rcases hr : s.ready with _ | ⟨⟨fn, buf⟩, rest⟩
    · left
      simp [drain, hr]
    · rcases dispatch_sim g cb cb' hfn hvar { s with ready := rest } fn buf
        with heq | ⟨f, rest1, h1, h2⟩
      · rcases hd : dispatch g cb { s with ready := rest } fn buf with f | s1
        · left
          simp only [drain, hr, ← heq, hd]
        · rcases ih s1 with h | ⟨f, rest1, h3, h4⟩
          · left
            simp only [drain, hr, ← heq, hd]
            exact h
          · right
            exact ⟨f, rest1, by simp only [drain, hr, hd]; exact h3,
              by simp only [drain, hr, ← heq, hd]; exact h4⟩
      · right
        refine ⟨f, ?_⟩
        rcases hd' : dispatch g cb' { s with ready := rest } fn buf with f' | s1'
        · rw [hd'] at h2
          exact ⟨rest1, by simp only [drain, hr, h1],
            by simp only [drain, hr, hd']; exact h2⟩
        · rw [hd'] at h2
          obtain ⟨evs, hext⟩ := drain_traceExt g cb' n s1'
          simp only [trace_of] at h2
          exact ⟨rest1 ++ evs, by simp only [drain, hr, h1],
            by simp only [drain, hr, hd']; rw [hext, h2, List.append_assoc]⟩

theorem seed_traceExt {G : Type} (g : Graph) (cb : Callbacks G)
    (l : List (VarId × PyObject G)) (s : SeedState G) :
    ∃ evs, trace_of (Except.map SeedState.engine (seed g cb l s)) = s.engine.trace ++ evs := by
  refine seed_rel g cb (fun s r => ∃ evs, trace_of r = s.trace ++ evs) ?_ ?_ l s
  · rintro s s1 r ⟨evs1, h1⟩ ⟨evs2, h2⟩
    simp only [trace_of] at h1
    exact ⟨evs1 ++ evs2, by rw [h2, h1, List.append_assoc]⟩
  · intro v x s r hstep
    cases hstep with
    | skip => exact ⟨[], by simp [trace_of]⟩
    | leaf_ok _ _ _ => exact ⟨_, rfl⟩
    | leaf_raised _ _ _ => exact ⟨_, rfl⟩
    | push c b _ _ => exact ⟨_, rfl⟩
    | abort => exact ⟨[], by simp [trace_of]⟩

theorem seed_variable_sim {G : Type} (g : Graph) (cb cb' : Callbacks G)
    (hvar : ∀ v x, cb.var_do_backward v x = true → cb'.var_do_backward v x = true)
    (s : SeedState G) (v : VarId) (x : PyObject G) :
    seed_variable g cb s v x = seed_variable g cb' s v x ∨
    ∃ f rest, seed_variable g cb s v x = .error f ∧
      trace_of (Except.map SeedState.engine (seed_variable g cb' s v x)) = f.trace ++ rest := by
  rcases hc : (g.var v).creator with _ | c
  · by_cases hrg : (g.var v).requires_grad = true
    · by_cases hcb : cb.var_do_backward v x = true
      · left
        simp only [seed_variable, hc, hrg, hcb, hvar v x hcb, if_true]
      · right
        refine ⟨⟨.python_error, s.engine.trace ++ [.var_backward v x]⟩, [], ?_, ?_⟩
        · simp [seed_variable, hc, hrg, hcb, EngineState.fail, EngineState.log]
        · by_cases hcb' : cb'.var_do_backward v x = true <;>
            simp [seed_variable, hc, hrg, hcb', trace_of, Except.map, EngineState.fail,
              EngineState.log]
    · left
      simp [seed_variable, hc, hrg]
  · left
    simp only [seed_variable, hc]

theorem seed_sim {G : Type} (g : Graph) (cb cb' : Callbacks G)
    (hvar : ∀ v x, cb.var_do_backward v x = true → cb'.var_do_backward v x = true) :
    ∀ (l : List (VarId × PyObject G)) (s : SeedState G),
      seed g cb l s = seed g cb' l s ∨
      ∃ f rest, seed g cb l s = .error f ∧
        trace_of (Except.map SeedState.engine (seed g cb' l s)) = f.trace ++ rest := by
  intro l
  induction l with
  | nil =>
    intro s
    left
    simp [seed]
  | cons y l ih =>
    intro s
    obtain ⟨v, x⟩ := y
    rcases seed_variable_sim g cb cb' hvar s v x with heq | ⟨f, rest, h1, h2⟩
    · rcases hr : seed_variable g cb s v x with f | s1
      · left
        simp only [seed, ← heq, hr]
      · rcases ih s1 with h | ⟨f, rest, h3, h4⟩
        · left
          simp only [seed, ← heq, hr]
          exact h
        · right
          exact ⟨f, rest, by simp only [seed, hr]; exact h3,
            by simp only [seed, ← heq, hr]; exact h4⟩
    · right
      refine ⟨f, ?_⟩
      rcases hr' : seed_variable g cb' s v x with f' | s1'
      · rw [hr'] at h2
        exact ⟨rest, by simp only [seed, h1], by simp only [seed, hr']; exact h2⟩
      · rw [hr'] at h2
        obtain ⟨evs, hext⟩ := seed_traceExt g cb' l s1'
        simp only [trace_of, Except.map] at h2
        exact ⟨rest ++ evs, by simp only [seed, h1],
          by simp only [seed, hr']; rw [hext, h2, List.append_assoc]⟩

end Autograd

namespace Autograd

theorem trace_of_finish {G : Type} (s1 : EngineState G) :
    trace_of (run_backward_finish s1) = s1.trace := by
  unfold run_backward_finish
  by_cases h : s1.not_ready.isEmpty = true
  · rw [if_pos h]; rfl
  · rw [if_neg h]; rfl

/-- With as many gradients as variables, the log of a run starts with the log of
its seeding loop. -/
theorem run_backward_traceExt_seed {G : Type} [Add G] (g : Graph) (cb : Callbacks G)
    (fuel : Nat) (vars : List VarId) (grads : List (PyObject G))
    (hlen : ¬ vars.length ≠ grads.length) :
    ∃ evs, trace_of (THPEngine_run_backward g cb fuel vars grads) =
      trace_of (Except.map SeedState.engine
        (seed g cb (vars.zip grads) ⟨EngineState.init, [], false⟩)) ++ evs := by
  rw [run_backward_eq]
  unfold run_backward_start
  rw [if_neg hlen]
  rcases hs : seed g cb (vars.zip grads) ⟨EngineState.init, [], false⟩ with f | seeded
  · exact ⟨[], by simp [trace_of, Except.map]⟩
  · dsimp only
    rcases hcd : THPEngine_compute_dependencies g fuel seeded.creators
        seeded.engine.dependencies seeded.engine.ready with _ | ⟨deps, ready⟩
    · exact ⟨[], by simp [trace_of, Except.map, EngineState.fail]⟩
    · dsimp only
      by_cases hchk : (!(seeded.did_leaf_backward || !ready.isEmpty)) = true
      · rw [if_pos hchk]
        exact ⟨[], by simp [trace_of, Except.map, EngineState.fail]⟩
      · rw [if_neg hchk]
        dsimp only
        obtain ⟨evs, hext⟩ := drain_traceExt g cb fuel
          { seeded.engine with dependencies := deps, ready := ready }
        rcases hd : drain g cb fuel
            { seeded.engine with dependencies := deps, ready := ready } with f | s1
        · rw [hd] at hext
          exact ⟨evs, by simpa [trace_of, Except.map] using hext⟩
        · rw [hd] at hext
          refine ⟨evs, ?_⟩
          dsimp only
          rw [trace_of_finish]
          simpa [trace_of, Except.map] using hext

/-- When `cb'` agrees with `cb` wherever `cb` does not fail, the run under `cb'`
has the same outcome as the run under `cb`, or the run under `cb` fails and the
log of the run under `cb'` continues its log. -/
theorem run_backward_sim {G : Type} [Add G] (g : Graph) (cb cb' : Callbacks G)
    (hfn : ∀ f a, cb.fn_do_backward f a ≠ .raised →
      cb'.fn_do_backward f a = cb.fn_do_backward f a)
    (hvar : ∀ v x, cb.var_do_backward v x = true → cb'.var_do_backward v x = true)
    (fuel : Nat) (vars : List VarId) (grads : List (PyObject G)) :
    THPEngine_run_backward g cb fuel vars grads = THPEngine_run_backward g cb' fuel vars grads ∨
    ∃ f rest, THPEngine_run_backward g cb fuel vars grads = .error f ∧
      trace_of (THPEngine_run_backward g cb' fuel vars grads) = f.trace ++ rest := by
  by_cases hlen : vars.length ≠ grads.length
  · left
    unfold THPEngine_run_backward
    rw [if_pos hlen, if_pos hlen]
  · rcases seed_sim g cb cb' hvar (vars.zip grads) ⟨EngineState.init, [], false⟩
      with heq | ⟨f, rest, h1, h2⟩
    · have hstart : run_backward_start g cb' fuel vars grads
          = run_backward_start g cb fuel vars grads := by
        unfold run_backward_start
        rw [heq]
      rw [run_backward_eq g cb, run_backward_eq g cb', hstart]
      rcases hst : run_backward_start g cb fuel vars grads with f | s0
      · left
        rfl
      · dsimp only
        rcases drain_sim g cb cb' hfn hvar fuel s0 with hd | ⟨f, rest, h3, h4⟩
        · left
          rw [hd]
        · right
          refine ⟨f, rest, by rw [h3], ?_⟩
          rcases hd' : drain g cb' fuel s0 with f' | s1'
          · rw [hd'] at h4
            exact h4
          · rw [hd'] at h4
            dsimp only
            rw [trace_of_finish]
            exact h4
    · right
      obtain ⟨evs, hext⟩ := run_backward_traceExt_seed g cb' fuel vars grads hlen
      refine ⟨f, rest ++ evs, ?_, by rw [hext, h2, List.append_assoc]⟩
      unfold THPEngine_run_backward
      rw [if_neg hlen, h1]

/-! ## Failure of a `_do_backward` call -/

/-- C18: a failing `_do_backward` call, of a function or of a leaf variable, is
the last event of the log of the run, and the run fails with the error of that
call: nothing is invoked after it.  If the callbacks `cb'` agree with `cb` on
every call that does not fail under `cb` (so that `cb'` is `cb` with failing
calls made to succeed), the log of the run under `cb` is an initial segment of
the log of the run under `cb'`, hence so is the sequence of the invocations. -/
theorem run_backward_stops_at_failure {G : Type} [Add G] (g : Graph) (cb cb' : Callbacks G)
    (fuel : Nat) (vars : List VarId) (grads : List (PyObject G))
    (hfn : ∀ f a, cb.fn_do_backward f a ≠ .raised →
      cb'.fn_do_backward f a = cb.fn_do_backward f a)
    (hvar : ∀ v x, cb.var_do_backward v x = true → cb'.var_do_backward v x = true) :
    (∀ t1 e t2, trace_of (THPEngine_run_backward g cb fuel vars grads) = t1 ++ e :: t2 →
      Failing cb e →
      t2 = [] ∧ error_of (THPEngine_run_backward g cb fuel vars grads) = some .python_error) ∧
    (∃ rest, trace_of (THPEngine_run_backward g cb' fuel vars grads) =
      trace_of (THPEngine_run_backward g cb fuel vars grads) ++ rest) ∧
    (∃ more, dispatched (trace_of (THPEngine_run_backward g cb' fuel vars grads)) =
      dispatched (trace_of (THPEngine_run_backward g cb fuel vars grads)) ++ more) ∧
    (∀ v, ∃ more, leaf_calls v (trace_of (THPEngine_run_backward g cb' fuel vars grads)) =
      leaf_calls v (trace_of (THPEngine_run_backward g cb fuel vars grads)) ++ more) := by
  have hpre : ∃ rest, trace_of (THPEngine_run_backward g cb' fuel vars grads) =
      trace_of (THPEngine_run_backward g cb fuel vars grads) ++ rest := by
    rcases run_backward_sim g cb cb' hfn hvar fuel vars grads with heq | ⟨f, rest, h1, h2⟩
    · exact ⟨[], by rw [heq]; simp⟩
    · exact ⟨rest, by rw [h2, h1]; rfl⟩
  refine ⟨?_, hpre, ?_, ?_⟩
  · intro t1 e t2 heq hf
    exact callLog_failing_last cb _ _ (run_backward_callLog g cb fuel vars grads) t1 e t2 heq hf
  · obtain ⟨rest, h⟩ := hpre
    exact ⟨dispatched rest, by rw [h, dispatched_append]⟩
  · intro v
    obtain ⟨rest, h⟩ := hpre
    exact ⟨leaf_calls v rest, by rw [h]; simp [leaf_calls, List.filterMap_append]⟩

theorem run_backward_stops_at_failure_witness :
    (∀ t1 e t2, trace_of (THPEngine_run_backward diamond raising_cb 4 [1] [.Tensor 7])
        = t1 ++ e :: t2 →
      Failing raising_cb e →
      t2 = [] ∧ error_of (THPEngine_run_backward diamond raising_cb 4 [1] [.Tensor 7])
        = some .python_error) ∧
    (∃ rest, trace_of (THPEngine_run_backward diamond diamond_cb 4 [1] [.Tensor 7]) =
      trace_of (THPEngine_run_backward diamond raising_cb 4 [1] [.Tensor 7]) ++ rest) ∧
    (∃ more, dispatched (trace_of (THPEngine_run_backward diamond diamond_cb 4 [1]
        [.Tensor 7])) =
      dispatched (trace_of (THPEngine_run_backward diamond raising_cb 4 [1] [.Tensor 7]))
        ++ more) ∧
    (∀ v, ∃ more, leaf_calls v (trace_of (THPEngine_run_backward diamond diamond_cb 4 [1]
        [.Tensor 7])) =
      leaf_calls v (trace_of (THPEngine_run_backward diamond raising_cb 4 [1] [.Tensor 7]))
        ++ more) :=
  run_backward_stops_at_failure diamond raising_cb diamond_cb 4 [1] [.Tensor 7]
    (by
      intro f a h
      by_cases hf : f = 1
      · exact absurd (by simp [raising_cb, hf]) h
      · simp [raising_cb, hf])
    (fun _ _ _ => rfl)

end Autograd

namespace Autograd

/-! ## The dependency scan on an arbitrary graph -/

/-- What the body of the edge loop does for an edge to the function `p`. -/
theorem compute_dependencies_edge_shape {G : Type} (g : Graph) (c : FnId) (st : DepState G)
    (e : Edge) (p : FnId) (he : e.obj = .fn p) :
    (compute_dependencies_edge g c st e).seen
      = (if p ∈ st.seen then st.seen else p :: st.seen) ∧
    (compute_dependencies_edge g c st e).queue
      = (if p ∈ st.seen then st.queue else p :: st.queue) ∧
    (compute_dependencies_edge g c st e).ready
      = (if (g.fn p).is_stochastic = true ∧ (g.fn p).requires_grad = true ∧ p ∉ st.seen
          then (p, ⟨0, []⟩) :: st.ready else st.ready) ∧
    ((compute_dependencies_edge g c st e).dependencies = st.dependencies ∨
     (compute_dependencies_edge g c st e).dependencies
      = Map.insert st.dependencies p (st.dependencies.count p + 1)) := by
  by_cases hp : p ∈ st.seen <;>
  by_cases h1 : (g.fn p).is_stochastic = true <;>
  by_cases h2 : (g.fn p).requires_grad = true <;>
  by_cases h3 : (g.fn c).requires_grad = true <;>
  simp [compute_dependencies_edge, he, hp, h1, h2, h3, ready_queue_type.emplace_back]

theorem scanInv_edge {G : Type} (g : Graph) (creators : List FnId)
    (ready0 : ready_queue_type G) (E1 E2 : List FnId) (c : FnId) (st : DepState G) (e : Edge)
    (h : ScanInv g creators ready0 E1 E2 st) (hc : Reach g creators c)
    (he : e ∈ (g.fn c).previous_functions) :
    ScanInv g creators ready0 E1 E2 (compute_dependencies_edge g c st e) ∧
    (∀ x ∈ st.seen, x ∈ (compute_dependencies_edge g c st e).seen) ∧
    (∀ p, e.obj = .fn p → p ∈ (compute_dependencies_edge g c st e).seen) := by
  rcases heo : e.obj with v | p
  · rw [compute_dependencies_edge_var g c st e v heo]
    exact ⟨h, fun x hx => hx, fun p hp => by cases hp⟩
  · obtain ⟨hseen, hqueue, hready, hdeps⟩ := compute_dependencies_edge_shape g c st e p heo
    have hcp : EdgeTo g c p := ⟨e, he, heo⟩
    have hmono : ∀ x ∈ st.seen, x ∈ (compute_dependencies_edge g c st e).seen := by
      intro x hx
      rw [hseen]
      by_cases hp : p ∈ st.seen
      · rw [if_pos hp]; exact hx
      · rw [if_neg hp]; exact List.mem_cons_of_mem _ hx
    have hpin : p ∈ (compute_dependencies_edge g c st e).seen := by
      rw [hseen]
      by_cases hp : p ∈ st.seen
      · rw [if_pos hp]; exact hp
      · rw [if_neg hp]; exact List.mem_cons_self _ _
    have hqmono : ∀ x ∈ st.queue, x ∈ (compute_dependencies_edge g c st e).queue := by
      intro x hx
      rw [hqueue]
      by_cases hp : p ∈ st.seen
      · rw [if_pos hp]; exact hx
      · rw [if_neg hp]; exact List.mem_cons_of_mem _ hx
    refine ⟨⟨?_, ?_, ?_, ?_, ?_, ?_, ?_, ?_, ?_⟩, hmono, ?_⟩
    · intro r hr
      rcases h.roots_in r hr with h1 | h1
      · exact Or.inl h1
      · exact Or.inr (hqmono r h1)
    · intro x hx
      rw [hseen] at hx
      by_cases hp : p ∈ st.seen
      · rw [if_pos hp] at hx
        rcases h.seen_in x hx with h1 | h1
        · exact Or.inl h1
        · exact Or.inr (hqmono x h1)
      · rw [if_neg hp] at hx
        rcases List.mem_cons.1 hx with rfl | hx
        · right
          rw [hqueue, if_neg hp]
          exact List.mem_cons_self _ _
        · rcases h.seen_in x hx with h1 | h1
          · exact Or.inl h1
          · exact Or.inr (hqmono x h1)
    · intro x hx q hq
      exact hmono q (h.done x hx q hq)
    · intro x hx
      rw [hseen] at hx
      by_cases hp : p ∈ st.seen
      · rw [if_pos hp] at hx
        exact h.seen_reach x hx
      · rw [if_neg hp] at hx
        rcases List.mem_cons.1 hx with rfl | hx
        · obtain ⟨r, hr, hrc⟩ := hc
          exact ⟨r, hr, Relation.TransGen.tail' hrc hcp⟩
        · exact h.seen_reach x hx
    · intro x hx
      rw [hqueue] at hx
      by_cases hp : p ∈ st.seen
      · rw [if_pos hp] at hx
        exact h.queue_reach x hx
      · rw [if_neg hp] at hx
        rcases List.mem_cons.1 hx with rfl | hx
        · obtain ⟨r, hr, hrc⟩ := hc
          exact ⟨r, hr, hrc.tail hcp⟩
        · exact h.queue_reach x hx
    · intro P
      rw [hready, hseen]
      have h0 := h.ready_count P
      by_cases hp : p ∈ st.seen
      · simp only [hp, not_true_eq_false, and_false, if_false, if_true]
        exact h0
      · by_cases hsr : (g.fn p).is_stochastic = true ∧ (g.fn p).requires_grad = true
        · simp only [hsr, hp, not_false_eq_true, and_self, if_true, if_false, List.map_cons,
            List.mem_cons, true_and]
          by_cases hPp : P = p
          · subst hPp
            simp only [List.count_cons_self, h0, hsr, hp, and_false, and_self, if_false,
              true_or, if_true, true_and]
          · simp only [hPp, false_or]
            rw [List.count_cons_of_ne hPp]
            exact h0
        · have hcond : ¬ ((g.fn p).is_stochastic = true ∧ (g.fn p).requires_grad = true ∧
              p ∉ st.seen) := fun hx => hsr ⟨hx.1, hx.2.1⟩
          rw [if_neg hcond, if_neg hp, h0]
          by_cases hPp : P = p
          · subst hPp
            have h1 : ¬ ((g.fn P).is_stochastic = true ∧ (g.fn P).requires_grad = true ∧
                P ∈ st.seen) := fun hx => hsr ⟨hx.1, hx.2.1⟩
            have h2 : ¬ ((g.fn P).is_stochastic = true ∧ (g.fn P).requires_grad = true ∧
                P ∈ P :: st.seen) := fun hx => hsr ⟨hx.1, hx.2.1⟩
            rw [if_neg h1, if_neg h2]
          · simp only [List.mem_cons, hPp, false_or]
    · intro x hx
      rw [hready] at hx
      by_cases hcond : (g.fn p).is_stochastic = true ∧ (g.fn p).requires_grad = true ∧
          p ∉ st.seen
      · rw [if_pos hcond] at hx
        rcases List.mem_cons.1 hx with rfl | hx
        · exact Or.inr ⟨rfl, hcond.1, hcond.2.1⟩
        · exact h.ready_new x hx
      · rw [if_neg hcond] at hx
        exact h.ready_new x hx
    · obtain ⟨added, hadd⟩ := h.ready_back
      rw [hready]
      by_cases hcond : (g.fn p).is_stochastic = true ∧ (g.fn p).requires_grad = true ∧
          p ∉ st.seen
      · rw [if_pos hcond]
        exact ⟨(p, ⟨0, []⟩) :: added, by rw [hadd]; rfl⟩
      · rw [if_neg hcond]
        exact ⟨added, hadd⟩
    · intro P c1 hP
      rcases hdeps with hd | hd
      · rw [hd] at hP
        exact h.deps_pos P c1 hP
      · rw [hd] at hP
        by_cases hPp : P = p
        · subst hPp
          rw [Map.find_insert_self] at hP
          simp only [Option.some.injEq] at hP
          have hnn : 0 ≤ st.dependencies.count P := by
            unfold dependencies_type.count
            rcases hf : Map.find st.dependencies P with _ | c0
            · simp
            · have := h.deps_pos P c0 hf
              simp only [Option.getD_some]
              omega
          omega
        · rw [Map.find_insert_ne _ _ hPp] at hP
          exact h.deps_pos P c1 hP
    · intro q hq
      cases hq
      exact hpin

theorem scanInv_fold {G : Type} (g : Graph) (creators : List FnId)
    (ready0 : ready_queue_type G) (E1 E2 : List FnId) (c : FnId) (hc : Reach g creators c) :
    ∀ (todo : List Edge) (st : DepState G),
      ScanInv g creators ready0 E1 E2 st →
      (∀ e ∈ todo, e ∈ (g.fn c).previous_functions) →
      ScanInv g creators ready0 E1 E2 (todo.foldl (compute_dependencies_edge g c) st) ∧
      (∀ x ∈ st.seen, x ∈ (todo.foldl (compute_dependencies_edge g c) st).seen) ∧
      (∀ e ∈ todo, ∀ p, e.obj = .fn p →
        p ∈ (todo.foldl (compute_dependencies_edge g c) st).seen) := by
  intro todo
  induction todo with
  | nil =>
    intro st h _
    exact ⟨h, fun x hx => hx, fun e he => by cases he⟩
  | cons e todo ih =>
    intro st h hsub
    obtain ⟨h1, hmono1, hp1⟩ := scanInv_edge g creators ready0 E1 E2 c st e h hc
      (hsub e (List.mem_cons_self _ _))
    obtain ⟨h2, hmono2, hp2⟩ := ih (compute_dependencies_edge g c st e) h1
      (fun e' he' => hsub e' (List.mem_cons_of_mem _ he'))
    rw [List.foldl_cons]
    refine ⟨h2, fun x hx => hmono2 x (hmono1 x hx), ?_⟩
    intro e' he' p hp
    rcases List.mem_cons.1 he' with rfl | he'
    · exact hmono2 p (hp1 p hp)
    · exact hp2 e' he' p hp

theorem scanInv_loop {G : Type} (g : Graph) (creators : List FnId)
    (ready0 : ready_queue_type G) :
    ∀ (fuel : Nat) (st st' : DepState G) (E : List FnId),
      ScanInv g creators ready0 E E st →
      compute_dependencies_loop g fuel st = some st' →
      ∃ E', ScanInv g creators ready0 E' E' st' ∧ st'.queue = [] := by
  intro fuel
  induction fuel with
  | zero =>
    intro st st' E _ h
    simp [compute_dependencies_loop] at h
  | succ n ih =>
    intro st st' E hinv h
    rcases hq : st.queue with _ | ⟨c, rest⟩
    · simp only [compute_dependencies_loop, hq, Option.some.injEq] at h
      subst h
      exact ⟨E, hinv, hq⟩
    · simp only [compute_dependencies_loop, hq] at h
      have hc : Reach g creators c := hinv.queue_reach c (by rw [hq]; exact List.mem_cons_self _ _)
      have h1 : ScanInv g creators ready0 (c :: E) E { st with queue := rest } := by
        refine ⟨?_, ?_, hinv.done, hinv.seen_reach, ?_, hinv.ready_count, hinv.ready_new,
          hinv.ready_back, hinv.deps_pos⟩
        · intro r hr
          rcases hinv.roots_in r hr with h1 | h1
          · exact Or.inl (List.mem_cons_of_mem _ h1)
          · rw [hq] at h1
            rcases List.mem_cons.1 h1 with rfl | h1
            · exact Or.inl (List.mem_cons_self _ _)
            · exact Or.inr h1
        · intro x hx
          rcases hinv.seen_in x hx with h1 | h1
          · exact Or.inl (List.mem_cons_of_mem _ h1)
          · rw [hq] at h1
            rcases List.mem_cons.1 h1 with rfl | h1
            · exact Or.inl (List.mem_cons_self _ _)
            · exact Or.inr h1
        · intro x hx
          exact hinv.queue_reach x (by rw [hq]; exact List.mem_cons_of_mem _ hx)
      obtain ⟨h2, _, hp2⟩ := scanInv_fold g creators ready0 (c :: E) E c hc
        (g.fn c).previous_functions { st with queue := rest } h1 (fun e he => he)
      have h3 : ScanInv g creators ready0 (c :: E) (c :: E)
          ((g.fn c).previous_functions.foldl (compute_dependencies_edge g c)
            { st with queue := rest }) := by
        refine ⟨h2.roots_in, h2.seen_in, ?_, h2.seen_reach, h2.queue_reach, h2.ready_count,
          h2.ready_new, h2.ready_back, h2.deps_pos⟩
        intro x hx p hxp
        rcases List.mem_cons.1 hx with rfl | hx
        · obtain ⟨e, he, hep⟩ := hxp
          exact hp2 e he p hep
        · exact h2.done x hx p hxp
      exact ih _ st' (c :: E) h3 h

/-- What `THPEngine_compute_dependencies` returns on any graph, when it returns:
the functions it puts on `ready` are the always-ready functions that require
grad and are reachable from a root through at least one edge, each once, with
an empty buffer, at the back of the queue; all stored counts are positive. -/
theorem compute_dependencies_scan {G : Type} (g : Graph) (creators : List FnId) (fuel : Nat)
    (deps0 deps : dependencies_type) (ready0 ready : ready_queue_type G)
    (hpos : ∀ P c, Map.find deps0 P = some c → 1 ≤ c)
    (h : THPEngine_compute_dependencies g fuel creators deps0 ready0 = some (deps, ready)) :
    (∀ P, (g.fn P).is_stochastic = true → (g.fn P).requires_grad = true →
      (∃ r ∈ creators, Relation.TransGen (EdgeTo g) r P) →
      (ready.map Prod.fst).count P = (ready0.map Prod.fst).count P + 1) ∧
    (∀ P, ¬ ((g.fn P).is_stochastic = true ∧ (g.fn P).requires_grad = true ∧
        ∃ r ∈ creators, Relation.TransGen (EdgeTo g) r P) →
      (ready.map Prod.fst).count P = (ready0.map Prod.fst).count P) ∧
    (∀ x ∈ ready, x ∈ ready0 ∨
      (x.2 = ⟨0, []⟩ ∧ (g.fn x.1).is_stochastic = true ∧ (g.fn x.1).requires_grad = true)) ∧
    (∃ added, ready = added ++ ready0) ∧
    (∀ P c, Map.find deps P = some c → 1 ≤ c) := by
  unfold THPEngine_compute_dependencies at h
  rcases hl : compute_dependencies_loop g fuel ⟨[], creators.reverse, deps0, ready0⟩
    with _ | st'
  · rw [hl] at h
    cases h
  · rw [hl] at h
    simp only [Option.map_some', Option.some.injEq, Prod.mk.injEq] at h
    obtain ⟨rfl, rfl⟩ := h
    have hinit : ScanInv g creators ready0 [] [] ⟨[], creators.reverse, deps0, ready0⟩ := by
      refine ⟨?_, ?_, ?_, ?_, ?_, ?_, ?_, ⟨[], rfl⟩, hpos⟩
      · intro r hr
        exact Or.inr (List.mem_reverse.2 hr)
      · intro x hx
        cases hx
      · intro x hx
        cases hx
      · intro x hx
        cases hx
      · intro x hx
        exact ⟨x, List.mem_reverse.1 hx, Relation.ReflTransGen.refl⟩
      · intro P
        simp
      · intro x hx
        exact Or.inl hx
    obtain ⟨E, hinv, hq⟩ := scanInv_loop g creators ready0 fuel _ st' [] hinit hl
    have hrootsE : ∀ r ∈ creators, r ∈ E := by
      intro r hr
      rcases hinv.roots_in r hr with h1 | h1
      · exact h1
      · rw [hq] at h1
        cases h1
    have hseenE : ∀ x ∈ st'.seen, x ∈ E := by
      intro x hx
      rcases hinv.seen_in x hx with h1 | h1
      · exact h1
      · rw [hq] at h1
        cases h1
    have hcomplete : ∀ r ∈ creators, ∀ P, Relation.TransGen (EdgeTo g) r P → P ∈ st'.seen := by
      intro r hr P hrP
      induction hrP with
      | single hstep => exact hinv.done r (hrootsE r hr) _ hstep
      | tail _ hstep ih => exact hinv.done _ (hseenE _ ih) _ hstep
    refine ⟨?_, ?_, hinv.ready_new, hinv.ready_back, hinv.deps_pos⟩
    · intro P h1 h2 ⟨r, hr, hrP⟩
      rw [hinv.ready_count P, if_pos ⟨h1, h2, hcomplete r hr P hrP⟩]
    · intro P hn
      rw [hinv.ready_count P, if_neg]
      · rfl
      · rintro ⟨h1, h2, h3⟩
        exact hn ⟨h1, h2, hinv.seen_reach P h3⟩

end Autograd

namespace Autograd

/-! ## Termination of the dependency scan -/

theorem compute_dependencies_edge_measure {G : Type} (g : Graph) (c : FnId) (st : DepState G)
    (e : Edge) (nodes : List FnId) (hnd : st.seen.Nodup) (hsn : ∀ x ∈ st.seen, x ∈ nodes)
    (hcl : ∀ p, e.obj = .fn p → p ∈ nodes) :
    (compute_dependencies_edge g c st e).seen.Nodup ∧
    (∀ x ∈ (compute_dependencies_edge g c st e).seen, x ∈ nodes) ∧
    (∀ x ∈ (compute_dependencies_edge g c st e).queue, x ∈ st.queue ∨ x ∈ nodes) ∧
    (compute_dependencies_edge g c st e).queue.length + st.seen.length
      = st.queue.length + (compute_dependencies_edge g c st e).seen.length := by
  rcases heo : e.obj with v | p
  · rw [compute_dependencies_edge_var g c st e v heo]
    exact ⟨hnd, hsn, fun x hx => Or.inl hx, rfl⟩
  · obtain ⟨hseen, hqueue, _, _⟩ := compute_dependencies_edge_shape g c st e p heo
    rw [hseen, hqueue]
    by_cases hp : p ∈ st.seen
    · rw [if_pos hp, if_pos hp]
      exact ⟨hnd, hsn, fun x hx => Or.inl hx, rfl⟩
    · rw [if_neg hp, if_neg hp]
      refine ⟨List.nodup_cons.2 ⟨hp, hnd⟩, ?_, ?_, ?_⟩
      · intro x hx
        rcases List.mem_cons.1 hx with rfl | hx
        · exact hcl x heo
        · exact hsn x hx
      · intro x hx
        rcases List.mem_cons.1 hx with rfl | hx
        · exact Or.inr (hcl x heo)
        · exact Or.inl hx
      · simp only [List.length_cons]
        omega

theorem compute_dependencies_fold_measure {G : Type} (g : Graph) (c : FnId)
    (nodes : List FnId) :
    ∀ (todo : List Edge) (st : DepState G), st.seen.Nodup → (∀ x ∈ st.seen, x ∈ nodes) →
      (∀ e ∈ todo, ∀ p, e.obj = .fn p → p ∈ nodes) →
      (todo.foldl (compute_dependencies_edge g c) st).seen.Nodup ∧
      (∀ x ∈ (todo.foldl (compute_dependencies_edge g c) st).seen, x ∈ nodes) ∧
      (∀ x ∈ (todo.foldl (compute_dependencies_edge g c) st).queue,
        x ∈ st.queue ∨ x ∈ nodes) ∧
      (todo.foldl (compute_dependencies_edge g c) st).queue.length + st.seen.length
        = st.queue.length + (todo.foldl (compute_dependencies_edge g c) st).seen.length := by
  intro todo
  induction todo with
  | nil =>
    intro st hnd hsn _
    exact ⟨hnd, hsn, fun x hx => Or.inl hx, rfl⟩
  | cons e todo ih =>
    intro st hnd hsn hcl
    obtain ⟨a1, a2, a3, a4⟩ := compute_dependencies_edge_measure g c st e nodes hnd hsn
      (hcl e (List.mem_cons_self _ _))
    obtain ⟨b1, b2, b3, b4⟩ := ih (compute_dependencies_edge g c st e) a1 a2
      (fun e' he' => hcl e' (List.mem_cons_of_mem _ he'))
    rw [List.foldl_cons]
    refine ⟨b1, b2, ?_, by omega⟩
    intro x hx
    rcases b3 x hx with h | h
    · exact a3 x h
    · exact Or.inr h

theorem compute_dependencies_loop_terminates {G : Type} (g : Graph)
    (creators nodes : List FnId)
    (hclosed : ∀ c, (c ∈ creators ∨ c ∈ nodes) → ∀ p, EdgeTo g c p → p ∈ nodes) :
    ∀ (fuel : Nat) (st : DepState G), st.seen.Nodup → (∀ x ∈ st.seen, x ∈ nodes) →
      (∀ x ∈ st.queue, x ∈ creators ∨ x ∈ nodes) →
      st.queue.length + nodes.length < fuel + st.seen.length →
      ∃ st', compute_dependencies_loop g fuel st = some st' := by
  intro fuel
  induction fuel with
  | zero =>
    intro st hnd hsn _ hlt
    have := (hnd.subperm hsn).length_le
    omega
  | succ n ih =>
    intro st hnd hsn hq hlt
    rcases hqe : st.queue with _ | ⟨c, rest⟩
    · exact ⟨st, by simp [compute_dependencies_loop, hqe]⟩
    · simp only [compute_dependencies_loop, hqe]
      have hc : c ∈ creators ∨ c ∈ nodes := hq c (by rw [hqe]; exact List.mem_cons_self _ _)
      obtain ⟨b1, b2, b3, b4⟩ := compute_dependencies_fold_measure g c nodes
        (g.fn c).previous_functions { st with queue := rest } hnd hsn
        (fun e he p hp => hclosed c hc p ⟨e, he, hp⟩)
      refine ih _ b1 b2 ?_ ?_
      · intro x hx
        rcases b3 x hx with h | h
        · exact hq x (by rw [hqe]; exact List.mem_cons_of_mem _ h)
        · exact Or.inr h
      · rw [hqe] at hlt
        simp only [List.length_cons] at hlt
        simp only at b4
        omega

theorem compute_dependencies_terminates {G : Type} (g : Graph) (creators nodes : List FnId)
    (hclosed : ∀ c, (c ∈ creators ∨ c ∈ nodes) → ∀ p, EdgeTo g c p → p ∈ nodes)
    (deps0 : dependencies_type) (ready0 : ready_queue_type G) (fuel : Nat)
    (hfuel : creators.length + nodes.length < fuel) :
    ∃ r, THPEngine_compute_dependencies g fuel creators deps0 ready0 = some r := by
  obtain ⟨st', h⟩ := compute_dependencies_loop_terminates g creators nodes hclosed fuel
    ⟨[], creators.reverse, deps0, ready0⟩ List.nodup_nil (fun x hx => by cases hx)
    (fun x hx => Or.inl (List.mem_reverse.1 hx)) (by simpa using hfuel)
  exact ⟨(st'.dependencies, st'.ready), by simp [THPEngine_compute_dependencies, h]⟩

/-! ## Termination of the draining loop -/

theorem dispatched_of_memEvents {G : Type} (evs : List (Event G)) (h : MemEvents evs) :
    dispatched evs = [] :=
  silent_dispatched evs (silent_of_memEvents evs h)

/-- Every step uses up what it dispatches: the number of `_do_backward` calls it
makes plus the work left after it is at most the work there was before. -/
theorem step_work {G : Type} (g : Graph) (cb : Callbacks G) (s : EngineState G)
    (r : Except (Failure G) (EngineState G)) (h : Step g cb s r) :
    ∃ evs, trace_of r = s.trace ++ evs ∧
      (dispatched evs).length + pending_work r ≤ s.ready.length + s.dependencies.length ∧
      error_of r ≠ some .out_of_fuel := by
  cases h with
  | skip => exact ⟨[], by simp [trace_of], by simp [dispatched, pending_work], by simp [error_of]⟩
  | leaf_ok v x _ _ =>
    exact ⟨[.var_backward v x], rfl, by simp [dispatched, pending_work, EngineState.log],
      by simp [error_of]⟩
  | leaf_raised v x _ _ =>
    exact ⟨[.var_backward v x], rfl, by simp [dispatched, pending_work], by simp [error_of]⟩
  | quiet s1 evs hm htr hrd hlen _ =>
    refine ⟨evs, htr, ?_, by simp [error_of]⟩
    rw [dispatched_of_memEvents evs hm]
    simp only [pending_work, List.length_nil, hrd]
    omega
  | abort evs err hm herr =>
    refine ⟨evs, rfl, ?_, ?_⟩
    · rw [dispatched_of_memEvents evs hm]
      simp [pending_work]
    · rcases herr with rfl | rfl | ⟨p, rfl⟩ <;> simp [error_of]
  | push s1 evs p b _ _ hm htr hrd hlen _ =>
    refine ⟨evs ++ [.push p b], by simp [trace_of, htr], ?_, by simp [error_of]⟩
    rw [dispatched_append, dispatched_of_memEvents evs hm]
    simp only [pending_work, hrd, dispatched, List.filterMap_cons, List.filterMap_nil,
      List.nil_append, List.length_nil, List.length_append, List.length_singleton]
    omega
  | call fn buf rest grads hr _ =>
    refine ⟨_, rfl, ?_, by simp [error_of]⟩
    simp [dispatched, pending_work, EngineState.log, hr]
    omega
  | call_raised fn buf rest hr _ =>
    refine ⟨_, rfl, ?_, by simp [error_of]⟩
    simp [dispatched, pending_work, hr]
    omega
  | call_not_a_tuple fn buf rest hr _ =>
    refine ⟨_, rfl, ?_, by simp [error_of]⟩
    simp [dispatched, pending_work, hr]
    omega

/-- The relation of `step_work`, without the clause on the fuel, is transitive. -/
theorem work_trans {G : Type} (s s1 : EngineState G) (r : Except (Failure G) (EngineState G))
    (h1 : ∃ evs, trace_of (Except.ok s1 : Except (Failure G) (EngineState G)) = s.trace ++ evs ∧
      (dispatched evs).length + pending_work (Except.ok s1 : Except (Failure G) (EngineState G))
        ≤ s.ready.length + s.dependencies.length)
    (h2 : ∃ evs, trace_of r = s1.trace ++ evs ∧
      (dispatched evs).length + pending_work r ≤ s1.ready.length + s1.dependencies.length) :
    ∃ evs, trace_of r = s.trace ++ evs ∧
      (dispatched evs).length + pending_work r ≤ s.ready.length + s.dependencies.length := by
  obtain ⟨evs1, a1, a2⟩ := h1
  obtain ⟨evs2, b1, b2⟩ := h2
  simp only [trace_of] at a1
  refine ⟨evs1 ++ evs2, by rw [b1, a1, List.append_assoc], ?_⟩
  rw [dispatched_append, List.length_append]
  simp only [pending_work] at a2
  omega

/-- The draining loop makes at most as many `_do_backward` calls on functions as
there are pairs in `ready` plus entries in the dependency table at its start,
whatever the fuel. -/
theorem drain_dispatch_bound {G : Type} [Add G] (g : Graph) (cb : Callbacks G) (fuel : Nat)
    (s : EngineState G) :
    ∃ evs, trace_of (drain g cb fuel s) = s.trace ++ evs ∧
      (dispatched evs).length + pending_work (drain g cb fuel s)
        ≤ s.ready.length + s.dependencies.length := by
  refine drain_rel g cb (fun s r => ∃ evs, trace_of r = s.trace ++ evs ∧
      (dispatched evs).length + pending_work r ≤ s.ready.length + s.dependencies.length)
    (fun s s1 r h1 h2 => work_trans s s1 r h1 h2) ?_ ?_ fuel s
  · intro s r hstep
    obtain ⟨evs, h1, h2, _⟩ := step_work g cb s r hstep
    exact ⟨evs, h1, h2⟩
  · intro s
    exact ⟨[], by simp [trace_of], by simp [dispatched, pending_work]⟩

/-- Routing the gradients returned by one call does not add work and does not
use fuel. -/
theorem process_grad_input_work {G : Type} [Add G] (g : Graph) (cb : Callbacks G)
    (es : List Edge) (xs : List (PyObject G)) (s : EngineState G) :
    pending_work (process_grad_input g cb es xs s) ≤ s.ready.length + s.dependencies.length ∧
    error_of (process_grad_input g cb es xs s) ≠ some .out_of_fuel := by
  refine process_grad_input_rel g cb (fun s r =>
      pending_work r ≤ s.ready.length + s.dependencies.length ∧
      error_of r ≠ some .out_of_fuel) ?_ ?_ es xs s
  · rintro s s1 r ⟨a1, _⟩ ⟨b1, b2⟩
    simp only [pending_work] at a1
    exact ⟨by omega, b2⟩
  · intro s r hstep
    obtain ⟨evs, _, h2, h3⟩ := step_work g cb s r hstep
    exact ⟨by omega, h3⟩

/-- With fuel for the pairs in `ready` and the entries of the dependency table,
the draining loop does not run out of fuel. -/
theorem drain_terminates {G : Type} [Add G] (g : Graph) (cb : Callbacks G) :
    ∀ (fuel : Nat) (s : EngineState G), s.ready.length + s.dependencies.length ≤ fuel →
      error_of (drain g cb fuel s) ≠ some .out_of_fuel := by
  intro fuel
  induction fuel with
  | zero =>
    intro s hle
    rcases hr : s.ready with _ | ⟨p, rest⟩
    · simp [drain, hr, error_of]
    · rw [hr] at hle
      simp at hle
  | succ n ih =>
    intro s hle
    rcases hr : s.ready with _ | ⟨⟨fn, buf⟩, rest⟩
    · simp [drain, hr, error_of]
    · rw [hr] at hle
      simp only [List.length_cons] at hle
      rcases hcb : cb.fn_do_backward fn (grad_tuple buf) with _ | _ | out
      · simp [drain, hr, dispatch, hcb, error_of, EngineState.fail]
      · simp [drain, hr, dispatch, hcb, error_of, EngineState.fail]
      · obtain ⟨h1, h2⟩ := process_grad_input_work g cb (g.fn fn).previous_functions out
          (EngineState.log { s with ready := rest }
            [.pop fn buf, .fn_backward fn (grad_tuple buf)])
        rcases hp : process_grad_input g cb (g.fn fn).previous_functions out
          (EngineState.log { s with ready := rest }
            [.pop fn buf, .fn_backward fn (grad_tuple buf)]) with f | s1
        · rw [hp] at h2
          simpa [drain, hr, dispatch, hcb, hp] using h2
        · rw [hp] at h1
          simp only [pending_work, EngineState.log] at h1
          simp only [drain, hr, dispatch, hcb, hp]
          exact ih s1 (by omega)

/-! ## Termination of both loops -/

/-- C17: on a graph whose functions reachable from the root list `creators` all
lie in the finite list `nodes` (cycles allowed, roots possibly repeated),
`THPEngine_compute_dependencies` returns as soon as it has fuel for
`creators.length + nodes.length` expansions of a work-list entry (each
expansion uses one unit of fuel, the final test of the empty work list one
more).  For any graph, the draining loop started in any state returns or fails
for a reason other than the fuel as soon as it has fuel for as many iterations
as there are pairs in `ready` plus entries in the dependency table, and with any
fuel it makes at most that many `_do_backward` calls on functions. -/
theorem loops_terminate {G : Type} [Add G] (g : Graph) (cb : Callbacks G)
    (creators nodes : List FnId)
    (hclosed : ∀ c, (c ∈ creators ∨ c ∈ nodes) → ∀ p, EdgeTo g c p → p ∈ nodes) :
    (∀ (deps0 : dependencies_type) (ready0 : ready_queue_type G) (fuel : Nat),
      creators.length + nodes.length < fuel →
      ∃ r, THPEngine_compute_dependencies g fuel creators deps0 ready0 = some r) ∧
    (∀ (s : EngineState G) (fuel : Nat), s.ready.length + s.dependencies.length ≤ fuel →
      error_of (drain g cb fuel s) ≠ some .out_of_fuel) ∧
    (∀ (s : EngineState G) (fuel : Nat), ∃ evs,
      trace_of (drain g cb fuel s) = s.trace ++ evs ∧
      (dispatched evs).length ≤ s.ready.length + s.dependencies.length) := by
  refine ⟨fun deps0 ready0 fuel hfuel =>
      compute_dependencies_terminates g creators nodes hclosed deps0 ready0 fuel hfuel,
    fun s fuel hle => drain_terminates g cb fuel s hle, ?_⟩
  intro s fuel
  obtain ⟨evs, h1, h2⟩ := drain_dispatch_bound g cb fuel s
  exact ⟨evs, h1, by omega⟩

theorem loops_terminate_witness :
    (∀ (deps0 : dependencies_type) (ready0 : ready_queue_type Int) (fuel : Nat),
      [1].length + [1].length < fuel →
      ∃ r, THPEngine_compute_dependencies self_loop fuel [1] deps0 ready0 = some r) ∧
    (∀ (s : EngineState Int) (fuel : Nat), s.ready.length + s.dependencies.length ≤ fuel →
      error_of (drain self_loop unit_cb fuel s) ≠ some .out_of_fuel) ∧
    (∀ (s : EngineState Int) (fuel : Nat), ∃ evs,
      trace_of (drain self_loop unit_cb fuel s) = s.trace ++ evs ∧
      (dispatched evs).length ≤ s.ready.length + s.dependencies.length) :=
  loops_terminate self_loop unit_cb [1] [1]
    (fun c _ p h => by
      rw [((self_loop_edges c p).1 h).2]
      exact List.mem_singleton_self _)

end Autograd

namespace Autograd

/-! ## The start phase of a run -/

theorem creators_of_cons (g : Graph) (v : VarId) (vs : List VarId) :
    creators_of g (v :: vs) =
      (match (g.var v).creator with
        | none => []
        | some c => [c]) ++ creators_of g vs := by
  unfold creators_of
  rcases h : (g.var v).creator with _ | c <;> simp [List.filterMap_cons, h]

/-- What one pass of the seeding loop leaves, when it succeeds. -/
theorem seed_variable_general {G : Type} (g : Graph) (cb : Callbacks G) (s s1 : SeedState G)
    (v : VarId) (x : PyObject G) (h : seed_variable g cb s v x = .ok s1) :
    s1.creators = s.creators ++ creators_of g [v] ∧
    s1.engine.ready.map Prod.fst = s.engine.ready.map Prod.fst ++
      (creators_of g [v]).filter (fun c => (g.fn c).requires_grad) ∧
    s1.engine.not_ready = s.engine.not_ready ∧
    s1.engine.dependencies = s.engine.dependencies ∧
    (s1.did_leaf_backward = true ↔ s.did_leaf_backward = true ∨
      ((g.var v).creator = none ∧ (g.var v).requires_grad = true)) := by
  rcases hc : (g.var v).creator with _ | c
  · have hcre : creators_of g [v] = [] := by simp [creators_of, hc]
    by_cases hrg : (g.var v).requires_grad = true
    · by_cases hcb : cb.var_do_backward v x = true
      · simp only [seed_variable, hc, hrg, hcb, if_true, Except.ok.injEq] at h
        subst h
        simp [hcre, EngineState.log, hrg]
      · simp [seed_variable, hc, hrg, hcb] at h
    · simp only [seed_variable, hc, hrg, Bool.false_eq_true, if_false, Except.ok.injEq] at h
      subst h
      simp [hcre, hrg]
  · have hcre : creators_of g [v] = [c] := by simp [creators_of, hc]
    by_cases hrg : (g.fn c).requires_grad = true
    · by_cases hidx : (g.var v).output_nr < (g.fn c).num_outputs
      · simp only [seed_variable, hc, hrg, hidx, if_true, Except.ok.injEq] at h
        subst h
        simp [hcre, hrg, ready_queue_type.emplace_front]
      · simp [seed_variable, hc, hrg, hidx] at h
    · simp only [seed_variable, hc, hrg, Bool.false_eq_true, if_false, Except.ok.injEq] at h
      subst h
      simp [hcre, hrg]

theorem creators_of_append (g : Graph) (a b : List VarId) :
    creators_of g (a ++ b) = creators_of g a ++ creators_of g b := by
  simp [creators_of, List.filterMap_append]

/-- What the seeding loop leaves, when it succeeds. -/
theorem seed_general {G : Type} (g : Graph) (cb : Callbacks G) :
    ∀ (l : List (VarId × PyObject G)) (s s1 : SeedState G), seed g cb l s = .ok s1 →
      s1.creators = s.creators ++ creators_of g (l.map Prod.fst) ∧
      s1.engine.ready.map Prod.fst = s.engine.ready.map Prod.fst ++
        (creators_of g (l.map Prod.fst)).filter (fun c => (g.fn c).requires_grad) ∧
      s1.engine.not_ready = s.engine.not_ready ∧
      s1.engine.dependencies = s.engine.dependencies ∧
      (s1.did_leaf_backward = true ↔ s.did_leaf_backward = true ∨
        ∃ y ∈ l, (g.var y.1).creator = none ∧ (g.var y.1).requires_grad = true) := by
  intro l
  induction l with
  | nil =>
    intro s s1 h
    simp only [seed, Except.ok.injEq] at h
    subst h
    simp [creators_of]
  | cons y l ih =>
    intro s s1 h
    obtain ⟨v, x⟩ := y
    rcases hr : seed_variable g cb s v x with f | st
    · simp [seed, hr] at h
    · simp only [seed, hr] at h
      obtain ⟨a1, a2, a3, a4, a5⟩ := seed_variable_general g cb s st v x hr
      obtain ⟨b1, b2, b3, b4, b5⟩ := ih st s1 h
      have hcre : creators_of g (((v, x) :: l).map Prod.fst)
          = creators_of g [v] ++ creators_of g (l.map Prod.fst) := by
        rw [← creators_of_append]
        rfl
      refine ⟨?_, ?_, b3.trans a3, b4.trans a4, ?_⟩
      · rw [b1, a1, hcre, List.append_assoc]
      · rw [b2, a2, hcre, List.filter_append, List.append_assoc]
      · rw [b5, a5]
        constructor
        · rintro ((h1 | h1) | ⟨y, hy, h1⟩)
          · exact Or.inl h1
          · exact Or.inr ⟨(v, x), List.mem_cons_self _ _, h1⟩
          · exact Or.inr ⟨y, List.mem_cons_of_mem _ hy, h1⟩
        · rintro (h1 | ⟨y, hy, h1⟩)
          · exact Or.inl (Or.inl h1)
          · rcases List.mem_cons.1 hy with rfl | hy
            · exact Or.inl (Or.inr h1)
            · exact Or.inr ⟨y, hy, h1⟩

theorem map_fst_zip_of_length_eq {α β : Type} (l : List α) (l' : List β)
    (h : l.length = l'.length) : (l.zip l').map Prod.fst = l := by
  exact List.map_fst_zip l l' (le_of_eq h)

/-- The state in which the draining loop starts. -/
theorem run_backward_start_ok {G : Type} (g : Graph) (cb : Callbacks G) (fuel : Nat)
    (vars : List VarId) (grads : List (PyObject G)) (s0 : EngineState G)
    (h : run_backward_start g cb fuel vars grads = .ok s0) :
    ∃ seeded deps ready, vars.length = grads.length ∧
      seed g cb (vars.zip grads) ⟨EngineState.init, [], false⟩ = .ok seeded ∧
      THPEngine_compute_dependencies g fuel seeded.creators seeded.engine.dependencies
        seeded.engine.ready = some (deps, ready) ∧
      (seeded.did_leaf_backward = true ∨ ready ≠ []) ∧
      s0 = { seeded.engine with dependencies := deps, ready := ready } := by
  unfold run_backward_start at h
  by_cases hlen : vars.length ≠ grads.length
  · rw [if_pos hlen] at h
    cases h
  · rw [if_neg hlen] at h
    rcases hs : seed g cb (vars.zip grads) ⟨EngineState.init, [], false⟩ with f | seeded
    · rw [hs] at h
      cases h
    · rw [hs] at h
      dsimp only at h
      rcases hcd : THPEngine_compute_dependencies g fuel seeded.creators
          seeded.engine.dependencies seeded.engine.ready with _ | ⟨deps, ready⟩
      · rw [hcd] at h
        cases h
      · rw [hcd] at h
        dsimp only at h
        by_cases hchk : (!(seeded.did_leaf_backward || !ready.isEmpty)) = true
        · rw [if_pos hchk] at h
          cases h
        · rw [if_neg hchk] at h
          simp only [Except.ok.injEq] at h
          refine ⟨seeded, deps, ready, not_not.1 hlen, rfl, hcd, ?_, h.symm⟩
          rcases hd : seeded.did_leaf_backward
          · right
            intro hr
            rw [hd, hr] at hchk
            simp at hchk
          · left
            rfl

/-! ## Counts and waiting buffers -/

theorem countInv_start {G : Type} (g : Graph) (cb : Callbacks G) (fuel : Nat)
    (vars : List VarId) (grads : List (PyObject G)) (s0 : EngineState G)
    (h : run_backward_start g cb fuel vars grads = .ok s0) : CountInv s0 := by
  obtain ⟨seeded, deps, ready, _, hs, hcd, _, rfl⟩ := run_backward_start_ok g cb fuel vars grads s0 h
  obtain ⟨_, _, hnr, hdeps, _⟩ := seed_general g cb _ _ _ hs
  have hpos : ∀ P c, Map.find seeded.engine.dependencies P = some c → 1 ≤ c := by
    intro P c hP
    rw [hdeps] at hP
    simp [EngineState.init, Map.find] at hP
  obtain ⟨_, _, _, _, hp⟩ := compute_dependencies_scan g seeded.creators fuel _ deps _ ready hpos hcd
  refine ⟨hp, ?_⟩
  intro P buf hP
  simp only at hP
  rw [hnr] at hP
  simp [EngineState.init, Map.find] at hP

theorem drain_countInv {G : Type} [Add G] (g : Graph) (cb : Callbacks G) (fuel : Nat)
    (s s1 : EngineState G) (h : CountInv s) (hd : drain g cb fuel s = .ok s1) :
    CountInv s1 := by
  have key := drain_rel g cb (fun s r => CountInv s → ∀ s1, r = .ok s1 → CountInv s1)
    (fun s s1 r h1 h2 hs s2 hr => h2 (h1 hs s1 rfl) s2 hr)
    (by
      intro s r hstep hs s2 hr
      cases hstep with
      | skip =>
        simp only [Except.ok.injEq] at hr
        subst hr
        exact hs
      | leaf_ok v x _ _ =>
        simp only [Except.ok.injEq] at hr
        subst hr
        exact ⟨hs.pos, hs.held⟩
      | leaf_raised v x _ _ => cases hr
      | quiet s1 evs _ _ _ _ hci =>
        simp only [Except.ok.injEq] at hr
        subst hr
        exact hci hs
      | abort evs err _ _ => cases hr
      | push s1 evs p b _ _ _ _ _ _ hci =>
        simp only [Except.ok.injEq] at hr
        subst hr
        exact hci hs
      | call fn buf rest grads _ _ =>
        simp only [Except.ok.injEq] at hr
        subst hr
        exact ⟨hs.pos, hs.held⟩
      | call_raised fn buf rest _ _ => cases hr
      | call_not_a_tuple fn buf rest _ _ => cases hr)
    (by
      intro s _ s2 hr
      cases hr)
    fuel s
  exact key h s1 hd

/-! ## Nonzero counts at the end of a run -/

/-- C16 (refuted as stated): `nograd_mid` has no always-ready function, and its
root `fn 4` reaches `fn 2` only through `fn 3`, which does not require grad.
The dependency scan stores the count 1 for `fn 1`, the input of `fn 2`; the
gradient that `fn 4` returns for `fn 3` is dropped, so `fn 2` is never
dispatched, and `run_backward` returns, having invoked `fn 4` alone, with
`ready` and `not_ready` empty while the dependency table still holds the count 1
for `fn 1`. -/
theorem success_with_count_left :
    (∀ f, (nograd_mid.fn f).is_stochastic = false) ∧
    ∃ s : EngineState Int,
      THPEngine_run_backward nograd_mid (ones_cb nograd_mid) 6 [1] [.Tensor 1] = .ok s ∧
      s.ready = [] ∧ s.not_ready = [] ∧ s.dependencies.count 1 = 1 ∧
      dispatched s.trace = [4] := by
  refine ⟨?_, _, rfl, rfl, rfl, by decide, by decide⟩
  intro f
  unfold nograd_mid
  dsimp only
  split <;> rfl

/-- On `stochastic_diamond`, where the always-ready function `fn 2` is reached
along two paths, the count 1 that the dependency scan stored for `fn 2` is
still in the dependency table when `run_backward` returns. -/
theorem success_with_nonzero_count :
    ∃ s : EngineState Int,
      THPEngine_run_backward stochastic_diamond (ones_cb stochastic_diamond) 4 [1]
        [.Tensor 1] = .ok s ∧
      s.ready = [] ∧ s.not_ready = [] ∧ s.dependencies.count 2 = 1 :=
  ⟨_, rfl, rfl, rfl, by decide⟩

/-- C16 (amended): when the draining loop has emptied `ready` (the start phase
gave `s0` and the loop returned `s1`), every function that still holds a buffer
in `not_ready` has a count of at least 1 in the dependency table; if there is
such a function `run_backward` fails with "could not compute gradients for some
functions", naming every such function, and whenever `run_backward` returns
success no function holds a buffer in `not_ready`.  The dependency table itself
is not inspected. -/
theorem unresolved_buffers_reported {G : Type} [Add G] (g : Graph) (cb : Callbacks G)
    (fuel : Nat) (vars : List VarId) (grads : List (PyObject G)) (s0 s1 : EngineState G)
    (h0 : run_backward_start g cb fuel vars grads = .ok s0)
    (h1 : drain g cb fuel s0 = .ok s1) :
    (∀ P buf, Map.find s1.not_ready P = some buf →
      ∃ c, Map.find s1.dependencies P = some c ∧ 1 ≤ c) ∧
    ((∃ P buf, Map.find s1.not_ready P = some buf) →
      ∃ names, THPEngine_run_backward g cb fuel vars grads =
          .error ⟨.could_not_compute names, s1.trace⟩ ∧
        ∀ P buf, Map.find s1.not_ready P = some buf → P ∈ names) ∧
    (∀ s, THPEngine_run_backward g cb fuel vars grads = .ok s →
      s = s1 ∧ s.not_ready = [] ∧ s.ready = []) := by
  have hrun : THPEngine_run_backward g cb fuel vars grads = run_backward_finish s1 := by
    rw [run_backward_eq, h0]
    dsimp only
    rw [h1]
  have hfin := run_backward_finish_cases s1
  have hci := drain_countInv g cb fuel s0 s1 (countInv_start g cb fuel vars grads s0 h0) h1
  refine ⟨?_, ?_, ?_⟩
  · intro P buf hP
    obtain ⟨c, hc⟩ := hci.held P buf hP
    exact ⟨c, hc, hci.pos P c hc⟩
  · rintro ⟨P, buf, hP⟩
    have hne : s1.not_ready ≠ [] := by
      intro hnil
      rw [hnil] at hP
      simp [Map.find] at hP
    refine ⟨Map.keys s1.not_ready, by rw [hrun]; exact hfin.2 hne, ?_⟩
    intro Q bq hQ
    exact Map.mem_keys_of_find _ _ _ hQ
  · intro s hs
    rw [hrun] at hs
    by_cases hnil : s1.not_ready = []
    · rw [hfin.1 hnil] at hs
      simp only [Except.ok.injEq] at hs
      subst hs
      exact ⟨rfl, hnil, drain_ready_nil g cb fuel s0 _ h1⟩
    · rw [hfin.2 hnil] at hs
      cases hs

theorem unresolved_buffers_reported_witness :
    ∃ names t, THPEngine_run_backward fan_in short_cb 4 [1] [.Tensor 1] =
        .error ⟨.could_not_compute names, t⟩ ∧ 1 ∈ names := by
  obtain ⟨names, h1, h2⟩ :=
    (unresolved_buffers_reported fan_in short_cb 4 [1] [.Tensor 1] _ _ rfl rfl).2.1
      ⟨1, _, rfl⟩
  exact ⟨names, _, h1, h2 1 _ rfl⟩

end Autograd

namespace Autograd

/-! ## The check that there is something to do -/

/-- The seeding loop only fails at a root leaf that requires grad or at a root
creator that requires grad, and then with the error of the failed call or for a
missing slot. -/
theorem seed_error {G : Type} (g : Graph) (cb : Callbacks G) :
    ∀ (l : List (VarId × PyObject G)) (s : SeedState G) (f : Failure G),
      seed g cb l s = .error f →
      (f.error = .python_error ∨ f.error = .out_of_bounds) ∧
      ∃ y ∈ l, ((g.var y.1).creator = none ∧ (g.var y.1).requires_grad = true) ∨
        ∃ c, (g.var y.1).creator = some c ∧ (g.fn c).requires_grad = true := by
  intro l
  induction l with
  | nil =>
    intro s f h
    simp [seed] at h
  | cons y l ih =>
    intro s f h
    obtain ⟨v, x⟩ := y
    rcases hr : seed_variable g cb s v x with f1 | st
    · simp only [seed, hr, Except.error.injEq] at h
      subst h
      refine ⟨?_, (v, x), List.mem_cons_self _ _, ?_⟩
      · rcases hc : (g.var v).creator with _ | c
        · by_cases hrg : (g.var v).requires_grad = true
          · by_cases hcb : cb.var_do_backward v x = true
            · simp [seed_variable, hc, hrg, hcb] at hr
            · simp only [seed_variable, hc, hrg, hcb, if_true, Bool.false_eq_true, if_false,
                Except.error.injEq] at hr
              subst hr
              exact Or.inl rfl
          · simp [seed_variable, hc, hrg] at hr
        · by_cases hrg : (g.fn c).requires_grad = true
          · by_cases hidx : (g.var v).output_nr < (g.fn c).num_outputs
            · simp [seed_variable, hc, hrg, hidx] at hr
            · simp only [seed_variable, hc, hrg, hidx, if_true, if_false,
                Except.error.injEq] at hr
              subst hr
              exact Or.inr rfl
          · simp [seed_variable, hc, hrg] at hr
      · rcases hc : (g.var v).creator with _ | c
        · left
          refine ⟨rfl, ?_⟩
          by_contra hrg
          simp [seed_variable, hc, hrg] at hr
        · right
          refine ⟨c, rfl, ?_⟩
          by_contra hrg
          simp [seed_variable, hc, hrg] at hr
    · simp only [seed, hr] at h
      obtain ⟨h1, y, hy, h2⟩ := ih st f h
      exact ⟨h1, y, List.mem_cons_of_mem _ hy, h2⟩

/-- The draining loop never fails with "there are no graph nodes...". -/
theorem drain_error_kind {G : Type} [Add G] (g : Graph) (cb : Callbacks G) (fuel : Nat)
    (s : EngineState G) (f : Failure G) (h : drain g cb fuel s = .error f) :
    f.error ≠ .no_graph_nodes := by
  have key := drain_rel g cb (fun _ r => ∀ f, r = .error f → f.error ≠ Error.no_graph_nodes)
    (fun _ _ _ _ h2 => h2)
    (by
      intro s r hstep f hr
      cases hstep with
      | skip => cases hr
      | leaf_ok v x _ _ => cases hr
      | leaf_raised v x _ _ =>
        simp only [Except.error.injEq] at hr
        subst hr
        simp
      | quiet s1 evs _ _ _ _ _ => cases hr
      | abort evs err _ herr =>
        simp only [Except.error.injEq] at hr
        subst hr
        rcases herr with rfl | rfl | ⟨p, rfl⟩ <;> simp
      | push s1 evs p b _ _ _ _ _ _ _ => cases hr
      | call fn buf rest grads _ _ => cases hr
      | call_raised fn buf rest _ _ =>
        simp only [Except.error.injEq] at hr
        subst hr
        simp
      | call_not_a_tuple fn buf rest _ _ =>
        simp only [Except.error.injEq] at hr
        subst hr
        simp)
    (by
      intro s f hr
      simp only [Except.error.injEq] at hr
      subst hr
      simp)
    fuel s
  exact key f h

/-- The run after a successful seeding loop and dependency scan. -/
theorem run_backward_after_scan {G : Type} [Add G] (g : Graph) (cb : Callbacks G) (fuel : Nat)
    (vars : List VarId) (grads : List (PyObject G)) (seeded : SeedState G)
    (deps : dependencies_type) (ready : ready_queue_type G)
    (hlen : vars.length = grads.length)
    (hs : seed g cb (vars.zip grads) ⟨EngineState.init, [], false⟩ = .ok seeded)
    (hcd : THPEngine_compute_dependencies g fuel seeded.creators seeded.engine.dependencies
      seeded.engine.ready = some (deps, ready)) :
    THPEngine_run_backward g cb fuel vars grads =
      if (!(seeded.did_leaf_backward || !ready.isEmpty)) = true then
        .error ⟨.no_graph_nodes, seeded.engine.trace⟩
      else
        match drain g cb fuel { seeded.engine with dependencies := deps, ready := ready } with
        | .error f => .error f
        | .ok s1 => run_backward_finish s1 := by
  unfold THPEngine_run_backward run_backward_finish
  rw [if_neg (not_not.2 hlen), hs]
  dsimp only
  rw [hcd]
  rfl

theorem list_eq_nil_of_count {α : Type} [DecidableEq α] (l : List α)
    (h : ∀ a, l.count a = 0) : l = [] := by
  cases l with
  | nil => rfl
  | cons a l =>
    have := h a
    simp at this

/-- C12 (refuted as stated): on `stochastic_input` no root variable is a leaf
that requires grad and the creator `fn 1` of the only root does not require
grad, yet the run does not fail with "there are no graph nodes that require
computing gradients": the dependency scan has put the always-ready input
`fn 2` on `ready`, and the run invokes it and returns.  And with an empty list
of variables but one gradient the run fails with the error on the lengths, not
with that one. -/
theorem no_graph_nodes_counterexample :
    (∀ v ∈ [1], ((stochastic_input.var v).creator = none →
        (stochastic_input.var v).requires_grad = false) ∧
      (∀ c, (stochastic_input.var v).creator = some c →
        (stochastic_input.fn c).requires_grad = false)) ∧
    error_of (THPEngine_run_backward stochastic_input unit_cb 4 [1] [.Tensor 1]) = none ∧
    dispatched (trace_of (THPEngine_run_backward stochastic_input unit_cb 4 [1] [.Tensor 1]))
      = [2] ∧
    error_of (THPEngine_run_backward stochastic_input unit_cb 4 [] [.Tensor 1])
      = some .length_mismatch := by
  refine ⟨?_, by decide, by decide, by decide⟩
  intro v hv
  simp only [List.mem_singleton] at hv
  subst hv
  constructor
  · intro h
    simp [stochastic_input] at h
  · intro c hc
    simp only [stochastic_input, Option.some.injEq] at hc
    subst hc
    rfl

/-- C12 (amended): when `run_backward` is called with as many gradients as
variables on a graph whose functions reachable from the root creators lie in the
finite list `nodes`, it fails with "there are no graph nodes that require
computing gradients" exactly when no root variable is a leaf that requires grad,
no creator of a root variable requires grad, and no always-ready (stochastic)
function that requires grad is reachable from a root creator through one or
more input edges. -/
theorem no_graph_nodes_iff {G : Type} [Add G] (g : Graph) (cb : Callbacks G) (fuel : Nat)
    (vars : List VarId) (grads : List (PyObject G)) (nodes : List FnId)
    (hlen : vars.length = grads.length)
    (hclosed : ∀ c, (c ∈ creators_of g vars ∨ c ∈ nodes) → ∀ p, EdgeTo g c p → p ∈ nodes)
    (hfuel : (creators_of g vars).length + nodes.length < fuel) :
    error_of (THPEngine_run_backward g cb fuel vars grads) = some .no_graph_nodes ↔
      ((∀ v ∈ vars, ((g.var v).creator = none → (g.var v).requires_grad = false) ∧
          (∀ c, (g.var v).creator = some c → (g.fn c).requires_grad = false)) ∧
        ¬ ∃ S, (g.fn S).is_stochastic = true ∧ (g.fn S).requires_grad = true ∧
          ∃ r ∈ creators_of g vars, Relation.TransGen (EdgeTo g) r S) := by
  have hzip : (vars.zip grads).map Prod.fst = vars := map_fst_zip_of_length_eq vars grads hlen
  have hmem : ∀ v ∈ vars, ∃ y ∈ vars.zip grads, y.1 = v := by
    intro v hv
    rw [← hzip] at hv
    obtain ⟨y, hy, rfl⟩ := List.mem_map.1 hv
    exact ⟨y, hy, rfl⟩
  have hmem' : ∀ y ∈ vars.zip grads, y.1 ∈ vars := by
    intro y hy
    rw [← hzip]
    exact List.mem_map_of_mem _ hy
  rcases hs : seed g cb (vars.zip grads) ⟨EngineState.init, [], false⟩ with f | seeded
  · -- the seeding loop fails: another error, and some root requires grad
    obtain ⟨hkind, y, hy, hcause⟩ := seed_error g cb _ _ f hs
    have hrun : THPEngine_run_backward g cb fuel vars grads = .error f := by
      unfold THPEngine_run_backward
      rw [if_neg (not_not.2 hlen), hs]
    rw [hrun]
    constructor
    · intro h
      simp only [error_of, Option.some.injEq] at h
      rcases hkind with h1 | h1 <;> rw [h1] at h <;> cases h
    · rintro ⟨hroots, _⟩
      exfalso
      obtain ⟨h1, h2⟩ := hroots y.1 (hmem' y hy)
      rcases hcause with ⟨hc, hrg⟩ | ⟨c, hc, hrg⟩
      · rw [h1 hc] at hrg
        cases hrg
      · rw [h2 c hc] at hrg
        cases hrg
  · obtain ⟨hcre, hrd, _, hdeps, hleaf⟩ := seed_general g cb _ _ _ hs
    rw [hzip] at hcre hrd
    simp only [List.nil_append, EngineState.init, List.map_nil] at hcre hrd
    obtain ⟨⟨deps, ready⟩, hcd⟩ := compute_dependencies_terminates g seeded.creators nodes
      (by rw [hcre]; exact hclosed) seeded.engine.dependencies seeded.engine.ready fuel
      (by rw [hcre]; exact hfuel)
    have hpos : ∀ P c, Map.find seeded.engine.dependencies P = some c → 1 ≤ c := by
      intro P c hP
      rw [hdeps] at hP
      simp [EngineState.init, Map.find] at hP
    obtain ⟨hone, hzero, _, ⟨added, hadd⟩, _⟩ :=
      compute_dependencies_scan g seeded.creators fuel _ deps _ ready hpos hcd
    rw [hcre] at hone hzero
    rw [run_backward_after_scan g cb fuel vars grads seeded deps ready hlen hs hcd]
    by_cases hchk : (!(seeded.did_leaf_backward || !ready.isEmpty)) = true
    · -- the check fails
      rw [if_pos hchk]
      simp only [error_of, true_iff]
      have hdl : seeded.did_leaf_backward = false := by
        rcases hd : seeded.did_leaf_backward
        · rfl
        · rw [hd] at hchk
          simp at hchk
      have hre : ready = [] := by
        rw [hdl] at hchk
        simpa using hchk
      have hr0 : seeded.engine.ready = [] := by
        rw [hre] at hadd
        exact (List.append_eq_nil.1 hadd.symm).2
      refine ⟨?_, ?_⟩
      · intro v hv
        constructor
        · intro hc
          by_contra hrg
          have : seeded.did_leaf_backward = true := by
            rw [hleaf]
            right
            obtain ⟨y, hy, rfl⟩ := hmem v hv
            exact ⟨y, hy, hc, by simpa using hrg⟩
          rw [hdl] at this
          cases this
        · intro c hc
          by_contra hrg
          have hcm : c ∈ (creators_of g vars).filter (fun c => (g.fn c).requires_grad) := by
            rw [List.mem_filter]
            refine ⟨?_, by simpa using hrg⟩
            unfold creators_of
            exact List.mem_filterMap.2 ⟨v, hv, hc⟩
          rw [← hrd, hr0] at hcm
          cases hcm
      · rintro ⟨S, h1, h2, h3⟩
        have := hone S h1 h2 h3
        rw [hre] at this
        simp at this
    · -- the check passes
      rw [if_neg hchk]
      constructor
      · intro h
        exfalso
        rcases hd : drain g cb fuel
            { seeded.engine with dependencies := deps, ready := ready } with f | s1
        · rw [hd] at h
          simp only [error_of, Option.some.injEq] at h
          exact drain_error_kind g cb fuel _ f hd h
        · rw [hd] at h
          dsimp only at h
          by_cases hnil : s1.not_ready = []
          · rw [(run_backward_finish_cases s1).1 hnil] at h
            cases h
          · rw [(run_backward_finish_cases s1).2 hnil] at h
            cases h
      · rintro ⟨hroots, hnost⟩
        exfalso
        apply hchk
        have hdl : seeded.did_leaf_backward = false := by
          rcases hd : seeded.did_leaf_backward
          · rfl
          · exfalso
            rcases hleaf.1 hd with h1 | ⟨y, hy, hc, hrg⟩
            · cases h1
            · rw [(hroots y.1 (hmem' y hy)).1 hc] at hrg
              cases hrg
        have hfil : (creators_of g vars).filter (fun c => (g.fn c).requires_grad) = [] := by
          rw [List.filter_eq_nil_iff]
          intro c hc
          unfold creators_of at hc
          obtain ⟨v, hv, hvc⟩ := List.mem_filterMap.1 hc
          rw [(hroots v hv).2 c hvc]
          simp
        have hre : ready = [] := by
          have hcount : ∀ P, (ready.map Prod.fst).count P = 0 := by
            intro P
            rw [hzero P (fun hx => hnost ⟨P, hx⟩), hrd, hfil]
            rfl
          have := list_eq_nil_of_count _ hcount
          exact List.map_eq_nil_iff.1 this
        rw [hdl, hre]
        rfl

theorem stochastic_input_edges (c p : FnId) (h : EdgeTo stochastic_input c p) : p = 2 := by
  obtain ⟨e, he, hp⟩ := h
  rcases c with _ | _ | _ | c
  · simp [stochastic_input] at he
  · simp only [stochastic_input, List.mem_singleton] at he
    subst he
    simp only [PrevObj.fn.injEq] at hp
    exact hp.symm
  · simp [stochastic_input] at he
  · simp [stochastic_input] at he

theorem no_graph_nodes_iff_witness :
    error_of (THPEngine_run_backward stochastic_input unit_cb 4 [1] [.Tensor 1])
        = some .no_graph_nodes ↔
      ((∀ v ∈ [1],
          ((stochastic_input.var v).creator = none →
            (stochastic_input.var v).requires_grad = false) ∧
          (∀ c, (stochastic_input.var v).creator = some c →
            (stochastic_input.fn c).requires_grad = false)) ∧
        ¬ ∃ S, (stochastic_input.fn S).is_stochastic = true ∧
          (stochastic_input.fn S).requires_grad = true ∧
          ∃ r ∈ creators_of stochastic_input [1],
            Relation.TransGen (EdgeTo stochastic_input) r S) :=
  no_graph_nodes_iff stochastic_input unit_cb 4 [1] [.Tensor 1] [2] rfl
    (fun c _ p h => by
      rw [stochastic_input_edges c p h]
      exact List.mem_singleton_self _)
    (by decide)

end Autograd

namespace Autograd

/-! ## Always-ready functions -/

/-- The log of the start phase has no `_do_backward` call on a function. -/
theorem run_backward_start_silent {G : Type} (g : Graph) (cb : Callbacks G) (fuel : Nat)
    (vars : List VarId) (grads : List (PyObject G)) :
    Silent (trace_of (run_backward_start g cb fuel vars grads)) := by
  have hseed : ∀ s : SeedState G, ∃ evs,
      trace_of (Except.map SeedState.engine (seed g cb (vars.zip grads) s))
        = s.engine.trace ++ evs ∧ Silent evs := by
    intro s
    refine seed_rel g cb (fun s r => ∃ evs, trace_of r = s.trace ++ evs ∧ Silent evs)
      ?_ ?_ (vars.zip grads) s
    · rintro s s1 r ⟨evs1, h1, c1⟩ ⟨evs2, h2, c2⟩
      simp only [trace_of] at h1
      exact ⟨evs1 ++ evs2, by rw [h2, h1, List.append_assoc], silent_append _ _ c1 c2⟩
    · intro v x s r hstep
      cases hstep with
      | skip => exact ⟨[], by simp [trace_of], silent_nil⟩
      | leaf_ok _ _ _ => exact ⟨_, rfl, silent_var _ _⟩
      | leaf_raised _ _ _ => exact ⟨_, rfl, silent_var _ _⟩
      | push c b _ _ => exact ⟨_, rfl, silent_push _ _⟩
      | abort => exact ⟨[], by simp [trace_of], silent_nil⟩
  obtain ⟨evs, h1, h2⟩ := hseed ⟨EngineState.init, [], false⟩
  unfold run_backward_start
  by_cases hlen : vars.length ≠ grads.length
  · rw [if_pos hlen]
    exact silent_nil
  · rw [if_neg hlen]
    rcases hs : seed g cb (vars.zip grads) ⟨EngineState.init, [], false⟩ with f | seeded
    · rw [hs] at h1
      simp only [Except.map, trace_of, EngineState.init, List.nil_append] at h1
      simp only [trace_of, h1]
      exact h2
    · rw [hs] at h1
      simp only [Except.map, trace_of, EngineState.init, List.nil_append] at h1
      dsimp only
      rcases THPEngine_compute_dependencies g fuel seeded.creators
          seeded.engine.dependencies seeded.engine.ready with _ | ⟨deps, ready⟩
      · simp only [trace_of, EngineState.fail, h1]
        exact h2
      · dsimp only
        by_cases hchk : (!(seeded.did_leaf_backward || !ready.isEmpty)) = true
        · rw [if_pos hchk]
          simp only [trace_of, EngineState.fail, h1]
          exact h2
        · rw [if_neg hchk]
          simp only [trace_of, h1]
          exact h2

/-- In the draining loop, the calls on a function `S` that is never pushed use
up the pairs of `S` in `ready`. -/
theorem drain_balance {G : Type} [Add G] (g : Graph) (cb : Callbacks G) (S : FnId)
    (hst : (g.fn S).is_stochastic = true) (fuel : Nat) (s : EngineState G) :
    ∃ evs, trace_of (drain g cb fuel s) = s.trace ++ evs ∧
      (dispatched evs).count S ≤ (s.ready.map Prod.fst).count S ∧
      (∀ s1, drain g cb fuel s = .ok s1 →
        (dispatched evs).count S + (s1.ready.map Prod.fst).count S
          = (s.ready.map Prod.fst).count S) := by
  refine drain_rel g cb (fun s r => ∃ evs, trace_of r = s.trace ++ evs ∧
      (dispatched evs).count S ≤ (s.ready.map Prod.fst).count S ∧
      (∀ s1, r = .ok s1 →
        (dispatched evs).count S + (s1.ready.map Prod.fst).count S
          = (s.ready.map Prod.fst).count S)) ?_ ?_ ?_ fuel s
  · rintro s s1 r ⟨evs1, a1, a2, a3⟩ ⟨evs2, b1, b2, b3⟩
    simp only [trace_of] at a1
    have a4 := a3 s1 rfl
    refine ⟨evs1 ++ evs2, by rw [b1, a1, List.append_assoc], ?_, ?_⟩
    · rw [dispatched_append, List.count_append]
      omega
    · intro s2 hr
      have b4 := b3 s2 hr
      rw [dispatched_append, List.count_append]
      omega
  · intro s r hstep
    cases hstep with
    | skip =>
      refine ⟨[], by simp [trace_of], by simp [dispatched], ?_⟩
      intro s1 hr
      simp only [Except.ok.injEq] at hr
      subst hr
      simp [dispatched]
    | leaf_ok v x _ _ =>
      refine ⟨[.var_backward v x], rfl, by simp [dispatched], ?_⟩
      intro s1 hr
      simp only [Except.ok.injEq] at hr
      subst hr
      simp [dispatched, EngineState.log]
    | leaf_raised v x _ _ =>
      exact ⟨[.var_backward v x], rfl, by simp [dispatched], fun s1 hr => by cases hr⟩
    | quiet s1 evs hm htr hrd _ _ =>
      refine ⟨evs, htr, by simp [dispatched_of_memEvents evs hm], ?_⟩
      intro s2 hr
      simp only [Except.ok.injEq] at hr
      subst hr
      simp [dispatched_of_memEvents evs hm, hrd]
    | abort evs err hm _ =>
      exact ⟨evs, rfl, by simp [dispatched_of_memEvents evs hm], fun s1 hr => by cases hr⟩
    | push s1 evs p b _ hns hm htr hrd _ _ =>
      have hpS : p ≠ S := by
        rintro rfl
        rw [hst] at hns
        cases hns
      have hd : dispatched (evs ++ [Event.push p b]) = [] := by
        rw [dispatched_append, dispatched_of_memEvents evs hm]
        rfl
      refine ⟨evs ++ [.push p b], by simp [trace_of, htr], by simp [hd], ?_⟩
      intro s2 hr
      simp only [Except.ok.injEq] at hr
      subst hr
      rw [hd, hrd]
      simp [List.count_cons_of_ne hpS.symm]
    | call fn buf rest grads hr _ =>
      refine ⟨_, rfl, ?_, ?_⟩
      · rw [hr]
        by_cases hf : fn = S
        · subst hf
          simp [dispatched]
        · simp [dispatched, List.count_cons_of_ne (Ne.symm hf)]
      · intro s2 hr2
        simp only [Except.ok.injEq] at hr2
        subst hr2
        rw [hr]
        by_cases hf : fn = S
        · subst hf
          simp [dispatched, EngineState.log]
          omega
        · simp [dispatched, EngineState.log, List.count_cons_of_ne (Ne.symm hf)]
    | call_raised fn buf rest hr _ =>
      refine ⟨_, rfl, ?_, fun s1 hr => by cases hr⟩
      rw [hr]
      by_cases hf : fn = S
      · subst hf
        simp [dispatched]
      · simp [dispatched, List.count_cons_of_ne (Ne.symm hf)]
    | call_not_a_tuple fn buf rest hr _ =>
      refine ⟨_, rfl, ?_, fun s1 hr => by cases hr⟩
      rw [hr]
      by_cases hf : fn = S
      · subst hf
        simp [dispatched]
      · simp [dispatched, List.count_cons_of_ne (Ne.symm hf)]
  · intro s
    exact ⟨[], by simp [trace_of], by simp [dispatched], fun s1 hr => by cases hr⟩

/-- No pair of an always-ready function that is not a root creator is ever put
on `ready` by `emplace_front`, in any run. -/
theorem run_backward_no_push {G : Type} [Add G] (g : Graph) (cb : Callbacks G) (fuel : Nat)
    (vars : List VarId) (grads : List (PyObject G)) (S : FnId)
    (hst : (g.fn S).is_stochastic = true) (hroot : S ∉ creators_of g vars) :
    ∀ b, Event.push S b ∉ trace_of (THPEngine_run_backward g cb fuel vars grads) := by
  have key := run_backward_rel_mem g cb
    (fun s r => ∃ evs, trace_of r = s.trace ++ evs ∧ ∀ b, Event.push S b ∉ evs)
    (by
      rintro s s1 r ⟨evs1, h1, c1⟩ ⟨evs2, h2, c2⟩
      simp only [trace_of] at h1
      refine ⟨evs1 ++ evs2, by rw [h2, h1, List.append_assoc], ?_⟩
      intro b hb
      rcases List.mem_append.1 hb with h | h
      · exact c1 b h
      · exact c2 b h)
    (by
      intro s r hstep
      cases hstep with
      | skip => exact ⟨[], by simp [trace_of], by simp⟩
      | leaf_ok v x _ _ => exact ⟨[.var_backward v x], rfl, by simp⟩
      | leaf_raised v x _ _ => exact ⟨[.var_backward v x], rfl, by simp⟩
      | quiet s1 evs hm htr _ _ _ =>
        refine ⟨evs, htr, ?_⟩
        intro b hb
        rcases hm _ hb with ⟨k, c, h⟩ | ⟨k, t, a, h⟩ <;> cases h
      | abort evs err hm _ =>
        refine ⟨evs, rfl, ?_⟩
        intro b hb
        rcases hm _ hb with ⟨k, c, h⟩ | ⟨k, t, a, h⟩ <;> cases h
      | push s1 evs p b _ hns hm htr _ _ _ =>
        refine ⟨evs ++ [.push p b], by simp [trace_of, htr], ?_⟩
        intro b' hb
        rcases List.mem_append.1 hb with h | h
        · rcases hm _ h with ⟨k, c, h⟩ | ⟨k, t, a, h⟩ <;> cases h
        · simp only [List.mem_singleton, Event.push.injEq] at h
          rw [← h.1, hst] at hns
          cases hns
      | call fn buf rest grads _ _ => exact ⟨_, rfl, by simp⟩
      | call_raised fn buf rest _ _ => exact ⟨_, rfl, by simp⟩
      | call_not_a_tuple fn buf rest _ _ => exact ⟨_, rfl, by simp⟩)
    (by
      intro s deps ready
      exact ⟨[], by simp [trace_of], by simp⟩)
    (by
      intro s err _
      exact ⟨[], by simp [trace_of], by simp⟩)
    fuel vars grads
    (by
      intro y hy s r hstep
      cases hstep with
      | skip => exact ⟨[], by simp [trace_of], by simp⟩
      | leaf_ok _ _ _ => exact ⟨_, rfl, by simp⟩
      | leaf_raised _ _ _ => exact ⟨_, rfl, by simp⟩
      | push c b hc _ =>
        refine ⟨[.push c b], rfl, ?_⟩
        intro b' hb
        simp only [List.mem_singleton, Event.push.injEq] at hb
        apply hroot
        unfold creators_of
        exact List.mem_filterMap.2 ⟨y.1, (List.of_mem_zip hy).1, by rw [hc, hb.1]⟩
      | abort => exact ⟨[], by simp [trace_of], by simp⟩)
  obtain ⟨evs, h1, h2⟩ := key
  rw [h1]
  simpa [EngineState.init] using h2

/-- With any fuel: an always-ready function `S` that requires grad, is not the
creator of a root variable and is reachable from the root creators is on `ready`
exactly once when the draining loop starts, is never put on `ready` by
`emplace_front`, and is invoked at most once, and exactly once in a run that
returns. -/
theorem stochastic_once_any_fuel {G : Type} [Add G] (g : Graph) (cb : Callbacks G)
    (fuel : Nat) (vars : List VarId) (grads : List (PyObject G)) (S : FnId)
    (hst : (g.fn S).is_stochastic = true) (hrg : (g.fn S).requires_grad = true)
    (hroot : S ∉ creators_of g vars) (hreach : Reach g (creators_of g vars) S) :
    (∀ s0, run_backward_start g cb fuel vars grads = .ok s0 →
      (s0.ready.map Prod.fst).count S = 1) ∧
    (∀ b, Event.push S b ∉ trace_of (THPEngine_run_backward g cb fuel vars grads)) ∧
    (fn_calls S (trace_of (THPEngine_run_backward g cb fuel vars grads))).length ≤ 1 ∧
    (∀ s, THPEngine_run_backward g cb fuel vars grads = .ok s →
      (fn_calls S s.trace).length = 1) := by
  have hstart : ∀ s0, run_backward_start g cb fuel vars grads = .ok s0 →
      (s0.ready.map Prod.fst).count S = 1 := by
    intro s0 h0
    obtain ⟨seeded, deps, ready, hlen, hs, hcd, _, rfl⟩ :=
      run_backward_start_ok g cb fuel vars grads s0 h0
    obtain ⟨hcre, hrd, _, hdeps, _⟩ := seed_general g cb _ _ _ hs
    rw [map_fst_zip_of_length_eq vars grads hlen] at hcre hrd
    simp only [List.nil_append, EngineState.init, List.map_nil] at hcre hrd
    have hpos : ∀ P c, Map.find seeded.engine.dependencies P = some c → 1 ≤ c := by
      intro P c hP
      rw [hdeps] at hP
      simp [EngineState.init, Map.find] at hP
    obtain ⟨hone, _, _, _, _⟩ :=
      compute_dependencies_scan g seeded.creators fuel _ deps _ ready hpos hcd
    have htg : ∃ r ∈ seeded.creators, Relation.TransGen (EdgeTo g) r S := by
      obtain ⟨r, hr, hrS⟩ := hreach
      rcases Relation.reflTransGen_iff_eq_or_transGen.1 hrS with h | h
      · rw [h] at hroot
        exact absurd hr hroot
      · exact ⟨r, by rw [hcre]; exact hr, h⟩
    simp only
    rw [hone S hst hrg htg, hrd]
    have : S ∉ (creators_of g vars).filter (fun c => (g.fn c).requires_grad) :=
      fun h => hroot (List.mem_filter.1 h).1
    rw [List.count_eq_zero_of_not_mem this]
  have hsil := run_backward_start_silent g cb fuel vars grads
  refine ⟨hstart, run_backward_no_push g cb fuel vars grads S hst hroot, ?_, ?_⟩
  · rw [run_backward_eq]
    rcases h0 : run_backward_start g cb fuel vars grads with f | s0
    · rw [h0] at hsil
      simp only [trace_of] at hsil ⊢
      rw [silent_fn_calls S _ hsil]
      simp
    · rw [h0] at hsil
      simp only [trace_of] at hsil
      dsimp only
      obtain ⟨evs, h1, h2, _⟩ := drain_balance g cb S hst fuel s0
      rw [hstart s0 h0] at h2
      rcases hd : drain g cb fuel s0 with f | s1
      · rw [hd] at h1
        dsimp only
        rw [h1, fn_calls_append, silent_fn_calls S _ hsil, List.nil_append,
          fn_calls_length_eq_count]
        exact h2
      · rw [hd] at h1
        dsimp only
        rw [trace_of_finish]
        simp only [trace_of] at h1
        rw [h1, fn_calls_append, silent_fn_calls S _ hsil, List.nil_append,
          fn_calls_length_eq_count]
        exact h2
  · intro s hs
    rw [run_backward_eq] at hs
    rcases h0 : run_backward_start g cb fuel vars grads with f | s0
    · rw [h0] at hs
      cases hs
    · rw [h0] at hs hsil
      simp only [trace_of] at hsil
      dsimp only at hs
      obtain ⟨evs, h1, _, h3⟩ := drain_balance g cb S hst fuel s0
      rcases hd : drain g cb fuel s0 with f | s1
      · rw [hd] at hs
        cases hs
      · rw [hd] at hs h1
        dsimp only at hs
        have hs1 : s = s1 := by
          by_cases hnil : s1.not_ready = []
          · rw [(run_backward_finish_cases s1).1 hnil] at hs
            simp only [Except.ok.injEq] at hs
            exact hs.symm
          · rw [(run_backward_finish_cases s1).2 hnil] at hs
            cases hs
        subst hs1
        simp only [trace_of] at h1
        have h4 := h3 s hd
        rw [drain_ready_nil g cb fuel s0 s hd, hstart s0 h0] at h4
        rw [h1, fn_calls_append, silent_fn_calls S _ hsil, List.nil_append,
          fn_calls_length_eq_count]
        simpa using h4

/-! ## Enough fuel -/

theorem compute_dependencies_loop_mono {G : Type} (g : Graph) :
    ∀ (fuel : Nat) (st r : DepState G), compute_dependencies_loop g fuel st = some r →
      ∀ fuel', fuel ≤ fuel' → compute_dependencies_loop g fuel' st = some r := by
  intro fuel
  induction fuel with
  | zero =>
    intro st r h
    simp [compute_dependencies_loop] at h
  | succ n ih =>
    intro st r h fuel' hle
    obtain ⟨m, rfl⟩ : ∃ m, fuel' = m + 1 := ⟨fuel' - 1, by omega⟩
    rcases hq : st.queue with _ | ⟨fn, rest⟩
    · simp only [compute_dependencies_loop, hq] at h ⊢
      exact h
    · simp only [compute_dependencies_loop, hq] at h ⊢
      exact ih _ r h m (by omega)

theorem compute_dependencies_mono {G : Type} (g : Graph) (fuel fuel' : Nat)
    (queue : List FnId) (deps : dependencies_type) (ready : ready_queue_type G)
    (r : dependencies_type × ready_queue_type G)
    (h : THPEngine_compute_dependencies g fuel queue deps ready = some r)
    (hle : fuel ≤ fuel') :
    THPEngine_compute_dependencies g fuel' queue deps ready = some r := by
  unfold THPEngine_compute_dependencies at h ⊢
  rcases hl : compute_dependencies_loop g fuel ⟨[], queue.reverse, deps, ready⟩ with _ | st
  · rw [hl] at h
    cases h
  · rw [hl] at h
    rw [compute_dependencies_loop_mono g fuel _ st hl fuel' hle]
    exact h

/-- On a graph whose functions reachable from the root creators lie in the
finite list `nodes`, a run with enough fuel returns or fails with one of the
errors of the engine: the fuel does not run out. -/
theorem run_backward_enough_fuel {G : Type} [Add G] (g : Graph) (cb : Callbacks G)
    (vars : List VarId) (grads : List (PyObject G)) (nodes : List FnId)
    (hclosed : ∀ c, (c ∈ creators_of g vars ∨ c ∈ nodes) → ∀ p, EdgeTo g c p → p ∈ nodes) :
    ∃ N, ∀ fuel, N ≤ fuel →
      error_of (THPEngine_run_backward g cb fuel vars grads) ≠ some .out_of_fuel := by
  by_cases hlen : vars.length = grads.length
  · rcases hs : seed g cb (vars.zip grads) ⟨EngineState.init, [], false⟩ with f | seeded
    · refine ⟨0, fun fuel _ => ?_⟩
      have hrun : THPEngine_run_backward g cb fuel vars grads = .error f := by
        rw [run_backward_eq]
        unfold run_backward_start
        rw [if_neg (not_not.2 hlen), hs]
      rw [hrun]
      obtain ⟨he, _⟩ := seed_error g cb _ _ f hs
      simp only [error_of]
      rcases he with he | he <;> rw [he] <;> simp
    · obtain ⟨hcre, _⟩ := seed_general g cb _ _ _ hs
      rw [map_fst_zip_of_length_eq vars grads hlen] at hcre
      simp only [List.nil_append] at hcre
      obtain ⟨⟨deps, ready⟩, hcd⟩ := compute_dependencies_terminates g seeded.creators nodes
        (by rw [hcre]; exact hclosed) seeded.engine.dependencies seeded.engine.ready
        (seeded.creators.length + nodes.length + 1) (by omega)
      refine ⟨max (seeded.creators.length + nodes.length + 1) (ready.length + deps.length),
        fun fuel hfuel => ?_⟩
      have hcd1 := compute_dependencies_mono g _ fuel _ _ _ _ hcd (le_of_max_le_left hfuel)
      rw [run_backward_after_scan g cb fuel vars grads seeded deps ready hlen hs hcd1]
      by_cases hchk : (!(seeded.did_leaf_backward || !ready.isEmpty)) = true
      · rw [if_pos hchk]
        simp [error_of]
      · rw [if_neg hchk]
        have hd := drain_terminates g cb fuel
          { seeded.engine with dependencies := deps, ready := ready }
          (le_of_max_le_right hfuel)
        rcases hdr : drain g cb fuel { seeded.engine with dependencies := deps, ready := ready }
          with f | s1
        · rw [hdr] at hd
          simpa [error_of] using hd
        · dsimp only
          by_cases hnil : s1.not_ready = []
          · rw [(run_backward_finish_cases s1).1 hnil]
            simp [error_of]
          · rw [(run_backward_finish_cases s1).2 hnil]
            simp [error_of]
  · refine ⟨0, fun fuel _ => ?_⟩
    have hrun : THPEngine_run_backward g cb fuel vars grads
        = .error ⟨.length_mismatch, []⟩ := by
      rw [run_backward_eq]
      unfold run_backward_start
      rw [if_pos hlen]
    rw [hrun]
    simp [error_of]

theorem stochastic_diamond_closed (c : FnId)
    (hc : c ∈ creators_of stochastic_diamond [1] ∨ c ∈ [1, 2, 3]) (p : FnId)
    (h : EdgeTo stochastic_diamond c p) : p ∈ [1, 2, 3] := by
  have hc3 : c = 1 ∨ c = 2 ∨ c = 3 := by
    rcases hc with hc | hc
    · have : creators_of stochastic_diamond [1] = [3] := by decide
      rw [this] at hc
      simp only [List.mem_singleton] at hc
      exact Or.inr (Or.inr hc)
    · simpa using hc
  obtain ⟨e, he, hp⟩ := h
  rcases hc3 with rfl | rfl | rfl
  · simp only [stochastic_diamond, List.mem_singleton] at he
    rw [he] at hp
    simp only [PrevObj.fn.injEq] at hp
    rw [← hp]
    decide
  · simp [stochastic_diamond] at he
  · simp only [stochastic_diamond, List.mem_cons, List.mem_singleton, List.not_mem_nil,
      or_false] at he
    rcases he with he | he
    · rw [he] at hp
      simp only [PrevObj.fn.injEq] at hp
      rw [← hp]
      decide
    · rw [he] at hp
      simp only [PrevObj.fn.injEq] at hp
      rw [← hp]
      decide

/-- C19: let `S` be an always-ready (stochastic) function that requires grad, is
not the creator of a root variable, and is reachable from the root creators
(along any number of paths), on a graph whose reachable functions lie in the
finite list `nodes`.  With any fuel, `S` is on `ready` exactly once when the
draining loop starts, put there by the dependency scan; the run never puts it on
`ready` again, whatever gradients its consumers return for it; and its
`_do_backward` is invoked at most once.  With enough fuel the run produces its
outcome: either it returns, the draining loop having started with `S` on `ready`
exactly once, and `S` has been invoked exactly once; or some call raised and
the run failed with that error of the engine (never for lack of fuel). -/
theorem stochastic_enqueued_once {G : Type} [Add G] (g : Graph) (cb : Callbacks G)
    (vars : List VarId) (grads : List (PyObject G)) (nodes : List FnId) (S : FnId)
    (hclosed : ∀ c, (c ∈ creators_of g vars ∨ c ∈ nodes) → ∀ p, EdgeTo g c p → p ∈ nodes)
    (hst : (g.fn S).is_stochastic = true) (hrg : (g.fn S).requires_grad = true)
    (hroot : S ∉ creators_of g vars) (hreach : Reach g (creators_of g vars) S) :
    (∀ fuel,
      (∀ s0, run_backward_start g cb fuel vars grads = .ok s0 →
        (s0.ready.map Prod.fst).count S = 1) ∧
      (∀ b, Event.push S b ∉ trace_of (THPEngine_run_backward g cb fuel vars grads)) ∧
      (fn_calls S (trace_of (THPEngine_run_backward g cb fuel vars grads))).length ≤ 1 ∧
      (∀ s, THPEngine_run_backward g cb fuel vars grads = .ok s →
        (fn_calls S s.trace).length = 1)) ∧
    (∃ N, ∀ fuel, N ≤ fuel →
      (∃ s0 s, run_backward_start g cb fuel vars grads = .ok s0 ∧
        (s0.ready.map Prod.fst).count S = 1 ∧
        THPEngine_run_backward g cb fuel vars grads = .ok s ∧
        (∀ b, Event.push S b ∉ s.trace) ∧
        (fn_calls S s.trace).length = 1) ∨
      (∃ f, THPEngine_run_backward g cb fuel vars grads = .error f ∧
        f.error ≠ .out_of_fuel ∧ (fn_calls S f.trace).length ≤ 1)) := by
  have hany := fun fuel =>
    stochastic_once_any_fuel g cb fuel vars grads S hst hrg hroot hreach
  refine ⟨hany, ?_⟩
  obtain ⟨N, hN⟩ := run_backward_enough_fuel g cb vars grads nodes hclosed
  refine ⟨N, fun fuel hfuel => ?_⟩
  obtain ⟨h1, h2, h3, h4⟩ := hany fuel
  have hne := hN fuel hfuel
  rcases hrun : THPEngine_run_backward g cb fuel vars grads with f | s
  · right
    rw [hrun] at hne h3
    refine ⟨f, rfl, ?_, h3⟩
    intro hf
    apply hne
    simp [error_of, hf]
  · left
    rcases h0 : run_backward_start g cb fuel vars grads with f0 | s0
    · rw [run_backward_eq, h0] at hrun
      cases hrun
    · rw [hrun] at h2
      exact ⟨s0, s, rfl, h1 s0 h0, rfl, h2, h4 s hrun⟩

theorem stochastic_enqueued_once_witness :
    (∀ fuel,
      (∀ s0, run_backward_start stochastic_diamond (ones_cb stochastic_diamond) fuel [1]
          [.Tensor 1] = .ok s0 →
        (s0.ready.map Prod.fst).count 2 = 1) ∧
      (∀ b, Event.push 2 b ∉ trace_of (THPEngine_run_backward stochastic_diamond
        (ones_cb stochastic_diamond) fuel [1] [.Tensor 1])) ∧
      (fn_calls 2 (trace_of (THPEngine_run_backward stochastic_diamond
        (ones_cb stochastic_diamond) fuel [1] [.Tensor 1]))).length ≤ 1 ∧
      (∀ s, THPEngine_run_backward stochastic_diamond (ones_cb stochastic_diamond) fuel [1]
          [.Tensor 1] = .ok s →
        (fn_calls 2 s.trace).length = 1)) ∧
    (∃ N, ∀ fuel, N ≤ fuel →
      (∃ s0 s, run_backward_start stochastic_diamond (ones_cb stochastic_diamond) fuel [1]
          [.Tensor 1] = .ok s0 ∧
        (s0.ready.map Prod.fst).count 2 = 1 ∧
        THPEngine_run_backward stochastic_diamond (ones_cb stochastic_diamond) fuel [1]
          [.Tensor 1] = .ok s ∧
        (∀ b, Event.push 2 b ∉ s.trace) ∧
        (fn_calls 2 s.trace).length = 1) ∨
      (∃ f, THPEngine_run_backward stochastic_diamond (ones_cb stochastic_diamond) fuel [1]
          [.Tensor 1] = .error f ∧
        f.error ≠ .out_of_fuel ∧ (fn_calls 2 f.trace).length ≤ 1)) :=
  stochastic_enqueued_once stochastic_diamond (ones_cb stochastic_diamond) [1] [.Tensor 1]
    [1, 2, 3] 2 stochastic_diamond_closed rfl rfl (by decide)
    ⟨3, by decide, Relation.ReflTransGen.single ⟨⟨.fn 2, 0⟩, by decide, rfl⟩⟩

end Autograd

namespace Autograd

/-! ## The leaf shortcut -/

/-- C21: routing a gradient `x` returned for an input edge whose producer is the
variable `v`.  If `v` requires grad its `_do_backward` is invoked with exactly
`x` (and the run fails at once if the call fails); if it does not, nothing
happens.  Whenever routing returns, the dependency table, the waiting buffers,
`ready`, the set of shared marks and the buffer counter are as before.  The
dependency scan leaves its whole state as it is on such an edge: the tables are
keyed by functions, and a variable never enters them. -/
theorem leaf_shortcut {G : Type} [Add G] (g : Graph) (cb : Callbacks G) (s : EngineState G)
    (v : VarId) (nr : Nat) (x : PyObject G) (c : FnId) (st : DepState G) :
    ((g.var v).requires_grad = true → cb.var_do_backward v x = true →
      route_grad g cb s ⟨.var v, nr⟩ x = .ok (s.log [.var_backward v x])) ∧
    ((g.var v).requires_grad = true → cb.var_do_backward v x = false →
      route_grad g cb s ⟨.var v, nr⟩ x =
        .error ⟨.python_error, s.trace ++ [.var_backward v x]⟩) ∧
    ((g.var v).requires_grad = false → route_grad g cb s ⟨.var v, nr⟩ x = .ok s) ∧
    (∀ s1, route_grad g cb s ⟨.var v, nr⟩ x = .ok s1 →
      s1.dependencies = s.dependencies ∧ s1.not_ready = s.not_ready ∧
      s1.ready = s.ready ∧ s1.need_copy = s.need_copy ∧
      s1.next_buf_id = s.next_buf_id) ∧
    compute_dependencies_edge g c st ⟨.var v, nr⟩ = st := by
  refine ⟨?_, ?_, ?_, ?_, ?_⟩
  · intro hrg hcb
    simp [route_grad, hrg, hcb]
  · intro hrg hcb
    simp [route_grad, hrg, hcb, EngineState.fail, EngineState.log]
  · intro hrg
    simp [route_grad, hrg]
  · intro s1 h
    by_cases hrg : (g.var v).requires_grad = true
    · by_cases hcb : cb.var_do_backward v x = true
      · simp only [route_grad, hrg, hcb, if_true, Except.ok.injEq] at h
        subst h
        simp [EngineState.log]
      · simp [route_grad, hrg, hcb] at h
    · simp only [route_grad, hrg, Bool.false_eq_true, if_false, Except.ok.injEq] at h
      subst h
      simp
  · simp [compute_dependencies_edge]

/-! ## `THPEngine_free_backward_dependency` on a positive count -/

/-- C26: on a function whose stored count is `c ≥ 1`,
`THPEngine_free_backward_dependency` returns (it does not raise); it returns
`true` exactly when `c = 1`; after `true` the function has no entry, after
`false` its count is `c - 1`; the entries of all other functions are as
before. -/
theorem free_backward_dependency_positive (dependencies : dependencies_type)
    (prev_fn : FnId) (c : Int) (hc : Map.find dependencies prev_fn = some c) (h1 : 1 ≤ c) :
    ∃ deps1 b, THPEngine_free_backward_dependency dependencies prev_fn = .ok (deps1, b) ∧
      (b = true ↔ c = 1) ∧
      (b = true → Map.find deps1 prev_fn = none) ∧
      (b = false → Map.find deps1 prev_fn = some (c - 1)) ∧
      ∀ q, q ≠ prev_fn → Map.find deps1 q = Map.find dependencies q := by
  have hcount : dependencies.count prev_fn = c := by
    simp [dependencies_type.count, hc]
  by_cases hone : c = 1
  · subst hone
    refine ⟨Map.erase (Map.insert dependencies prev_fn 0) prev_fn, true, ?_, by simp, ?_,
      by simp, ?_⟩
    · simp [THPEngine_free_backward_dependency, hcount]
    · intro _
      exact Map.find_erase_self _ _
    · intro q hq
      rw [Map.find_erase_ne _ hq, Map.find_insert_ne _ _ hq]
  · have h2 : ¬ (c - 1 < 0) := by omega
    have h3 : ¬ (c - 1 = 0) := by omega
    refine ⟨Map.insert dependencies prev_fn (c - 1), false, ?_, by simp [hone], by simp, ?_,
      ?_⟩
    · simp [THPEngine_free_backward_dependency, hcount, h2, h3]
    · intro _
      exact Map.find_insert_self _ _ _
    · intro q hq
      exact Map.find_insert_ne _ _ hq

theorem free_backward_dependency_positive_witness :
    ∃ deps1 b, THPEngine_free_backward_dependency [(7, 2), (8, 1)] 7 = .ok (deps1, b) ∧
      (b = true ↔ (2 : Int) = 1) ∧
      (b = true → Map.find deps1 7 = none) ∧
      (b = false → Map.find deps1 7 = some (2 - 1)) ∧
      ∀ q, q ≠ 7 → Map.find deps1 q = Map.find [(7, 2), (8, 1)] q :=
  free_backward_dependency_positive [(7, 2), (8, 1)] 7 2 (by decide) (by decide)

/-! ## The check of the two lengths -/

/-- C29: when `variables` and `grad_variables` have different lengths,
`run_backward` fails with the error on the lengths, and its log is empty: no
`_do_backward` of a function or of a variable has been invoked, and nothing has
been put on `ready`. -/
theorem length_mismatch_fails_first {G : Type} [Add G] (g : Graph) (cb : Callbacks G)
    (fuel : Nat) (vars : List VarId) (grads : List (PyObject G))
    (h : vars.length ≠ grads.length) :
    THPEngine_run_backward g cb fuel vars grads = .error ⟨.length_mismatch, []⟩ ∧
    trace_of (THPEngine_run_backward g cb fuel vars grads) = [] ∧
    dispatched (trace_of (THPEngine_run_backward g cb fuel vars grads)) = [] ∧
    ∀ v, leaf_calls v (trace_of (THPEngine_run_backward g cb fuel vars grads)) = [] := by
  have hrun : THPEngine_run_backward g cb fuel vars grads = .error ⟨.length_mismatch, []⟩ := by
    unfold THPEngine_run_backward
    rw [if_pos h]
  rw [hrun]
  exact ⟨rfl, rfl, rfl, fun _ => rfl⟩

theorem length_mismatch_fails_first_witness :
    THPEngine_run_backward diamond diamond_cb 4 [1] [] = .error ⟨.length_mismatch, []⟩ ∧
    trace_of (THPEngine_run_backward diamond diamond_cb 4 [1] []) = [] ∧
    dispatched (trace_of (THPEngine_run_backward diamond diamond_cb 4 [1] [])) = [] ∧
    ∀ v, leaf_calls v (trace_of (THPEngine_run_backward diamond diamond_cb 4 [1] [])) = [] :=
  length_mismatch_fails_first diamond diamond_cb 4 [1] [] (by decide)

end Autograd

namespace Autograd

/-! ## How often a function is expanded -/

theorem compute_dependencies_loop_log_fst {G : Type} (g : Graph) :
    ∀ (fuel : Nat) (st : DepState G),
      (compute_dependencies_loop_log g fuel st).map Prod.fst
        = compute_dependencies_loop g fuel st := by
  intro fuel
  induction fuel with
  | zero => intro st; rfl
  | succ n ih =>
    intro st
    rcases hq : st.queue with _ | ⟨c, rest⟩
    · simp [compute_dependencies_loop_log, compute_dependencies_loop, hq]
    · simp only [compute_dependencies_loop_log, compute_dependencies_loop, hq, Option.map_map]
      rw [← ih]
      rfl

/-- Scanning an edge does not change, for any function `P`, the number of
entries of `P` in the work list plus one if `P` has not been seen. -/
theorem compute_dependencies_edge_potential {G : Type} (g : Graph) (c : FnId)
    (st : DepState G) (e : Edge) (P : FnId) :
    (compute_dependencies_edge g c st e).queue.count P +
        (if P ∈ (compute_dependencies_edge g c st e).seen then 0 else 1)
      = st.queue.count P + (if P ∈ st.seen then 0 else 1) := by
  rcases heo : e.obj with v | p
  · rw [compute_dependencies_edge_var g c st e v heo]
  · obtain ⟨hseen, hqueue, _, _⟩ := compute_dependencies_edge_shape g c st e p heo
    rw [hseen, hqueue]
    by_cases hp : p ∈ st.seen
    · rw [if_pos hp, if_pos hp]
    · rw [if_neg hp, if_neg hp]
      by_cases hPp : P = p
      · subst hPp
        simp [hp]
      · simp [List.count_cons_of_ne hPp, hPp]

theorem compute_dependencies_fold_potential {G : Type} (g : Graph) (c : FnId) (P : FnId) :
    ∀ (todo : List Edge) (st : DepState G),
      (todo.foldl (compute_dependencies_edge g c) st).queue.count P +
          (if P ∈ (todo.foldl (compute_dependencies_edge g c) st).seen then 0 else 1)
        = st.queue.count P + (if P ∈ st.seen then 0 else 1) := by
  intro todo
  induction todo with
  | nil => intro st; rfl
  | cons e todo ih =>
    intro st
    rw [List.foldl_cons, ih, compute_dependencies_edge_potential]

theorem compute_dependencies_loop_log_count {G : Type} (g : Graph) (P : FnId) :
    ∀ (fuel : Nat) (st : DepState G) (r : DepState G × List FnId),
      compute_dependencies_loop_log g fuel st = some r →
      r.2.count P ≤ st.queue.count P + (if P ∈ st.seen then 0 else 1) := by
  intro fuel
  induction fuel with
  | zero =>
    intro st r h
    simp [compute_dependencies_loop_log] at h
  | succ n ih =>
    intro st r h
    rcases hq : st.queue with _ | ⟨c, rest⟩
    · simp only [compute_dependencies_loop_log, hq, Option.some.injEq] at h
      subst h
      simp
    · simp only [compute_dependencies_loop_log, hq] at h
      rcases hl : compute_dependencies_loop_log g n
          ((g.fn c).previous_functions.foldl (compute_dependencies_edge g c)
            { st with queue := rest }) with _ | r1
      · rw [hl] at h
        cases h
      · rw [hl] at h
        simp only [Option.map_some', Option.some.injEq] at h
        subst h
        have h1 := ih _ r1 hl
        rw [compute_dependencies_fold_potential] at h1
        simp only at h1 ⊢
        by_cases hPc : P = c
        · subst hPc
          simp only [List.count_cons_self]
          omega
        · rw [List.count_cons_of_ne hPc, List.count_cons_of_ne hPc]
          exact h1

/-- C23 (refuted as stated): on `fan_in` with the root list `[fn 3, fn 1]`, where
the root `fn 1` is also an input of the root `fn 3` and of `fn 2`, the scan
takes `fn 1`, `fn 3`, `fn 2` and `fn 1` again from the work list: `fn 1` is
expanded twice. -/
theorem compute_dependencies_expands_twice :
    compute_dependencies_expanded fan_in 10 [3, 1] [] ([] : ready_queue_type Int)
      = some [1, 3, 2, 1] ∧
    List.count 1 [1, 3, 2, 1] = 2 := by
  decide

/-- C23 (amended): `THPEngine_compute_dependencies` expands a function `P` at
most once more than the number of times `P` occurs in the list of root
creators; a function that is not a root creator is expanded at most once.  (The
expansions are read off the loop that computes the result.) -/
theorem expansions_bound {G : Type} (g : Graph) (creators : List FnId) (fuel : Nat)
    (dependencies : dependencies_type) (ready : ready_queue_type G) (T : List FnId)
    (P : FnId)
    (h : compute_dependencies_expanded g fuel creators dependencies ready = some T) :
    T.count P ≤ creators.count P + 1 ∧
    (P ∉ creators → T.count P ≤ 1) ∧
    (THPEngine_compute_dependencies g fuel creators dependencies ready).isSome = true := by
  unfold compute_dependencies_expanded at h
  rcases hl : compute_dependencies_loop_log g fuel ⟨[], creators.reverse, dependencies, ready⟩
    with _ | r
  · rw [hl] at h
    cases h
  · rw [hl] at h
    simp only [Option.map_some', Option.some.injEq] at h
    subst h
    have h1 := compute_dependencies_loop_log_count g P fuel _ r hl
    simp only [List.count_reverse, List.not_mem_nil, if_false] at h1
    refine ⟨h1, ?_, ?_⟩
    · intro hP
      rw [List.count_eq_zero_of_not_mem hP] at h1
      omega
    · unfold THPEngine_compute_dependencies
      rw [← compute_dependencies_loop_log_fst, hl]
      rfl

theorem expansions_bound_witness :
    List.count 1 [1, 3, 2, 1] ≤ List.count 1 [3, 1] + 1 ∧
    (1 ∉ [3, 1] → List.count 1 [1, 3, 2, 1] ≤ 1) ∧
    (THPEngine_compute_dependencies fan_in 10 [3, 1] []
      ([] : ready_queue_type Int)).isSome = true :=
  expansions_bound fan_in [3, 1] 10 [] ([] : ready_queue_type Int) [1, 3, 2, 1] 1 (by decide)

/-! ## Counts stored for always-ready functions -/

/-- C24 (evaluation of the code): on `stochastic_diamond`, where the always-ready
function `fn 2` requires grad and is an input of the root `fn 3` and of `fn 1`,
`THPEngine_compute_dependencies` puts `fn 2` on `ready` once, for the first edge
that reaches it, and stores the count 1 for it in the dependency table, for the
second. -/
theorem stochastic_dependency_counted :
    (stochastic_diamond.fn 2).is_stochastic = true ∧
    (stochastic_diamond.fn 2).requires_grad = true ∧
    (THPEngine_compute_dependencies stochastic_diamond 4 [3] []
        ([] : ready_queue_type Int)).map
      (fun r => (Map.find r.1 2, r.2.map Prod.fst)) = some (some 1, [2]) := by
  decide

end Autograd

namespace Autograd

/-! ## Functions that do not require grad -/

/-- When every pair of `ready` is for a function that requires grad, the
draining loop keeps it so and only calls functions that require grad. -/
theorem drain_requires_grad {G : Type} [Add G] (g : Graph) (cb : Callbacks G) (fuel : Nat)
    (s : EngineState G) (h : ∀ x ∈ s.ready, (g.fn x.1).requires_grad = true) :
    ∃ evs, trace_of (drain g cb fuel s) = s.trace ++ evs ∧
      ∀ fn args, Event.fn_backward fn args ∈ evs → (g.fn fn).requires_grad = true := by
  have key := drain_rel g cb (fun s r => (∀ x ∈ s.ready, (g.fn x.1).requires_grad = true) →
      (∀ s1, r = .ok s1 → ∀ x ∈ s1.ready, (g.fn x.1).requires_grad = true) ∧
      ∃ evs, trace_of r = s.trace ++ evs ∧
        ∀ fn args, Event.fn_backward fn args ∈ evs → (g.fn fn).requires_grad = true)
    (by
      intro s s1 r h1 h2 hs
      obtain ⟨a1, evs1, a2, a3⟩ := h1 hs
      obtain ⟨b1, evs2, b2, b3⟩ := h2 (a1 s1 rfl)
      simp only [trace_of] at a2
      refine ⟨b1, evs1 ++ evs2, by rw [b2, a2, List.append_assoc], ?_⟩
      intro fn args hm
      rcases List.mem_append.1 hm with hm | hm
      · exact a3 fn args hm
      · exact b3 fn args hm)
    (by
      intro s r hstep hs
      cases hstep with
      | skip =>
        exact ⟨fun s1 hr => by cases hr; exact hs, [], by simp [trace_of], by simp⟩
      | leaf_ok v x _ _ =>
        exact ⟨fun s1 hr => by cases hr; exact hs, [.var_backward v x], rfl, by simp⟩
      | leaf_raised v x _ _ =>
        exact ⟨(fun s1 hr => by cases hr), [.var_backward v x], rfl, by simp⟩
      | quiet s1 evs hm htr hrd _ _ =>
        refine ⟨fun s2 hr => by cases hr; rw [hrd]; exact hs, evs, htr, ?_⟩
        intro fn args hmem
        rcases hm _ hmem with ⟨k, c, h⟩ | ⟨k, t, a, h⟩ <;> cases h
      | abort evs err hm _ =>
        refine ⟨(fun s1 hr => by cases hr), evs, rfl, ?_⟩
        intro fn args hmem
        rcases hm _ hmem with ⟨k, c, h⟩ | ⟨k, t, a, h⟩ <;> cases h
      | push s1 evs p b hrg _ hm htr hrd _ _ =>
        refine ⟨?_, evs ++ [.push p b], by simp [trace_of, htr], ?_⟩
        · intro s2 hr x hx
          cases hr
          rw [hrd] at hx
          rcases List.mem_append.1 hx with hx | hx
          · exact hs x hx
          · simp only [List.mem_singleton] at hx
            subst hx
            exact hrg
        · intro fn args hmem
          rcases List.mem_append.1 hmem with hmem | hmem
          · rcases hm _ hmem with ⟨k, c, h⟩ | ⟨k, t, a, h⟩ <;> cases h
          · simp at hmem
      | call fn buf rest grads hr _ =>
        refine ⟨?_, _, rfl, ?_⟩
        · intro s2 hr2 x hx
          cases hr2
          exact hs x (by rw [hr]; exact List.mem_cons_of_mem _ hx)
        · intro f args hmem
          simp only [List.mem_cons, List.mem_singleton, List.not_mem_nil, or_false,
            Event.fn_backward.injEq, reduceCtorEq, false_or] at hmem
          rw [hmem.1]
          exact hs (fn, buf) (by rw [hr]; exact List.mem_cons_self _ _)
      | call_raised fn buf rest hr _ =>
        refine ⟨(fun s1 hr => by cases hr), _, rfl, ?_⟩
        intro f args hmem
        simp only [List.mem_cons, List.mem_singleton, List.not_mem_nil, or_false,
          Event.fn_backward.injEq, reduceCtorEq, false_or] at hmem
        rw [hmem.1]
        exact hs (fn, buf) (by rw [hr]; exact List.mem_cons_self _ _)
      | call_not_a_tuple fn buf rest hr _ =>
        refine ⟨(fun s1 hr => by cases hr), _, rfl, ?_⟩
        intro f args hmem
        simp only [List.mem_cons, List.mem_singleton, List.not_mem_nil, or_false,
          Event.fn_backward.injEq, reduceCtorEq, false_or] at hmem
        rw [hmem.1]
        exact hs (fn, buf) (by rw [hr]; exact List.mem_cons_self _ _))
    (by
      intro s _
      exact ⟨(fun s1 hr => by cases hr), [], by simp [trace_of], by simp⟩)
    fuel s
  exact (key h).2

/-- Every pair on `ready` when the draining loop starts is for a function that
requires grad. -/
theorem run_backward_start_requires_grad {G : Type} (g : Graph) (cb : Callbacks G)
    (fuel : Nat) (vars : List VarId) (grads : List (PyObject G)) (s0 : EngineState G)
    (h0 : run_backward_start g cb fuel vars grads = .ok s0) :
    ∀ x ∈ s0.ready, (g.fn x.1).requires_grad = true := by
  obtain ⟨seeded, deps, ready, _, hs, hcd, _, rfl⟩ :=
    run_backward_start_ok g cb fuel vars grads s0 h0
  obtain ⟨_, hrd, _, hdeps, _⟩ := seed_general g cb _ _ _ hs
  have hpos : ∀ P c, Map.find seeded.engine.dependencies P = some c → 1 ≤ c := by
    intro P c hP
    rw [hdeps] at hP
    simp [EngineState.init, Map.find] at hP
  obtain ⟨_, _, hnew, _, _⟩ :=
    compute_dependencies_scan g seeded.creators fuel _ deps _ ready hpos hcd
  intro x hx
  rcases hnew x hx with h | h
  · have hm : x.1 ∈ seeded.engine.ready.map Prod.fst := List.mem_map_of_mem _ h
    rw [hrd] at hm
    simp only [EngineState.init, List.map_nil, List.nil_append, List.mem_filter] at hm
    exact hm.2
  · exact h.2.2

/-- C27: in every run, every function whose `_do_backward` is invoked requires
grad, be it a root creator or a producer; and routing a gradient returned for a
producer that does not require grad returns the state as it is (dependency
table, waiting buffers, `ready` and the log included). -/
theorem no_backward_without_requires_grad {G : Type} [Add G] (g : Graph) (cb : Callbacks G)
    (fuel : Nat) (vars : List VarId) (grads : List (PyObject G)) :
    (∀ fn args, Event.fn_backward fn args ∈
        trace_of (THPEngine_run_backward g cb fuel vars grads) →
      (g.fn fn).requires_grad = true) ∧
    (∀ (s : EngineState G) (p : FnId) (nr : Nat) (x : PyObject G),
      (g.fn p).requires_grad = false → route_grad g cb s ⟨.fn p, nr⟩ x = .ok s) := by
  constructor
  · intro fn args hmem
    have hsil := run_backward_start_silent g cb fuel vars grads
    rw [run_backward_eq] at hmem
    rcases h0 : run_backward_start g cb fuel vars grads with f | s0
    · rw [h0] at hmem hsil
      simp only [trace_of] at hmem hsil
      exact absurd rfl (hsil _ hmem fn args)
    · rw [h0] at hmem hsil
      simp only [trace_of] at hsil
      dsimp only at hmem
      obtain ⟨evs, h1, h2⟩ := drain_requires_grad g cb fuel s0
        (run_backward_start_requires_grad g cb fuel vars grads s0 h0)
      have hin : Event.fn_backward fn args ∈ s0.trace ++ evs := by
        rcases hd : drain g cb fuel s0 with f | s1
        · rw [hd] at hmem h1
          rw [← h1]
          exact hmem
        · rw [hd] at hmem h1
          dsimp only at hmem
          rw [trace_of_finish] at hmem
          rw [← h1]
          exact hmem
      rcases List.mem_append.1 hin with h | h
      · exact absurd rfl (hsil _ h fn args)
      · exact h2 fn args h
  · intro s p nr x hrg
    simp [route_grad, hrg]

/-! ## Counts while draining -/

theorem dispatch_countInv {G : Type} [Add G] (g : Graph) (cb : Callbacks G)
    (s s1 : EngineState G) (fn : FnId) (buf : grad_buffer_type G) (rest : ready_queue_type G)
    (hr : s.ready = (fn, buf) :: rest) (h : CountInv s)
    (hd : dispatch g cb { s with ready := rest } fn buf = .ok s1) : CountInv s1 := by
  have key := dispatch_rel g cb (fun s r => CountInv s → ∀ s1, r = .ok s1 → CountInv s1)
    (fun s s1 r h1 h2 hs s2 hr => h2 (h1 hs s1 rfl) s2 hr)
    (by
      intro s r hstep hs s2 hr
      cases hstep with
      | skip => cases hr; exact hs
      | leaf_ok v x _ _ => cases hr; exact ⟨hs.pos, hs.held⟩
      | leaf_raised v x _ _ => cases hr
      | quiet s1 evs _ _ _ _ hci => cases hr; exact hci hs
      | abort evs err _ _ => cases hr
      | push s1 evs p b _ _ _ _ _ _ hci => cases hr; exact hci hs
      | call fn buf rest grads _ _ => cases hr; exact ⟨hs.pos, hs.held⟩
      | call_raised fn buf rest _ _ => cases hr
      | call_not_a_tuple fn buf rest _ _ => cases hr)
    s fn buf rest hr
  exact key h s1 hd

theorem drain_steps_countInv {G : Type} [Add G] (g : Graph) (cb : Callbacks G) :
    ∀ (k : Nat) (s s1 : EngineState G), CountInv s → drain_steps g cb k s = some s1 →
      CountInv s1 := by
  intro k
  induction k with
  | zero =>
    intro s s1 h hk
    simp only [drain_steps, Option.some.injEq] at hk
    subst hk
    exact h
  | succ n ih =>
    intro s s1 h hk
    rcases hr : s.ready with _ | ⟨⟨fn, buf⟩, rest⟩
    · simp [drain_steps, hr] at hk
    · simp only [drain_steps, hr] at hk
      rcases hd : dispatch g cb { s with ready := rest } fn buf with f | s2
      · rw [hd] at hk
        cases hk
      · rw [hd] at hk
        exact ih s2 s1 (dispatch_countInv g cb s s2 fn buf rest hr h hd) hk

/-- A draining loop that returns has made some number of full iterations, at
most as many as it had fuel. -/
theorem drain_steps_of_drain {G : Type} [Add G] (g : Graph) (cb : Callbacks G) :
    ∀ (fuel : Nat) (s s1 : EngineState G), drain g cb fuel s = .ok s1 →
      ∃ k, k ≤ fuel ∧ drain_steps g cb k s = some s1 := by
  intro fuel
  induction fuel with
  | zero =>
    intro s s1 h
    rcases hr : s.ready with _ | ⟨p, rest⟩
    · simp only [drain, hr, Except.ok.injEq] at h
      exact ⟨0, le_refl _, by simp [drain_steps, h]⟩
    · simp [drain, hr] at h
  | succ n ih =>
    intro s s1 h
    rcases hr : s.ready with _ | ⟨⟨fn, buf⟩, rest⟩
    · simp only [drain, hr, Except.ok.injEq] at h
      exact ⟨0, Nat.zero_le _, by simp [drain_steps, h]⟩
    · simp only [drain, hr] at h
      rcases hd : dispatch g cb { s with ready := rest } fn buf with f | s2
      · rw [hd] at h
        cases h
      · rw [hd] at h
        obtain ⟨k, hk, hk2⟩ := ih s2 s1 h
        exact ⟨k + 1, Nat.succ_le_succ hk, by simp only [drain_steps, hr, hd]; exact hk2⟩

/-- C28: in a run whose start phase succeeded (state `s0`), the state `s` at the
head of the draining loop after any number `k` of iterations that did not fail
has only counts of at least 1 in the dependency table, and every function that
holds a buffer in `not_ready` has an entry in the dependency table.  The state
in which the loop returns is one of these states. -/
theorem counts_positive_while_draining {G : Type} [Add G] (g : Graph) (cb : Callbacks G)
    (fuel : Nat) (vars : List VarId) (grads : List (PyObject G)) (s0 s : EngineState G)
    (k : Nat) (h0 : run_backward_start g cb fuel vars grads = .ok s0)
    (hk : drain_steps g cb k s0 = some s) :
    (∀ P c, Map.find s.dependencies P = some c → 1 ≤ c) ∧
    (∀ P buf, Map.find s.not_ready P = some buf →
      ∃ c, Map.find s.dependencies P = some c ∧ 1 ≤ c) ∧
    (∀ s1, drain g cb fuel s0 = .ok s1 → ∃ j, j ≤ fuel ∧ drain_steps g cb j s0 = some s1) := by
  have hci := drain_steps_countInv g cb k s0 s (countInv_start g cb fuel vars grads s0 h0) hk
  refine ⟨hci.pos, ?_, fun s1 h => drain_steps_of_drain g cb fuel s0 s1 h⟩
  intro P buf hP
  obtain ⟨c, hc⟩ := hci.held P buf hP
  exact ⟨c, hc, hci.pos P c hc⟩

theorem counts_positive_while_draining_witness :
    ∃ s : EngineState Int, drain_steps fan_in fan_in_cb 1
        { EngineState.init with
          ready := [(3, ⟨0, [some ⟨.Tensor 1, .caller⟩]⟩)]
          dependencies := [(1, 2), (2, 1)]
          next_buf_id := 1
          trace := [.push 3 ⟨0, [some ⟨.Tensor 1, .caller⟩]⟩] } = some s ∧
      (∀ P c, Map.find s.dependencies P = some c → 1 ≤ c) := by
  refine ⟨_, rfl, ?_⟩
  exact (counts_positive_while_draining fan_in fan_in_cb 4 [1] [.Tensor 1] _ _ 1
    (by rfl) (by rfl)).1

end Autograd

namespace Autograd

/-! ## Root variables that share a creator -/

/-- The seeding loop appends `seed_pairs` to `ready`. -/
theorem seed_ready {G : Type} (g : Graph) (cb : Callbacks G) :
    ∀ (l : List (VarId × PyObject G)) (s s1 : SeedState G), seed g cb l s = .ok s1 →
      s1.engine.ready = s.engine.ready ++ seed_pairs g l s.engine.next_buf_id := by
  intro l
  induction l with
  | nil =>
    intro s s1 h
    simp only [seed, Except.ok.injEq] at h
    subst h
    simp [seed_pairs]
  | cons y l ih =>
    intro s s1 h
    obtain ⟨v, x⟩ := y
    rcases hr : seed_variable g cb s v x with f | st
    · simp [seed, hr] at h
    · simp only [seed, hr] at h
      have h2 := ih st s1 h
      rcases hc : (g.var v).creator with _ | c
      · by_cases hrg : (g.var v).requires_grad = true
        · by_cases hcb : cb.var_do_backward v x = true
          · simp only [seed_variable, hc, hrg, hcb, if_true, Except.ok.injEq] at hr
            subst hr
            simpa [seed_pairs, hc, EngineState.log] using h2
          · simp [seed_variable, hc, hrg, hcb] at hr
        · simp only [seed_variable, hc, hrg, Bool.false_eq_true, if_false,
            Except.ok.injEq] at hr
          subst hr
          simpa [seed_pairs, hc] using h2
      · by_cases hrg : (g.fn c).requires_grad = true
        · by_cases hidx : (g.var v).output_nr < (g.fn c).num_outputs
          · simp only [seed_variable, hc, hrg, hidx, if_true, Except.ok.injEq] at hr
            subst hr
            simpa [seed_pairs, hc, hrg, ready_queue_type.emplace_front] using h2
          · simp [seed_variable, hc, hrg, hidx] at hr
        · simp only [seed_variable, hc, hrg, Bool.false_eq_true, if_false,
            Except.ok.injEq] at hr
          subst hr
          simpa [seed_pairs, hc, hrg] using h2

/-- Each pair of `seed_pairs` is the pair of one root variable, with a buffer
that holds the gradient of that variable and nothing else. -/
theorem seed_pairs_mem {G : Type} (g : Graph) :
    ∀ (l : List (VarId × PyObject G)) (id : Nat) (p : FnId × grad_buffer_type G),
      p ∈ seed_pairs g l id →
      ∃ v x, (v, x) ∈ l ∧ (g.var v).creator = some p.1 ∧
        p.2.slots = (List.replicate (g.fn p.1).num_outputs none).set (g.var v).output_nr
          (some ⟨x, .caller⟩) := by
  intro l
  induction l with
  | nil =>
    intro id p hp
    simp [seed_pairs] at hp
  | cons y l ih =>
    intro id p hp
    obtain ⟨v, x⟩ := y
    have hlift : ∀ id', p ∈ seed_pairs g l id' →
        ∃ v' x', (v', x') ∈ (v, x) :: l ∧ (g.var v').creator = some p.1 ∧
          p.2.slots = (List.replicate (g.fn p.1).num_outputs none).set (g.var v').output_nr
            (some ⟨x', .caller⟩) := by
      intro id' h
      obtain ⟨v', x', h1, h2, h3⟩ := ih id' p h
      exact ⟨v', x', List.mem_cons_of_mem _ h1, h2, h3⟩
    rcases hc : (g.var v).creator with _ | c
    · simp only [seed_pairs, hc] at hp
      exact hlift id hp
    · by_cases hrg : (g.fn c).requires_grad = true
      · simp only [seed_pairs, hc, hrg, if_true, List.mem_cons] at hp
        rcases hp with rfl | hp
        · exact ⟨v, x, List.mem_cons_self _ _, hc, rfl⟩
        · exact hlift (id + 1) hp
      · simp only [seed_pairs, hc, hrg, Bool.false_eq_true, if_false] at hp
        exact hlift id hp

/-- In a draining loop that returns, a function is called at least once per pair
it had on `ready` at the start. -/
theorem drain_at_least {G : Type} [Add G] (g : Graph) (cb : Callbacks G) (P : FnId)
    (fuel : Nat) (s : EngineState G) :
    ∃ evs, trace_of (drain g cb fuel s) = s.trace ++ evs ∧
      ∀ s1, drain g cb fuel s = .ok s1 →
        (s.ready.map Prod.fst).count P
          ≤ (dispatched evs).count P + (s1.ready.map Prod.fst).count P := by
  refine drain_rel g cb (fun s r => ∃ evs, trace_of r = s.trace ++ evs ∧
      ∀ s1, r = .ok s1 →
        (s.ready.map Prod.fst).count P
          ≤ (dispatched evs).count P + (s1.ready.map Prod.fst).count P) ?_ ?_ ?_ fuel s
  · rintro s s1 r ⟨evs1, a1, a2⟩ ⟨evs2, b1, b2⟩
    simp only [trace_of] at a1
    have a3 := a2 s1 rfl
    refine ⟨evs1 ++ evs2, by rw [b1, a1, List.append_assoc], ?_⟩
    intro s2 hr
    have b3 := b2 s2 hr
    rw [dispatched_append, List.count_append]
    omega
  · intro s r hstep
    cases hstep with
    | skip =>
      refine ⟨[], by simp [trace_of], ?_⟩
      intro s1 hr
      cases hr
      simp
    | leaf_ok v x _ _ =>
      refine ⟨[.var_backward v x], rfl, ?_⟩
      intro s1 hr
      cases hr
      simp [EngineState.log]
    | leaf_raised v x _ _ =>
      exact ⟨[.var_backward v x], rfl, fun s1 hr => by cases hr⟩
    | quiet s1 evs hm htr hrd _ _ =>
      refine ⟨evs, htr, ?_⟩
      intro s2 hr
      cases hr
      simp [hrd]
    | abort evs err hm _ =>
      exact ⟨evs, rfl, fun s1 hr => by cases hr⟩
    | push s1 evs p b _ _ hm htr hrd _ _ =>
      refine ⟨evs ++ [.push p b], by simp [trace_of, htr], ?_⟩
      intro s2 hr
      cases hr
      rw [hrd]
      simp only [List.map_append, List.count_append]
      omega
    | call fn buf rest grads hr _ =>
      refine ⟨_, rfl, ?_⟩
      intro s2 hr2
      cases hr2
      rw [hr]
      by_cases hf : fn = P
      · subst hf
        simp [dispatched, EngineState.log]
        omega
      · simp [dispatched, EngineState.log, List.count_cons_of_ne (Ne.symm hf)]
    | call_raised fn buf rest hr _ =>
      exact ⟨_, rfl, fun s1 hr => by cases hr⟩
    | call_not_a_tuple fn buf rest hr _ =>
      exact ⟨_, rfl, fun s1 hr => by cases hr⟩
  · intro s
    exact ⟨[], by simp [trace_of], fun s1 hr => by cases hr⟩

/-- C22 (refuted as stated): on `shared_creator` the root variables `var 1` and
`var 2` are the outputs 0 and 1 of `fn 1`.  With the initial gradients 5 and 7
the run returns having invoked `fn 1` twice: once with `(5, None)` and once with
`(None, 7)`; it is not invoked once with `(5, 7)`. -/
theorem shared_creator_dispatched_twice :
    error_of (THPEngine_run_backward shared_creator unit_cb 4 [1, 2]
      [.Tensor 5, .Tensor 7]) = none ∧
    fn_calls 1 (trace_of (THPEngine_run_backward shared_creator unit_cb 4 [1, 2]
      [.Tensor 5, .Tensor 7])) = [[.Tensor 5, .None], [.None, .Tensor 7]] := by
  decide

/-- C22 (amended): for every root list with as many gradients as variables, the
seeding loop, when it succeeds, has put on `ready` one pair per root variable
whose creator requires grad, in the order of the variables, each with a buffer
of its own (`seed_pairs`) that holds the gradient of that variable alone; and
in a run that returns, a creator that requires grad is invoked at least as many
times as there are root variables with that creator. -/
theorem root_buffers_per_variable {G : Type} [Add G] (g : Graph) (cb : Callbacks G)
    (fuel : Nat) (vars : List VarId) (grads : List (PyObject G))
    (hlen : vars.length = grads.length) :
    (∀ seeded, seed g cb (vars.zip grads) ⟨EngineState.init, [], false⟩ = .ok seeded →
      seeded.engine.ready = seed_pairs g (vars.zip grads) 0 ∧
      seeded.engine.ready.map Prod.fst
        = (creators_of g vars).filter (fun c => (g.fn c).requires_grad) ∧
      ∀ p ∈ seeded.engine.ready, ∃ v x, (v, x) ∈ vars.zip grads ∧
        (g.var v).creator = some p.1 ∧
        p.2.slots = (List.replicate (g.fn p.1).num_outputs none).set (g.var v).output_nr
          (some ⟨x, .caller⟩)) ∧
    (∀ s c, THPEngine_run_backward g cb fuel vars grads = .ok s →
      (g.fn c).requires_grad = true →
      (creators_of g vars).count c ≤ (fn_calls c s.trace).length) := by
  constructor
  · intro seeded hs
    have h1 := seed_ready g cb _ _ _ hs
    simp only [EngineState.init, List.nil_append] at h1
    obtain ⟨_, hrd, _, _, _⟩ := seed_general g cb _ _ _ hs
    rw [map_fst_zip_of_length_eq vars grads hlen] at hrd
    simp only [EngineState.init, List.map_nil, List.nil_append] at hrd
    refine ⟨h1, hrd, ?_⟩
    intro p hp
    rw [h1] at hp
    exact seed_pairs_mem g _ _ p hp
  · intro s c hrun hrg
    rw [run_backward_eq] at hrun
    rcases h0 : run_backward_start g cb fuel vars grads with f | s0
    · rw [h0] at hrun
      cases hrun
    · rw [h0] at hrun
      dsimp only at hrun
      obtain ⟨evs, h1, h2⟩ := drain_at_least g cb c fuel s0
      rcases hd : drain g cb fuel s0 with f | s1
      · rw [hd] at hrun
        cases hrun
      · rw [hd] at hrun h1
        dsimp only at hrun
        have hs1 : s = s1 := by
          by_cases hnil : s1.not_ready = []
          · rw [(run_backward_finish_cases s1).1 hnil] at hrun
            simp only [Except.ok.injEq] at hrun
            exact hrun.symm
          · rw [(run_backward_finish_cases s1).2 hnil] at hrun
            cases hrun
        subst hs1
        simp only [trace_of] at h1
        have h3 := h2 s hd
        rw [drain_ready_nil g cb fuel s0 s hd] at h3
        simp only [List.map_nil, List.count_nil, add_zero] at h3
        -- the pairs on `ready` at the start
        obtain ⟨seeded, deps, ready, _, hs, hcd, _, rfl⟩ :=
          run_backward_start_ok g cb fuel vars grads s0 h0
        obtain ⟨_, hrd, _, hdeps, _⟩ := seed_general g cb _ _ _ hs
        rw [map_fst_zip_of_length_eq vars grads hlen] at hrd
        simp only [EngineState.init, List.map_nil, List.nil_append] at hrd
        have hpos : ∀ P c, Map.find seeded.engine.dependencies P = some c → 1 ≤ c := by
          intro P c hP
          rw [hdeps] at hP
          simp [EngineState.init, Map.find] at hP
        obtain ⟨_, _, _, ⟨added, hadd⟩, _⟩ :=
          compute_dependencies_scan g seeded.creators fuel _ deps _ ready hpos hcd
        simp only at h3
        rw [hadd, List.map_append, List.count_append, hrd] at h3
        have hcount : ((creators_of g vars).filter (fun c => (g.fn c).requires_grad)).count c
            = (creators_of g vars).count c := by
          rw [List.count_filter]
          simpa using hrg
        rw [hcount] at h3
        rw [fn_calls_length_eq_count, h1, dispatched_append, List.count_append]
        omega

theorem root_buffers_per_variable_witness :
    (∀ seeded, seed shared_creator unit_cb ([1, 2].zip [.Tensor 5, .Tensor 7])
        ⟨EngineState.init, [], false⟩ = .ok seeded →
      seeded.engine.ready = seed_pairs shared_creator ([1, 2].zip [.Tensor 5, .Tensor 7]) 0 ∧
      seeded.engine.ready.map Prod.fst
        = (creators_of shared_creator [1, 2]).filter
            (fun c => (shared_creator.fn c).requires_grad) ∧
      ∀ p ∈ seeded.engine.ready, ∃ v x, (v, x) ∈ [1, 2].zip [.Tensor 5, .Tensor 7] ∧
        (shared_creator.var v).creator = some p.1 ∧
        p.2.slots = (List.replicate (shared_creator.fn p.1).num_outputs none).set
          (shared_creator.var v).output_nr (some ⟨x, .caller⟩)) ∧
    (∀ s c, THPEngine_run_backward shared_creator unit_cb 4 [1, 2] [.Tensor 5, .Tensor 7]
        = .ok s →
      (shared_creator.fn c).requires_grad = true →
      (creators_of shared_creator [1, 2]).count c ≤ (fn_calls c s.trace).length) :=
  root_buffers_per_variable shared_creator unit_cb 4 [1, 2] [.Tensor 5, .Tensor 7] rfl

end Autograd

namespace Autograd

/-! ## The number of slots passed to `_do_backward` -/

theorem goodCalls_append_silent {G : Type} (g : Graph) (t evs : List (Event G))
    (h : GoodCalls g t) (hs : Silent evs) : GoodCalls g (t ++ evs) := by
  intro fn args hm
  rcases List.mem_append.1 hm with hm | hm
  · exact h fn args hm
  · exact absurd rfl (hs _ hm fn args)

theorem goodCalls_of_silent {G : Type} (g : Graph) (t : List (Event G)) (hs : Silent t) :
    GoodCalls g t := by
  intro fn args hm
  exact absurd rfl (hs _ hm fn args)

theorem goodCalls_call {G : Type} (g : Graph) (t : List (Event G)) (fn : FnId)
    (buf : grad_buffer_type G) (h : GoodCalls g t) (hb : Shape g (fn, buf)) :
    GoodCalls g (t ++ [.pop fn buf, .fn_backward fn (grad_tuple buf)]) := by
  intro f args hm
  rcases List.mem_append.1 hm with hm | hm
  · exact h f args hm
  · simp only [List.mem_cons, List.mem_singleton, List.not_mem_nil, or_false,
      Event.fn_backward.injEq, reduceCtorEq, false_or] at hm
    obtain ⟨rfl, rfl⟩ := hm
    rcases hb with hb | ⟨hb, h1, h2⟩
    · left
      rw [grad_tuple_length]
      exact hb
    · right
      simp only at hb
      exact ⟨by simp [grad_tuple, hb], h1, h2⟩

theorem shapeInv_of_same {G : Type} (g : Graph) (s s1 : EngineState G) (h : ShapeInv g s)
    (hrd : s1.ready = s.ready) (hnr : s1.not_ready = s.not_ready)
    (htr : GoodCalls g s1.trace) : ShapeInv g s1 :=
  ⟨by rw [hrd]; exact h.ready_ok, by rw [hnr]; exact h.waiting_ok, htr⟩

theorem accumulate_not_ready_shape {G : Type} [Add G] (g : Graph) (s0 s : EngineState G)
    (h : ShapeInv g s0) (P : FnId) (buf : grad_buffer_type G) (slot : Nat)
    (x : PyObject G) (hrd : s.ready = s0.ready) (hnr : s.not_ready = s0.not_ready)
    (htr : s.trace = s0.trace) (hbuf : buf.slots.length = (g.fn P).num_outputs) :
    ShapeOk g (accumulate_not_ready s P buf slot x) := by
  have hsil := add_grad_silent s.need_copy buf slot ⟨x, .returned⟩
  rcases hadd : THPEngine_add_grad s.need_copy buf slot ⟨x, .returned⟩
    with ⟨evs, (err | ⟨nc1, b1⟩)⟩
  · rw [hadd] at hsil
    simp only [accumulate_not_ready, hadd, ShapeOk, EngineState.fail, EngineState.log, htr]
    exact goodCalls_append_silent g _ _ h.calls_ok hsil
  · have hfr := add_grad_frame s.need_copy buf slot ⟨x, .returned⟩ nc1 b1 (by rw [hadd])
    rw [hadd] at hsil
    simp only [accumulate_not_ready, hadd, ShapeOk]
    refine ⟨by simp only [hrd]; exact h.ready_ok, ?_, ?_⟩
    · intro Q bq hQ
      simp only at hQ
      by_cases hQP : Q = P
      · subst hQP
        rw [Map.find_insert_self] at hQ
        simp only [Option.some.injEq] at hQ
        subst hQ
        rw [hfr.2.1]
        exact hbuf
      · rw [Map.find_insert_ne _ _ hQP, hnr] at hQ
        exact h.waiting_ok Q bq hQ
    · simp only [htr]
      exact goodCalls_append_silent g _ _ h.calls_ok hsil

theorem route_grad_shape {G : Type} [Add G] (g : Graph) (cb : Callbacks G)
    (s : EngineState G) (e : Edge) (x : PyObject G) (h : ShapeInv g s) :
    ShapeOk g (route_grad g cb s e x) := by
  rcases he : e.obj with v | p
  · by_cases hrg : (g.var v).requires_grad = true
    · by_cases hcb : cb.var_do_backward v x = true
      · simp only [route_grad, he, hrg, hcb, if_true, ShapeOk]
        exact shapeInv_of_same g s _ h rfl rfl
          (goodCalls_append_silent g _ _ h.calls_ok (silent_var _ _))
      · simp only [route_grad, he, hrg, hcb, if_true, ShapeOk]
        exact goodCalls_append_silent g _ _ h.calls_ok (silent_var _ _)
    · simp only [route_grad, he, hrg, ShapeOk]
      exact h
  · by_cases hrg : (g.fn p).requires_grad = true
    · by_cases hst : (g.fn p).is_stochastic = true
      · simp only [route_grad, he, hrg, hst, ShapeOk]
        exact h
      · rcases hf : THPEngine_free_backward_dependency s.dependencies p
          with err | ⟨deps, is_ready⟩
        · simp only [route_grad, he, hrg, hst, hf, ShapeOk]
          exact h.calls_ok
        · cases is_ready
          · rcases hfind : Map.find s.not_ready p with _ | buffer
            · simp only [route_grad, he, hrg, hst, hf, hfind, Bool.not_true,
                Bool.false_eq_true, if_false]
              exact accumulate_not_ready_shape g s _ h p _ _ _ rfl rfl rfl
                (by simp [grad_buffer_type.new])
            · simp only [route_grad, he, hrg, hst, hf, hfind, Bool.not_true,
                Bool.false_eq_true, if_false]
              exact accumulate_not_ready_shape g s _ h p _ _ _ rfl rfl rfl
                (h.waiting_ok p buffer hfind)
          · rcases hfind : Map.find s.not_ready p with _ | buffer
            · by_cases hidx : e.output_nr < (g.fn p).num_outputs
              · simp only [route_grad, he, hrg, hst, hf, hfind, Bool.not_true,
                  Bool.false_eq_true, if_false, if_true, hidx, ShapeOk]
                refine ⟨?_, h.waiting_ok, ?_⟩
                · intro y hy
                  simp only [ready_queue_type.emplace_front] at hy
                  rcases List.mem_append.1 hy with hy | hy
                  · exact h.ready_ok y hy
                  · simp only [List.mem_singleton] at hy
                    subst hy
                    left
                    simp
                · exact goodCalls_append_silent g _ _ h.calls_ok (silent_push _ _)
              · simp only [route_grad, he, hrg, hst, hf, hfind, Bool.not_true,
                  Bool.false_eq_true, if_false, if_true, hidx, ShapeOk]
                exact h.calls_ok
            · have hsil := add_grad_silent s.need_copy buffer e.output_nr ⟨x, .returned⟩
              rcases hadd : THPEngine_add_grad s.need_copy buffer e.output_nr
                ⟨x, .returned⟩ with ⟨evs, (err | ⟨nc1, b1⟩)⟩
              · rw [hadd] at hsil
                simp only [route_grad, he, hrg, hst, hf, hfind, Bool.not_true,
                  Bool.false_eq_true, if_false, if_true, hadd, ShapeOk,
                  EngineState.fail, EngineState.log]
                exact goodCalls_append_silent g _ _ h.calls_ok hsil
              · have hfr := add_grad_frame s.need_copy buffer e.output_nr ⟨x, .returned⟩
                  nc1 b1 (by rw [hadd])
                rw [hadd] at hsil
                simp only [route_grad, he, hrg, hst, hf, hfind, Bool.not_true,
                  Bool.false_eq_true, if_false, if_true, hadd, ShapeOk]
                refine ⟨?_, ?_, ?_⟩
                · intro y hy
                  simp only [ready_queue_type.emplace_front] at hy
                  rcases List.mem_append.1 hy with hy | hy
                  · exact h.ready_ok y hy
                  · simp only [List.mem_singleton] at hy
                    subst hy
                    left
                    simp only
                    rw [hfr.2.1]
                    exact h.waiting_ok p buffer hfind
                · intro Q bq hQ
                  simp only at hQ
                  by_cases hQp : Q = p
                  · subst hQp
                    rw [Map.find_erase_self] at hQ
                    cases hQ
                  · rw [Map.find_erase_ne _ hQp] at hQ
                    exact h.waiting_ok Q bq hQ
                · simp only
                  exact goodCalls_append_silent g _ _
                    (goodCalls_append_silent g _ _ h.calls_ok hsil) (silent_push _ _)
    · simp only [route_grad, he, hrg, ShapeOk]
      exact h

theorem process_grad_input_shape {G : Type} [Add G] (g : Graph) (cb : Callbacks G) :
    ∀ (es : List Edge) (xs : List (PyObject G)) (s : EngineState G), ShapeInv g s →
      ShapeOk g (process_grad_input g cb es xs s) := by
  intro es xs
  induction xs generalizing es with
  | nil =>
    intro s h
    cases es <;> simpa [process_grad_input, ShapeOk] using h
  | cons x xs ih =>
    intro s h
    cases es with
    | nil =>
      simp only [process_grad_input, ShapeOk, EngineState.fail]
      exact h.calls_ok
    | cons e es =>
      have h1 := route_grad_shape g cb s e x h
      rcases hr : route_grad g cb s e x with f | s1
      · rw [hr] at h1
        simpa [process_grad_input, hr, ShapeOk] using h1
      · rw [hr] at h1
        simp only [process_grad_input, hr]
        exact ih es s1 h1

theorem dispatch_shape {G : Type} [Add G] (g : Graph) (cb : Callbacks G) (s : EngineState G)
    (fn : FnId) (buf : grad_buffer_type G) (h : ShapeInv g s) (hb : Shape g (fn, buf)) :
    ShapeOk g (dispatch g cb s fn buf) := by
  have hcalls := goodCalls_call g s.trace fn buf h.calls_ok hb
  rcases hcb : cb.fn_do_backward fn (grad_tuple buf) with _ | _ | out
  · simp only [dispatch, hcb, ShapeOk, EngineState.fail, EngineState.log]
    exact hcalls
  · simp only [dispatch, hcb, ShapeOk, EngineState.fail, EngineState.log]
    exact hcalls
  · simp only [dispatch, hcb]
    exact process_grad_input_shape g cb _ _ _ (shapeInv_of_same g s _ h rfl rfl hcalls)

theorem drain_shape {G : Type} [Add G] (g : Graph) (cb : Callbacks G) :
    ∀ (fuel : Nat) (s : EngineState G), ShapeInv g s → ShapeOk g (drain g cb fuel s) := by
  intro fuel
  induction fuel with
  | zero =>
    intro s h
    rcases hr : s.ready with _ | ⟨p, rest⟩
    · simpa [drain, hr, ShapeOk] using h
    · simp only [drain, hr, ShapeOk, EngineState.fail]
      exact h.calls_ok
  | succ n ih =>
    intro s h
    rcases hr : s.ready with _ | ⟨⟨fn, buf⟩, rest⟩
    · simpa [drain, hr, ShapeOk] using h
    · have hb : Shape g (fn, buf) := h.ready_ok _ (by rw [hr]; exact List.mem_cons_self _ _)
      have hs : ShapeInv g { s with ready := rest } :=
        ⟨fun y hy => h.ready_ok y (by rw [hr]; exact List.mem_cons_of_mem _ hy),
          h.waiting_ok, h.calls_ok⟩
      have h1 := dispatch_shape g cb { s with ready := rest } fn buf hs hb
      rcases hd : dispatch g cb { s with ready := rest } fn buf with f | s1
      · rw [hd] at h1
        simpa [drain, hr, hd, ShapeOk] using h1
      · rw [hd] at h1
        simp only [drain, hr, hd]
        exact ih s1 h1

/-- The buffers on `ready` when the draining loop starts have the shapes of
`Shape`. -/
theorem shapeInv_start {G : Type} (g : Graph) (cb : Callbacks G) (fuel : Nat)
    (vars : List VarId) (grads : List (PyObject G)) (s0 : EngineState G)
    (h0 : run_backward_start g cb fuel vars grads = .ok s0) : ShapeInv g s0 := by
  have hsil := run_backward_start_silent g cb fuel vars grads
  rw [h0] at hsil
  simp only [trace_of] at hsil
  obtain ⟨seeded, deps, ready, _, hs, hcd, _, rfl⟩ :=
    run_backward_start_ok g cb fuel vars grads s0 h0
  obtain ⟨_, _, hnr, hdeps, _⟩ := seed_general g cb _ _ _ hs
  have hrd := seed_ready g cb _ _ _ hs
  simp only [EngineState.init, List.nil_append] at hrd
  have hpos : ∀ P c, Map.find seeded.engine.dependencies P = some c → 1 ≤ c := by
    intro P c hP
    rw [hdeps] at hP
    simp [EngineState.init, Map.find] at hP
  obtain ⟨_, _, hnew, _, _⟩ :=
    compute_dependencies_scan g seeded.creators fuel _ deps _ ready hpos hcd
  refine ⟨?_, ?_, goodCalls_of_silent g _ hsil⟩
  · intro y hy
    rcases hnew y hy with h | ⟨h1, h2, h3⟩
    · rw [hrd] at h
      obtain ⟨v, x, _, _, hsl⟩ := seed_pairs_mem g _ _ y h
      left
      rw [hsl]
      simp
    · right
      exact ⟨by rw [h1], h2, h3⟩
  · intro P buf hP
    simp only at hP
    rw [hnr] at hP
    simp [EngineState.init, Map.find] at hP

/-- In every run, every `_do_backward` call on a function has one argument per
output of the function, or no argument at all when the function is always-ready
and requires grad. -/
theorem run_backward_goodCalls {G : Type} [Add G] (g : Graph) (cb : Callbacks G)
    (fuel : Nat) (vars : List VarId) (grads : List (PyObject G)) :
    GoodCalls g (trace_of (THPEngine_run_backward g cb fuel vars grads)) := by
  have hsil := run_backward_start_silent g cb fuel vars grads
  rw [run_backward_eq]
  rcases h0 : run_backward_start g cb fuel vars grads with f | s0
  · rw [h0] at hsil
    exact goodCalls_of_silent g _ hsil
  · dsimp only
    have h1 := drain_shape g cb fuel s0 (shapeInv_start g cb fuel vars grads s0 h0)
    rcases hd : drain g cb fuel s0 with f | s1
    · rw [hd] at h1
      exact h1
    · rw [hd] at h1
      dsimp only
      rw [trace_of_finish]
      exact h1.calls_ok

/-- The pairs of an always-ready function that is not a root creator keep the
empty buffer while draining, and its calls are made without arguments. -/
theorem drain_empty_args {G : Type} [Add G] (g : Graph) (cb : Callbacks G) (S : FnId)
    (hst : (g.fn S).is_stochastic = true) (fuel : Nat) (s : EngineState G)
    (h : ∀ x ∈ s.ready, x.1 = S → x.2.slots = []) :
    ∃ evs, trace_of (drain g cb fuel s) = s.trace ++ evs ∧
      ∀ args, Event.fn_backward S args ∈ evs → args = [] := by
  have key := drain_rel g cb (fun s r => (∀ x ∈ s.ready, x.1 = S → x.2.slots = []) →
      (∀ s1, r = .ok s1 → ∀ x ∈ s1.ready, x.1 = S → x.2.slots = []) ∧
      ∃ evs, trace_of r = s.trace ++ evs ∧
        ∀ args, Event.fn_backward S args ∈ evs → args = [])
    (by
      intro s s1 r h1 h2 hs
      obtain ⟨a1, evs1, a2, a3⟩ := h1 hs
      obtain ⟨b1, evs2, b2, b3⟩ := h2 (a1 s1 rfl)
      simp only [trace_of] at a2
      refine ⟨b1, evs1 ++ evs2, by rw [b2, a2, List.append_assoc], ?_⟩
      intro args hm
      rcases List.mem_append.1 hm with hm | hm
      · exact a3 args hm
      · exact b3 args hm)
    (by
      intro s r hstep hs
      cases hstep with
      | skip =>
        exact ⟨(fun s1 hr => by cases hr; exact hs), [], by simp [trace_of], by simp⟩
      | leaf_ok v x _ _ =>
        exact ⟨(fun s1 hr => by cases hr; exact hs), [.var_backward v x], rfl, by simp⟩
      | leaf_raised v x _ _ =>
        exact ⟨(fun s1 hr => by cases hr), [.var_backward v x], rfl, by simp⟩
      | quiet s1 evs hm htr hrd _ _ =>
        refine ⟨(fun s2 hr => by cases hr; rw [hrd]; exact hs), evs, htr, ?_⟩
        intro args hmem
        rcases hm _ hmem with ⟨k, c, h⟩ | ⟨k, t, a, h⟩ <;> cases h
      | abort evs err hm _ =>
        refine ⟨(fun s1 hr => by cases hr), evs, rfl, ?_⟩
        intro args hmem
        rcases hm _ hmem with ⟨k, c, h⟩ | ⟨k, t, a, h⟩ <;> cases h
      | push s1 evs p b _ hns hm htr hrd _ _ =>
        refine ⟨?_, evs ++ [.push p b], by simp [trace_of, htr], ?_⟩
        · intro s2 hr y hy hyS
          cases hr
          rw [hrd] at hy
          rcases List.mem_append.1 hy with hy | hy
          · exact hs y hy hyS
          · simp only [List.mem_singleton] at hy
            subst hy
            simp only at hyS
            rw [hyS, hst] at hns
            cases hns
        · intro args hmem
          rcases List.mem_append.1 hmem with hmem | hmem
          · rcases hm _ hmem with ⟨k, c, h⟩ | ⟨k, t, a, h⟩ <;> cases h
          · simp at hmem
      | call fn buf rest grads hr _ =>
        refine ⟨?_, _, rfl, ?_⟩
        · intro s2 hr2 y hy hyS
          cases hr2
          exact hs y (by rw [hr]; exact List.mem_cons_of_mem _ hy) hyS
        · intro args hmem
          simp only [List.mem_cons, List.mem_singleton, List.not_mem_nil, or_false,
            Event.fn_backward.injEq, reduceCtorEq, false_or] at hmem
          have hb := hs (fn, buf) (by rw [hr]; exact List.mem_cons_self _ _) hmem.1.symm
          rw [hmem.2]
          simp only at hb
          simp [grad_tuple, hb]
      | call_raised fn buf rest hr _ =>
        refine ⟨(fun s1 hr => by cases hr), _, rfl, ?_⟩
        intro args hmem
        simp only [List.mem_cons, List.mem_singleton, List.not_mem_nil, or_false,
          Event.fn_backward.injEq, reduceCtorEq, false_or] at hmem
        have hb := hs (fn, buf) (by rw [hr]; exact List.mem_cons_self _ _) hmem.1.symm
        rw [hmem.2]
        simp only at hb
        simp [grad_tuple, hb]
      | call_not_a_tuple fn buf rest hr _ =>
        refine ⟨(fun s1 hr => by cases hr), _, rfl, ?_⟩
        intro args hmem
        simp only [List.mem_cons, List.mem_singleton, List.not_mem_nil, or_false,
          Event.fn_backward.injEq, reduceCtorEq, false_or] at hmem
        have hb := hs (fn, buf) (by rw [hr]; exact List.mem_cons_self _ _) hmem.1.symm
        rw [hmem.2]
        simp only at hb
        simp [grad_tuple, hb])
    (by
      intro s _
      exact ⟨(fun s1 hr => by cases hr), [], by simp [trace_of], by simp⟩)
    fuel s
  exact (key h).2

/-- In every run, an always-ready function that is the creator of no root
variable is only ever called without arguments. -/
theorem run_backward_empty_args {G : Type} [Add G] (g : Graph) (cb : Callbacks G)
    (fuel : Nat) (vars : List VarId) (grads : List (PyObject G)) (S : FnId)
    (hst : (g.fn S).is_stochastic = true)
    (hroot : ∀ v ∈ vars, (g.var v).creator ≠ some S) :
    ∀ args, Event.fn_backward S args ∈
      trace_of (THPEngine_run_backward g cb fuel vars grads) → args = [] := by
  have hsil := run_backward_start_silent g cb fuel vars grads
  rw [run_backward_eq]
  rcases h0 : run_backward_start g cb fuel vars grads with f | s0
  · rw [h0] at hsil
    intro args hm
    exact absurd rfl (hsil _ hm S args)
  · dsimp only
    rw [h0] at hsil
    simp only [trace_of] at hsil
    have hready : ∀ x ∈ s0.ready, x.1 = S → x.2.slots = [] := by
      obtain ⟨seeded, deps, ready, _, hs, hcd, _, rfl⟩ :=
        run_backward_start_ok g cb fuel vars grads s0 h0
      obtain ⟨_, _, _, hdeps, _⟩ := seed_general g cb _ _ _ hs
      have hrd := seed_ready g cb _ _ _ hs
      simp only [EngineState.init, List.nil_append] at hrd
      have hpos : ∀ P c, Map.find seeded.engine.dependencies P = some c → 1 ≤ c := by
        intro P c hP
        rw [hdeps] at hP
        simp [EngineState.init, Map.find] at hP
      obtain ⟨_, _, hnew, _, _⟩ :=
        compute_dependencies_scan g seeded.creators fuel _ deps _ ready hpos hcd
      intro y hy hyS
      rcases hnew y hy with h | ⟨h1, _, _⟩
      · rw [hrd] at h
        obtain ⟨v, x, hv, hc, _⟩ := seed_pairs_mem g _ _ y h
        rw [hyS] at hc
        exact absurd hc (hroot v (List.of_mem_zip hv).1)
      · rw [h1]
    obtain ⟨evs, htr, hev⟩ := drain_empty_args g cb S hst fuel s0 hready
    have hall : ∀ args, Event.fn_backward S args ∈ trace_of (drain g cb fuel s0) →
        args = [] := by
      intro args hm
      rw [htr] at hm
      rcases List.mem_append.1 hm with hm | hm
      · exact absurd rfl (hsil _ hm S args)
      · exact hev args hm
    rcases hd : drain g cb fuel s0 with f | s1
    · rw [hd] at hall
      exact hall
    · rw [hd] at hall
      dsimp only
      rw [trace_of_finish]
      exact hall

/-- C25, the run that refutes the claim.  In `stochastic_diamond` the
always-ready function `fn 2` has one output, and the engine calls its backward
once, with an empty argument tuple: the pair that `compute_dependencies` puts on
`ready` for it carries the buffer `grad_buffer_type(0)`, which has no slot. -/
theorem stochastic_called_without_slots :
    (stochastic_diamond.fn 2).num_outputs = 1 ∧
    (stochastic_diamond.fn 2).is_stochastic = true ∧
    fn_calls 2 (trace_of (THPEngine_run_backward stochastic_diamond
      (ones_cb stochastic_diamond) 4 [1] [.Tensor 1])) = [[]] ∧
    error_of (THPEngine_run_backward stochastic_diamond
      (ones_cb stochastic_diamond) 4 [1] [.Tensor 1]) = none := by
  decide

/-- C25, amended.  In every run of `THPEngine_run_backward`, whatever the graph,
the callbacks and the outcome: a call of a function's `_do_backward` is passed
exactly `num_outputs` gradient slots of that function, or it is a call without
any slot of an always-ready (stochastic) function that requires grad; a
function that is not always-ready is therefore always passed `num_outputs`
slots, and an always-ready function that is the creator of no root variable is
always called without slots. -/
theorem backward_slot_count {G : Type} [Add G] (g : Graph) (cb : Callbacks G)
    (fuel : Nat) (vars : List VarId) (grads : List (PyObject G)) :
    (∀ fn args, Event.fn_backward fn args ∈
        trace_of (THPEngine_run_backward g cb fuel vars grads) →
      args.length = (g.fn fn).num_outputs ∨
        (args = [] ∧ (g.fn fn).is_stochastic = true ∧ (g.fn fn).requires_grad = true)) ∧
    (∀ fn args, Event.fn_backward fn args ∈
        trace_of (THPEngine_run_backward g cb fuel vars grads) →
      (g.fn fn).is_stochastic = false → args.length = (g.fn fn).num_outputs) ∧
    (∀ fn args, Event.fn_backward fn args ∈
        trace_of (THPEngine_run_backward g cb fuel vars grads) →
      (g.fn fn).is_stochastic = true → (∀ v ∈ vars, (g.var v).creator ≠ some fn) →
      args = []) := by
  have h := run_backward_goodCalls g cb fuel vars grads
  refine ⟨h, ?_, ?_⟩
  · intro fn args hm hns
    rcases h fn args hm with h1 | ⟨_, h2, _⟩
    · exact h1
    · rw [hns] at h2
      cases h2
  · intro fn args hm hst hroot
    exact run_backward_empty_args g cb fuel vars grads fn hst hroot args hm

end Autograd

namespace THC

/-! ## The ordered set `available` -/

theorem BlockComparator_iff (a b : BlockSize) :
    BlockComparator a b = true ↔ a.size < b.size ∨ (a.size = b.size ∧ a.ptr < b.ptr) := by
  unfold BlockComparator
  by_cases h : a.size = b.size
  · simp [h]
  · simp only [ne_eq, h, not_false_eq_true, if_true, decide_eq_true_eq, false_and, or_false]

theorem BlockComparator_trans {a b c : BlockSize} (h1 : BlockComparator a b = true)
    (h2 : BlockComparator b c = true) : BlockComparator a c = true := by
  rw [BlockComparator_iff] at *
  omega

theorem BlockComparator_equiv {a b : BlockSize} (h1 : ¬ BlockComparator a b = true)
    (h2 : ¬ BlockComparator b a = true) : a = b := by
  rw [BlockComparator_iff] at h1 h2
  obtain ⟨s, p⟩ := a
  obtain ⟨s', p'⟩ := b
  simp only at h1 h2
  have hs : s = s' := by omega
  have hp : p = p' := by omega
  rw [hs, hp]

theorem mem_set_insert (x z : BlockSize) (l : List BlockSize) :
    z ∈ set_insert x l ↔ z = x ∨ z ∈ l := by
  induction l with
  | nil => simp [set_insert]
  | cons y l ih =>
    by_cases h1 : BlockComparator x y = true
    · simp only [set_insert, h1, if_true, List.mem_cons]
    · by_cases h2 : BlockComparator y x = true
      · simp only [set_insert, h1, h2, if_true, Bool.false_eq_true, if_false, List.mem_cons, ih]
        tauto
      · have hxy := BlockComparator_equiv h1 h2
        subst hxy
        simp only [set_insert, h1, Bool.false_eq_true, if_false, List.mem_cons]
        tauto

theorem pairwise_set_insert (x : BlockSize) (l : List BlockSize)
    (h : l.Pairwise (fun a b => BlockComparator a b = true)) :
    (set_insert x l).Pairwise (fun a b => BlockComparator a b = true) := by
  induction l with
  | nil => simp [set_insert]
  | cons y l ih =>
    rw [List.pairwise_cons] at h
    by_cases h1 : BlockComparator x y = true
    · simp only [set_insert, h1, if_true]
      refine List.Pairwise.cons ?_ (List.Pairwise.cons h.1 h.2)
      intro z hz
      rcases List.mem_cons.1 hz with hz | hz
      · rw [hz]
        exact h1
      · exact BlockComparator_trans h1 (h.1 z hz)
    · by_cases h2 : BlockComparator y x = true
      · simp only [set_insert, h1, h2, if_true, Bool.false_eq_true, if_false]
        refine List.Pairwise.cons ?_ (ih h.2)
        intro z hz
        rcases (mem_set_insert x z l).1 hz with hz | hz
        · rw [hz]
          exact h2
        · exact h.1 z hz
      · simp only [set_insert, h1, h2, Bool.false_eq_true, if_false]
        exact List.Pairwise.cons h.1 h.2

theorem pairwise_set_erase (x : BlockSize) (l : List BlockSize)
    (h : l.Pairwise (fun a b => BlockComparator a b = true)) :
    (set_erase l x).Pairwise (fun a b => BlockComparator a b = true) :=
  List.Pairwise.filter _ h

theorem lower_bound_some (l : List BlockSize) (key it : BlockSize)
    (h : lower_bound l key = some it) : it ∈ l ∧ key.size ≤ it.size := by
  unfold lower_bound at h
  have h1 := List.find?_some h
  have h2 := List.mem_of_find?_eq_some h
  refine ⟨h2, ?_⟩
  have h3 : ¬ BlockComparator it key = true := by
    intro h4
    rw [h4] at h1
    cases h1
  rw [BlockComparator_iff] at h3
  omega

/-! ## Writes to `blocks` and the set `available` -/

theorem availOk_busy (blocks : Nat → Option Block) (av : List BlockSize) (p : Nat)
    (b b' : Block) (hk : ∀ q block, blocks q = some block → block.ptr = q)
    (h : AvailOk blocks av) (hb : blocks p = some b)
    (hbusy : ¬ (b'.allocated = false ∧ b'.event_count = 0)) :
    AvailOk (blocks_set blocks p b') (set_erase av b.toBlockSize) := by
  intro x
  simp only [set_erase, List.mem_filter, decide_eq_true_eq, blocks_set]
  by_cases hx : x.ptr = p
  · rw [if_pos hx]
    constructor
    · rintro ⟨hm, hne⟩
      obtain ⟨block, h1, h2, _⟩ := (h x).1 hm
      rw [hx, hb] at h1
      cases h1
      exact absurd h2.symm hne
    · rintro ⟨block, h1, _, h3, h4⟩
      cases h1
      exact absurd ⟨h3, h4⟩ hbusy
  · rw [if_neg hx]
    constructor
    · rintro ⟨hm, _⟩
      exact (h x).1 hm
    · intro hex
      refine ⟨(h x).2 hex, ?_⟩
      intro hxe
      apply hx
      rw [hxe]
      exact hk p b hb

theorem availOk_busy_same (blocks : Nat → Option Block) (av : List BlockSize) (p : Nat)
    (b b' : Block) (h : AvailOk blocks av) (hb : blocks p = some b)
    (hold : ¬ (b.allocated = false ∧ b.event_count = 0))
    (hbusy : ¬ (b'.allocated = false ∧ b'.event_count = 0)) :
    AvailOk (blocks_set blocks p b') av := by
  intro x
  simp only [blocks_set]
  by_cases hx : x.ptr = p
  · rw [if_pos hx]
    constructor
    · intro hm
      obtain ⟨block, h1, _, h3, h4⟩ := (h x).1 hm
      rw [hx, hb] at h1
      cases h1
      exact absurd ⟨h3, h4⟩ hold
    · rintro ⟨block, h1, _, h3, h4⟩
      cases h1
      exact absurd ⟨h3, h4⟩ hbusy
  · rw [if_neg hx]
    exact h x

theorem availOk_free (blocks : Nat → Option Block) (av : List BlockSize) (p : Nat)
    (b b' : Block) (hk : ∀ q block, blocks q = some block → block.ptr = q)
    (h : AvailOk blocks av) (hb : blocks p = some b)
    (hbs : b'.toBlockSize = b.toBlockSize) (h1 : b'.allocated = false)
    (h2 : b'.event_count = 0) :
    AvailOk (blocks_set blocks p b') (set_insert b.toBlockSize av) := by
  intro x
  rw [mem_set_insert]
  simp only [blocks_set]
  by_cases hx : x.ptr = p
  · rw [if_pos hx]
    constructor
    · rintro (hm | hm)
      · exact ⟨b', rfl, by rw [hbs, hm], h1, h2⟩
      · obtain ⟨block, h3, h4, _⟩ := (h x).1 hm
        rw [hx, hb] at h3
        cases h3
        exact ⟨b', rfl, by rw [hbs, h4], h1, h2⟩
    · rintro ⟨block, h3, h4, _⟩
      cases h3
      left
      rw [← h4, hbs]
  · rw [if_neg hx]
    constructor
    · rintro (hm | hm)
      · exfalso
        apply hx
        rw [hm]
        exact hk p b hb
      · exact (h x).1 hm
    · intro hex
      exact Or.inr ((h x).2 hex)

theorem availOk_new (blocks : Nat → Option Block) (av : List BlockSize) (p : Nat)
    (b' : Block) (h : AvailOk blocks av) (hb : blocks p = none)
    (hbusy : ¬ (b'.allocated = false ∧ b'.event_count = 0)) :
    AvailOk (blocks_set blocks p b') av := by
  intro x
  simp only [blocks_set]
  by_cases hx : x.ptr = p
  · rw [if_pos hx]
    constructor
    · intro hm
      obtain ⟨block, h1, _⟩ := (h x).1 hm
      rw [hx, hb] at h1
      cases h1
    · rintro ⟨block, h1, _, h3, h4⟩
      cases h1
      exact absurd ⟨h3, h4⟩ hbusy
  · rw [if_neg hx]
    exact h x

theorem inv_empty : Inv HostAllocator.empty := by
  refine ⟨?_, ?_, ?_, ?_, ?_⟩
  · intro p block h
    cases h
  · intro x
    simp [HostAllocator.empty]
  · intro p block h
    cases h
  · intro e he
    simp [HostAllocator.empty] at he
  · simp [HostAllocator.empty]

end THC

namespace THC

/-! ## The operations keep the invariant -/

theorem inv_step_event (blocks : Nat → Option Block) (av : List BlockSize)
    (e : Nat × Nat) (rest : List (Nat × Nat)) (block : Block)
    (h : Inv ⟨blocks, av, e :: rest⟩) (hb : blocks e.2 = some block) :
    Inv ⟨blocks_set blocks e.2 { block with event_count := block.event_count - 1 },
      (if block.event_count - 1 = 0 ∧ block.allocated = false then
        set_insert block.toBlockSize av else av), rest⟩ := by
  have hcount : block.event_count = ((rest.map Prod.snd).count e.2 : Nat) + 1 := by
    have := h.counts e.2 block hb
    simp only [List.map_cons, List.count_cons_self, Nat.cast_add, Nat.cast_one] at this
    exact this
  refine ⟨?_, ?_, ?_, ?_, ?_⟩
  · intro p blk hp
    simp only [blocks_set] at hp
    by_cases hpe : p = e.2
    · rw [if_pos hpe] at hp
      cases hp
      rw [hpe]
      exact h.key_ptr e.2 block hb
    · rw [if_neg hpe] at hp
      exact h.key_ptr p blk hp
  · by_cases hc : block.event_count - 1 = 0 ∧ block.allocated = false
    · simp only [if_pos hc]
      exact availOk_free blocks av e.2 block _ h.key_ptr h.avail hb rfl hc.2 hc.1
    · simp only [if_neg hc]
      refine availOk_busy_same blocks av e.2 block _ h.avail hb ?_ ?_
      · rintro ⟨_, h0⟩
        rw [h0] at hcount
        omega
      · rintro ⟨h1, h2⟩
        exact hc ⟨h2, h1⟩
  · intro p blk hp
    simp only [blocks_set] at hp
    by_cases hpe : p = e.2
    · rw [if_pos hpe] at hp
      cases hp
      simp only
      rw [hpe, hcount]
      omega
    · rw [if_neg hpe] at hp
      have := h.counts p blk hp
      simp only [List.map_cons] at this
      rw [List.count_cons_of_ne hpe] at this
      exact this
  · intro e1 he1
    obtain ⟨blk, hblk⟩ := h.tracked e1 (List.mem_cons_of_mem _ he1)
    simp only [blocks_set]
    by_cases hpe : e1.2 = e.2
    · rw [if_pos hpe]
      exact ⟨_, rfl⟩
    · rw [if_neg hpe]
      exact ⟨blk, hblk⟩
  · by_cases hc : block.event_count - 1 = 0 ∧ block.allocated = false
    · simp only [if_pos hc]
      exact pairwise_set_insert _ _ h.sorted
    · simp only [if_neg hc]
      exact h.sorted

theorem processEvents_loop_inv (cuda : Cuda) :
    ∀ (evs : List (Nat × Nat)) (blocks : Nat → Option Block) (av : List BlockSize),
      Inv ⟨blocks, av, evs⟩ →
      Inv (processEvents_loop cuda evs blocks av).2 ∧
      (∃ err, (processEvents_loop cuda evs blocks av).1 = .returned err) ∧
      (∀ p b, blocks p = some b →
        ∃ b', (processEvents_loop cuda evs blocks av).2.blocks p = some b' ∧
          b'.allocated = b.allocated) := by
  intro evs
  induction evs with
  | nil =>
    intro blocks av h
    simp only [processEvents_loop]
    exact ⟨h, ⟨_, rfl⟩, fun p b hb => ⟨b, hb, rfl⟩⟩
  | cons e rest ih =>
    intro blocks av h
    rw [processEvents_loop]
    by_cases hq : cuda.cudaEventQuery e.1 = .cudaErrorNotReady
    · rw [if_pos hq]
      exact ⟨h, ⟨_, rfl⟩, fun p b hb => ⟨b, hb, rfl⟩⟩
    · rw [if_neg hq]
      by_cases hq2 : cuda.cudaEventQuery e.1 = .cudaSuccess
      · rw [if_neg (fun hne => hne hq2)]
        by_cases hd : cuda.cudaEventDestroy e.1 = .cudaSuccess
        · rw [if_neg (fun hne => hne hd)]
          obtain ⟨block, hb⟩ := h.tracked e (List.mem_cons_self _ _)
          simp only at hb
          have hstep := inv_step_event blocks av e rest block h hb
          obtain ⟨h1, h2, h3⟩ := ih _ _ hstep
          simp only [hb]
          refine ⟨h1, h2, ?_⟩
          intro p b hpb
          by_cases hpe : p = e.2
          · subst hpe
            rw [hb] at hpb
            cases hpb
            obtain ⟨b', hb', ha'⟩ := h3 e.2 { block with event_count := block.event_count - 1 }
              (by simp [blocks_set])
            exact ⟨b', hb', ha'⟩
          · exact h3 p b (by simp [blocks_set, hpe, hpb])
        · rw [if_pos hd]
          exact ⟨h, ⟨_, rfl⟩, fun p b hb => ⟨b, hb, rfl⟩⟩
      · rw [if_pos hq2]
        exact ⟨h, ⟨_, rfl⟩, fun p b hb => ⟨b, hb, rfl⟩⟩

theorem processEvents_inv (cuda : Cuda) (a : HostAllocator) (h : Inv a) :
    Inv (processEvents cuda a).2 ∧
    (∃ err, (processEvents cuda a).1 = .returned err) ∧
    (∀ p b, a.blocks p = some b →
      ∃ b', (processEvents cuda a).2.blocks p = some b' ∧ b'.allocated = b.allocated) :=
  processEvents_loop_inv cuda a.cuda_events a.blocks a.available h

end THC

namespace THC

theorem no_event_of_count_zero (a : HostAllocator) (h : Inv a) (p : Nat) (block : Block)
    (hb : a.blocks p = some block) (h0 : block.event_count = 0) :
    ∀ e ∈ a.cuda_events, e.2 ≠ p := by
  intro e he hep
  have hc := h.counts p block hb
  rw [h0] at hc
  have hz : (a.cuda_events.map Prod.snd).count p = 0 := by omega
  rw [List.count_eq_zero] at hz
  exact hz (hep ▸ List.mem_map_of_mem Prod.snd he)

theorem inv_set_same_count (a : HostAllocator) (h : Inv a) (p : Nat) (b b' : Block)
    (av : List BlockSize) (hb : a.blocks p = some b) (hbs : b'.toBlockSize = b.toBlockSize)
    (hc : b'.event_count = b.event_count)
    (hav : AvailOk (blocks_set a.blocks p b') av)
    (hsorted : av.Pairwise (fun x y => BlockComparator x y = true)) :
    Inv ⟨blocks_set a.blocks p b', av, a.cuda_events⟩ := by
  refine ⟨?_, hav, ?_, ?_, hsorted⟩
  · intro q blk hq
    simp only [blocks_set] at hq
    by_cases hqp : q = p
    · rw [if_pos hqp] at hq
      cases hq
      rw [hqp]
      have := h.key_ptr p b hb
      rw [← this, ← hbs]
    · rw [if_neg hqp] at hq
      exact h.key_ptr q blk hq
  · intro q blk hq
    simp only [blocks_set] at hq
    by_cases hqp : q = p
    · rw [if_pos hqp] at hq
      cases hq
      rw [hqp, hc]
      exact h.counts p b hb
    · rw [if_neg hqp] at hq
      exact h.counts q blk hq
  · intro e he
    obtain ⟨blk, hblk⟩ := h.tracked e he
    simp only [blocks_set]
    by_cases hqp : e.2 = p
    · rw [if_pos hqp]
      exact ⟨_, rfl⟩
    · rw [if_neg hqp]
      exact ⟨blk, hblk⟩

theorem malloc_inv (cuda : Cuda) (a : HostAllocator) (size : Nat) (h : Inv a) :
    Inv (malloc cuda a size).2.2 ∧
    (∃ err, (malloc cuda a size).1 = .returned err) ∧
    (∀ p, (malloc cuda a size).2.1 = some p →
      (∃ block, (processEvents cuda a).2.blocks p = some block ∧
        block.allocated = false ∧ block.event_count = 0 ∧ size ≤ block.size ∧
        (∀ e ∈ (processEvents cuda a).2.cuda_events, e.2 ≠ p) ∧
        (malloc cuda a size).2.2.blocks p = some { block with allocated := true }) ∨
      (lower_bound (processEvents cuda a).2.available ⟨size, 0⟩ = none ∧
        cuda.cudaHostAlloc size = (.cudaSuccess, p))) := by
  obtain ⟨hi, ⟨err, herr⟩, _⟩ := processEvents_inv cuda a h
  unfold malloc
  simp only
  by_cases hs : (processEvents cuda a).1 = .returned .cudaSuccess
  · rw [if_neg (fun hne => hne hs)]
    rcases hlb : lower_bound (processEvents cuda a).2.available ⟨size, 0⟩ with _ | it
    · simp only
      by_cases ha : (cuda.cudaHostAlloc size).1 = .cudaSuccess
      · rw [if_neg (fun hne => hne ha)]
        simp only
        refine ⟨?_, ⟨_, rfl⟩, ?_⟩
        · rcases hbp : (processEvents cuda a).2.blocks (cuda.cudaHostAlloc size).2 with _ | old
          · simp only [blocks_insert, hbp]
            refine ⟨?_, ?_, ?_, ?_, hi.sorted⟩
            · intro q blk hq
              simp only [blocks_set] at hq
              by_cases hqp : q = (cuda.cudaHostAlloc size).2
              · rw [if_pos hqp] at hq
                cases hq
                rw [hqp]
                rfl
              · rw [if_neg hqp] at hq
                exact hi.key_ptr q blk hq
            · exact availOk_new _ _ _ _ hi.avail hbp (by simp [Block.new])
            · intro q blk hq
              simp only [blocks_set] at hq
              by_cases hqp : q = (cuda.cudaHostAlloc size).2
              · rw [if_pos hqp] at hq
                cases hq
                have hz : ((processEvents cuda a).2.cuda_events.map Prod.snd).count q = 0 := by
                  rw [List.count_eq_zero]
                  intro hm
                  obtain ⟨e, he, heq⟩ := List.mem_map.1 hm
                  obtain ⟨blk, hblk⟩ := hi.tracked e he
                  rw [heq, hqp, hbp] at hblk
                  cases hblk
                simp only [Block.new, hz, Nat.cast_zero]
              · rw [if_neg hqp] at hq
                exact hi.counts q blk hq
            · intro e he
              obtain ⟨blk, hblk⟩ := hi.tracked e he
              simp only [blocks_set]
              by_cases hqp : e.2 = (cuda.cudaHostAlloc size).2
              · rw [if_pos hqp]
                exact ⟨_, rfl⟩
              · rw [if_neg hqp]
                exact ⟨blk, hblk⟩
          · simp only [blocks_insert, hbp]
            exact hi
        · intro p hp
          simp only [Option.some.injEq] at hp
          right
          refine ⟨trivial, ?_⟩
          rw [← hp, ← ha]
      · rw [if_pos ha]
        simp only
        refine ⟨hi, ⟨_, rfl⟩, ?_⟩
        intro p hp
        cases hp
    · simp only
      obtain ⟨hmem, hsize⟩ := lower_bound_some _ _ _ hlb
      obtain ⟨block, hb, hbs, hna, hc0⟩ := (hi.avail it).1 hmem
      simp only [hb]
      rw [if_pos ⟨hna, hc0⟩]
      simp only
      have hptr : block.ptr = it.ptr := by rw [← hbs]
      have hsz : size ≤ block.size := by
        rw [← hbs] at hsize
        exact hsize
      refine ⟨?_, ⟨_, rfl⟩, ?_⟩
      · have hav : AvailOk (blocks_set (processEvents cuda a).2.blocks it.ptr
            { block with allocated := true })
            (set_erase (processEvents cuda a).2.available it) := by
          have := availOk_busy (processEvents cuda a).2.blocks
            (processEvents cuda a).2.available it.ptr block { block with allocated := true }
            hi.key_ptr hi.avail hb (by simp)
          rw [show set_erase (processEvents cuda a).2.available block.toBlockSize
            = set_erase (processEvents cuda a).2.available it from by rw [hbs]] at this
          exact this
        exact inv_set_same_count (processEvents cuda a).2 hi it.ptr block _ _ hb rfl rfl hav
          (pairwise_set_erase _ _ hi.sorted)
      · intro p hp
        simp only [Option.some.injEq] at hp
        left
        rw [hptr] at hp
        subst hp
        exact ⟨block, hb, hna, hc0, hsz,
          no_event_of_count_zero _ hi it.ptr block hb hc0, by simp [blocks_set]⟩
  · rw [if_pos hs]
    simp only
    refine ⟨hi, ⟨err, herr⟩, ?_⟩
    intro p hp
    cases hp

theorem free_inv (a : HostAllocator) (ptr : Nat) (h : Inv a) : Inv (free a ptr).2 := by
  unfold free
  by_cases hp : ptr = 0
  · rw [if_pos hp]
    exact h
  · rw [if_neg hp]
    rcases hb : a.blocks ptr with _ | block
    · exact h
    · simp only
      by_cases ha : block.allocated = false
      · rw [if_pos ha]
        exact h
      · rw [if_neg ha]
        simp only
        by_cases hc : block.event_count = 0
        · rw [if_pos hc]
          exact inv_set_same_count a h ptr block _ _ hb rfl rfl
            (availOk_free a.blocks a.available ptr block _ h.key_ptr h.avail hb rfl rfl hc)
            (pairwise_set_insert _ _ h.sorted)
        · rw [if_neg hc]
          exact inv_set_same_count a h ptr block _ _ hb rfl rfl
            (availOk_busy_same a.blocks a.available ptr block _ h.avail hb
              (fun hf => ha hf.1) (fun hf => hc hf.2))
            h.sorted

theorem recordEvent_inv (cuda : Cuda) (a : HostAllocator) (ptr stream : Nat) (h : Inv a) :
    Inv (recordEvent cuda a ptr stream).2 := by
  unfold recordEvent
  rcases hb : a.blocks ptr with _ | block0
  · exact h
  · simp only
    by_cases ha : block0.allocated = false
    · rw [if_pos ha]
      exact h
    · rw [if_neg ha]
      obtain ⟨hi, _, hkeep⟩ := processEvents_inv cuda a h
      obtain ⟨b1, hb1, ha1⟩ := hkeep ptr block0 hb
      by_cases hs : (processEvents cuda a).1 = .returned .cudaSuccess
      · rw [if_neg (fun hne => hne hs)]
        by_cases hcr : cuda.cudaEventCreateWithFlags.1 = .cudaSuccess
        · rw [if_neg (fun hne => hne hcr)]
          by_cases hrec : cuda.cudaEventRecord cuda.cudaEventCreateWithFlags.2 stream
              = .cudaSuccess
          · rw [if_neg (fun hne => hne hrec)]
            simp only
            have hfun : (fun q => if q = ptr then
                  Option.map (fun block : Block =>
                    { block with event_count := block.event_count + 1 })
                    ((processEvents cuda a).2.blocks q)
                else (processEvents cuda a).2.blocks q)
                = blocks_set (processEvents cuda a).2.blocks ptr
                    { b1 with event_count := b1.event_count + 1 } := by
              funext q
              simp only [blocks_set]
              by_cases hq : q = ptr
              · rw [if_pos hq, if_pos hq, hq, hb1]
                rfl
              · rw [if_neg hq, if_neg hq]
            rw [hfun]
            have hbusy : ¬ b1.allocated = false := by
              rw [ha1]
              exact ha
            refine ⟨?_, ?_, ?_, ?_, hi.sorted⟩
            · intro q blk hq
              simp only [blocks_set] at hq
              by_cases hqp : q = ptr
              · rw [if_pos hqp] at hq
                cases hq
                rw [hqp]
                exact hi.key_ptr ptr b1 hb1
              · rw [if_neg hqp] at hq
                exact hi.key_ptr q blk hq
            · exact availOk_busy_same _ _ ptr b1 _ hi.avail hb1 (fun hf => hbusy hf.1)
                (fun hf => hbusy hf.1)
            · intro q blk hq
              simp only [blocks_set] at hq
              simp only [List.map_append, List.map_cons, List.map_nil, List.count_append]
              by_cases hqp : q = ptr
              · rw [if_pos hqp] at hq
                cases hq
                have := hi.counts ptr b1 hb1
                simp only [hqp, List.count_singleton_self, this, Nat.cast_add, Nat.cast_one]
              · rw [if_neg hqp] at hq
                have := hi.counts q blk hq
                rw [this]
                have hne : ptr ≠ q := fun hh => hqp hh.symm
                simp [List.count_singleton, hne]
            · intro e he
              simp only [blocks_set]
              rcases List.mem_append.1 he with he | he
              · obtain ⟨blk, hblk⟩ := hi.tracked e he
                by_cases hqp : e.2 = ptr
                · rw [if_pos hqp]
                  exact ⟨_, rfl⟩
                · rw [if_neg hqp]
                  exact ⟨blk, hblk⟩
              · simp only [List.mem_singleton] at he
                subst he
                simp
          · rw [if_pos hrec]
            exact hi
        · rw [if_pos hcr]
          exact hi
      · rw [if_pos hs]
        exact hi

end THC

namespace THC

theorem emptyCache_loop_spec :
    ∀ (evs : List (Nat × Nat)) (blocks : Nat → Option Block),
      (∀ e ∈ evs, ∃ block, blocks e.2 = some block) →
      (emptyCache_loop evs blocks).1 = .returned .cudaSuccess ∧
      (∀ q b, blocks q = some b → b.allocated = true →
        (emptyCache_loop evs blocks).2.1 q = some b) ∧
      (∀ q b, (emptyCache_loop evs blocks).2.1 q = some b →
        ∃ b0, blocks q = some b0 ∧ b0.allocated = b.allocated) ∧
      (∀ q b, blocks q = some b → b.allocated = true →
        ((emptyCache_loop evs blocks).2.2.map Prod.snd).count q
          = (evs.map Prod.snd).count q) ∧
      (∀ e ∈ (emptyCache_loop evs blocks).2.2,
        ∃ b, blocks e.2 = some b ∧ b.allocated = true) := by
  intro evs
  induction evs with
  | nil =>
    intro blocks _
    simp only [emptyCache_loop]
    refine ⟨trivial, fun q b hb _ => hb, fun q b hb => ⟨b, hb, rfl⟩, fun q b _ _ => trivial, ?_⟩
    intro e he
    cases he
  | cons e rest ih =>
    intro blocks htr
    obtain ⟨block, hb⟩ := htr e (List.mem_cons_self _ _)
    rw [emptyCache_loop]
    simp only [hb]
    by_cases ha : block.allocated = false
    · rw [if_pos ha]
      have htr1 : ∀ e1 ∈ rest, ∃ blk, blocks_set blocks e.2
          { block with event_count := block.event_count - 1 } e1.2 = some blk := by
        intro e1 he1
        obtain ⟨blk, hblk⟩ := htr e1 (List.mem_cons_of_mem _ he1)
        simp only [blocks_set]
        by_cases hq : e1.2 = e.2
        · rw [if_pos hq]
          exact ⟨_, rfl⟩
        · rw [if_neg hq]
          exact ⟨blk, hblk⟩
      obtain ⟨h1, h2, h3, h4, h5⟩ := ih _ htr1
      have hne : ∀ q b, blocks q = some b → b.allocated = true → q ≠ e.2 := by
        intro q b hq hqa hqe
        rw [hqe, hb] at hq
        cases hq
        rw [ha] at hqa
        cases hqa
      refine ⟨h1, ?_, ?_, ?_, ?_⟩
      · intro q b hq hqa
        exact h2 q b (by simp [blocks_set, hne q b hq hqa, hq]) hqa
      · intro q b hq
        obtain ⟨b0, hb0, hal⟩ := h3 q b hq
        simp only [blocks_set] at hb0
        by_cases hqe : q = e.2
        · rw [if_pos hqe] at hb0
          cases hb0
          exact ⟨block, by rw [hqe, hb], hal⟩
        · rw [if_neg hqe] at hb0
          exact ⟨b0, hb0, hal⟩
      · intro q b hq hqa
        have hqe := hne q b hq hqa
        rw [h4 q b (by simp [blocks_set, hqe, hq]) hqa]
        simp only [List.map_cons]
        rw [List.count_cons_of_ne hqe]
      · intro e1 he1
        obtain ⟨b, hb1, hal⟩ := h5 e1 he1
        simp only [blocks_set] at hb1
        by_cases hqe : e1.2 = e.2
        · rw [if_pos hqe] at hb1
          cases hb1
          simp only at hal
          rw [ha] at hal
          cases hal
        · rw [if_neg hqe] at hb1
          exact ⟨b, hb1, hal⟩
    · rw [if_neg ha]
      have hat : block.allocated = true := by
        cases hba : block.allocated
        · exact absurd hba ha
        · rfl
      obtain ⟨h1, h2, h3, h4, h5⟩ := ih blocks
        (fun e1 he1 => htr e1 (List.mem_cons_of_mem _ he1))
      refine ⟨h1, h2, h3, ?_, ?_⟩
      · intro q b hq hqa
        simp only [List.map_cons, List.count_cons]
        rw [h4 q b hq hqa]
      · intro e1 he1
        rcases List.mem_cons.1 he1 with he1 | he1
        · rw [he1]
          exact ⟨block, hb, hat⟩
        · exact h5 e1 he1

theorem emptyCache_inv (a : HostAllocator) (h : Inv a) : Inv (emptyCache a).2 := by
  obtain ⟨h1, h2, h3, h4, h5⟩ := emptyCache_loop_spec a.cuda_events a.blocks h.tracked
  unfold emptyCache
  rw [if_neg (fun hne => hne h1)]
  simp only
  have hkey : ∀ p blk,
      (match (emptyCache_loop a.cuda_events a.blocks).2.1 p with
        | none => none
        | some block => if block.allocated = false then none else some block) = some blk →
      a.blocks p = some blk ∧ blk.allocated = true := by
    intro p blk hp
    rcases hl : (emptyCache_loop a.cuda_events a.blocks).2.1 p with _ | b
    · rw [hl] at hp
      cases hp
    · rw [hl] at hp
      simp only at hp
      by_cases hba : b.allocated = false
      · rw [if_pos hba] at hp
        cases hp
      · rw [if_neg hba] at hp
        have hat : b.allocated = true := by
          cases hbb : b.allocated
          · exact absurd hbb hba
          · rfl
        obtain ⟨b0, hb0, hal⟩ := h3 p b hl
        have hsame := h2 p b0 hb0 (by rw [hal, hat])
        rw [hl] at hsame
        simp only [Option.some.injEq] at hsame hp
        rw [← hp, hsame]
        exact ⟨hb0, by rw [← hsame]; exact hat⟩
  refine ⟨?_, ?_, ?_, ?_, List.Pairwise.nil⟩
  · intro p blk hp
    exact h.key_ptr p blk (hkey p blk hp).1
  · intro x
    constructor
    · intro hx
      cases hx
    · rintro ⟨blk, hp, _, hna, _⟩
      have := (hkey x.ptr blk hp).2
      rw [hna] at this
      cases this
  · intro p blk hp
    obtain ⟨hb, hat⟩ := hkey p blk hp
    simp only
    rw [h4 p blk hb hat]
    exact h.counts p blk hb
  · intro e he
    obtain ⟨b, hb, hat⟩ := h5 e he
    refine ⟨b, ?_⟩
    simp only
    rw [h2 e.2 b hb hat]
    simp [hat]

theorem apply_inv (a : HostAllocator) (op : Op) (h : Inv a) : Inv (Op.apply a op) := by
  cases op with
  | malloc cuda size => exact (malloc_inv cuda a size h).1
  | free ptr => exact free_inv a ptr h
  | recordEvent cuda ptr stream => exact recordEvent_inv cuda a ptr stream h
  | processEvents cuda => exact (processEvents_inv cuda a h).1
  | emptyCache => exact emptyCache_inv a h

theorem run_inv : ∀ (ops : List Op) (a : HostAllocator), Inv a → Inv (run ops a) := by
  intro ops
  induction ops with
  | nil =>
    intro a h
    exact h
  | cons op ops ih =>
    intro a h
    exact ih (Op.apply a op) (apply_inv a op h)

/-- A block is reused once it is freed and its events have completed: after
`malloc(8)` gave the new block 108, an event was recorded for it and it was
freed, a `malloc(4)` that finds the event not ready allocates the new block 104,
and a `malloc(4)` that finds the event completed returns the cached block 108. -/
theorem malloc_reuses_cached_block :
    (malloc cuda_busy (run [.malloc cuda_ready 8, .recordEvent cuda_busy 108 0, .free 108]
      HostAllocator.empty) 4).1 = .returned .cudaSuccess ∧
    (malloc cuda_busy (run [.malloc cuda_ready 8, .recordEvent cuda_busy 108 0, .free 108]
      HostAllocator.empty) 4).2.1 = some 104 ∧
    (malloc cuda_ready (run [.malloc cuda_ready 8, .recordEvent cuda_busy 108 0, .free 108]
      HostAllocator.empty) 4).1 = .returned .cudaSuccess ∧
    (malloc cuda_ready (run [.malloc cuda_ready 8, .recordEvent cuda_busy 108 0, .free 108]
      HostAllocator.empty) 4).2.1 = some 108 := by
  decide

/-- C30: in the caching host allocator, after every sequence of operations
(`malloc`, `free`, `recordEvent`, `processEvents`, `emptyCache`, each with any
results of the CUDA runtime) on the new allocator, the set `available` contains
exactly the tracked blocks that are not allocated and have `event_count` 0.
Consequently a `malloc` called in that state never fails the assertion on the
chosen block (nor does `blocks.at` throw), and a pointer it hands out is either
the one `cudaHostAlloc` has just returned, no cached block being large enough,
or a cached block that, when it was chosen, was tracked, not allocated, had
`event_count` 0 and no event in the queue, and has a size of at least the
requested size; that block is marked allocated afterwards. -/
theorem available_invariant (ops : List Op) (cuda : Cuda) (size : Nat) :
    (∀ x, x ∈ (run ops HostAllocator.empty).available ↔
      ∃ block, (run ops HostAllocator.empty).blocks x.ptr = some block ∧
        block.toBlockSize = x ∧ block.allocated = false ∧ block.event_count = 0) ∧
    (malloc cuda (run ops HostAllocator.empty) size).1 ≠ .assertion_failed ∧
    (malloc cuda (run ops HostAllocator.empty) size).1 ≠ .out_of_range ∧
    (∀ p, (malloc cuda (run ops HostAllocator.empty) size).2.1 = some p →
      (∃ block, (processEvents cuda (run ops HostAllocator.empty)).2.blocks p = some block ∧
        block.allocated = false ∧ block.event_count = 0 ∧ size ≤ block.size ∧
        (∀ e ∈ (processEvents cuda (run ops HostAllocator.empty)).2.cuda_events, e.2 ≠ p) ∧
        (malloc cuda (run ops HostAllocator.empty) size).2.2.blocks p
          = some { block with allocated := true }) ∨
      (lower_bound (processEvents cuda (run ops HostAllocator.empty)).2.available ⟨size, 0⟩
          = none ∧
        cuda.cudaHostAlloc size = (.cudaSuccess, p))) := by
  have h := run_inv ops HostAllocator.empty inv_empty
  obtain ⟨_, ⟨err, herr⟩, h3⟩ := malloc_inv cuda (run ops HostAllocator.empty) size h
  refine ⟨h.avail, ?_, ?_, h3⟩
  · rw [herr]
    intro hc
    cases hc
  · rw [herr]
    intro hc
    cases hc

end THC
